import Mathlib

/-!
# Resource-constrained scheduling of a logic network

A shallow embedding of the scheduling engine of the repository
(`Node.h`, `Graph.h`, `Graph.cpp`, `Scheduler.cpp`, `ILPScheduler.cpp`) and theorems about it.

Conventions of the embedding:

* a `Node*` is a `NodePtr`, the identity of one heap object; `Graph.deref` gives the object behind
  a pointer and `Graph.addr` the machine address at which it is stored (the order of
  `std::set<Node*>`);
* a `std::map` that is only looked up is a function, one that is iterated is a list in key order;
* C++ `int` is `Int`;
* `std::sort` is a parameter `sortFn` of which only the guarantee of the C++ standard is assumed
  (`StdSort`);
* loops that need not terminate take a `fuel : Nat` and return `none` when it runs out;
* a file is the list of its lines, a `std::string` a `String`, and the dereference of a pointer
  that `nodes` does not hold is `none`;
* a `double` is the fraction it stands for, and the sum of two of them is rounded as IEEE 754
  binary64 arithmetic rounds it (to nearest, ties to even).
-/

namespace RCS

/-! ## Node.h, Graph.h -/

/-- A `Node*`. -/
abbrev NodePtr := Nat

/-- The class `Node`. -/
structure Node where
  name : String
  type : String
  id : Int
  inputs : List NodePtr
  outputs : List NodePtr
deriving Inhabited

/-- The class `Graph`, together with the heap its nodes live in: `nodes` is the
`std::map<std::string, Node*>` in key order, `deref p` the object `*p` and `addr p` the address
of that object. -/
structure Graph where
  nodes : List (String × NodePtr)
  inputs : List NodePtr
  outputs : List NodePtr
  deref : NodePtr → Node
  addr : NodePtr → Nat

/-! ## Scheduler.cpp -/

/-- The class `Scheduler`. `nodeTime` and `nodePriority` are `std::map<Node*, int>`. -/
structure Scheduler where
  graph : Graph
  andLimit : Int
  orLimit : Int
  notLimit : Int
  latency : Int
  nodeTime : NodePtr → Option Int
  schedule : List (List NodePtr)
  nodePriority : NodePtr → Option Int

/-- The constructor `Scheduler::Scheduler`. -/
def Scheduler.new (graph : Graph) (andLimit orLimit notLimit : Int) : Scheduler :=
  { graph := graph, andLimit := andLimit, orLimit := orLimit, notLimit := notLimit,
    latency := 0, nodeTime := fun _ => none, schedule := [], nodePriority := fun _ => none }

/-- The method `Scheduler::getOperationType` (the same body as
`ILPScheduler::getOperationType`). -/
def getOperationType (node : Node) : Int :=
  if node.type = "AND" then 0
  else if node.type = "OR" then 1
  else if node.type = "NOT" then 2
  else -1

/-- Assignment `m[k] = v` on a map keyed by pointers. -/
def mapSet {β : Type} (m : NodePtr → Option β) (k : NodePtr) (v : β) : NodePtr → Option β :=
  fun q => if q = k then some v else m q

/-- The locals `visited` (an absent key reads `false`) and the member `nodePriority` during
`computeNodePriorities`. -/
structure PrioState where
  visited : NodePtr → Bool
  nodePriority : NodePtr → Option Int

/-- The `for (Node* succ : node->outputs)` loop of the lambda `dfs`, lines 25-28; `visit` is the
recursive call. -/
def dfsSuccs (visit : NodePtr → PrioState → Option (Int × PrioState)) :
    List NodePtr → Int → PrioState → Option (Int × PrioState)
  | [], maxLevel, st => some (maxLevel, st)
  | succ :: rest, maxLevel, st =>
    match visit succ st with
    | none => none
    | some (level, st1) => dfsSuccs visit rest (if level > maxLevel then level else maxLevel) st1

/-- The lambda `dfs` of `computeNodePriorities`, lines 21-31, with `fuel` bounding the recursion
depth. Reading `nodePriority[node]` of an absent key inserts and returns `0`. -/
def dfs (graph : Graph) : Nat → NodePtr → PrioState → Option (Int × PrioState)
  | 0, _, _ => none
  | fuel + 1, node, st =>
    if st.visited node then
      some ((st.nodePriority node).getD 0,
        { st with nodePriority := mapSet st.nodePriority node ((st.nodePriority node).getD 0) })
    else
      match dfsSuccs (dfs graph fuel) (graph.deref node).outputs 0
          { st with visited := fun q => if q = node then true else st.visited q } with
      | none => none
      | some (maxLevel, st1) =>
        some (maxLevel + 1, { st1 with nodePriority := mapSet st1.nodePriority node (maxLevel + 1) })

/-- The first loop of `computeNodePriorities`, lines 33-39: endpoints get priority 1. -/
def markEndpoints (graph : Graph) (st : PrioState) : PrioState :=
  graph.nodes.foldl (fun s pair =>
    if (graph.deref pair.2).outputs.isEmpty then
      { visited := fun q => if q = pair.2 then true else s.visited q,
        nodePriority := mapSet s.nodePriority pair.2 1 }
    else s) st

/-- The second loop of `computeNodePriorities`, lines 41-46. -/
def visitAll (graph : Graph) (fuel : Nat) : List (String × NodePtr) → PrioState → Option PrioState
  | [], st => some st
  | pair :: rest, st =>
    if st.visited pair.2 then visitAll graph fuel rest st
    else
      match dfs graph fuel pair.2 st with
      | none => none
      | some (_, st1) => visitAll graph fuel rest st1

/-- The method `Scheduler::computeNodePriorities`. -/
def Scheduler.computeNodePriorities (self : Scheduler) (fuel : Nat) : Option Scheduler :=
  match visitAll self.graph fuel self.graph.nodes
      (markEndpoints self.graph { visited := fun _ => false, nodePriority := self.nodePriority }) with
  | none => none
  | some st => some { self with nodePriority := st.nodePriority }

/-- The insertion `std::set<Node*>::insert`: the set is the list of its elements in ascending
address order. -/
def setInsert (addr : NodePtr → Nat) (x : NodePtr) (s : List NodePtr) : List NodePtr :=
  if x ∈ s then s else s.orderedInsert (fun a b => addr a ≤ addr b) x

/-- The loop of lines 54-60 over the entries `l` of `graph->nodes`, started from the set `s`. -/
def insertOperations (graph : Graph) (l : List (String × NodePtr)) (s : List NodePtr) :
    List NodePtr :=
  l.foldl (fun s pair =>
    if getOperationType (graph.deref pair.2) = -1 then s else setInsert graph.addr pair.2 s) s

/-- The set `unscheduledNodes` after lines 54-60: the operation nodes of the graph. -/
def initialUnscheduled (graph : Graph) : List NodePtr :=
  insertOperations graph graph.nodes []

/-- The statement `readyNodes[key].push_back(v)` on a `std::map<std::string, std::vector<Node*>>`
kept in key order. -/
def mapPushBack : List (String × List NodePtr) → String → NodePtr → List (String × List NodePtr)
  | [], key, v => [(key, [v])]
  | (k, vs) :: rest, key, v =>
    if key = k then (k, vs ++ [v]) :: rest
    else if key < k then (key, [v]) :: (k, vs) :: rest
    else (k, vs) :: mapPushBack rest key v

/-- The readiness test of lines 69-75: no predecessor is in the unscheduled set. -/
def isReady (graph : Graph) (unscheduledNodes : List NodePtr) (node : NodePtr) : Bool :=
  (graph.deref node).inputs.all (fun pred => !(decide (pred ∈ unscheduledNodes)))

/-- The body of the loop of lines 67-80 for one unscheduled node. -/
def pushReady (graph : Graph) (unscheduledNodes : List NodePtr)
    (readyNodes : List (String × List NodePtr)) (node : NodePtr) : List (String × List NodePtr) :=
  if isReady graph unscheduledNodes node then
    mapPushBack readyNodes (graph.deref node).type node
  else readyNodes

/-- The loop of lines 67-80, which fills the map `readyNodes`. -/
def collectReady (graph : Graph) (unscheduledNodes : List NodePtr) : List (String × List NodePtr) :=
  unscheduledNodes.foldl (pushReady graph unscheduledNodes) []

/-- What the loop over `readyNodes` (lines 92-116) reads and writes. -/
structure StepState where
  nodeTime : NodePtr → Option Int
  scheduledThisTime : List NodePtr
  resourceUsage : String → Int
  unscheduledNodes : List NodePtr

/-- The comparator of line 97-99: higher priority first. -/
def higherPriority (nodePriority : NodePtr → Option Int) (a b : NodePtr) : Bool :=
  decide ((nodePriority a).getD 0 > (nodePriority b).getD 0)

/-- The limit of a resource type, lines 101-104. -/
def resourceLimit (self : Scheduler) (opType : String) : Int :=
  if opType = "AND" then self.andLimit
  else if opType = "OR" then self.orLimit
  else if opType = "NOT" then self.notLimit
  else 0

/-- The loop of lines 109-115 over `nodes[0 .. scheduleCount)`. -/
def scheduleNodes (currentTime : Int) (opType : String) (st : StepState)
    (nodes : List NodePtr) : StepState :=
  nodes.foldl (fun s node =>
    { nodeTime := mapSet s.nodeTime node currentTime,
      scheduledThisTime := s.scheduledThisTime ++ [node],
      resourceUsage := fun k => if k = opType then s.resourceUsage k + 1 else s.resourceUsage k,
      unscheduledNodes := s.unscheduledNodes.erase node }) st

/-- The nodes of one resource type that are scheduled in a step (lines 96-107): the first
`scheduleCount` of the sorted ready nodes, given the usage counter of the type. -/
def chosenNodes (sortFn : (NodePtr → NodePtr → Bool) → List NodePtr → List NodePtr)
    (self : Scheduler) (usage : Int) (resourcePair : String × List NodePtr) : List NodePtr :=
  let nodes := sortFn (higherPriority self.nodePriority) resourcePair.2
  let availableResource := resourceLimit self resourcePair.1 - usage
  let scheduleCount := min (nodes.length : Int) availableResource
  nodes.take scheduleCount.toNat

/-- The body of the loop over `readyNodes`, lines 93-115, for one resource type. -/
def scheduleResource (sortFn : (NodePtr → NodePtr → Bool) → List NodePtr → List NodePtr)
    (self : Scheduler) (currentTime : Int) (st : StepState)
    (resourcePair : String × List NodePtr) : StepState :=
  scheduleNodes currentTime resourcePair.1 st
    (chosenNodes sortFn self (st.resourceUsage resourcePair.1) resourcePair)

/-- The state of the `while` loop of `heuristicSchedule`. -/
structure LoopState where
  unscheduledNodes : List NodePtr
  currentTime : Int
  nodeTime : NodePtr → Option Int
  schedule : List (List NodePtr)

/-- The state of one time step after the loop over `readyNodes`, lines 64-116. -/
def stepResult (sortFn : (NodePtr → NodePtr → Bool) → List NodePtr → List NodePtr)
    (self : Scheduler) (st : LoopState) : StepState :=
  (collectReady self.graph st.unscheduledNodes).foldl
    (scheduleResource sortFn self st.currentTime)
    { nodeTime := st.nodeTime, scheduledThisTime := [], resourceUsage := fun _ => 0,
      unscheduledNodes := st.unscheduledNodes }

/-- One iteration of the `while` loop, lines 64-120. -/
def whileBody (sortFn : (NodePtr → NodePtr → Bool) → List NodePtr → List NodePtr)
    (self : Scheduler) (st : LoopState) : LoopState :=
  let r := stepResult sortFn self st
  { unscheduledNodes := r.unscheduledNodes, currentTime := st.currentTime + 1,
    nodeTime := r.nodeTime, schedule := st.schedule ++ [r.scheduledThisTime] }

/-- The `while (!unscheduledNodes.empty())` loop, lines 63-121. -/
def heuristicLoop (sortFn : (NodePtr → NodePtr → Bool) → List NodePtr → List NodePtr)
    (self : Scheduler) : Nat → LoopState → Option LoopState
  | 0, st => if st.unscheduledNodes.isEmpty then some st else none
  | fuel + 1, st =>
    if st.unscheduledNodes.isEmpty then some st
    else heuristicLoop sortFn self fuel (whileBody sortFn self st)

/-- The state of the `while` loop after at most `k` iterations. -/
def loopAfter (sortFn : (NodePtr → NodePtr → Bool) → List NodePtr → List NodePtr)
    (self : Scheduler) (st : LoopState) : Nat → LoopState
  | 0 => st
  | k + 1 =>
    if (loopAfter sortFn self st k).unscheduledNodes.isEmpty then loopAfter sortFn self st k
    else whileBody sortFn self (loopAfter sortFn self st k)

/-- The state in which the `while` loop is entered (lines 54-62). -/
def Scheduler.loopStart (self : Scheduler) : LoopState :=
  { unscheduledNodes := initialUnscheduled self.graph, currentTime := 1,
    nodeTime := self.nodeTime, schedule := self.schedule }

/-- The method `Scheduler::heuristicSchedule`. -/
def Scheduler.heuristicSchedule (sortFn : (NodePtr → NodePtr → Bool) → List NodePtr → List NodePtr)
    (self : Scheduler) (fuel : Nat) : Option Scheduler :=
  match self.computeNodePriorities fuel with
  | none => none
  | some self1 =>
    match heuristicLoop sortFn self1 fuel self1.loopStart with
    | none => none
    | some st =>
      some { self1 with latency := st.currentTime - 1, nodeTime := st.nodeTime,
                        schedule := st.schedule }

/-- The method `Scheduler::getNodeTime`. -/
def Scheduler.getNodeTime (self : Scheduler) (node : NodePtr) : Int :=
  match self.nodeTime node with
  | some t => t
  | none => -1

/-- The guarantee of `std::sort` for the comparator of line 97: the result is a rearrangement of
the input in which no element has a lower priority than a later one. Nothing is promised about
the order of elements of equal priority. -/
def StdSort (sortFn : (NodePtr → NodePtr → Bool) → List NodePtr → List NodePtr) : Prop :=
  ∀ (nodePriority : NodePtr → Option Int) (l : List NodePtr),
    (sortFn (higherPriority nodePriority) l).Perm l ∧
    (sortFn (higherPriority nodePriority) l).Pairwise
      (fun a b => (nodePriority a).getD 0 ≥ (nodePriority b).getD 0)

/-- One conforming `std::sort`: insertion sort, which keeps equal elements in input order. -/
def insertionSortFn (comp : NodePtr → NodePtr → Bool) (l : List NodePtr) : List NodePtr :=
  l.insertionSort (fun a b => comp b a = false)

/-! ## ILPScheduler.cpp

The Gurobi model that `ILPScheduler::exactSchedule` builds is data: variables with bounds and
linear constraints. The solver itself is not part of the repository and is a parameter. -/

/-- A `GRBVar` of the model: `x node t` is `x[node][t - 1]` (line 59) and `latencyVar` the
variable of line 65. -/
inductive GRBVar where
  | x (node : NodePtr) (t : Nat)
  | latencyVar
deriving DecidableEq

/-- A `GRBLinExpr`: a constant plus terms `coefficient * variable`. -/
structure GRBLinExpr where
  const : Int
  terms : List (Int × GRBVar)

/-- The comparison of a constraint: `<=`, `==` or `>=`. -/
inductive Sense where
  | le
  | eq
  | ge
deriving DecidableEq

/-- A constraint handed to `model.addConstr` (its name is left out). -/
structure GRBConstr where
  lhs : GRBLinExpr
  sense : Sense
  rhs : GRBLinExpr

/-- A call `model.addVar(lb, ub, 0, type, name)`; both types used, `GRB_BINARY` and
`GRB_INTEGER`, are integral. -/
structure VarDecl where
  var : GRBVar
  lb : Int
  ub : Int

/-- The `GRBModel` after line 145; the objective is to minimise `latencyVar`. -/
structure GRBModel where
  vars : List VarDecl
  constrs : List GRBConstr

/-- The value of a linear expression under an integral assignment of the variables. -/
def GRBLinExpr.eval (a : GRBVar → Int) (e : GRBLinExpr) : Int :=
  e.const + (e.terms.map (fun ct => ct.1 * a ct.2)).sum

/-- A constraint is satisfied by an assignment. -/
def GRBConstr.holds (a : GRBVar → Int) (c : GRBConstr) : Prop :=
  match c.sense with
  | Sense.le => c.lhs.eval a ≤ c.rhs.eval a
  | Sense.eq => c.lhs.eval a = c.rhs.eval a
  | Sense.ge => c.lhs.eval a ≥ c.rhs.eval a

/-- An integral assignment is a feasible point of the model: every declared variable is within
its bounds and every constraint holds. -/
def GRBModel.Feasible (m : GRBModel) (a : GRBVar → Int) : Prop :=
  (∀ d ∈ m.vars, d.lb ≤ a d.var ∧ a d.var ≤ d.ub) ∧ ∀ c ∈ m.constrs, c.holds a

/-- The class `ILPScheduler`. -/
structure ILPScheduler where
  graph : Graph
  andLimit : Int
  orLimit : Int
  notLimit : Int
  latency : Int
  nodeTime : NodePtr → Option Int
  schedule : List (List NodePtr)

/-- The constructor `ILPScheduler::ILPScheduler`. -/
def ILPScheduler.new (graph : Graph) (andLimit orLimit notLimit : Int) : ILPScheduler :=
  { graph := graph, andLimit := andLimit, orLimit := orLimit, notLimit := notLimit,
    latency := 0, nodeTime := fun _ => none, schedule := [] }

/-- The vector `operationNodes` of lines 43-50. -/
def operationNodes (graph : Graph) : List NodePtr :=
  (graph.nodes.filter (fun pair => decide (getOperationType (graph.deref pair.2) ≠ -1))).map
    Prod.snd

/-- The values of `t` in `for (int t = 1; t <= maxLatency; ++t)`. -/
def timeSlots (maxLatency : Int) : List Nat :=
  List.range' 1 maxLatency.toNat

/-- The expression `sum_t coeff(t) * x[node][t - 1]` accumulated over the time slots. -/
def slotSum (coeff : Nat → Int) (node : NodePtr) (slots : List Nat) : GRBLinExpr :=
  { const := 0, terms := slots.map (fun t => (coeff t, GRBVar.x node t)) }

/-- A constant expression. -/
def constExpr (c : Int) : GRBLinExpr :=
  { const := c, terms := [] }

/-- The expression of a single variable. -/
def varExpr (v : GRBVar) : GRBLinExpr :=
  { const := 0, terms := [(1, v)] }

/-- Lines 55-65: the binary variables `x[node][t - 1]` and the integer variable `latencyVar`
with bounds `[1, maxLatency]`. -/
def modelVars (ops : List NodePtr) (maxLatency : Int) : List VarDecl :=
  ops.flatMap (fun node => (timeSlots maxLatency).map (fun t =>
      ({ var := GRBVar.x node t, lb := 0, ub := 1 } : VarDecl))) ++
    [{ var := GRBVar.latencyVar, lb := 1, ub := maxLatency }]

/-- Lines 69-76: each operation is scheduled exactly once. -/
def schedOnceConstrs (ops : List NodePtr) (maxLatency : Int) : List GRBConstr :=
  ops.map (fun node =>
    { lhs := slotSum (fun _ => 1) node (timeSlots maxLatency), sense := Sense.eq,
      rhs := constExpr 1 })

/-- Lines 78-98: dependency constraints; a predecessor that is not an operation adds none. -/
def depConstrs (graph : Graph) (ops : List NodePtr) (maxLatency : Int) : List GRBConstr :=
  ops.flatMap (fun node => (graph.deref node).inputs.flatMap (fun pred =>
    if getOperationType (graph.deref pred) = -1 then []
    else (timeSlots maxLatency).map (fun t =>
      { lhs := varExpr (GRBVar.x node t), sense := Sense.le,
        rhs := slotSum (fun _ => 1) pred (List.range' 1 (t - 1)) })))

/-- The expression `andExpr`, `orExpr` or `notExpr` of lines 102-112 for the operation type
`opType` at time `t`. -/
def resourceExpr (graph : Graph) (ops : List NodePtr) (opType : Int) (t : Nat) : GRBLinExpr :=
  { const := 0,
    terms := (ops.filter (fun node => decide (getOperationType (graph.deref node) = opType))).map
      (fun node => (1, GRBVar.x node t)) }

/-- Lines 100-116: resource constraints. -/
def resourceConstrs (self : ILPScheduler) (ops : List NodePtr) (maxLatency : Int) :
    List GRBConstr :=
  (timeSlots maxLatency).flatMap (fun t =>
    [{ lhs := resourceExpr self.graph ops 0 t, sense := Sense.le, rhs := constExpr self.andLimit },
     { lhs := resourceExpr self.graph ops 1 t, sense := Sense.le, rhs := constExpr self.orLimit },
     { lhs := resourceExpr self.graph ops 2 t, sense := Sense.le,
       rhs := constExpr self.notLimit }])

/-- Lines 118-125: latency constraints. -/
def latencyConstrs (ops : List NodePtr) (maxLatency : Int) : List GRBConstr :=
  ops.map (fun node =>
    { lhs := varExpr GRBVar.latencyVar, sense := Sense.ge,
      rhs := slotSum (fun t => (t : Int)) node (timeSlots maxLatency) })

/-- Lines 127-142: constraints for the predecessors of the designated output nodes. -/
def outputConstrs (graph : Graph) (maxLatency : Int) : List GRBConstr :=
  graph.outputs.flatMap (fun node => (graph.deref node).inputs.map (fun pred =>
    if getOperationType (graph.deref pred) = -1 then
      { lhs := varExpr GRBVar.latencyVar, sense := Sense.ge, rhs := constExpr 1 }
    else
      { lhs := varExpr GRBVar.latencyVar, sense := Sense.ge,
        rhs := slotSum (fun t => (t : Int)) pred (timeSlots maxLatency) }))

/-- The model built by `exactSchedule`, lines 42-145, for a heuristic latency `maxLatency`. -/
def ILPScheduler.buildModel (self : ILPScheduler) (maxLatency : Int) : GRBModel :=
  { vars := modelVars (operationNodes self.graph) maxLatency,
    constrs :=
      schedOnceConstrs (operationNodes self.graph) maxLatency ++
      depConstrs self.graph (operationNodes self.graph) maxLatency ++
      resourceConstrs self (operationNodes self.graph) maxLatency ++
      latencyConstrs (operationNodes self.graph) maxLatency ++
      outputConstrs self.graph maxLatency }

/-- Lines 147-154: the start values set from the heuristic schedule. An operation whose
`getNodeTime` is `-1` gets none. -/
def warmStart (heuristicScheduler : Scheduler) (ops : List NodePtr) : List (GRBVar × Int) :=
  ops.flatMap (fun node =>
    if heuristicScheduler.getNodeTime node ≠ -1 then
      [(GRBVar.x node (heuristicScheduler.getNodeTime node).toNat, 1)]
    else []) ++
  [(GRBVar.latencyVar, heuristicScheduler.latency)]

/-- A `double` reported by the solver, as the fraction `num / den` (`den > 0`). -/
structure DoubleVal where
  num : Int
  den : Nat

/-- The test `v > 0.5`. -/
def DoubleVal.gtHalf (v : DoubleVal) : Bool :=
  decide (2 * v.num > (v.den : Int))

/-- The number of binary digits of `n` (`fuel` bounds the recursion, `fuel = n` is enough). -/
def bitLength : Nat → Nat → Nat
  | 0, _ => 0
  | fuel + 1, n => if n = 0 then 0 else bitLength fuel (n / 2) + 1

/-- The exponent of the leading binary digit of the fraction `n / d`, `⌊log2 (n / d)⌋`, for
positive `n` and `d`. -/
def floorLog2 (n d : Nat) : Int :=
  if d * 2 ^ ((bitLength n n : Int) - (bitLength d d : Int)).toNat
      ≤ n * 2 ^ ((bitLength d d : Int) - (bitLength n n : Int)).toNat then
    (bitLength n n : Int) - (bitLength d d : Int)
  else (bitLength n n : Int) - (bitLength d d : Int) - 1

/-- The integer nearest to `n / d`, the even one of two that are equally near. -/
def roundHalfEven (n d : Nat) : Nat :=
  if 2 * (n % d) < d then n / d
  else if d < 2 * (n % d) then n / d + 1
  else if (n / d) % 2 = 0 then n / d
  else n / d + 1

/-- The `double` nearest to the positive fraction `n / d` (IEEE 754 binary64, round to nearest,
ties to even): 53 significant binary digits, least exponent `-1074`. The largest exponent is
left out: a value beyond the largest finite `double` has no conversion to `int` that C++
defines. -/
def roundDouble (n d : Nat) : DoubleVal :=
  { num := ((roundHalfEven (n * 2 ^ (-(max (floorLog2 n d - 52) (-1074))).toNat)
        (d * 2 ^ (max (floorLog2 n d - 52) (-1074)).toNat) *
      2 ^ (max (floorLog2 n d - 52) (-1074)).toNat : Nat) : Int),
    den := 2 ^ (-(max (floorLog2 n d - 52) (-1074))).toNat }

/-- The sum `v + 0.5` as the machine computes it: the exact sum, rounded to a `double`. -/
def DoubleVal.addHalf (v : DoubleVal) : DoubleVal :=
  if 2 * v.num + (v.den : Int) = 0 then { num := 0, den := 1 }
  else if 0 < 2 * v.num + (v.den : Int) then
    roundDouble (2 * v.num + (v.den : Int)).toNat (2 * v.den)
  else
    { num := -(roundDouble (-(2 * v.num + (v.den : Int))).toNat (2 * v.den)).num,
      den := (roundDouble (-(2 * v.num + (v.den : Int))).toNat (2 * v.den)).den }

/-- The conversion `static_cast<int>(v + 0.5)`: the sum is a `double`, the cast truncates
towards zero. -/
def DoubleVal.roundToInt (v : DoubleVal) : Int :=
  Int.tdiv v.addHalf.num v.addHalf.den

/-- The status code `GRB_INFEASIBLE`. -/
def GRB_INFEASIBLE : Int := 3

/-- What `model.optimize()` leaves: the status, and the values `GRB_DoubleAttr_X` when a
solution is available (`none` when reading them throws). -/
structure SolveResult where
  status : Int
  solution : Option (GRBVar → DoubleVal)

/-- The call `schedule.resize(latency)` of line 168. -/
def resizeSchedule (schedule : List (List NodePtr)) (latency : Int) : List (List NodePtr) :=
  schedule.take latency.toNat ++ List.replicate (latency.toNat - schedule.length) []

/-- Lines 169-177: the schedule read off the solution, one operation after the other. -/
def extractSchedule (X : GRBVar → DoubleVal) (latency : Int) :
    List NodePtr → (NodePtr → Option Int) × List (List NodePtr) →
      (NodePtr → Option Int) × List (List NodePtr)
  | [], acc => acc
  | node :: rest, acc =>
    match (timeSlots latency).find? (fun t => (X (GRBVar.x node t)).gtHalf) with
    | some t =>
      extractSchedule X latency rest
        (mapSet acc.1 node (t : Int), acc.2.modify (fun step => step ++ [node]) (t - 1))
    | none => extractSchedule X latency rest acc

/-- The method `ILPScheduler::exactSchedule`. The parameter `solver` stands for Gurobi: given
the model and the start values it returns `none` when a `GRBException` is thrown (caught at lines 179-184)
and the outcome of `model.optimize()` otherwise. -/
def ILPScheduler.exactSchedule
    (sortFn : (NodePtr → NodePtr → Bool) → List NodePtr → List NodePtr)
    (solver : GRBModel → List (GRBVar × Int) → Option SolveResult)
    (self : ILPScheduler) (fuel : Nat) : Option ILPScheduler :=
  match (Scheduler.new self.graph self.andLimit self.orLimit self.notLimit).heuristicSchedule
      sortFn fuel with
  | none => none
  | some heuristicScheduler =>
    let maxLatency := heuristicScheduler.latency
    match solver (self.buildModel maxLatency)
        (warmStart heuristicScheduler (operationNodes self.graph)) with
    | none => some self
    | some result =>
      if result.status = GRB_INFEASIBLE then some self
      else
        match result.solution with
        | none => some self
        | some X =>
          let latency := (X GRBVar.latencyVar).roundToInt
          let r := extractSchedule X latency (operationNodes self.graph)
            (self.nodeTime, resizeSchedule self.schedule latency)
          some { self with latency := latency, nodeTime := r.1, schedule := r.2 }

/-! ## Example graphs -/

/-- The chain `i -> a (AND) -> b (OR) -> c (NOT) -> o`. -/
def chainGraph : Graph :=
  { nodes := [("a", 1), ("b", 2), ("c", 3), ("i", 0), ("o", 4)],
    inputs := [0], outputs := [4],
    deref := fun p => match p with
      | 0 => ⟨"i", "INPUT", 0, [], [1]⟩
      | 1 => ⟨"a", "AND", 2, [0], [2]⟩
      | 2 => ⟨"b", "OR", 3, [1], [3]⟩
      | 3 => ⟨"c", "NOT", 4, [2], [4]⟩
      | 4 => ⟨"o", "OUTPUT", 1, [3], []⟩
      | _ => default,
    addr := fun p => p }

/-! ## Invariants, specifications and example values used by the theorems -/

/-- The nodes scheduled in one time step, by resource type in the order of the map
`readyNodes`. -/
def stepChosen (sortFn : (NodePtr → NodePtr → Bool) → List NodePtr → List NodePtr)
    (self : Scheduler) (unscheduledNodes : List NodePtr) : List NodePtr :=
  ((collectReady self.graph unscheduledNodes).map (chosenNodes sortFn self 0)).flatten

/-- The invariant of the loop of lines 67-80 once the nodes `done` have been visited: the keys
of `readyNodes` are in ascending order and each entry holds, in visiting order, the ready nodes
of its type. -/
structure ReadyInv (graph : Graph) (unscheduledNodes : List NodePtr)
    (readyNodes : List (String × List NodePtr)) (done : List NodePtr) : Prop where
  sorted : (readyNodes.map Prod.fst).Pairwise (· < ·)
  entry : ∀ k l, (k, l) ∈ readyNodes →
    l = done.filter (fun n => isReady graph unscheduledNodes n && decide ((graph.deref n).type = k))
      ∧ l ≠ []
  key : ∀ n ∈ done, isReady graph unscheduledNodes n = true →
    (graph.deref n).type ∈ readyNodes.map Prod.fst

/-- The invariant of the `while` loop of `heuristicSchedule`. -/
structure LoopInv (sched : Scheduler) (st : LoopState) : Prop where
  time : st.currentTime = (st.schedule.length : Int) + 1
  nodupU : st.unscheduledNodes.Nodup
  nodupStep : ∀ step ∈ st.schedule, step.Nodup
  cover : ∀ x, x ∈ initialUnscheduled sched.graph ↔
    (x ∈ st.unscheduledNodes ∨ ∃ step ∈ st.schedule, x ∈ step)
  disj : ∀ x ∈ st.unscheduledNodes, ∀ step ∈ st.schedule, x ∉ step
  none : ∀ x ∈ st.unscheduledNodes, st.nodeTime x = none
  nodeTime : ∀ (i : Nat) (step : List NodePtr), st.schedule[i]? = some step →
    ∀ x ∈ step, st.nodeTime x = some ((i : Int) + 1)
  prec : ∀ (i : Nat) (step : List NodePtr), st.schedule[i]? = some step →
    ∀ x ∈ step, ∀ p ∈ (sched.graph.deref x).inputs, p ∈ initialUnscheduled sched.graph →
      ∃ (j : Nat) (stepj : List NodePtr), j < i ∧ st.schedule[j]? = some stepj ∧ p ∈ stepj
  res : ∀ step ∈ st.schedule, ∀ K : String,
    ((List.countP (fun x => decide ((sched.graph.deref x).type = K)) step : Nat) : Int) ≤
      max 0 (resourceLimit sched K)

/-- The result of the heuristic on `chainGraph` with one unit of each type. -/
def chainResult : Scheduler :=
  ((Scheduler.new chainGraph 1 1 1).heuristicSchedule insertionSortFn 10).getD
    (Scheduler.new chainGraph 1 1 1)

/-- The nodes of the graph that `computeNodePriorities` has not visited yet. -/
def unvisited (graph : Graph) (st : PrioState) : Finset NodePtr :=
  (graph.nodes.map Prod.snd).toFinset.filter (fun p => st.visited p = false)

/-- The successors of every node of the graph are nodes of the graph. -/
def Graph.SuccessorsClosed (graph : Graph) : Prop :=
  ∀ pair ∈ graph.nodes, ∀ q ∈ (graph.deref pair.2).outputs, q ∈ graph.nodes.map Prod.snd

/-- No node is its own transitive predecessor along the `inputs` edges. -/
def Graph.Acyclic (graph : Graph) : Prop :=
  ∀ x, ¬ Relation.TransGen (fun p n => p ∈ (graph.deref n).inputs) x x

/-- The meaning of the model of `exactSchedule` for an integral assignment `v`, constraint
family by constraint family. -/
structure FeasiblePoint (g : Graph) (andLimit orLimit notLimit maxLatency : Int)
    (v : GRBVar → Int) : Prop where
  binary : ∀ node ∈ operationNodes g, ∀ t ∈ timeSlots maxLatency,
    0 ≤ v (GRBVar.x node t) ∧ v (GRBVar.x node t) ≤ 1
  latencyBounds : 1 ≤ v GRBVar.latencyVar ∧ v GRBVar.latencyVar ≤ maxLatency
  once : ∀ node ∈ operationNodes g,
    ((timeSlots maxLatency).map (fun t => v (GRBVar.x node t))).sum = 1
  dep : ∀ node ∈ operationNodes g, ∀ pred ∈ (g.deref node).inputs,
    getOperationType (g.deref pred) ≠ -1 → ∀ t ∈ timeSlots maxLatency,
      v (GRBVar.x node t) ≤ ((List.range' 1 (t - 1)).map (fun tp => v (GRBVar.x pred tp))).sum
  resource : ∀ t ∈ timeSlots maxLatency,
    (((operationNodes g).filter (fun node => decide (getOperationType (g.deref node) = 0))).map
        (fun node => v (GRBVar.x node t))).sum ≤ andLimit ∧
    (((operationNodes g).filter (fun node => decide (getOperationType (g.deref node) = 1))).map
        (fun node => v (GRBVar.x node t))).sum ≤ orLimit ∧
    (((operationNodes g).filter (fun node => decide (getOperationType (g.deref node) = 2))).map
        (fun node => v (GRBVar.x node t))).sum ≤ notLimit
  latency : ∀ node ∈ operationNodes g,
    ((timeSlots maxLatency).map (fun (t : Nat) => (t : Int) * v (GRBVar.x node t))).sum
      ≤ v GRBVar.latencyVar
  output : ∀ node ∈ g.outputs, ∀ pred ∈ (g.deref node).inputs,
    getOperationType (g.deref pred) ≠ -1 →
      ((timeSlots maxLatency).map (fun (t : Nat) => (t : Int) * v (GRBVar.x pred t))).sum
        ≤ v GRBVar.latencyVar

/-- Whether a constraint holds can be computed. -/
instance GRBConstr.decidableHolds (a : GRBVar → Int) (c : GRBConstr) : Decidable (c.holds a) := by
  unfold GRBConstr.holds
  cases c.sense <;> exact inferInstance

/-- The assignment that encodes the schedule a (AND) at 1, b (OR) at 2, c (NOT) at 3 of
`chainGraph`, with latency 3. -/
def chainAssignment : GRBVar → Int
  | GRBVar.x 1 1 => 1
  | GRBVar.x 2 2 => 1
  | GRBVar.x 3 3 => 1
  | GRBVar.x _ _ => 0
  | GRBVar.latencyVar => 3

/-- The assignment that encodes a schedule: `x[n,t] = 1` exactly when `n` is an operation node
of the graph and `t` is its time, and `latencyVar = L`. With the times and the latency of the
heuristic this is the start point set at lines 147-154. -/
def encodeSchedule (g : Graph) (time : NodePtr → Int) (L : Int) : GRBVar → Int
  | GRBVar.x node t => if node ∈ operationNodes g ∧ (t : Int) = time node then 1 else 0
  | GRBVar.latencyVar => L

/-- A graph whose only node is both a designated input and a designated output, as `parseBLIF`
builds it from `.inputs a` and `.outputs a`: it has no operation node. -/
def aliasGraph : Graph :=
  { nodes := [("a", 0)], inputs := [0], outputs := [0],
    deref := fun _ => ⟨"a", "OUTPUT", 0, [], []⟩,
    addr := fun p => p }

/-- The result of the heuristic on `aliasGraph`. -/
def aliasResult : Scheduler :=
  ((Scheduler.new aliasGraph 1 1 1).heuristicSchedule insertionSortFn 2).getD
    (Scheduler.new aliasGraph 1 1 1)

/-- Distinct entries of `graph->nodes` hold distinct nodes, and the predecessors of every node
of the graph are nodes of the graph. -/
def Graph.WellFormed (graph : Graph) : Prop :=
  (graph.nodes.map Prod.snd).Nodup ∧
    ∀ pair ∈ graph.nodes, ∀ p ∈ (graph.deref pair.2).inputs, p ∈ graph.nodes.map Prod.snd

/-- A schedule with no horizon: every operation node of the graph has a time step of at least
1, predecessors come strictly before successors on edges between operation nodes, and no step
holds more nodes of a kind than the limit of the kind. -/
structure ValidSchedule (g : Graph) (andLimit orLimit notLimit : Int)
    (time : NodePtr → Nat) : Prop where
  start : ∀ x ∈ operationNodes g, 1 ≤ time x
  prec : ∀ node ∈ operationNodes g, ∀ pred ∈ operationNodes g,
    pred ∈ (g.deref node).inputs → time pred < time node
  resource : ∀ t : Nat,
    (((operationNodes g).countP (fun x =>
        decide (time x = t) && decide ((g.deref x).type = "AND")) : Nat) : Int) ≤ andLimit ∧
    (((operationNodes g).countP (fun x =>
        decide (time x = t) && decide ((g.deref x).type = "OR")) : Nat) : Int) ≤ orLimit ∧
    (((operationNodes g).countP (fun x =>
        decide (time x = t) && decide ((g.deref x).type = "NOT")) : Nat) : Int) ≤ notLimit

/-- The latency of a schedule: the largest step assigned to an operation node. -/
def scheduleLatency (g : Graph) (time : NodePtr → Nat) : Nat :=
  ((operationNodes g).map time).foldr max 0

/-- The time step an assignment gives to a node: the first slot `t` with `x[n,t] = 1`. -/
def decodeTime (maxLatency : Int) (v : GRBVar → Int) (node : NodePtr) : Nat :=
  ((timeSlots maxLatency).find? (fun t => decide (v (GRBVar.x node t) = 1))).getD 0

/-- The status code `GRB_TIME_LIMIT`. -/
def GRB_TIME_LIMIT : Int := 9

/-- A solver that stops at the time limit with the start point as its incumbent. -/
def startPointSolver (_m : GRBModel) (start : List (GRBVar × Int)) : Option SolveResult :=
  some { status := GRB_TIME_LIMIT,
         solution := some (fun var => { num := (start.lookup var).getD 0, den := 1 }) }

/-- The result of `exactSchedule` on `chainGraph` with `startPointSolver`. -/
def chainExactResult : ILPScheduler :=
  ((ILPScheduler.new chainGraph 1 1 1).exactSchedule insertionSortFn startPointSolver 10).getD
    (ILPScheduler.new chainGraph 1 1 1)

/-- Two AND gates `a` and `b` over the inputs `i` and `j`, both designated outputs, with the
nodes stored at the addresses `addr`. -/
def twoAndGraph (addr : NodePtr → Nat) : Graph :=
  { nodes := [("a", 2), ("b", 3), ("i", 0), ("j", 1)],
    inputs := [0, 1], outputs := [2, 3],
    deref := fun p => match p with
      | 0 => ⟨"i", "INPUT", 0, [], [2, 3]⟩
      | 1 => ⟨"j", "INPUT", 1, [], [2, 3]⟩
      | 2 => ⟨"a", "AND", 2, [0, 1], []⟩
      | 3 => ⟨"b", "AND", 3, [0, 1], []⟩
      | _ => default,
    addr := addr }

/-- The status code `GRB_OPTIMAL`. -/
def GRB_OPTIMAL : Int := 2

/-- The solver `solver` with the status of its outcome replaced by `status`. -/
def withStatus (status : Int) (solver : GRBModel → List (GRBVar × Int) → Option SolveResult)
    (m : GRBModel) (start : List (GRBVar × Int)) : Option SolveResult :=
  (solver m start).map (fun r => { r with status := status })

/-- A `std::sort` that keeps nodes of equal priority in their input order (as insertion sort
does): a guarantee the C++ standard does not give. -/
def StableSort (sortFn : (NodePtr → NodePtr → Bool) → List NodePtr → List NodePtr) : Prop :=
  ∀ (nodePriority : NodePtr → Option Int) (l : List NodePtr) (a b : NodePtr),
    [a, b].Sublist l → (nodePriority a).getD 0 = (nodePriority b).getD 0 →
    [a, b].Sublist (sortFn (higherPriority nodePriority) l)

/-- The graph of the two lines `.names a b` and `.names b a` without cover rows: `a` and `b`
are each other's successor. -/
def cycleGraph : Graph :=
  { nodes := [("a", 0), ("b", 1)], inputs := [], outputs := [],
    deref := fun p => match p with
      | 0 => ⟨"a", "WIRE", 0, [1], [1]⟩
      | 1 => ⟨"b", "WIRE", 1, [0], [0]⟩
      | _ => default,
    addr := fun p => p }

/-! ## Graph.cpp -/

/-- The variables of `Graph::parseBLIF` inside its loop: the members `nodes`, `inputs` and
`outputs` of the graph, the heap of the nodes made so far, and the locals `lastGateName`,
`continuation_line` and `nodeId`. The object made by the `k`-th `new Node` (counted from 0) is
the pointer `k`, which is also the value of `nodeId` handed to its constructor. -/
structure ParseState where
  nodes : List (String × NodePtr)
  inputs : List NodePtr
  outputs : List NodePtr
  heap : NodePtr → Node
  lastGateName : String
  continuation_line : String
  nodeId : Nat

/-- The state at the start of `parseBLIF` on a graph just constructed. -/
def ParseState.init : ParseState :=
  { nodes := [], inputs := [], outputs := [], heap := fun _ => default,
    lastGateName := "", continuation_line := "", nodeId := 0 }

/-- The character test `isspace` of the C locale, by which `iss >> token` splits. -/
def isSpace (c : Char) : Bool :=
  c.toNat == 32 || (9 ≤ c.toNat && c.toNat ≤ 13)

/-- The step `line = line.substr(0, line.find('#'))`, which leaves a line without the
character as it is. -/
def stripComment (line : String) : String :=
  String.mk (line.toList.takeWhile (fun c => c != Char.ofNat 35))

/-- The test `line.find(pre) == 0`. -/
def startsWith (line pre : String) : Bool :=
  pre.toList.isPrefixOf line.toList

/-- The tokens that `iss >> token` reads one after the other; `cur` holds the characters of the
token being read, last one first. -/
def tokensAux : List Char → List Char → List String
  | [], cur => if cur.isEmpty then [] else [String.mk cur.reverse]
  | c :: cs, cur =>
    if isSpace c then
      if cur.isEmpty then tokensAux cs [] else String.mk cur.reverse :: tokensAux cs []
    else tokensAux cs (c :: cur)

/-- All tokens of a line, in order. -/
def tokens (line : String) : List String :=
  tokensAux line.toList []

/-- The order `std::less<std::string>` of the keys of `nodes`: the lexicographic order, written
on the characters, whose order is that of their UTF-8 bytes. -/
def keyLess : List Char → List Char → Bool
  | _, [] => false
  | [], _ :: _ => true
  | a :: as, b :: bs =>
    if a.toNat < b.toNat then true
    else if a.toNat = b.toNat then keyLess as bs
    else false

/-- The assignment `nodes[name] = p` on the `std::map`, kept in key order. -/
def nodesInsert : List (String × NodePtr) → String → NodePtr → List (String × NodePtr)
  | [], name, p => [(name, p)]
  | (k, v) :: rest, name, p =>
    if keyLess name.toList k.toList then (name, p) :: (k, v) :: rest
    else if name = k then (name, p) :: rest
    else (k, v) :: nodesInsert rest name p

/-- An update of the object behind `p`. -/
def heapUpdate (heap : NodePtr → Node) (p : NodePtr) (f : Node → Node) : NodePtr → Node :=
  fun q => if q = p then f (heap p) else heap q

/-- Modelled from the spec: the constructor `Node::Node(name, type, id)`, which `Node.h`
declares and whose definition is not among the sources. A node is made with its name, its kind
and its identity; its sequences of predecessors and successors start empty. -/
def Node.new (name type : String) (id : Int) : Node :=
  { name := name, type := type, id := id, inputs := [], outputs := [] }

/-- The two statements `Node* node = new Node(name, type, nodeId++); nodes[name] = node;`. -/
def newNode (st : ParseState) (name type : String) : ParseState :=
  { st with
    heap := fun q => if q = st.nodeId then Node.new name type (st.nodeId : Int) else st.heap q,
    nodes := nodesInsert st.nodes name st.nodeId,
    nodeId := st.nodeId + 1 }

/-- The body of the loop over the tokens of an `.inputs` line. -/
def inputsToken (st : ParseState) (token : String) : ParseState :=
  if token ≠ ".inputs" then
    match st.nodes.lookup token with
    | none => { newNode st token "INPUT" with inputs := st.inputs ++ [st.nodeId] }
    | some _ => st
  else st

/-- The body of the loop over the tokens of an `.outputs` line. -/
def outputsToken (st : ParseState) (token : String) : ParseState :=
  if token ≠ ".outputs" then
    match st.nodes.lookup token with
    | none => { newNode st token "OUTPUT" with outputs := st.outputs ++ [st.nodeId] }
    | some p =>
      { st with
        heap := heapUpdate st.heap p (fun n => { n with type := "OUTPUT" }),
        outputs := st.outputs ++ [p] }
  else st

/-- The creation `if (nodes.find(name) == nodes.end()) { new Node(name, "", nodeId++) ... }`. -/
def ensureNode (st : ParseState) (name : String) : ParseState :=
  match st.nodes.lookup name with
  | none => newNode st name ""
  | some _ => st

/-- The body of the loop over `gateTokens[0 .. size - 2]` of a `.names` line; `none` is the
dereference of a name that `nodes` does not hold. -/
def connectInput (st : ParseState) (inputName : String) : Option ParseState :=
  match (ensureNode st inputName).nodes.lookup inputName,
      (ensureNode st inputName).nodes.lookup st.lastGateName with
  | some pin, some pout =>
    some { ensureNode st inputName with
      heap := heapUpdate
        (heapUpdate (ensureNode st inputName).heap pin
          (fun n => { n with outputs := n.outputs ++ [pout] }))
        pout (fun n => { n with inputs := n.inputs ++ [pin] }) }
  | _, _ => none

/-- The branch of a `.names` line, given its `gateTokens`. -/
def namesGate (st : ParseState) (gateTokens : List String) : Option ParseState :=
  match gateTokens.getLast? with
  | none => some st
  | some last =>
    gateTokens.dropLast.foldlM connectInput (ensureNode { st with lastGateName := last } last)

/-- The gate type read off the first token of a cover row; `size()` counts bytes. -/
def gateType (token : String) : String :=
  if token.utf8ByteSize = 1 then "NOT"
  else if token.toList.contains (Char.ofNat 45) then "OR"
  else "AND"

/-- The last branch of the loop body, for a line that starts with none of the keywords. -/
def coverRow (st : ParseState) (line : String) : Option ParseState :=
  if st.lastGateName ≠ "" then
    match tokens line with
    | [] => some st
    | token :: _ =>
      match st.nodes.lookup st.lastGateName with
      | none => none
      | some p =>
        some { st with
          heap := heapUpdate st.heap p (fun n => { n with type := gateType token }),
          lastGateName := "" }
  else some st

/-- The branches of the loop body. -/
inductive LineKind where
  | modelLine
  | inputsLine
  | outputsLine
  | namesLine
  | endLine
  | coverLine
deriving DecidableEq

/-- The branch taken on a line: the chain of tests `line.find(".model") == 0`, ... in the order
of the source. -/
def lineKind (line : String) : LineKind :=
  if startsWith line ".model" then LineKind.modelLine
  else if startsWith line ".inputs" then LineKind.inputsLine
  else if startsWith line ".outputs" then LineKind.outputsLine
  else if startsWith line ".names" then LineKind.namesLine
  else if startsWith line ".end" then LineKind.endLine
  else LineKind.coverLine

/-- The vector `gateTokens` of a `.names` line. -/
def gateTokens (line : String) : List String :=
  (tokens line).filter (fun token => token ≠ ".names")

/-- The branches of the loop body on a line whose comment is stripped and whose continuation is
joined; the flag says whether the loop is left by `break`. -/
def parseLine (st : ParseState) (line : String) : Option (Bool × ParseState) :=
  match lineKind line with
  | LineKind.modelLine => some (false, st)
  | LineKind.inputsLine => some (false, (tokens line).foldl inputsToken st)
  | LineKind.outputsLine => some (false, (tokens line).foldl outputsToken st)
  | LineKind.namesLine => (namesGate st (gateTokens line)).map (fun st1 => (false, st1))
  | LineKind.endLine => some (true, st)
  | LineKind.coverLine => (coverRow st line).map (fun st1 => (false, st1))

/-- The line the branches see: the comment stripped, the pending continuation put in front. -/
def joinedLine (st : ParseState) (raw : String) : String :=
  if st.continuation_line ≠ "" then st.continuation_line ++ " " ++ stripComment raw
  else stripComment raw

/-- The loop `while (std::getline(inputFile, line))` over the lines of the file. -/
def parseLoop : ParseState → List String → Option ParseState
  | st, [] => some st
  | st, raw :: rest =>
    if (joinedLine st raw).toList.getLast? = some (Char.ofNat 92) then
      parseLoop { st with continuation_line := String.mk (joinedLine st raw).toList.dropLast } rest
    else
      match parseLine { st with continuation_line := "" } (joinedLine st raw) with
      | none => none
      | some (true, st1) => some st1
      | some (false, st1) => parseLoop st1 rest

/-- The body of the loop after parsing, which gives a type to the nodes that have none. -/
def resolveNode (st : ParseState) (pair : String × NodePtr) : ParseState :=
  if (st.heap pair.2).type = "" then
    if (st.heap pair.2).inputs.isEmpty then
      { st with
        heap := heapUpdate st.heap pair.2 (fun n => { n with type := "INPUT" }),
        inputs := st.inputs ++ [pair.2] }
    else if (st.heap pair.2).outputs.isEmpty then
      { st with
        heap := heapUpdate st.heap pair.2 (fun n => { n with type := "OUTPUT" }),
        outputs := st.outputs ++ [pair.2] }
    else { st with heap := heapUpdate st.heap pair.2 (fun n => { n with type := "WIRE" }) }
  else st

/-- The method `Graph::parseBLIF` on a file that opens, given as its lines, called on a graph
just constructed; `addr` says where the allocator puts each node. -/
def Graph.parseBLIF (lines : List String) (addr : NodePtr → Nat) : Option Graph :=
  match parseLoop ParseState.init lines with
  | none => none
  | some st =>
    some { nodes := (st.nodes.foldl resolveNode st).nodes,
           inputs := (st.nodes.foldl resolveNode st).inputs,
           outputs := (st.nodes.foldl resolveNode st).outputs,
           deref := (st.nodes.foldl resolveNode st).heap,
           addr := addr }

/-- The lines that reach the branches of the loop body when the loop starts with `cont` as its
`continuation_line`: comments stripped, continuations joined. -/
def logicalLines : String → List String → List String
  | _, [] => []
  | cont, raw :: rest =>
    if (if cont ≠ "" then cont ++ " " ++ stripComment raw else stripComment raw).toList.getLast?
        = some (Char.ofNat 92) then
      logicalLines
        (String.mk
          (if cont ≠ "" then cont ++ " " ++ stripComment raw else stripComment raw).toList.dropLast)
        rest
    else
      (if cont ≠ "" then cont ++ " " ++ stripComment raw else stripComment raw)
        :: logicalLines "" rest

/-- The loop of `parseBLIF` on lines that have no comment and no continuation left. -/
def parseLines : ParseState → List String → Option ParseState
  | st, [] => some st
  | st, line :: rest =>
    match parseLine st line with
    | none => none
    | some (true, st1) => some st1
    | some (false, st1) => parseLines st1 rest

/-- The graph that the loop after parsing leaves. -/
def finishGraph (addr : NodePtr → Nat) (st : ParseState) : Graph :=
  { nodes := (st.nodes.foldl resolveNode st).nodes,
    inputs := (st.nodes.foldl resolveNode st).inputs,
    outputs := (st.nodes.foldl resolveNode st).outputs,
    deref := (st.nodes.foldl resolveNode st).heap,
    addr := addr }

/-- What holds of the variables of `parseBLIF` at every point of its loop: a name of `nodes`
leads to a node of that name made earlier, a node not yet made has no edge, edges are entered
on both sides, types are the empty string or one of five, and `lastGateName` is a key of
`nodes` unless empty. -/
structure ParseInv (st : ParseState) : Prop where
  named : ∀ name p, st.nodes.lookup name = some p → (st.heap p).name = name ∧ p < st.nodeId
  fresh : ∀ p, st.nodeId ≤ p → (st.heap p).inputs = [] ∧ (st.heap p).outputs = []
  paired : ∀ a b, (st.heap b).inputs.count a = (st.heap a).outputs.count b
  typed : ∀ p, (st.heap p).type ∈ ["", "INPUT", "OUTPUT", "AND", "OR", "NOT"]
  gate : st.lastGateName ≠ "" → ∃ p, st.nodes.lookup st.lastGateName = some p

/-- What a step of `parseBLIF` from `st` to `st1` leaves alone: no node is dropped, names stay
with their pointers, the output list only grows, and a node made before the step keeps its
name and, unless its name is `touched`, its type. -/
structure ParseFrame (st st1 : ParseState) (touched : String → Prop) : Prop where
  nodeId_le : st.nodeId ≤ st1.nodeId
  lookup_keep : ∀ name p, st.nodes.lookup name = some p → st1.nodes.lookup name = some p
  outputs_keep : ∀ p, p ∈ st.outputs → p ∈ st1.outputs
  name_keep : ∀ p, p < st.nodeId → (st1.heap p).name = (st.heap p).name
  type_keep : ∀ p, p < st.nodeId → ¬ touched (st.heap p).name →
    (st1.heap p).type = (st.heap p).type

/-- A netlist with one AND gate, declared in the usual order. -/
def andBlif : List String :=
  [".model top", ".inputs a b", ".outputs f", ".names a b f", "11 1", ".end"]

/-- A netlist with one OR gate given by two cover rows. -/
def orBlif : List String :=
  [".model top", ".inputs a b", ".outputs f", ".names a b f", "1- 1", "-1 1", ".end"]

/-- The netlist `andBlif` with the `.outputs` line moved behind the gate. -/
def lateOutputBlif : List String :=
  [".model top", ".inputs a b", ".names a b f", "11 1", ".outputs f", ".end"]

/-- No node is its own transitive successor along the `outputs` edges. -/
def Graph.SuccessorsAcyclic (graph : Graph) : Prop :=
  ∀ x, ¬ Relation.TransGen (fun a b => b ∈ (graph.deref a).outputs) x x

/-- The value of `maxLevel` after the loop of lines 25-28 over the successors `l`, when it
starts from `m` and the call for a successor returns the priority the map holds for it. -/
def maxLevelOf (prio : NodePtr → Option Int) : Int → List NodePtr → Int
  | m, [] => m
  | m, s :: rest => maxLevelOf prio (if (prio s).getD 0 > m then (prio s).getD 0 else m) rest

/-- What holds of `visited` and `nodePriority` during `computeNodePriorities` on a graph
without a cycle: a node with a priority is visited, its successors have priorities, and its
priority is one more than the `maxLevel` of the loop over its successors. -/
structure PrioInv (g : Graph) (st : PrioState) : Prop where
  vis : ∀ n p, st.nodePriority n = some p → st.visited n = true
  good : ∀ n p, st.nodePriority n = some p →
    (∀ s ∈ (g.deref n).outputs, ∃ q, st.nodePriority s = some q) ∧
    p = maxLevelOf st.nodePriority 0 (g.deref n).outputs + 1

/-! # Theorems -/

/-! ## The unscheduled set -/

theorem mem_setInsert (addr : NodePtr → Nat) (x y : NodePtr) (s : List NodePtr) :
    y ∈ setInsert addr x s ↔ y = x ∨ y ∈ s := by
  unfold setInsert
  split
  · constructor
    · intro h; exact Or.inr h
    · rintro (h | h)
      · subst h; assumption
      · exact h
  · exact List.mem_orderedInsert _

theorem nodup_setInsert (addr : NodePtr → Nat) (x : NodePtr) (s : List NodePtr)
    (hs : s.Nodup) : (setInsert addr x s).Nodup := by
  unfold setInsert
  split
  · exact hs
  · rename_i hx
    exact ((List.perm_orderedInsert _ x s).nodup_iff).2 (List.nodup_cons.2 ⟨hx, hs⟩)

theorem mem_insertOperations (graph : Graph) (l : List (String × NodePtr)) (s : List NodePtr)
    (x : NodePtr) :
    x ∈ insertOperations graph l s ↔
      x ∈ s ∨ (x ∈ l.map Prod.snd ∧ getOperationType (graph.deref x) ≠ -1) := by
  induction l generalizing s with
  | nil => simp [insertOperations]
  | cons pair rest ih =>
    have hstep : insertOperations graph (pair :: rest) s =
        insertOperations graph rest
          (if getOperationType (graph.deref pair.2) = -1 then s
           else setInsert graph.addr pair.2 s) := rfl
    rw [hstep, ih]
    by_cases hop : getOperationType (graph.deref pair.2) = -1
    · simp only [hop, if_true, List.map_cons, List.mem_cons]
      constructor
      · rintro (h | ⟨h1, h2⟩)
        · exact Or.inl h
        · exact Or.inr ⟨Or.inr h1, h2⟩
      · rintro (h | ⟨h1 | h1, h2⟩)
        · exact Or.inl h
        · subst h1; exact absurd hop h2
        · exact Or.inr ⟨h1, h2⟩
    · simp only [hop, if_false, List.map_cons, List.mem_cons, mem_setInsert]
      constructor
      · rintro ((h | h) | ⟨h1, h2⟩)
        · subst h; exact Or.inr ⟨Or.inl rfl, hop⟩
        · exact Or.inl h
        · exact Or.inr ⟨Or.inr h1, h2⟩
      · rintro (h | ⟨h1 | h1, h2⟩)
        · exact Or.inl (Or.inr h)
        · exact Or.inl (Or.inl h1)
        · exact Or.inr ⟨h1, h2⟩

theorem nodup_insertOperations (graph : Graph) (l : List (String × NodePtr)) (s : List NodePtr)
    (hs : s.Nodup) : (insertOperations graph l s).Nodup := by
  induction l generalizing s with
  | nil => exact hs
  | cons pair rest ih =>
    have hstep : insertOperations graph (pair :: rest) s =
        insertOperations graph rest
          (if getOperationType (graph.deref pair.2) = -1 then s
           else setInsert graph.addr pair.2 s) := rfl
    rw [hstep]
    apply ih
    split
    · exact hs
    · exact nodup_setInsert _ _ _ hs

theorem mem_initialUnscheduled (graph : Graph) (x : NodePtr) :
    x ∈ initialUnscheduled graph ↔
      x ∈ graph.nodes.map Prod.snd ∧ getOperationType (graph.deref x) ≠ -1 := by
  have h := mem_insertOperations graph graph.nodes [] x
  simpa [initialUnscheduled] using h

theorem nodup_initialUnscheduled (graph : Graph) : (initialUnscheduled graph).Nodup :=
  nodup_insertOperations graph graph.nodes [] List.nodup_nil

theorem getOperationType_ne_iff (node : Node) :
    getOperationType node ≠ -1 ↔ node.type = "AND" ∨ node.type = "OR" ∨ node.type = "NOT" := by
  unfold getOperationType
  by_cases h1 : node.type = "AND"
  · simp [h1]
  · by_cases h2 : node.type = "OR"
    · simp [h2]
    · by_cases h3 : node.type = "NOT"
      · simp [h3]
      · simp [h1, h2, h3]

/-! ## The map of ready nodes -/

theorem mem_mapPushBack (m : List (String × List NodePtr)) (key : String) (v : NodePtr)
    (hm : (m.map Prod.fst).Pairwise (· < ·)) (k : String) (l : List NodePtr)
    (h : (k, l) ∈ mapPushBack m key v) :
    (k ≠ key ∧ (k, l) ∈ m) ∨
      (k = key ∧ ((∃ l0, (key, l0) ∈ m ∧ l = l0 ++ [v]) ∨ (key ∉ m.map Prod.fst ∧ l = [v]))) := by
  induction m with
  | nil =>
    simp only [mapPushBack, List.mem_singleton, Prod.mk.injEq] at h
    exact Or.inr ⟨h.1, Or.inr ⟨by simp, h.2⟩⟩
  | cons hd rest ih =>
    obtain ⟨k0, vs⟩ := hd
    simp only [List.map_cons, List.pairwise_cons] at hm
    obtain ⟨hlt, hrest⟩ := hm
    unfold mapPushBack at h
    by_cases h1 : key = k0
    · subst h1
      simp only [if_true, List.mem_cons, Prod.mk.injEq] at h
      rcases h with ⟨hk, hl⟩ | h
      · exact Or.inr ⟨hk, Or.inl ⟨vs, by simp, hl⟩⟩
      · left
        refine ⟨?_, List.mem_cons_of_mem _ h⟩
        intro hk
        have : k ∈ rest.map Prod.fst := List.mem_map.2 ⟨(k, l), h, rfl⟩
        exact absurd (hlt k this) (by rw [hk]; exact lt_irrefl _)
    · simp only [h1, if_false] at h
      by_cases h2 : key < k0
      · simp only [h2, if_true, List.mem_cons, Prod.mk.injEq] at h
        rcases h with ⟨hk, hl⟩ | ⟨hk, hl⟩ | h
        · right
          refine ⟨hk, Or.inr ⟨?_, hl⟩⟩
          simp only [List.map_cons, List.mem_cons, not_or]
          refine ⟨h1, fun hmem => ?_⟩
          exact absurd (lt_trans h2 (hlt key hmem)) (lt_irrefl _)
        · left
          refine ⟨by rw [hk]; exact fun e => h1 e.symm, ?_⟩
          rw [hk, hl]; exact List.mem_cons_self _ _
        · left
          refine ⟨?_, List.mem_cons_of_mem _ h⟩
          intro hk
          have : k ∈ rest.map Prod.fst := List.mem_map.2 ⟨(k, l), h, rfl⟩
          exact absurd (lt_trans h2 (hlt k this)) (by rw [hk]; exact lt_irrefl _)
      · simp only [h2, if_false, List.mem_cons, Prod.mk.injEq] at h
        rcases h with ⟨hk, hl⟩ | h
        · left
          refine ⟨by rw [hk]; exact fun e => h1 e.symm, ?_⟩
          rw [hk, hl]; exact List.mem_cons_self _ _
        · rcases ih hrest h with ⟨hk, hmem⟩ | ⟨hk, hcase⟩
          · exact Or.inl ⟨hk, List.mem_cons_of_mem _ hmem⟩
          · right
            refine ⟨hk, ?_⟩
            rcases hcase with ⟨l0, hl0, hl⟩ | ⟨hnot, hl⟩
            · exact Or.inl ⟨l0, List.mem_cons_of_mem _ hl0, hl⟩
            · right
              refine ⟨?_, hl⟩
              simp only [List.map_cons, List.mem_cons, not_or]
              exact ⟨h1, hnot⟩

theorem keys_mapPushBack (m : List (String × List NodePtr)) (key : String) (v : NodePtr)
    (k : String) :
    k ∈ (mapPushBack m key v).map Prod.fst ↔ k = key ∨ k ∈ m.map Prod.fst := by
  induction m with
  | nil => simp [mapPushBack]
  | cons hd rest ih =>
    obtain ⟨k0, vs⟩ := hd
    unfold mapPushBack
    by_cases h1 : key = k0
    · subst h1
      simp
    · by_cases h2 : key < k0
      · simp [h1, h2]
      · simp only [h1, h2, if_false, List.map_cons, List.mem_cons, ih]
        tauto

theorem sorted_mapPushBack (m : List (String × List NodePtr)) (key : String) (v : NodePtr)
    (hm : (m.map Prod.fst).Pairwise (· < ·)) :
    ((mapPushBack m key v).map Prod.fst).Pairwise (· < ·) := by
  induction m with
  | nil => simp [mapPushBack]
  | cons hd rest ih =>
    obtain ⟨k0, vs⟩ := hd
    simp only [List.map_cons, List.pairwise_cons] at hm
    obtain ⟨hlt, hrest⟩ := hm
    unfold mapPushBack
    by_cases h1 : key = k0
    · subst h1
      simp only [if_true, List.map_cons, List.pairwise_cons]
      exact ⟨hlt, hrest⟩
    · by_cases h2 : key < k0
      · simp only [h1, h2, if_true, if_false, List.map_cons, List.pairwise_cons]
        refine ⟨?_, hlt, hrest⟩
        intro a ha
        rcases List.mem_cons.1 ha with ha | ha
        · rw [ha]; exact h2
        · exact lt_trans h2 (hlt a ha)
      · simp only [h1, h2, if_false, List.map_cons, List.pairwise_cons]
        refine ⟨?_, ih hrest⟩
        intro a ha
        rcases (keys_mapPushBack rest key v a).1 ha with ha | ha
        · rw [ha]
          rcases lt_trichotomy key k0 with h | h | h
          · exact absurd h h2
          · exact absurd h h1
          · exact h
        · exact hlt a ha

theorem readyInv_pushReady (graph : Graph) (U : List NodePtr)
    (m : List (String × List NodePtr)) (done : List NodePtr) (node : NodePtr)
    (h : ReadyInv graph U m done) :
    ReadyInv graph U (pushReady graph U m node) (done ++ [node]) := by
  unfold pushReady
  by_cases hr : isReady graph U node = true
  · simp only [hr, if_true]
    refine ⟨sorted_mapPushBack _ _ _ h.sorted, ?_, ?_⟩
    · intro k l hkl
      rcases mem_mapPushBack m _ node h.sorted k l hkl with ⟨hk, hmem⟩ | ⟨hk, hcase⟩
      · obtain ⟨h1, h2⟩ := h.entry k l hmem
        refine ⟨?_, h2⟩
        rw [List.filter_append, ← h1]
        have : ¬ (graph.deref node).type = k := fun e => hk e.symm
        simp [this]
      · subst hk
        rcases hcase with ⟨l0, hl0, hl⟩ | ⟨hnot, hl⟩
        · obtain ⟨h1, _⟩ := h.entry _ l0 hl0
          subst hl
          refine ⟨?_, by simp⟩
          rw [List.filter_append, ← h1]
          simp [hr]
        · subst hl
          refine ⟨?_, by simp⟩
          rw [List.filter_append]
          have hnil : done.filter (fun n => isReady graph U n &&
              decide ((graph.deref n).type = (graph.deref node).type)) = [] := by
            rw [List.filter_eq_nil_iff]
            intro n hn hp
            simp only [Bool.and_eq_true, decide_eq_true_eq] at hp
            exact hnot (hp.2 ▸ h.key n hn hp.1)
          rw [hnil]
          simp [hr]
    · intro n hn hrn
      rw [keys_mapPushBack]
      rcases List.mem_append.1 hn with hn | hn
      · exact Or.inr (h.key n hn hrn)
      · left
        rw [List.mem_singleton.1 hn]
  · simp only [hr, if_false]
    refine ⟨h.sorted, ?_, ?_⟩
    · intro k l hkl
      obtain ⟨h1, h2⟩ := h.entry k l hkl
      refine ⟨?_, h2⟩
      rw [List.filter_append, ← h1]
      simp [hr]
    · intro n hn hrn
      rcases List.mem_append.1 hn with hn | hn
      · exact h.key n hn hrn
      · rw [List.mem_singleton.1 hn] at hrn
        exact absurd hrn hr

theorem readyInv_foldl (graph : Graph) (U : List NodePtr) (l : List NodePtr)
    (m : List (String × List NodePtr)) (done : List NodePtr)
    (h : ReadyInv graph U m done) :
    ReadyInv graph U (l.foldl (pushReady graph U) m) (done ++ l) := by
  induction l generalizing m done with
  | nil => simpa using h
  | cons x rest ih =>
    have := ih _ _ (readyInv_pushReady graph U m done x h)
    simpa using this

theorem readyInv_collectReady (graph : Graph) (U : List NodePtr) :
    ReadyInv graph U (collectReady graph U) U := by
  have h0 : ReadyInv graph U [] [] := ⟨by simp, by simp, by simp⟩
  simpa [collectReady] using readyInv_foldl graph U U [] [] h0

/-! ## One resource type -/

theorem scheduleNodes_nodeTime (t : Int) (opType : String) (st : StepState) (l : List NodePtr) :
    (scheduleNodes t opType st l).nodeTime =
      fun q => if q ∈ l then some t else st.nodeTime q := by
  induction l generalizing st with
  | nil => simp [scheduleNodes]
  | cons x rest ih =>
    have hstep : scheduleNodes t opType st (x :: rest) = scheduleNodes t opType
        { nodeTime := mapSet st.nodeTime x t,
          scheduledThisTime := st.scheduledThisTime ++ [x],
          resourceUsage := fun k => if k = opType then st.resourceUsage k + 1
            else st.resourceUsage k,
          unscheduledNodes := st.unscheduledNodes.erase x } rest := rfl
    rw [hstep, ih]
    funext q
    by_cases h1 : q ∈ rest
    · simp [h1]
    · by_cases h2 : q = x
      · simp [h2, mapSet]
      · simp [h1, h2, mapSet]

theorem scheduleNodes_scheduledThisTime (t : Int) (opType : String) (st : StepState)
    (l : List NodePtr) :
    (scheduleNodes t opType st l).scheduledThisTime = st.scheduledThisTime ++ l := by
  induction l generalizing st with
  | nil => simp [scheduleNodes]
  | cons x rest ih =>
    have hstep : scheduleNodes t opType st (x :: rest) = scheduleNodes t opType
        { nodeTime := mapSet st.nodeTime x t,
          scheduledThisTime := st.scheduledThisTime ++ [x],
          resourceUsage := fun k => if k = opType then st.resourceUsage k + 1
            else st.resourceUsage k,
          unscheduledNodes := st.unscheduledNodes.erase x } rest := rfl
    rw [hstep, ih]
    simp

theorem scheduleNodes_unscheduledNodes (t : Int) (opType : String) (st : StepState)
    (l : List NodePtr) :
    (scheduleNodes t opType st l).unscheduledNodes = st.unscheduledNodes.diff l := by
  induction l generalizing st with
  | nil => simp [scheduleNodes]
  | cons x rest ih =>
    have hstep : scheduleNodes t opType st (x :: rest) = scheduleNodes t opType
        { nodeTime := mapSet st.nodeTime x t,
          scheduledThisTime := st.scheduledThisTime ++ [x],
          resourceUsage := fun k => if k = opType then st.resourceUsage k + 1
            else st.resourceUsage k,
          unscheduledNodes := st.unscheduledNodes.erase x } rest := rfl
    rw [hstep, ih, List.diff_cons]

theorem scheduleNodes_resourceUsage (t : Int) (opType : String) (st : StepState)
    (l : List NodePtr) (k : String) :
    (scheduleNodes t opType st l).resourceUsage k =
      if k = opType then st.resourceUsage k + l.length else st.resourceUsage k := by
  induction l generalizing st with
  | nil => simp [scheduleNodes]
  | cons x rest ih =>
    have hstep : scheduleNodes t opType st (x :: rest) = scheduleNodes t opType
        { nodeTime := mapSet st.nodeTime x t,
          scheduledThisTime := st.scheduledThisTime ++ [x],
          resourceUsage := fun k => if k = opType then st.resourceUsage k + 1
            else st.resourceUsage k,
          unscheduledNodes := st.unscheduledNodes.erase x } rest := rfl
    rw [hstep, ih]
    by_cases hk : k = opType
    · simp only [hk, if_true, List.length_cons]
      push_cast
      ring
    · simp [hk]

/-! ## One time step -/

theorem foldl_scheduleResource
    (sortFn : (NodePtr → NodePtr → Bool) → List NodePtr → List NodePtr)
    (self : Scheduler) (t : Int) (es : List (String × List NodePtr)) (st : StepState)
    (hkeys : (es.map Prod.fst).Nodup) (husage : ∀ rp ∈ es, st.resourceUsage rp.1 = 0) :
    (es.foldl (scheduleResource sortFn self t) st).nodeTime =
        (fun q => if q ∈ (es.map (chosenNodes sortFn self 0)).flatten then some t
          else st.nodeTime q) ∧
      (es.foldl (scheduleResource sortFn self t) st).scheduledThisTime =
        st.scheduledThisTime ++ (es.map (chosenNodes sortFn self 0)).flatten ∧
      (es.foldl (scheduleResource sortFn self t) st).unscheduledNodes =
        st.unscheduledNodes.diff (es.map (chosenNodes sortFn self 0)).flatten := by
  induction es generalizing st with
  | nil => simp
  | cons rp rest ih =>
    simp only [List.map_cons, List.nodup_cons] at hkeys
    obtain ⟨hnot, hrest⟩ := hkeys
    have h0 : st.resourceUsage rp.1 = 0 := husage rp (List.mem_cons_self _ _)
    have hsr : scheduleResource sortFn self t st rp =
        scheduleNodes t rp.1 st (chosenNodes sortFn self 0 rp) := by
      unfold scheduleResource
      rw [h0]
    have husage1 : ∀ rp1 ∈ rest, (scheduleResource sortFn self t st rp).resourceUsage rp1.1 = 0 := by
      intro rp1 hrp1
      rw [hsr, scheduleNodes_resourceUsage]
      have hne : rp1.1 ≠ rp.1 := by
        intro e
        exact hnot (e ▸ List.mem_map.2 ⟨rp1, hrp1, rfl⟩)
      simp only [hne, if_false]
      exact husage rp1 (List.mem_cons_of_mem _ hrp1)
    obtain ⟨i1, i2, i3⟩ := ih (scheduleResource sortFn self t st rp) hrest husage1
    simp only [List.foldl_cons, List.map_cons, List.flatten_cons]
    refine ⟨?_, ?_, ?_⟩
    · rw [i1, hsr, scheduleNodes_nodeTime]
      funext q
      by_cases h1 : q ∈ (rest.map (chosenNodes sortFn self 0)).flatten
      · simp [h1]
      · simp [h1]
    · rw [i2, hsr, scheduleNodes_scheduledThisTime, List.append_assoc]
    · rw [i3, hsr, scheduleNodes_unscheduledNodes, List.diff_append]

theorem whileBody_eq
    (sortFn : (NodePtr → NodePtr → Bool) → List NodePtr → List NodePtr)
    (self : Scheduler) (st : LoopState) :
    whileBody sortFn self st =
      { unscheduledNodes := st.unscheduledNodes.diff (stepChosen sortFn self st.unscheduledNodes),
        currentTime := st.currentTime + 1,
        nodeTime := fun q => if q ∈ stepChosen sortFn self st.unscheduledNodes
          then some st.currentTime else st.nodeTime q,
        schedule := st.schedule ++ [stepChosen sortFn self st.unscheduledNodes] } := by
  have hinv := readyInv_collectReady self.graph st.unscheduledNodes
  obtain ⟨h1, h2, h3⟩ := foldl_scheduleResource sortFn self st.currentTime
    (collectReady self.graph st.unscheduledNodes)
    { nodeTime := st.nodeTime, scheduledThisTime := [], resourceUsage := fun _ => 0,
      unscheduledNodes := st.unscheduledNodes }
    (hinv.sorted.imp (fun h => ne_of_lt h)) (fun _ _ => rfl)
  unfold whileBody stepResult
  simp only [h1, h2, h3, stepChosen, List.nil_append]

/-! ## The nodes chosen in a step -/

theorem chosenNodes_sublist_perm
    (sortFn : (NodePtr → NodePtr → Bool) → List NodePtr → List NodePtr)
    (self : Scheduler) (usage : Int)
    (rp : String × List NodePtr) :
    (chosenNodes sortFn self usage rp).Sublist (sortFn (higherPriority self.nodePriority) rp.2) :=
  List.take_sublist _ _

theorem mem_of_mem_chosenNodes
    (sortFn : (NodePtr → NodePtr → Bool) → List NodePtr → List NodePtr)
    (hsort : StdSort sortFn) (self : Scheduler) (usage : Int)
    (rp : String × List NodePtr) (x : NodePtr) (hx : x ∈ chosenNodes sortFn self usage rp) :
    x ∈ rp.2 :=
  ((hsort self.nodePriority rp.2).1.mem_iff).1 ((chosenNodes_sublist_perm sortFn self usage rp).subset hx)

theorem nodup_chosenNodes
    (sortFn : (NodePtr → NodePtr → Bool) → List NodePtr → List NodePtr)
    (hsort : StdSort sortFn) (self : Scheduler) (usage : Int)
    (rp : String × List NodePtr) (h : rp.2.Nodup) : (chosenNodes sortFn self usage rp).Nodup :=
  (chosenNodes_sublist_perm sortFn self usage rp).nodup
    (((hsort self.nodePriority rp.2).1.nodup_iff).2 h)

theorem length_chosenNodes
    (sortFn : (NodePtr → NodePtr → Bool) → List NodePtr → List NodePtr)
    (hsort : StdSort sortFn) (self : Scheduler) (usage : Int)
    (rp : String × List NodePtr) :
    ((chosenNodes sortFn self usage rp).length : Int) =
      max 0 (min (rp.2.length : Int) (resourceLimit self rp.1 - usage)) := by
  unfold chosenNodes
  simp only [List.length_take]
  rw [(hsort self.nodePriority rp.2).1.length_eq]
  omega

theorem mem_stepChosen
    (sortFn : (NodePtr → NodePtr → Bool) → List NodePtr → List NodePtr)
    (hsort : StdSort sortFn) (self : Scheduler) (U : List NodePtr)
    (x : NodePtr) (hx : x ∈ stepChosen sortFn self U) :
    x ∈ U ∧ isReady self.graph U x = true ∧
      ∃ l, ((self.graph.deref x).type, l) ∈ collectReady self.graph U ∧
        x ∈ chosenNodes sortFn self 0 ((self.graph.deref x).type, l) := by
  unfold stepChosen at hx
  obtain ⟨c, hc, hxc⟩ := List.mem_flatten.1 hx
  obtain ⟨rp, hrp, rfl⟩ := List.mem_map.1 hc
  obtain ⟨k, l⟩ := rp
  have hinv := readyInv_collectReady self.graph U
  have hl := (hinv.entry k l hrp).1
  have hxl : x ∈ l := mem_of_mem_chosenNodes sortFn hsort self 0 (k, l) x hxc
  rw [hl, List.mem_filter] at hxl
  simp only [Bool.and_eq_true, decide_eq_true_eq] at hxl
  obtain ⟨h1, h2, h3⟩ := hxl
  subst h3
  exact ⟨h1, h2, l, hrp, hxc⟩

theorem nodup_stepChosen
    (sortFn : (NodePtr → NodePtr → Bool) → List NodePtr → List NodePtr)
    (hsort : StdSort sortFn) (self : Scheduler) (U : List NodePtr)
    (hU : U.Nodup) : (stepChosen sortFn self U).Nodup := by
  have hinv := readyInv_collectReady self.graph U
  unfold stepChosen
  rw [List.nodup_flatten]
  constructor
  · intro c hc
    obtain ⟨rp, hrp, rfl⟩ := List.mem_map.1 hc
    apply nodup_chosenNodes sortFn hsort
    rw [(hinv.entry rp.1 rp.2 hrp).1]
    exact hU.filter _
  · rw [List.pairwise_map]
    have hs := List.pairwise_map.1 hinv.sorted
    refine hs.imp_of_mem ?_
    intro a b ha hb hlt x hxa hxb
    have h1 := mem_of_mem_chosenNodes sortFn hsort self 0 a x hxa
    have h2 := mem_of_mem_chosenNodes sortFn hsort self 0 b x hxb
    rw [(hinv.entry a.1 a.2 ha).1, List.mem_filter] at h1
    rw [(hinv.entry b.1 b.2 hb).1, List.mem_filter] at h2
    simp only [Bool.and_eq_true, decide_eq_true_eq] at h1 h2
    exact absurd (h1.2.2.symm.trans h2.2.2) (ne_of_lt hlt)

theorem countP_flatten_chosen
    (sortFn : (NodePtr → NodePtr → Bool) → List NodePtr → List NodePtr)
    (hsort : StdSort sortFn) (self : Scheduler)
    (es : List (String × List NodePtr)) (K : String)
    (hkeys : (es.map Prod.fst).Nodup)
    (hty : ∀ rp ∈ es, ∀ x ∈ rp.2, (self.graph.deref x).type = rp.1) :
    ((List.countP (fun x => decide ((self.graph.deref x).type = K))
        (es.map (chosenNodes sortFn self 0)).flatten : Nat) : Int) ≤
      max 0 (resourceLimit self K) := by
  induction es with
  | nil => simp
  | cons rp rest ih =>
    simp only [List.map_cons, List.nodup_cons] at hkeys
    obtain ⟨hnot, hrest⟩ := hkeys
    have hty1 : ∀ rp1 ∈ rest, ∀ x ∈ rp1.2, (self.graph.deref x).type = rp1.1 :=
      fun rp1 h1 => hty rp1 (List.mem_cons_of_mem _ h1)
    simp only [List.map_cons, List.flatten_cons, List.countP_append]
    by_cases hk : rp.1 = K
    · have hzero : List.countP (fun x => decide ((self.graph.deref x).type = K))
          (rest.map (chosenNodes sortFn self 0)).flatten = 0 := by
        rw [List.countP_eq_zero]
        intro x hx
        obtain ⟨c, hc, hxc⟩ := List.mem_flatten.1 hx
        obtain ⟨rp1, hrp1, rfl⟩ := List.mem_map.1 hc
        have hx1 := mem_of_mem_chosenNodes sortFn hsort self 0 rp1 x hxc
        have := hty1 rp1 hrp1 x hx1
        simp only [decide_eq_true_eq]
        intro e
        apply hnot
        rw [hk, ← e, this]
        exact List.mem_map.2 ⟨rp1, hrp1, rfl⟩
      rw [hzero, Nat.add_zero]
      have h1 : List.countP (fun x => decide ((self.graph.deref x).type = K))
          (chosenNodes sortFn self 0 rp) ≤ (chosenNodes sortFn self 0 rp).length :=
        List.countP_le_length _
      have h2 := length_chosenNodes sortFn hsort self 0 rp
      rw [hk] at h2
      omega
    · have hzero : List.countP (fun x => decide ((self.graph.deref x).type = K))
          (chosenNodes sortFn self 0 rp) = 0 := by
        rw [List.countP_eq_zero]
        intro x hx
        have hx1 := mem_of_mem_chosenNodes sortFn hsort self 0 rp x hx
        have := hty rp (List.mem_cons_self _ _) x hx1
        simp only [decide_eq_true_eq]
        intro e
        exact hk (this.symm.trans e)
      rw [hzero, Nat.zero_add]
      exact ih hrest hty1

theorem countP_stepChosen
    (sortFn : (NodePtr → NodePtr → Bool) → List NodePtr → List NodePtr)
    (hsort : StdSort sortFn) (self : Scheduler) (U : List NodePtr)
    (K : String) :
    ((List.countP (fun x => decide ((self.graph.deref x).type = K))
        (stepChosen sortFn self U) : Nat) : Int) ≤ max 0 (resourceLimit self K) := by
  have hinv := readyInv_collectReady self.graph U
  apply countP_flatten_chosen sortFn hsort self _ K (hinv.sorted.imp (fun h => ne_of_lt h))
  intro rp hrp x hx
  rw [(hinv.entry rp.1 rp.2 hrp).1, List.mem_filter] at hx
  simp only [Bool.and_eq_true, decide_eq_true_eq] at hx
  exact hx.2.2

theorem not_mem_stepChosen_of_limit
    (sortFn : (NodePtr → NodePtr → Bool) → List NodePtr → List NodePtr)
    (hsort : StdSort sortFn) (self : Scheduler)
    (U : List NodePtr) (x : NodePtr)
    (hlim : resourceLimit self (self.graph.deref x).type ≤ 0) :
    x ∉ stepChosen sortFn self U := by
  intro hx
  obtain ⟨_, _, l, _, hxc⟩ := mem_stepChosen sortFn hsort self U x hx
  have hlen := length_chosenNodes sortFn hsort self 0 ((self.graph.deref x).type, l)
  have hpos : 0 < (chosenNodes sortFn self 0 ((self.graph.deref x).type, l)).length :=
    List.length_pos_of_mem hxc
  simp only at hlen
  omega

theorem stepChosen_ne_nil
    (sortFn : (NodePtr → NodePtr → Bool) → List NodePtr → List NodePtr)
    (hsort : StdSort sortFn) (self : Scheduler) (U : List NodePtr)
    (x : NodePtr) (hx : x ∈ U) (hr : isReady self.graph U x = true)
    (hlim : 1 ≤ resourceLimit self (self.graph.deref x).type) :
    stepChosen sortFn self U ≠ [] := by
  have hinv := readyInv_collectReady self.graph U
  have hkey := hinv.key x hx hr
  obtain ⟨rp, hrp, hk⟩ := List.mem_map.1 hkey
  have hne := (hinv.entry rp.1 rp.2 hrp).2
  have hlen := length_chosenNodes sortFn hsort self 0 rp
  have hpos : 0 < rp.2.length := List.length_pos.2 hne
  rw [hk] at hlen
  have hc : 0 < (chosenNodes sortFn self 0 rp).length := by omega
  intro hnil
  have hmem : chosenNodes sortFn self 0 rp ∈
      (collectReady self.graph U).map (chosenNodes sortFn self 0) :=
    List.mem_map.2 ⟨rp, hrp, rfl⟩
  obtain ⟨y, hy⟩ := List.exists_mem_of_length_pos hc
  have : y ∈ stepChosen sortFn self U := List.mem_flatten.2 ⟨_, hmem, hy⟩
  rw [hnil] at this
  exact absurd this (List.not_mem_nil _)

theorem getElem?_append_singleton {α : Type} (l : List α) (c : α) (i : Nat) (a : α)
    (h : (l ++ [c])[i]? = some a) :
    (i < l.length ∧ l[i]? = some a) ∨ (i = l.length ∧ a = c) := by
  rw [List.getElem?_append] at h
  by_cases hi : i < l.length
  · simp only [hi, if_true] at h
    exact Or.inl ⟨hi, h⟩
  · simp only [hi, if_false] at h
    right
    have hlt : i - l.length < 1 := by
      by_contra hc
      have : [c][i - l.length]? = none := by
        rw [List.getElem?_eq_none_iff]
        simp only [List.length_singleton]
        omega
      rw [this] at h
      exact Option.noConfusion h
    have h0 : i - l.length = 0 := by omega
    rw [h0] at h
    simp only [List.getElem?_cons_zero, Option.some.injEq] at h
    exact ⟨by omega, h.symm⟩

theorem getElem?_append_left_of_some {α : Type} (l : List α) (c : α) (i : Nat) (a : α)
    (h : l[i]? = some a) : (l ++ [c])[i]? = some a := by
  have hi : i < l.length := by
    by_contra hc
    rw [List.getElem?_eq_none_iff.2 (by omega)] at h
    exact Option.noConfusion h
  rw [List.getElem?_append]
  simp only [hi, if_true]
  exact h

theorem loopInv_start (g : Graph) (andLimit orLimit notLimit : Int)
    (prio : NodePtr → Option Int) :
    LoopInv { Scheduler.new g andLimit orLimit notLimit with nodePriority := prio }
      ({ Scheduler.new g andLimit orLimit notLimit with nodePriority := prio } : Scheduler).loopStart := by
  refine ⟨?_, ?_, ?_, ?_, ?_, ?_, ?_, ?_, ?_⟩
  · simp [Scheduler.loopStart, Scheduler.new]
  · exact nodup_initialUnscheduled g
  · intro step hstep
    simp [Scheduler.loopStart, Scheduler.new] at hstep
  · intro x
    simp [Scheduler.loopStart, Scheduler.new]
  · intro x _ step hstep
    simp [Scheduler.loopStart, Scheduler.new] at hstep
  · intro x _
    simp [Scheduler.loopStart, Scheduler.new]
  · intro i step hstep
    simp [Scheduler.loopStart, Scheduler.new] at hstep
  · intro i step hstep
    simp [Scheduler.loopStart, Scheduler.new] at hstep
  · intro step hstep
    simp [Scheduler.loopStart, Scheduler.new] at hstep

theorem loopInv_whileBody
    (sortFn : (NodePtr → NodePtr → Bool) → List NodePtr → List NodePtr)
    (hsort : StdSort sortFn) (self : Scheduler) (st : LoopState)
    (h : LoopInv self st) : LoopInv self (whileBody sortFn self st) := by
  rw [whileBody_eq]
  have hC := mem_stepChosen sortFn hsort self st.unscheduledNodes
  refine ⟨?_, ?_, ?_, ?_, ?_, ?_, ?_, ?_, ?_⟩
  · simp only [List.length_append, List.length_singleton]
    rw [h.time]
    push_cast
    ring
  · exact h.nodupU.diff
  · intro step hstep
    rcases List.mem_append.1 hstep with hs | hs
    · exact h.nodupStep step hs
    · rw [List.mem_singleton.1 hs]
      exact nodup_stepChosen sortFn hsort self _ h.nodupU
  · intro x
    rw [h.cover x]
    simp only [h.nodupU.mem_diff_iff, List.mem_append, List.mem_singleton]
    constructor
    · rintro (hx | ⟨step, hs, hx⟩)
      · by_cases hc : x ∈ stepChosen sortFn self st.unscheduledNodes
        · exact Or.inr ⟨_, Or.inr rfl, hc⟩
        · exact Or.inl ⟨hx, hc⟩
      · exact Or.inr ⟨step, Or.inl hs, hx⟩
    · rintro (⟨hx, _⟩ | ⟨step, hs | hs, hx⟩)
      · exact Or.inl hx
      · exact Or.inr ⟨step, hs, hx⟩
      · rw [hs] at hx
        exact Or.inl (hC x hx).1
  · intro x hx step hstep
    simp only [h.nodupU.mem_diff_iff] at hx
    rcases List.mem_append.1 hstep with hs | hs
    · exact h.disj x hx.1 step hs
    · rw [List.mem_singleton.1 hs]
      exact hx.2
  · intro x hx
    simp only [h.nodupU.mem_diff_iff] at hx
    simp only [hx.2, if_false]
    exact h.none x hx.1
  · intro i step hstep x hx
    rcases getElem?_append_singleton _ _ _ _ hstep with ⟨_, hs⟩ | ⟨hi, hs⟩
    · have hmem : step ∈ st.schedule := List.getElem?_mem hs
      have hnot : x ∉ stepChosen sortFn self st.unscheduledNodes := by
        intro hc
        exact h.disj x (hC x hc).1 step hmem hx
      simp only [hnot, if_false]
      exact h.nodeTime i step hs x hx
    · rw [hs] at hx
      simp only [hx, if_true]
      rw [h.time, hi]
  · intro i step hstep x hx p hp hp0
    rcases getElem?_append_singleton _ _ _ _ hstep with ⟨_, hs⟩ | ⟨hi, hs⟩
    · obtain ⟨j, stepj, hj, hsj, hpj⟩ := h.prec i step hs x hx p hp hp0
      exact ⟨j, stepj, hj, getElem?_append_left_of_some _ _ _ _ hsj, hpj⟩
    · rw [hs] at hx
      obtain ⟨_, hr, _⟩ := hC x hx
      have hpU : p ∉ st.unscheduledNodes := by
        unfold isReady at hr
        rw [List.all_eq_true] at hr
        have := hr p hp
        simpa using this
      rcases (h.cover p).1 hp0 with hpu | ⟨stepj, hsj, hpj⟩
      · exact absurd hpu hpU
      · obtain ⟨j, hj, hget⟩ := List.getElem_of_mem hsj
        refine ⟨j, stepj, by omega, ?_, hpj⟩
        apply getElem?_append_left_of_some
        rw [List.getElem?_eq_getElem hj, hget]
  · intro step hstep K
    rcases List.mem_append.1 hstep with hs | hs
    · exact h.res step hs K
    · rw [List.mem_singleton.1 hs]
      exact countP_stepChosen sortFn hsort self _ K

theorem loopInv_loopAfter
    (sortFn : (NodePtr → NodePtr → Bool) → List NodePtr → List NodePtr)
    (hsort : StdSort sortFn) (self : Scheduler) (st : LoopState)
    (h : LoopInv self st) (k : Nat) : LoopInv self (loopAfter sortFn self st k) := by
  induction k with
  | zero => exact h
  | succ k ih =>
    unfold loopAfter
    split
    · exact ih
    · exact loopInv_whileBody sortFn hsort self _ ih

theorem loopAfter_succ_start
    (sortFn : (NodePtr → NodePtr → Bool) → List NodePtr → List NodePtr)
    (self : Scheduler) (st : LoopState)
    (hne : st.unscheduledNodes.isEmpty = false) (k : Nat) :
    loopAfter sortFn self st (k + 1) = loopAfter sortFn self (whileBody sortFn self st) k := by
  induction k with
  | zero => simp [loopAfter, hne]
  | succ k ih =>
    rw [loopAfter, ih]
    rfl

theorem heuristicLoop_eq_some
    (sortFn : (NodePtr → NodePtr → Bool) → List NodePtr → List NodePtr)
    (self : Scheduler) (fuel : Nat) (st st1 : LoopState)
    (h : heuristicLoop sortFn self fuel st = some st1) :
    st1.unscheduledNodes = [] ∧ ∃ k, k ≤ fuel ∧ st1 = loopAfter sortFn self st k := by
  induction fuel generalizing st with
  | zero =>
    unfold heuristicLoop at h
    by_cases he : st.unscheduledNodes.isEmpty = true
    · simp only [he, if_true, Option.some.injEq] at h
      subst h
      exact ⟨List.isEmpty_iff.1 he, 0, le_refl _, rfl⟩
    · simp [he] at h
  | succ fuel ih =>
    unfold heuristicLoop at h
    by_cases he : st.unscheduledNodes.isEmpty = true
    · simp only [he, if_true, Option.some.injEq] at h
      subst h
      exact ⟨List.isEmpty_iff.1 he, 0, Nat.zero_le _, rfl⟩
    · simp only [he] at h
      obtain ⟨h1, k, hk, h2⟩ := ih _ h
      refine ⟨h1, k + 1, by omega, ?_⟩
      rw [loopAfter_succ_start sortFn self st (by simpa using he) k]
      exact h2

theorem stdSort_insertionSortFn : StdSort insertionSortFn := by
  intro prio l
  unfold insertionSortFn
  refine ⟨List.perm_insertionSort _ l, ?_⟩
  haveI : IsTotal NodePtr (fun a b => higherPriority prio b a = false) := ⟨by
    intro a b
    simp only [higherPriority, decide_eq_false_iff_not, not_lt, gt_iff_lt]
    exact le_total _ _⟩
  haveI : IsTrans NodePtr (fun a b => higherPriority prio b a = false) := ⟨by
    intro a b c
    simp only [higherPriority, decide_eq_false_iff_not, not_lt, gt_iff_lt]
    intro h1 h2
    exact le_trans h2 h1⟩
  have hs := List.sorted_insertionSort (fun a b => higherPriority prio b a = false) l
  refine List.Pairwise.imp ?_ hs
  intro a b hab
  simpa [higherPriority] using hab

theorem computeNodePriorities_eq_some (self self1 : Scheduler) (fuel : Nat)
    (h : self.computeNodePriorities fuel = some self1) :
    ∃ prio, self1 = { self with nodePriority := prio } := by
  unfold Scheduler.computeNodePriorities at h
  split at h
  · exact Option.noConfusion h
  · rename_i st _
    simp only [Option.some.injEq] at h
    exact ⟨st.nodePriority, h.symm⟩

/-- What a returning run of `heuristicSchedule` leaves: the final state of the `while` loop,
reached after `k` iterations, in which the invariant holds and nothing is unscheduled. -/
theorem heuristicSchedule_eq_some
    (sortFn : (NodePtr → NodePtr → Bool) → List NodePtr → List NodePtr)
    (hsort : StdSort sortFn) (g : Graph)
    (andLimit orLimit notLimit : Int) (fuel : Nat) (s : Scheduler)
    (h : (Scheduler.new g andLimit orLimit notLimit).heuristicSchedule sortFn fuel = some s) :
    ∃ (prio : NodePtr → Option Int) (st : LoopState) (k : Nat),
      st = loopAfter sortFn { Scheduler.new g andLimit orLimit notLimit with nodePriority := prio }
        ({ Scheduler.new g andLimit orLimit notLimit with nodePriority := prio } :
          Scheduler).loopStart k ∧
      LoopInv { Scheduler.new g andLimit orLimit notLimit with nodePriority := prio } st ∧
      st.unscheduledNodes = [] ∧
      s.latency = st.currentTime - 1 ∧ s.nodeTime = st.nodeTime ∧ s.schedule = st.schedule := by
  unfold Scheduler.heuristicSchedule at h
  split at h
  · exact Option.noConfusion h
  · rename_i self1 hprio
    obtain ⟨prio, rfl⟩ := computeNodePriorities_eq_some _ _ _ hprio
    split at h
    · exact Option.noConfusion h
    · rename_i st hloop
      simp only [Option.some.injEq] at h
      subst h
      obtain ⟨hU, k, _, hk⟩ := heuristicLoop_eq_some sortFn _ _ _ _ hloop
      refine ⟨prio, st, k, hk, ?_, hU, rfl, rfl, rfl⟩
      rw [hk]
      exact loopInv_loopAfter sortFn hsort _ _ (loopInv_start g andLimit orLimit notLimit prio) k

theorem getNodeTime_eq (s : Scheduler) (x : NodePtr) (t : Int) (h : s.nodeTime x = some t) :
    s.getNodeTime x = t := by
  unfold Scheduler.getNodeTime
  rw [h]

/-- C1. When `heuristicSchedule` returns, every node of the graph of kind AND, OR or NOT has a
recorded time between 1 and the reported latency, it occurs exactly once in the time step of
that index and in no other step, and every node that occurs in a step is of kind AND, OR or NOT.
The reported latency is the number of steps. -/
theorem heuristicSchedule_places_each_operation_once
    (sortFn : (NodePtr → NodePtr → Bool) → List NodePtr → List NodePtr)
    (hsort : StdSort sortFn) (g : Graph)
    (andLimit orLimit notLimit : Int) (fuel : Nat) (s : Scheduler)
    (h : (Scheduler.new g andLimit orLimit notLimit).heuristicSchedule sortFn fuel = some s) :
    s.latency = (s.schedule.length : Int) ∧
    (∀ pair ∈ g.nodes, getOperationType (g.deref pair.2) ≠ -1 →
      1 ≤ s.getNodeTime pair.2 ∧ s.getNodeTime pair.2 ≤ s.latency ∧
      ∀ (i : Nat) (step : List NodePtr), s.schedule[i]? = some step →
        step.count pair.2 = if (i : Int) + 1 = s.getNodeTime pair.2 then 1 else 0) ∧
    (∀ step ∈ s.schedule, ∀ x ∈ step,
      x ∈ g.nodes.map Prod.snd ∧ getOperationType (g.deref x) ≠ -1) := by
  obtain ⟨prio, st, k, _, hinv, hU, hlat, htime, hsched⟩ :=
    heuristicSchedule_eq_some sortFn hsort g andLimit orLimit notLimit fuel s h
  have hlen : s.latency = (s.schedule.length : Int) := by
    rw [hlat, hsched, hinv.time]; ring
  refine ⟨hlen, ?_, ?_⟩
  · intro pair hpair hop
    have hx0 : pair.2 ∈ initialUnscheduled g :=
      (mem_initialUnscheduled g pair.2).2 ⟨List.mem_map.2 ⟨pair, hpair, rfl⟩, hop⟩
    rcases (hinv.cover pair.2).1 hx0 with hu | ⟨step0, hs0, hx⟩
    · rw [hU] at hu
      exact absurd hu (List.not_mem_nil _)
    · obtain ⟨i0, hi0, hget⟩ := List.getElem_of_mem hs0
      have hget0 : st.schedule[i0]? = some step0 := by
        rw [List.getElem?_eq_getElem hi0, hget]
      have ht := hinv.nodeTime i0 step0 hget0 pair.2 hx
      have hgt : s.getNodeTime pair.2 = (i0 : Int) + 1 :=
        getNodeTime_eq s pair.2 _ (by rw [htime]; exact ht)
      rw [hgt, hlen, hsched]
      refine ⟨by omega, by omega, ?_⟩
      intro i step hstep
      by_cases hi : (i : Int) + 1 = (i0 : Int) + 1
      · have : i = i0 := by omega
        subst this
        rw [hget0] at hstep
        simp only [Option.some.injEq] at hstep
        subst hstep
        simp only [if_true]
        exact List.count_eq_one_of_mem (hinv.nodupStep _ hs0) hx
      · simp only [hi, if_false]
        rw [List.count_eq_zero]
        intro hmem
        have ht2 := hinv.nodeTime i step hstep pair.2 hmem
        rw [ht] at ht2
        simp only [Option.some.injEq] at ht2
        exact hi ht2.symm
  · intro step hstep x hx
    rw [hsched] at hstep
    exact (mem_initialUnscheduled g x).1 ((hinv.cover x).2 (Or.inr ⟨step, hstep, hx⟩))

theorem chainResult_eq :
    (Scheduler.new chainGraph 1 1 1).heuristicSchedule insertionSortFn 10 = some chainResult := by
  rfl

theorem heuristicSchedule_places_each_operation_once_witness :
    StdSort insertionSortFn ∧
    (Scheduler.new chainGraph 1 1 1).heuristicSchedule insertionSortFn 10 = some chainResult ∧
    chainResult.latency = (chainResult.schedule.length : Int) ∧
    (∀ pair ∈ chainGraph.nodes, getOperationType (chainGraph.deref pair.2) ≠ -1 →
      1 ≤ chainResult.getNodeTime pair.2 ∧ chainResult.getNodeTime pair.2 ≤ chainResult.latency ∧
      ∀ (i : Nat) (step : List NodePtr), chainResult.schedule[i]? = some step →
        step.count pair.2 = if (i : Int) + 1 = chainResult.getNodeTime pair.2 then 1 else 0) ∧
    (∀ step ∈ chainResult.schedule, ∀ x ∈ step,
      x ∈ chainGraph.nodes.map Prod.snd ∧ getOperationType (chainGraph.deref x) ≠ -1) :=
  ⟨stdSort_insertionSortFn, chainResult_eq,
    heuristicSchedule_places_each_operation_once insertionSortFn stdSort_insertionSortFn
      chainGraph 1 1 1 10 chainResult chainResult_eq⟩

/-- C2. When `heuristicSchedule` returns, for every edge p -> n of the graph (p is among the
`inputs` of n) between two nodes of kind AND, OR or NOT, the time recorded for p is strictly
less than the time recorded for n. -/
theorem heuristicSchedule_predecessor_earlier
    (sortFn : (NodePtr → NodePtr → Bool) → List NodePtr → List NodePtr)
    (hsort : StdSort sortFn) (g : Graph)
    (andLimit orLimit notLimit : Int) (fuel : Nat) (s : Scheduler)
    (h : (Scheduler.new g andLimit orLimit notLimit).heuristicSchedule sortFn fuel = some s) :
    ∀ pp ∈ g.nodes, ∀ pn ∈ g.nodes,
      getOperationType (g.deref pp.2) ≠ -1 → getOperationType (g.deref pn.2) ≠ -1 →
      pp.2 ∈ (g.deref pn.2).inputs →
      s.getNodeTime pp.2 < s.getNodeTime pn.2 := by
  obtain ⟨prio, st, k, _, hinv, hU, hlat, htime, hsched⟩ :=
    heuristicSchedule_eq_some sortFn hsort g andLimit orLimit notLimit fuel s h
  intro pp hpp pn hpn hopp hopn hedge
  have hp0 : pp.2 ∈ initialUnscheduled g :=
    (mem_initialUnscheduled g pp.2).2 ⟨List.mem_map.2 ⟨pp, hpp, rfl⟩, hopp⟩
  have hn0 : pn.2 ∈ initialUnscheduled g :=
    (mem_initialUnscheduled g pn.2).2 ⟨List.mem_map.2 ⟨pn, hpn, rfl⟩, hopn⟩
  rcases (hinv.cover pn.2).1 hn0 with hu | ⟨step, hs, hx⟩
  · rw [hU] at hu
    exact absurd hu (List.not_mem_nil _)
  · obtain ⟨i, hi, hget⟩ := List.getElem_of_mem hs
    have hgeti : st.schedule[i]? = some step := by
      rw [List.getElem?_eq_getElem hi, hget]
    obtain ⟨j, stepj, hji, hgetj, hpj⟩ := hinv.prec i step hgeti pn.2 hx pp.2 hedge hp0
    have h1 := getNodeTime_eq s pn.2 _ (by rw [htime]; exact hinv.nodeTime i step hgeti pn.2 hx)
    have h2 := getNodeTime_eq s pp.2 _ (by rw [htime]; exact hinv.nodeTime j stepj hgetj pp.2 hpj)
    rw [h1, h2]
    omega

theorem heuristicSchedule_predecessor_earlier_witness :
    StdSort insertionSortFn ∧
    (Scheduler.new chainGraph 1 1 1).heuristicSchedule insertionSortFn 10 = some chainResult ∧
    ∀ pp ∈ chainGraph.nodes, ∀ pn ∈ chainGraph.nodes,
      getOperationType (chainGraph.deref pp.2) ≠ -1 →
      getOperationType (chainGraph.deref pn.2) ≠ -1 →
      pp.2 ∈ (chainGraph.deref pn.2).inputs →
      chainResult.getNodeTime pp.2 < chainResult.getNodeTime pn.2 :=
  ⟨stdSort_insertionSortFn, chainResult_eq,
    heuristicSchedule_predecessor_earlier insertionSortFn stdSort_insertionSortFn
      chainGraph 1 1 1 10 chainResult chainResult_eq⟩

theorem resourceLimit_new (g : Graph) (andLimit orLimit notLimit : Int)
    (prio : NodePtr → Option Int) :
    resourceLimit { Scheduler.new g andLimit orLimit notLimit with nodePriority := prio } "AND"
        = andLimit ∧
      resourceLimit { Scheduler.new g andLimit orLimit notLimit with nodePriority := prio } "OR"
        = orLimit ∧
      resourceLimit { Scheduler.new g andLimit orLimit notLimit with nodePriority := prio } "NOT"
        = notLimit := by
  refine ⟨?_, ?_, ?_⟩ <;> simp [resourceLimit, Scheduler.new]

/-- C3. With non-negative limits, after every iteration of the `while` loop of
`heuristicSchedule` (whatever priorities `computeNodePriorities` left), and so in the schedule of
every returning run, each time step holds at most `andLimit` nodes of kind AND, at most
`orLimit` of kind OR and at most `notLimit` of kind NOT. -/
theorem heuristicSchedule_within_limits
    (sortFn : (NodePtr → NodePtr → Bool) → List NodePtr → List NodePtr)
    (hsort : StdSort sortFn) (g : Graph)
    (andLimit orLimit notLimit : Int)
    (hand : 0 ≤ andLimit) (hor : 0 ≤ orLimit) (hnot : 0 ≤ notLimit) :
    (∀ (prio : NodePtr → Option Int) (k : Nat),
      ∀ step ∈ (loopAfter sortFn
          { Scheduler.new g andLimit orLimit notLimit with nodePriority := prio }
          ({ Scheduler.new g andLimit orLimit notLimit with nodePriority := prio } :
            Scheduler).loopStart k).schedule,
        ((step.countP (fun x => decide ((g.deref x).type = "AND")) : Nat) : Int) ≤ andLimit ∧
        ((step.countP (fun x => decide ((g.deref x).type = "OR")) : Nat) : Int) ≤ orLimit ∧
        ((step.countP (fun x => decide ((g.deref x).type = "NOT")) : Nat) : Int) ≤ notLimit) ∧
    (∀ (fuel : Nat) (s : Scheduler),
      (Scheduler.new g andLimit orLimit notLimit).heuristicSchedule sortFn fuel = some s →
      ∀ step ∈ s.schedule,
        ((step.countP (fun x => decide ((g.deref x).type = "AND")) : Nat) : Int) ≤ andLimit ∧
        ((step.countP (fun x => decide ((g.deref x).type = "OR")) : Nat) : Int) ≤ orLimit ∧
        ((step.countP (fun x => decide ((g.deref x).type = "NOT")) : Nat) : Int) ≤ notLimit) := by
  have key : ∀ (prio : NodePtr → Option Int) (st : LoopState),
      LoopInv { Scheduler.new g andLimit orLimit notLimit with nodePriority := prio } st →
      ∀ step ∈ st.schedule,
        ((step.countP (fun x => decide ((g.deref x).type = "AND")) : Nat) : Int) ≤ andLimit ∧
        ((step.countP (fun x => decide ((g.deref x).type = "OR")) : Nat) : Int) ≤ orLimit ∧
        ((step.countP (fun x => decide ((g.deref x).type = "NOT")) : Nat) : Int) ≤ notLimit := by
    intro prio st hinv step hstep
    obtain ⟨r1, r2, r3⟩ := resourceLimit_new g andLimit orLimit notLimit prio
    have h1 := hinv.res step hstep "AND"
    have h2 := hinv.res step hstep "OR"
    have h3 := hinv.res step hstep "NOT"
    rw [r1] at h1
    rw [r2] at h2
    rw [r3] at h3
    refine ⟨?_, ?_, ?_⟩
    · exact le_trans h1 (by omega)
    · exact le_trans h2 (by omega)
    · exact le_trans h3 (by omega)
  constructor
  · intro prio k
    exact key prio _ (loopInv_loopAfter sortFn hsort _ _
      (loopInv_start g andLimit orLimit notLimit prio) k)
  · intro fuel s h
    obtain ⟨prio, st, k, _, hinv, _, _, _, hsched⟩ :=
      heuristicSchedule_eq_some sortFn hsort g andLimit orLimit notLimit fuel s h
    rw [hsched]
    exact key prio st hinv

theorem heuristicSchedule_within_limits_witness :
    StdSort insertionSortFn ∧ (0 : Int) ≤ 1 ∧
    (Scheduler.new chainGraph 1 1 1).heuristicSchedule insertionSortFn 10 = some chainResult ∧
    ∀ step ∈ chainResult.schedule,
      ((step.countP (fun x => decide ((chainGraph.deref x).type = "AND")) : Nat) : Int) ≤ 1 ∧
      ((step.countP (fun x => decide ((chainGraph.deref x).type = "OR")) : Nat) : Int) ≤ 1 ∧
      ((step.countP (fun x => decide ((chainGraph.deref x).type = "NOT")) : Nat) : Int) ≤ 1 :=
  ⟨stdSort_insertionSortFn, by decide, chainResult_eq,
    (heuristicSchedule_within_limits insertionSortFn stdSort_insertionSortFn chainGraph 1 1 1
      (by decide) (by decide) (by decide)).2 10 chainResult chainResult_eq⟩

/-! ## Termination of `computeNodePriorities` -/

theorem unvisited_card_mono (graph : Graph) (st st1 : PrioState)
    (h : ∀ p, st.visited p = true → st1.visited p = true) :
    (unvisited graph st1).card ≤ (unvisited graph st).card := by
  apply Finset.card_le_card
  intro p hp
  simp only [unvisited, Finset.mem_filter] at hp ⊢
  refine ⟨hp.1, ?_⟩
  by_contra hc
  have := h p (by simpa using hc)
  rw [this] at hp
  exact Bool.noConfusion hp.2

theorem unvisited_card_mark (graph : Graph) (st : PrioState) (node : NodePtr)
    (prio : NodePtr → Option Int)
    (hnode : node ∈ graph.nodes.map Prod.snd) (hv : st.visited node = false) :
    (unvisited graph { visited := fun q => if q = node then true else st.visited q,
                       nodePriority := prio }).card < (unvisited graph st).card := by
  apply Finset.card_lt_card
  rw [Finset.ssubset_iff_of_subset]
  · refine ⟨node, ?_, ?_⟩
    · simp only [unvisited, Finset.mem_filter, List.mem_toFinset]
      exact ⟨hnode, hv⟩
    · simp [unvisited]
  · intro p hp
    simp only [unvisited, Finset.mem_filter] at hp ⊢
    refine ⟨hp.1, ?_⟩
    by_cases hq : p = node
    · simp [hq] at hp
    · simpa [hq] using hp.2

theorem dfsSuccs_terminates (graph : Graph) (fuel : Nat)
    (ih : ∀ node st, node ∈ graph.nodes.map Prod.snd → (unvisited graph st).card < fuel →
      ∃ r st1, dfs graph fuel node st = some (r, st1) ∧
        ∀ p, st.visited p = true → st1.visited p = true)
    (l : List NodePtr) (hl : ∀ x ∈ l, x ∈ graph.nodes.map Prod.snd)
    (maxLevel : Int) (st : PrioState) (hst : (unvisited graph st).card < fuel) :
    ∃ r st1, dfsSuccs (dfs graph fuel) l maxLevel st = some (r, st1) ∧
      ∀ p, st.visited p = true → st1.visited p = true := by
  induction l generalizing maxLevel st with
  | nil => exact ⟨maxLevel, st, rfl, fun _ h => h⟩
  | cons x rest ihl =>
    obtain ⟨level, st1, h1, hm1⟩ := ih x st (hl x (List.mem_cons_self _ _)) hst
    have hst1 : (unvisited graph st1).card < fuel :=
      lt_of_le_of_lt (unvisited_card_mono graph st st1 hm1) hst
    obtain ⟨r, st2, h2, hm2⟩ := ihl (fun y hy => hl y (List.mem_cons_of_mem _ hy))
      (if level > maxLevel then level else maxLevel) st1 hst1
    refine ⟨r, st2, ?_, fun p hp => hm2 p (hm1 p hp)⟩
    simp only [dfsSuccs, h1]
    exact h2

theorem dfs_terminates (graph : Graph) (hclosed : graph.SuccessorsClosed) (fuel : Nat) :
    ∀ node st, node ∈ graph.nodes.map Prod.snd → (unvisited graph st).card < fuel →
      ∃ r st1, dfs graph fuel node st = some (r, st1) ∧
        ∀ p, st.visited p = true → st1.visited p = true := by
  induction fuel with
  | zero => intro node st _ h; exact absurd h (Nat.not_lt_zero _)
  | succ fuel ih =>
    intro node st hnode hst
    by_cases hv : st.visited node = true
    · refine ⟨(st.nodePriority node).getD 0,
        { st with nodePriority := mapSet st.nodePriority node ((st.nodePriority node).getD 0) },
        by simp only [dfs, hv, if_true], fun _ h => h⟩
    · have hv1 : st.visited node = false := by simpa using hv
      have hcard := unvisited_card_mark graph st node st.nodePriority hnode hv1
      obtain ⟨pair, hpair, hp2⟩ := List.mem_map.1 hnode
      have hsucc : ∀ x ∈ (graph.deref node).outputs, x ∈ graph.nodes.map Prod.snd := by
        intro x hx
        rw [← hp2] at hx
        exact hclosed pair hpair x hx
      obtain ⟨r, st1, h1, hm1⟩ := dfsSuccs_terminates graph fuel ih _ hsucc 0
        { visited := fun q => if q = node then true else st.visited q,
          nodePriority := st.nodePriority } (by omega)
      refine ⟨_, _, by simp only [dfs, hv, h1]; rfl, ?_⟩
      intro p hp
      apply hm1
      simp [hp]

theorem visitAll_terminates (graph : Graph) (hclosed : graph.SuccessorsClosed) (fuel : Nat)
    (l : List (String × NodePtr)) (hl : ∀ pair ∈ l, pair.2 ∈ graph.nodes.map Prod.snd)
    (st : PrioState) (hst : (unvisited graph st).card < fuel) :
    ∃ st1, visitAll graph fuel l st = some st1 := by
  induction l generalizing st with
  | nil => exact ⟨st, rfl⟩
  | cons pair rest ih =>
    have hrest : ∀ p ∈ rest, p.2 ∈ graph.nodes.map Prod.snd :=
      fun p hp => hl p (List.mem_cons_of_mem _ hp)
    by_cases hv : st.visited pair.2 = true
    · obtain ⟨st1, h1⟩ := ih hrest st hst
      exact ⟨st1, by simp only [visitAll, hv, if_true]; exact h1⟩
    · obtain ⟨r, st1, h1, hm1⟩ := dfs_terminates graph hclosed fuel pair.2 st
        (hl pair (List.mem_cons_self _ _)) hst
      obtain ⟨st2, h2⟩ := ih hrest st1
        (lt_of_le_of_lt (unvisited_card_mono graph st st1 hm1) hst)
      exact ⟨st2, by simp only [visitAll, hv, h1]; exact h2⟩

theorem computeNodePriorities_terminates (self : Scheduler)
    (hclosed : self.graph.SuccessorsClosed) (fuel : Nat) (hfuel : self.graph.nodes.length < fuel) :
    ∃ prio, self.computeNodePriorities fuel = some { self with nodePriority := prio } := by
  have hcard : ∀ st, (unvisited self.graph st).card < fuel := by
    intro st
    have h1 : (unvisited self.graph st).card ≤ (self.graph.nodes.map Prod.snd).toFinset.card :=
      Finset.card_le_card (Finset.filter_subset _ _)
    have h2 := List.toFinset_card_le (self.graph.nodes.map Prod.snd)
    rw [List.length_map] at h2
    omega
  obtain ⟨st1, h1⟩ := visitAll_terminates self.graph hclosed fuel self.graph.nodes
    (fun pair hp => List.mem_map.2 ⟨pair, hp, rfl⟩)
    (markEndpoints self.graph { visited := fun _ => false, nodePriority := self.nodePriority })
    (hcard _)
  exact ⟨st1.nodePriority, by simp only [Scheduler.computeNodePriorities, h1]⟩

/-! ## Progress and termination of the `while` loop -/

theorem exists_ready_of_acyclic (graph : Graph) (hacyc : graph.Acyclic) (U : List NodePtr)
    (hU : U ≠ []) : ∃ x ∈ U, isReady graph U x = true := by
  haveI : IsTrans {x // x ∈ U}
      (fun a b => Relation.TransGen (fun p n => p ∈ (graph.deref n).inputs) a.1 b.1) :=
    ⟨fun _ _ _ h1 h2 => Relation.TransGen.trans h1 h2⟩
  haveI : IsIrrefl {x // x ∈ U}
      (fun a b => Relation.TransGen (fun p n => p ∈ (graph.deref n).inputs) a.1 b.1) :=
    ⟨fun a h => hacyc a.1 h⟩
  have hwf := Finite.wellFounded_of_trans_of_irrefl
    (fun (a b : {x // x ∈ U}) =>
      Relation.TransGen (fun p n => p ∈ (graph.deref n).inputs) a.1 b.1)
  obtain ⟨y, hy⟩ := List.exists_mem_of_ne_nil U hU
  obtain ⟨a, _, hmin⟩ := hwf.has_min Set.univ ⟨⟨y, hy⟩, Set.mem_univ _⟩
  refine ⟨a.1, a.2, ?_⟩
  unfold isReady
  rw [List.all_eq_true]
  intro p hp
  simp only [Bool.not_eq_true', decide_eq_false_iff_not]
  intro hpU
  exact hmin ⟨p, hpU⟩ (Set.mem_univ _) (Relation.TransGen.single hp)

theorem length_diff_lt (U C : List NodePtr) (hU : U.Nodup) (x : NodePtr) (hxC : x ∈ C)
    (hxU : x ∈ U) : (U.diff C).length < U.length := by
  have hsub := List.diff_sublist U C
  rcases Nat.lt_or_ge (U.diff C).length U.length with h | h
  · exact h
  · have heq := hsub.eq_of_length (le_antisymm hsub.length_le h)
    have hx : x ∈ U.diff C := by rw [heq]; exact hxU
    exact absurd hxC ((hU.mem_diff_iff).1 hx).2

/-- The hypothesis that every resource type with a node in the graph has at least one unit. -/
theorem limit_pos_of_mem (g : Graph) (andLimit orLimit notLimit : Int)
    (prio : NodePtr → Option Int)
    (hand : (∃ pair ∈ g.nodes, (g.deref pair.2).type = "AND") → 1 ≤ andLimit)
    (hor : (∃ pair ∈ g.nodes, (g.deref pair.2).type = "OR") → 1 ≤ orLimit)
    (hnot : (∃ pair ∈ g.nodes, (g.deref pair.2).type = "NOT") → 1 ≤ notLimit)
    (x : NodePtr) (hx : x ∈ initialUnscheduled g) :
    1 ≤ resourceLimit { Scheduler.new g andLimit orLimit notLimit with nodePriority := prio }
      (g.deref x).type := by
  obtain ⟨hmem, hop⟩ := (mem_initialUnscheduled g x).1 hx
  obtain ⟨pair, hpair, hp2⟩ := List.mem_map.1 hmem
  subst hp2
  obtain ⟨r1, r2, r3⟩ := resourceLimit_new g andLimit orLimit notLimit prio
  rcases (getOperationType_ne_iff _).1 hop with ht | ht | ht
  · rw [ht, r1]; exact hand ⟨pair, hpair, ht⟩
  · rw [ht, r2]; exact hor ⟨pair, hpair, ht⟩
  · rw [ht, r3]; exact hnot ⟨pair, hpair, ht⟩

theorem whileBody_progress
    (sortFn : (NodePtr → NodePtr → Bool) → List NodePtr → List NodePtr)
    (hsort : StdSort sortFn) (g : Graph)
    (andLimit orLimit notLimit : Int) (prio : NodePtr → Option Int)
    (hacyc : g.Acyclic)
    (hand : (∃ pair ∈ g.nodes, (g.deref pair.2).type = "AND") → 1 ≤ andLimit)
    (hor : (∃ pair ∈ g.nodes, (g.deref pair.2).type = "OR") → 1 ≤ orLimit)
    (hnot : (∃ pair ∈ g.nodes, (g.deref pair.2).type = "NOT") → 1 ≤ notLimit)
    (st : LoopState)
    (hinv : LoopInv { Scheduler.new g andLimit orLimit notLimit with nodePriority := prio } st)
    (hne : st.unscheduledNodes ≠ []) :
    stepChosen sortFn { Scheduler.new g andLimit orLimit notLimit with nodePriority := prio }
        st.unscheduledNodes ≠ [] ∧
      (whileBody sortFn { Scheduler.new g andLimit orLimit notLimit with nodePriority := prio }
        st).unscheduledNodes.length < st.unscheduledNodes.length := by
  obtain ⟨x, hxU, hr⟩ := exists_ready_of_acyclic g hacyc st.unscheduledNodes hne
  have hx0 : x ∈ initialUnscheduled g := (hinv.cover x).2 (Or.inl hxU)
  have hlim := limit_pos_of_mem g andLimit orLimit notLimit prio hand hor hnot x hx0
  have hC := stepChosen_ne_nil sortFn hsort
    { Scheduler.new g andLimit orLimit notLimit with nodePriority := prio }
    st.unscheduledNodes x hxU hr hlim
  refine ⟨hC, ?_⟩
  rw [whileBody_eq]
  obtain ⟨y, hy⟩ := List.exists_mem_of_ne_nil _ hC
  exact length_diff_lt _ _ hinv.nodupU y hy (mem_stepChosen sortFn hsort _ _ y hy).1

theorem heuristicLoop_terminates
    (sortFn : (NodePtr → NodePtr → Bool) → List NodePtr → List NodePtr)
    (hsort : StdSort sortFn) (g : Graph)
    (andLimit orLimit notLimit : Int) (prio : NodePtr → Option Int)
    (hacyc : g.Acyclic)
    (hand : (∃ pair ∈ g.nodes, (g.deref pair.2).type = "AND") → 1 ≤ andLimit)
    (hor : (∃ pair ∈ g.nodes, (g.deref pair.2).type = "OR") → 1 ≤ orLimit)
    (hnot : (∃ pair ∈ g.nodes, (g.deref pair.2).type = "NOT") → 1 ≤ notLimit)
    (fuel : Nat) (st : LoopState)
    (hinv : LoopInv { Scheduler.new g andLimit orLimit notLimit with nodePriority := prio } st)
    (hlen : st.unscheduledNodes.length ≤ fuel) :
    ∃ st1, heuristicLoop sortFn
      { Scheduler.new g andLimit orLimit notLimit with nodePriority := prio } fuel st
        = some st1 := by
  induction fuel generalizing st with
  | zero =>
    have : st.unscheduledNodes = [] := List.length_eq_zero.1 (Nat.le_zero.1 hlen)
    exact ⟨st, by simp [heuristicLoop, this]⟩
  | succ fuel ih =>
    by_cases he : st.unscheduledNodes = []
    · exact ⟨st, by simp [heuristicLoop, he]⟩
    · obtain ⟨_, hlt⟩ := whileBody_progress sortFn hsort g andLimit orLimit notLimit prio hacyc
        hand hor hnot st hinv he
      obtain ⟨st1, h1⟩ := ih _ (loopInv_whileBody sortFn hsort _ st hinv) (by omega)
      refine ⟨st1, ?_⟩
      have he1 : st.unscheduledNodes.isEmpty = false := by
        simpa [List.isEmpty_iff] using he
      simp only [heuristicLoop, he1]
      exact h1

theorem loopAfter_progress
    (sortFn : (NodePtr → NodePtr → Bool) → List NodePtr → List NodePtr)
    (hsort : StdSort sortFn) (g : Graph)
    (andLimit orLimit notLimit : Int) (prio : NodePtr → Option Int)
    (hacyc : g.Acyclic)
    (hand : (∃ pair ∈ g.nodes, (g.deref pair.2).type = "AND") → 1 ≤ andLimit)
    (hor : (∃ pair ∈ g.nodes, (g.deref pair.2).type = "OR") → 1 ≤ orLimit)
    (hnot : (∃ pair ∈ g.nodes, (g.deref pair.2).type = "NOT") → 1 ≤ notLimit) (k : Nat) :
    (∀ step ∈ (loopAfter sortFn
        { Scheduler.new g andLimit orLimit notLimit with nodePriority := prio }
        ({ Scheduler.new g andLimit orLimit notLimit with nodePriority := prio } :
          Scheduler).loopStart k).schedule, step ≠ []) ∧
      (loopAfter sortFn
        { Scheduler.new g andLimit orLimit notLimit with nodePriority := prio }
        ({ Scheduler.new g andLimit orLimit notLimit with nodePriority := prio } :
          Scheduler).loopStart k).schedule.length +
      (loopAfter sortFn
        { Scheduler.new g andLimit orLimit notLimit with nodePriority := prio }
        ({ Scheduler.new g andLimit orLimit notLimit with nodePriority := prio } :
          Scheduler).loopStart k).unscheduledNodes.length ≤ (initialUnscheduled g).length := by
  induction k with
  | zero =>
    constructor
    · intro step hstep
      simp [loopAfter, Scheduler.loopStart, Scheduler.new] at hstep
    · simp [loopAfter, Scheduler.loopStart, Scheduler.new]
  | succ k ih =>
    have hinv := loopInv_loopAfter sortFn hsort _ _
      (loopInv_start g andLimit orLimit notLimit prio) k
    rw [loopAfter]
    split
    · exact ih
    · rename_i he
      have hne : (loopAfter sortFn
          { Scheduler.new g andLimit orLimit notLimit with nodePriority := prio }
          ({ Scheduler.new g andLimit orLimit notLimit with nodePriority := prio } :
            Scheduler).loopStart k).unscheduledNodes ≠ [] := by
        simpa [List.isEmpty_iff] using he
      obtain ⟨hC, hlt⟩ := whileBody_progress sortFn hsort g andLimit orLimit notLimit prio hacyc
        hand hor hnot _ hinv hne
      constructor
      · intro step hstep
        rw [whileBody_eq] at hstep
        rcases List.mem_append.1 hstep with hs | hs
        · exact ih.1 step hs
        · rw [List.mem_singleton.1 hs]
          exact hC
      · have h2 := ih.2
        have hlen : (whileBody sortFn
            { Scheduler.new g andLimit orLimit notLimit with nodePriority := prio }
            (loopAfter sortFn
              { Scheduler.new g andLimit orLimit notLimit with nodePriority := prio }
              ({ Scheduler.new g andLimit orLimit notLimit with nodePriority := prio } :
                Scheduler).loopStart k)).schedule.length =
            (loopAfter sortFn
              { Scheduler.new g andLimit orLimit notLimit with nodePriority := prio }
              ({ Scheduler.new g andLimit orLimit notLimit with nodePriority := prio } :
                Scheduler).loopStart k).schedule.length + 1 := by
          rw [whileBody_eq]
          simp
        omega

theorem length_setInsert_le (addr : NodePtr → Nat) (x : NodePtr) (s : List NodePtr) :
    (setInsert addr x s).length ≤ s.length + 1 := by
  unfold setInsert
  split
  · omega
  · rw [(List.perm_orderedInsert _ x s).length_eq]
    simp

theorem length_insertOperations_le (graph : Graph) (l : List (String × NodePtr))
    (s : List NodePtr) :
    (insertOperations graph l s).length ≤
      s.length + (l.filter (fun pair => decide (getOperationType (graph.deref pair.2) ≠ -1))).length := by
  induction l generalizing s with
  | nil => simp [insertOperations]
  | cons pair rest ih =>
    have hstep : insertOperations graph (pair :: rest) s =
        insertOperations graph rest
          (if getOperationType (graph.deref pair.2) = -1 then s
           else setInsert graph.addr pair.2 s) := rfl
    rw [hstep]
    refine le_trans (ih _) ?_
    by_cases hop : getOperationType (graph.deref pair.2) = -1
    · simp [hop]
    · have := length_setInsert_le graph.addr pair.2 s
      simp only [hop, if_false, List.filter_cons, ne_eq, not_false_eq_true, decide_True, if_true,
        List.length_cons]
      omega

theorem length_initialUnscheduled_le (graph : Graph) :
    (initialUnscheduled graph).length ≤
      (graph.nodes.filter
        (fun pair => decide (getOperationType (graph.deref pair.2) ≠ -1))).length := by
  have := length_insertOperations_le graph graph.nodes []
  simpa [initialUnscheduled] using this

theorem acyclic_of_rank (graph : Graph) (rank : NodePtr → Nat)
    (h : ∀ n, ∀ p ∈ (graph.deref n).inputs, rank p < rank n) : graph.Acyclic := by
  have key : ∀ a b, Relation.TransGen (fun p n => p ∈ (graph.deref n).inputs) a b →
      rank a < rank b := by
    intro a b hab
    induction hab with
    | single h1 => exact h _ _ h1
    | tail _ h2 ih => exact lt_trans ih (h _ _ h2)
  intro x hx
  exact lt_irrefl _ (key x x hx)

theorem chainGraph_acyclic : chainGraph.Acyclic := by
  apply acyclic_of_rank chainGraph (fun p => p)
  intro n
  match n with
  | 0 => decide
  | 1 => decide
  | 2 => decide
  | 3 => decide
  | 4 => decide
  | n + 5 => intro p hp; exact absurd hp (List.not_mem_nil _)

theorem chainGraph_successorsClosed : chainGraph.SuccessorsClosed := by
  unfold Graph.SuccessorsClosed
  decide

/-- C4. On an acyclic graph whose edges stay inside the graph, with at least one unit of every
resource type that has a node, `heuristicSchedule` returns (any fuel above the number of nodes
suffices); every operation node of the graph is in the schedule, every iteration of the loop
scheduled at least one node, and the number of iterations, which is the reported latency, is at
most the number of operation nodes. -/
theorem heuristicSchedule_terminates_with_progress
    (sortFn : (NodePtr → NodePtr → Bool) → List NodePtr → List NodePtr)
    (hsort : StdSort sortFn) (g : Graph)
    (andLimit orLimit notLimit : Int)
    (hclosed : g.SuccessorsClosed) (hacyc : g.Acyclic)
    (hand : (∃ pair ∈ g.nodes, (g.deref pair.2).type = "AND") → 1 ≤ andLimit)
    (hor : (∃ pair ∈ g.nodes, (g.deref pair.2).type = "OR") → 1 ≤ orLimit)
    (hnot : (∃ pair ∈ g.nodes, (g.deref pair.2).type = "NOT") → 1 ≤ notLimit)
    (fuel : Nat) (hfuel : g.nodes.length < fuel) :
    ∃ s, (Scheduler.new g andLimit orLimit notLimit).heuristicSchedule sortFn fuel = some s ∧
      (∀ pair ∈ g.nodes, getOperationType (g.deref pair.2) ≠ -1 →
        ∃ step ∈ s.schedule, pair.2 ∈ step) ∧
      (∀ step ∈ s.schedule, step ≠ []) ∧
      s.latency = (s.schedule.length : Int) ∧
      s.schedule.length ≤
        (g.nodes.filter (fun pair => decide (getOperationType (g.deref pair.2) ≠ -1))).length := by
  obtain ⟨prio, hprio⟩ := computeNodePriorities_terminates
    (Scheduler.new g andLimit orLimit notLimit) hclosed fuel hfuel
  have hU0 := length_initialUnscheduled_le g
  have hfilter : (g.nodes.filter
      (fun pair => decide (getOperationType (g.deref pair.2) ≠ -1))).length ≤ g.nodes.length :=
    List.length_filter_le _ _
  obtain ⟨st1, hloop⟩ := heuristicLoop_terminates sortFn hsort g andLimit orLimit notLimit prio
    hacyc hand hor hnot fuel _ (loopInv_start g andLimit orLimit notLimit prio)
    (by
      show (initialUnscheduled g).length ≤ fuel
      omega)
  have hs : (Scheduler.new g andLimit orLimit notLimit).heuristicSchedule sortFn fuel =
      some { ({ Scheduler.new g andLimit orLimit notLimit with nodePriority := prio } :
          Scheduler) with
        latency := st1.currentTime - 1, nodeTime := st1.nodeTime, schedule := st1.schedule } := by
    simp only [Scheduler.heuristicSchedule, hprio, hloop]
  refine ⟨_, hs, ?_⟩
  obtain ⟨prio1, st, k, hk, hinv, hU, hlat, _, hsched⟩ :=
    heuristicSchedule_eq_some sortFn hsort g andLimit orLimit notLimit fuel _ hs
  obtain ⟨hne, hlen⟩ := loopAfter_progress sortFn hsort g andLimit orLimit notLimit prio1 hacyc
    hand hor hnot k
  rw [← hk] at hne hlen
  refine ⟨?_, ?_, ?_, ?_⟩
  · intro pair hpair hop
    have hx0 : pair.2 ∈ initialUnscheduled g :=
      (mem_initialUnscheduled g pair.2).2 ⟨List.mem_map.2 ⟨pair, hpair, rfl⟩, hop⟩
    rcases (hinv.cover pair.2).1 hx0 with hu | hstep
    · rw [hU] at hu
      exact absurd hu (List.not_mem_nil _)
    · rw [hsched]
      exact hstep
  · rw [hsched]
    exact hne
  · rw [hlat, hsched, hinv.time]
    ring
  · rw [hsched]
    omega

theorem heuristicSchedule_terminates_with_progress_witness :
    StdSort insertionSortFn ∧ chainGraph.SuccessorsClosed ∧ chainGraph.Acyclic ∧
    ∃ s, (Scheduler.new chainGraph 1 1 1).heuristicSchedule insertionSortFn 6 = some s ∧
      (∀ pair ∈ chainGraph.nodes, getOperationType (chainGraph.deref pair.2) ≠ -1 →
        ∃ step ∈ s.schedule, pair.2 ∈ step) ∧
      (∀ step ∈ s.schedule, step ≠ []) ∧
      s.latency = (s.schedule.length : Int) ∧
      s.schedule.length ≤ (chainGraph.nodes.filter
        (fun pair => decide (getOperationType (chainGraph.deref pair.2) ≠ -1))).length :=
  ⟨stdSort_insertionSortFn, chainGraph_successorsClosed, chainGraph_acyclic,
    heuristicSchedule_terminates_with_progress insertionSortFn stdSort_insertionSortFn
      chainGraph 1 1 1 chainGraph_successorsClosed chainGraph_acyclic
      (fun _ => by decide) (fun _ => by decide) (fun _ => by decide) 6 (by decide)⟩

theorem loopAfter_keeps_unit_less
    (sortFn : (NodePtr → NodePtr → Bool) → List NodePtr → List NodePtr)
    (hsort : StdSort sortFn) (g : Graph)
    (andLimit orLimit notLimit : Int) (prio : NodePtr → Option Int) (x : NodePtr)
    (hx : x ∈ initialUnscheduled g)
    (hlim : resourceLimit { Scheduler.new g andLimit orLimit notLimit with nodePriority := prio }
      (g.deref x).type ≤ 0) (k : Nat) :
    x ∈ (loopAfter sortFn
      { Scheduler.new g andLimit orLimit notLimit with nodePriority := prio }
      ({ Scheduler.new g andLimit orLimit notLimit with nodePriority := prio } :
        Scheduler).loopStart k).unscheduledNodes := by
  induction k with
  | zero => exact hx
  | succ k ih =>
    have hinv := loopInv_loopAfter sortFn hsort _ _
      (loopInv_start g andLimit orLimit notLimit prio) k
    rw [loopAfter]
    split
    · exact ih
    · rw [whileBody_eq]
      simp only [hinv.nodupU.mem_diff_iff]
      exact ⟨ih, not_mem_stepChosen_of_limit sortFn hsort _ _ x hlim⟩

/-- C5 (what the code does). With `andLimit = 0` and an AND node in the graph,
`heuristicSchedule` never returns: the `while` loop has no test for an iteration that schedules
nothing, so no error is reported and the loop runs until the fuel is exhausted, whatever the
fuel. -/
theorem heuristicSchedule_hangs_without_and_unit
    (sortFn : (NodePtr → NodePtr → Bool) → List NodePtr → List NodePtr)
    (hsort : StdSort sortFn) (g : Graph)
    (orLimit notLimit : Int) (pair : String × NodePtr) (hpair : pair ∈ g.nodes)
    (htype : (g.deref pair.2).type = "AND") (fuel : Nat) :
    (Scheduler.new g 0 orLimit notLimit).heuristicSchedule sortFn fuel = none := by
  cases hres : (Scheduler.new g 0 orLimit notLimit).heuristicSchedule sortFn fuel with
  | none => rfl
  | some s =>
    exfalso
    obtain ⟨prio, st, k, hk, _, hU, _, _, _⟩ :=
      heuristicSchedule_eq_some sortFn hsort g 0 orLimit notLimit fuel s hres
    have hx0 : pair.2 ∈ initialUnscheduled g :=
      (mem_initialUnscheduled g pair.2).2 ⟨List.mem_map.2 ⟨pair, hpair, rfl⟩,
        (getOperationType_ne_iff _).2 (Or.inl htype)⟩
    have hlim : resourceLimit { Scheduler.new g 0 orLimit notLimit with nodePriority := prio }
        (g.deref pair.2).type ≤ 0 := by
      rw [htype, (resourceLimit_new g 0 orLimit notLimit prio).1]
    have := loopAfter_keeps_unit_less sortFn hsort g 0 orLimit notLimit prio pair.2 hx0 hlim k
    rw [← hk, hU] at this
    exact absurd this (List.not_mem_nil _)

theorem heuristicSchedule_hangs_without_and_unit_witness :
    StdSort insertionSortFn ∧ (("a", 1) : String × NodePtr) ∈ chainGraph.nodes ∧
    (chainGraph.deref 1).type = "AND" ∧
    (Scheduler.new chainGraph 0 1 1).heuristicSchedule insertionSortFn 1000 = none :=
  ⟨stdSort_insertionSortFn, by decide, by decide,
    heuristicSchedule_hangs_without_and_unit insertionSortFn stdSort_insertionSortFn chainGraph
      1 1 ("a", 1) (by decide) (by decide) 1000⟩

/-! ## The model of the exact scheduler -/

theorem mem_timeSlots (maxLatency : Int) (t : Nat) :
    t ∈ timeSlots maxLatency ↔ 1 ≤ t ∧ (t : Int) ≤ maxLatency := by
  unfold timeSlots
  rw [List.mem_range'_1]
  omega

theorem nodup_timeSlots (maxLatency : Int) : (timeSlots maxLatency).Nodup :=
  List.nodup_range' _ _

theorem mem_operationNodes (graph : Graph) (x : NodePtr) :
    x ∈ operationNodes graph ↔
      x ∈ graph.nodes.map Prod.snd ∧ getOperationType (graph.deref x) ≠ -1 := by
  unfold operationNodes
  simp only [List.mem_map, List.mem_filter, decide_eq_true_eq]
  constructor
  · rintro ⟨pair, ⟨h1, h2⟩, rfl⟩
    exact ⟨⟨pair, h1, rfl⟩, h2⟩
  · rintro ⟨⟨pair, h1, rfl⟩, h2⟩
    exact ⟨pair, ⟨h1, h2⟩, rfl⟩

theorem mem_operationNodes_iff_initialUnscheduled (graph : Graph) (x : NodePtr) :
    x ∈ operationNodes graph ↔ x ∈ initialUnscheduled graph := by
  rw [mem_operationNodes, mem_initialUnscheduled]

theorem getOperationType_eq_zero (node : Node) :
    getOperationType node = 0 ↔ node.type = "AND" := by
  unfold getOperationType
  by_cases h1 : node.type = "AND"
  · simp [h1]
  · by_cases h2 : node.type = "OR"
    · simp [h2]
    · by_cases h3 : node.type = "NOT"
      · simp [h3]
      · simp [h1, h2, h3]

theorem getOperationType_eq_one (node : Node) :
    getOperationType node = 1 ↔ node.type = "OR" := by
  unfold getOperationType
  by_cases h1 : node.type = "AND"
  · simp [h1]
  · by_cases h2 : node.type = "OR"
    · simp [h2]
    · by_cases h3 : node.type = "NOT"
      · simp [h3]
      · simp [h1, h2, h3]

theorem getOperationType_eq_two (node : Node) :
    getOperationType node = 2 ↔ node.type = "NOT" := by
  unfold getOperationType
  by_cases h1 : node.type = "AND"
  · simp [h1]
  · by_cases h2 : node.type = "OR"
    · simp [h2]
    · by_cases h3 : node.type = "NOT"
      · simp [h3]
      · simp [h1, h2, h3]

theorem eval_slotSum (a : GRBVar → Int) (coeff : Nat → Int) (node : NodePtr)
    (slots : List Nat) :
    (slotSum coeff node slots).eval a =
      (slots.map (fun t => coeff t * a (GRBVar.x node t))).sum := by
  simp [slotSum, GRBLinExpr.eval, List.map_map, Function.comp_def]

theorem eval_constExpr (a : GRBVar → Int) (c : Int) : (constExpr c).eval a = c := by
  simp [constExpr, GRBLinExpr.eval]

theorem eval_varExpr (a : GRBVar → Int) (v : GRBVar) : (varExpr v).eval a = a v := by
  simp [varExpr, GRBLinExpr.eval]

theorem eval_resourceExpr (a : GRBVar → Int) (graph : Graph) (ops : List NodePtr)
    (opType : Int) (t : Nat) :
    (resourceExpr graph ops opType t).eval a =
      ((ops.filter (fun node => decide (getOperationType (graph.deref node) = opType))).map
        (fun node => a (GRBVar.x node t))).sum := by
  simp [resourceExpr, GRBLinExpr.eval, List.map_map, Function.comp_def]

/-! ### Sums of 0/1 values -/

theorem le_sum_of_mem {α : Type} (f : α → Int) (l : List α) (hf : ∀ x ∈ l, 0 ≤ f x)
    (x : α) (hx : x ∈ l) : f x ≤ (l.map f).sum := by
  induction l with
  | nil => exact absurd hx (List.not_mem_nil _)
  | cons y rest ih =>
    have hrest : ∀ z ∈ rest, 0 ≤ f z := fun z hz => hf z (List.mem_cons_of_mem _ hz)
    have hsum : 0 ≤ (rest.map f).sum := by
      apply List.sum_nonneg
      intro v hv
      obtain ⟨z, hz, rfl⟩ := List.mem_map.1 hv
      exact hrest z hz
    simp only [List.map_cons, List.sum_cons]
    rcases List.mem_cons.1 hx with h | h
    · subst h; omega
    · have := ih hrest h
      have := hf y (List.mem_cons_self _ _)
      omega

theorem add_le_sum_of_mem {α : Type} (f : α → Int) (l : List α) (hf : ∀ x ∈ l, 0 ≤ f x)
    (hl : l.Nodup) (x y : α) (hx : x ∈ l) (hy : y ∈ l) (hxy : x ≠ y) :
    f x + f y ≤ (l.map f).sum := by
  induction l with
  | nil => exact absurd hx (List.not_mem_nil _)
  | cons z rest ih =>
    have hrest : ∀ w ∈ rest, 0 ≤ f w := fun w hw => hf w (List.mem_cons_of_mem _ hw)
    simp only [List.map_cons, List.sum_cons]
    have hz := hf z (List.mem_cons_self _ _)
    rcases List.mem_cons.1 hx with h1 | h1
    · rcases List.mem_cons.1 hy with h2 | h2
      · exact absurd (h1.trans h2.symm) hxy
      · have := le_sum_of_mem f rest hrest y h2
        subst h1; omega
    · rcases List.mem_cons.1 hy with h2 | h2
      · have := le_sum_of_mem f rest hrest x h1
        subst h2; omega
      · have := ih hrest (List.nodup_cons.1 hl).2 h1 h2
        omega

theorem exists_one_of_sum_eq_one {α : Type} (f : α → Int) (l : List α)
    (hf : ∀ x ∈ l, 0 ≤ f x ∧ f x ≤ 1) (hsum : 1 ≤ (l.map f).sum) : ∃ x ∈ l, f x = 1 := by
  induction l with
  | nil => simp at hsum
  | cons y rest ih =>
    simp only [List.map_cons, List.sum_cons] at hsum
    have hy := hf y (List.mem_cons_self _ _)
    by_cases h1 : f y = 1
    · exact ⟨y, List.mem_cons_self _ _, h1⟩
    · have h0 : f y = 0 := by omega
      obtain ⟨x, hx, hfx⟩ := ih (fun z hz => hf z (List.mem_cons_of_mem _ hz)) (by omega)
      exact ⟨x, List.mem_cons_of_mem _ hx, hfx⟩

theorem countP_eq_sum {α : Type} (f : α → Int) (l : List α)
    (hf : ∀ x ∈ l, 0 ≤ f x ∧ f x ≤ 1) :
    ((l.countP (fun x => decide (f x = 1)) : Nat) : Int) = (l.map f).sum := by
  induction l with
  | nil => simp
  | cons y rest ih =>
    have hy := hf y (List.mem_cons_self _ _)
    have := ih (fun z hz => hf z (List.mem_cons_of_mem _ hz))
    simp only [List.map_cons, List.sum_cons, List.countP_cons]
    by_cases h1 : f y = 1
    · simp only [h1, decide_True, if_true]
      push_cast
      omega
    · have h0 : f y = 0 := by omega
      simp only [h1, decide_False]
      simp only [h0]
      simpa using this

theorem feasible_iff (g : Graph) (andLimit orLimit notLimit maxLatency : Int)
    (v : GRBVar → Int) :
    ((ILPScheduler.new g andLimit orLimit notLimit).buildModel maxLatency).Feasible v ↔
      FeasiblePoint g andLimit orLimit notLimit maxLatency v := by
  constructor
  · rintro ⟨hb, hc⟩
    have hc1 : ∀ c ∈ schedOnceConstrs (operationNodes g) maxLatency, c.holds v :=
      fun c h => hc c (by simp [ILPScheduler.buildModel, ILPScheduler.new, h])
    have hc2 : ∀ c ∈ depConstrs g (operationNodes g) maxLatency, c.holds v :=
      fun c h => hc c (by simp [ILPScheduler.buildModel, ILPScheduler.new, h])
    have hc3 : ∀ c ∈ resourceConstrs (ILPScheduler.new g andLimit orLimit notLimit)
        (operationNodes g) maxLatency, c.holds v :=
      fun c h => hc c (by simp [ILPScheduler.buildModel, ILPScheduler.new] at h ⊢; simp [h])
    have hc4 : ∀ c ∈ latencyConstrs (operationNodes g) maxLatency, c.holds v :=
      fun c h => hc c (by simp [ILPScheduler.buildModel, ILPScheduler.new, h])
    have hc5 : ∀ c ∈ outputConstrs g maxLatency, c.holds v :=
      fun c h => hc c (by simp [ILPScheduler.buildModel, ILPScheduler.new, h])
    refine ⟨?_, ?_, ?_, ?_, ?_, ?_, ?_⟩
    · intro node hnode t ht
      exact hb { var := GRBVar.x node t, lb := 0, ub := 1 } (by
        simp only [ILPScheduler.buildModel, ILPScheduler.new, modelVars, List.mem_append,
          List.mem_flatMap, List.mem_map]
        exact Or.inl ⟨node, hnode, t, ht, rfl⟩)
    · exact hb { var := GRBVar.latencyVar, lb := 1, ub := maxLatency } (by
        simp [ILPScheduler.buildModel, ILPScheduler.new, modelVars])
    · intro node hnode
      have := hc1 _ (List.mem_map.2 ⟨node, hnode, rfl⟩)
      simpa [GRBConstr.holds, eval_slotSum, eval_constExpr] using this
    · intro node hnode pred hpred hop t ht
      have := hc2
        { lhs := varExpr (GRBVar.x node t), sense := Sense.le,
          rhs := slotSum (fun _ => 1) pred (List.range' 1 (t - 1)) } (by
        simp only [depConstrs, List.mem_flatMap]
        refine ⟨node, hnode, pred, hpred, ?_⟩
        simp only [hop, if_false, List.mem_map]
        exact ⟨t, ht, rfl⟩)
      simpa [GRBConstr.holds, eval_slotSum, eval_varExpr] using this
    · intro t ht
      refine ⟨?_, ?_, ?_⟩
      · have := hc3
          { lhs := resourceExpr g (operationNodes g) 0 t, sense := Sense.le,
            rhs := constExpr andLimit } (by
          simp only [resourceConstrs, List.mem_flatMap]
          exact ⟨t, ht, by simp [ILPScheduler.new]⟩)
        simpa [GRBConstr.holds, eval_resourceExpr, eval_constExpr] using this
      · have := hc3
          { lhs := resourceExpr g (operationNodes g) 1 t, sense := Sense.le,
            rhs := constExpr orLimit } (by
          simp only [resourceConstrs, List.mem_flatMap]
          exact ⟨t, ht, by simp [ILPScheduler.new]⟩)
        simpa [GRBConstr.holds, eval_resourceExpr, eval_constExpr] using this
      · have := hc3
          { lhs := resourceExpr g (operationNodes g) 2 t, sense := Sense.le,
            rhs := constExpr notLimit } (by
          simp only [resourceConstrs, List.mem_flatMap]
          exact ⟨t, ht, by simp [ILPScheduler.new]⟩)
        simpa [GRBConstr.holds, eval_resourceExpr, eval_constExpr] using this
    · intro node hnode
      have := hc4 _ (List.mem_map.2 ⟨node, hnode, rfl⟩)
      simpa [GRBConstr.holds, eval_slotSum, eval_varExpr] using this
    · intro node hnode pred hpred hop
      have := hc5
        { lhs := varExpr GRBVar.latencyVar, sense := Sense.ge,
          rhs := slotSum (fun t => (t : Int)) pred (timeSlots maxLatency) } (by
        simp only [outputConstrs, List.mem_flatMap, List.mem_map]
        exact ⟨node, hnode, pred, hpred, by simp [hop]⟩)
      simpa [GRBConstr.holds, eval_slotSum, eval_varExpr] using this
  · intro h
    constructor
    · intro d hd
      simp only [ILPScheduler.buildModel, ILPScheduler.new, modelVars, List.mem_append,
        List.mem_flatMap, List.mem_map, List.mem_singleton] at hd
      rcases hd with ⟨node, hnode, t, ht, rfl⟩ | rfl
      · exact h.binary node hnode t ht
      · exact h.latencyBounds
    · intro c hc
      simp only [ILPScheduler.buildModel, ILPScheduler.new, List.mem_append] at hc
      rcases hc with (((hc | hc) | hc) | hc) | hc
      · obtain ⟨node, hnode, rfl⟩ := List.mem_map.1 hc
        have := h.once node hnode
        simpa [GRBConstr.holds, eval_slotSum, eval_constExpr] using this
      · simp only [depConstrs, List.mem_flatMap] at hc
        obtain ⟨node, hnode, pred, hpred, hc⟩ := hc
        by_cases hop : getOperationType (g.deref pred) = -1
        · simp [hop] at hc
        · simp only [hop, if_false, List.mem_map] at hc
          obtain ⟨t, ht, rfl⟩ := hc
          have := h.dep node hnode pred hpred hop t ht
          simpa [GRBConstr.holds, eval_slotSum, eval_varExpr] using this
      · simp only [resourceConstrs, List.mem_flatMap, List.mem_cons, List.mem_singleton,
          List.not_mem_nil, or_false] at hc
        obtain ⟨t, ht, hc⟩ := hc
        obtain ⟨r1, r2, r3⟩ := h.resource t ht
        rcases hc with rfl | rfl | rfl
        · simpa [GRBConstr.holds, eval_resourceExpr, eval_constExpr] using r1
        · simpa [GRBConstr.holds, eval_resourceExpr, eval_constExpr] using r2
        · simpa [GRBConstr.holds, eval_resourceExpr, eval_constExpr] using r3
      · obtain ⟨node, hnode, rfl⟩ := List.mem_map.1 hc
        have := h.latency node hnode
        simpa [GRBConstr.holds, eval_slotSum, eval_varExpr] using this
      · simp only [outputConstrs, List.mem_flatMap, List.mem_map] at hc
        obtain ⟨node, hnode, pred, hpred, rfl⟩ := hc
        by_cases hop : getOperationType (g.deref pred) = -1
        · simp only [hop, if_true, GRBConstr.holds, eval_varExpr, eval_constExpr]
          exact h.latencyBounds.1
        · have := h.output node hnode pred hpred hop
          simpa [hop, GRBConstr.holds, eval_slotSum, eval_varExpr] using this

theorem chainAssignment_feasible :
    ((ILPScheduler.new chainGraph 1 1 1).buildModel 3).Feasible chainAssignment := by
  unfold GRBModel.Feasible
  decide

theorem unique_slot_of_feasible (g : Graph) (andLimit orLimit notLimit maxLatency : Int)
    (v : GRBVar → Int) (h : FeasiblePoint g andLimit orLimit notLimit maxLatency v)
    (node : NodePtr) (hnode : node ∈ operationNodes g) :
    ∃ t, t ∈ timeSlots maxLatency ∧ v (GRBVar.x node t) = 1 ∧
      ∀ t1 ∈ timeSlots maxLatency, v (GRBVar.x node t1) = 1 → t1 = t := by
  obtain ⟨t, ht, hv⟩ := exists_one_of_sum_eq_one (fun t => v (GRBVar.x node t))
    (timeSlots maxLatency) (h.binary node hnode) (le_of_eq (h.once node hnode).symm)
  refine ⟨t, ht, hv, ?_⟩
  intro t1 ht1 hv1
  by_contra hne
  have := add_le_sum_of_mem (fun t => v (GRBVar.x node t)) (timeSlots maxLatency)
    (fun x hx => (h.binary node hnode x hx).1) (nodup_timeSlots maxLatency) t1 t ht1 ht hne
  rw [h.once node hnode] at this
  simp only at this
  omega


theorem sum_ite_eq_zero (l : List Nat) (T0 : Int) (c : Nat → Int)
    (h : ∀ t ∈ l, (t : Int) ≠ T0) :
    (l.map (fun t : Nat => if (t : Int) = T0 then c t else 0)).sum = 0 := by
  induction l with
  | nil => rfl
  | cons x rest ih =>
    simp only [List.map_cons, List.sum_cons]
    rw [ih (fun t ht => h t (List.mem_cons_of_mem _ ht))]
    simp [h x (List.mem_cons_self _ _)]

theorem sum_ite_eq (l : List Nat) (hl : l.Nodup) (t0 : Nat) (ht0 : t0 ∈ l) (c : Nat → Int) :
    (l.map (fun t : Nat => if (t : Int) = (t0 : Int) then c t else 0)).sum = c t0 := by
  induction l with
  | nil => exact absurd ht0 (List.not_mem_nil _)
  | cons x rest ih =>
    obtain ⟨hx, hrest⟩ := List.nodup_cons.1 hl
    simp only [List.map_cons, List.sum_cons]
    rcases List.mem_cons.1 ht0 with h | h
    · subst h
      rw [sum_ite_eq_zero rest _ c (fun t ht e => hx (by
        have : t = t0 := by exact_mod_cast e
        rw [← this]; exact ht))]
      simp
    · have hne : (x : Int) ≠ (t0 : Int) := by
        intro e
        have : x = t0 := by exact_mod_cast e
        exact hx (this ▸ h)
      rw [ih hrest h]
      simp [hne]

/-- A schedule given by times is a feasible point of the model when every operation node has a
time in `[1, L]`, `L` is in `[1, maxLatency]`, operation predecessors are operation nodes of the
graph with a smaller time, and no slot holds more nodes of a type than its limit. -/
theorem feasiblePoint_encodeSchedule (g : Graph) (andLimit orLimit notLimit maxLatency : Int)
    (time : NodePtr → Int) (L : Int)
    (htime : ∀ x ∈ operationNodes g, 1 ≤ time x ∧ time x ≤ L)
    (hL : 1 ≤ L ∧ L ≤ maxLatency)
    (hprec : ∀ node ∈ operationNodes g, ∀ pred ∈ (g.deref node).inputs,
      getOperationType (g.deref pred) ≠ -1 → pred ∈ operationNodes g ∧ time pred < time node)
    (hres : ∀ t : Nat,
      (((operationNodes g).countP (fun x =>
          decide (time x = t) && decide (getOperationType (g.deref x) = 0)) : Nat) : Int)
        ≤ andLimit ∧
      (((operationNodes g).countP (fun x =>
          decide (time x = t) && decide (getOperationType (g.deref x) = 1)) : Nat) : Int)
        ≤ orLimit ∧
      (((operationNodes g).countP (fun x =>
          decide (time x = t) && decide (getOperationType (g.deref x) = 2)) : Nat) : Int)
        ≤ notLimit) :
    FeasiblePoint g andLimit orLimit notLimit maxLatency (encodeSchedule g time L) := by
  have hslot : ∀ x ∈ operationNodes g, (time x).toNat ∈ timeSlots maxLatency ∧
      (((time x).toNat : Nat) : Int) = time x := by
    intro x hx
    have := htime x hx
    refine ⟨(mem_timeSlots _ _).2 ⟨by omega, by omega⟩, by omega⟩
  refine ⟨?_, ?_, ?_, ?_, ?_, ?_, ?_⟩
  · intro node _ t _
    simp only [encodeSchedule]
    split <;> omega
  · exact hL
  · intro node hnode
    obtain ⟨hmem, hcast⟩ := hslot node hnode
    have := sum_ite_eq (timeSlots maxLatency) (nodup_timeSlots _) _ hmem (fun _ => 1)
    rw [hcast] at this
    simpa [encodeSchedule, hnode] using this
  · intro node hnode pred hpred hop t ht
    obtain ⟨hpmem, hlt⟩ := hprec node hnode pred hpred hop
    have hnn : 0 ≤ ((List.range' 1 (t - 1)).map
        (fun tp => encodeSchedule g time L (GRBVar.x pred tp))).sum := by
      apply List.sum_nonneg
      intro y hy
      obtain ⟨tp, _, rfl⟩ := List.mem_map.1 hy
      simp only [encodeSchedule]
      split <;> omega
    by_cases htn : (t : Int) = time node
    · obtain ⟨_, hcast⟩ := hslot pred hpmem
      have h1 := (htime pred hpmem).1
      have hin : (time pred).toNat ∈ List.range' 1 (t - 1) := by
        rw [List.mem_range'_1]
        omega
      have := sum_ite_eq (List.range' 1 (t - 1)) (List.nodup_range' _ _) _ hin (fun _ => 1)
      rw [hcast] at this
      have hsum : ((List.range' 1 (t - 1)).map
          (fun tp => encodeSchedule g time L (GRBVar.x pred tp))).sum = 1 := by
        simpa [encodeSchedule, hpmem] using this
      rw [hsum]
      simp only [encodeSchedule]
      split <;> omega
    · simp only [encodeSchedule, htn, and_false, if_false]
      exact hnn
  · intro t _
    have key : ∀ c : Int,
        (((operationNodes g).filter
          (fun node => decide (getOperationType (g.deref node) = c))).map
            (fun node => encodeSchedule g time L (GRBVar.x node t))).sum =
        (((operationNodes g).countP (fun x =>
          decide (time x = t) && decide (getOperationType (g.deref x) = c)) : Nat) : Int) := by
      intro c
      rw [← countP_eq_sum (fun node => encodeSchedule g time L (GRBVar.x node t)) _ (by
        intro x _
        simp only [encodeSchedule]
        split <;> omega), List.countP_filter]
      congr 1
      apply List.countP_congr
      intro x hx
      simp only [encodeSchedule, hx, true_and, Bool.and_eq_true, decide_eq_true_eq]
      constructor
      · rintro ⟨h1, h2⟩
        refine ⟨?_, h2⟩
        by_contra hne
        have : ¬ ((t : Int) = time x) := fun e => hne e.symm
        simp [this] at h1
      · rintro ⟨h1, h2⟩
        exact ⟨by simp [h1], h2⟩
    obtain ⟨r1, r2, r3⟩ := hres t
    rw [key 0, key 1, key 2]
    exact ⟨r1, r2, r3⟩
  · intro node hnode
    obtain ⟨hmem, hcast⟩ := hslot node hnode
    have := sum_ite_eq (timeSlots maxLatency) (nodup_timeSlots _) _ hmem (fun t => (t : Int))
    rw [hcast] at this
    have hsum : ((timeSlots maxLatency).map
        (fun (t : Nat) => (t : Int) * encodeSchedule g time L (GRBVar.x node t))).sum
          = time node := by
      rw [← this]
      congr 1
      apply List.map_congr_left
      intro t _
      simp only [encodeSchedule, hnode, true_and]
      split <;> simp
    rw [hsum]
    exact (htime node hnode).2
  · intro node _ pred _ _
    by_cases hp : pred ∈ operationNodes g
    · obtain ⟨hmem, hcast⟩ := hslot pred hp
      have := sum_ite_eq (timeSlots maxLatency) (nodup_timeSlots _) _ hmem (fun t => (t : Int))
      rw [hcast] at this
      have hsum : ((timeSlots maxLatency).map
          (fun (t : Nat) => (t : Int) * encodeSchedule g time L (GRBVar.x pred t))).sum
            = time pred := by
        rw [← this]
        congr 1
        apply List.map_congr_left
        intro t _
        simp only [encodeSchedule, hp, true_and]
        split <;> simp
      rw [hsum]
      exact (htime pred hp).2
    · have hsum : ((timeSlots maxLatency).map
          (fun (t : Nat) => (t : Int) * encodeSchedule g time L (GRBVar.x pred t))).sum = 0 := by
        apply List.sum_eq_zero
        intro y hy
        obtain ⟨t, _, rfl⟩ := List.mem_map.1 hy
        simp [encodeSchedule, hp]
      rw [hsum]
      simp only [encodeSchedule]
      omega

theorem aliasResult_eq :
    (Scheduler.new aliasGraph 1 1 1).heuristicSchedule insertionSortFn 2 = some aliasResult := by
  rfl

theorem nodup_operationNodes (graph : Graph) (h : (graph.nodes.map Prod.snd).Nodup) :
    (operationNodes graph).Nodup :=
  ((List.filter_sublist graph.nodes).map Prod.snd).nodup h

theorem countP_eq_of_mem_iff {α : Type} [DecidableEq α] (l1 l2 : List α) (p q : α → Bool)
    (h1 : l1.Nodup) (h2 : l2.Nodup)
    (h : ∀ x, (x ∈ l1 ∧ p x = true) ↔ (x ∈ l2 ∧ q x = true)) :
    l1.countP p = l2.countP q := by
  rw [List.countP_eq_length_filter, List.countP_eq_length_filter]
  apply List.Perm.length_eq
  rw [List.perm_ext_iff_of_nodup (h1.filter _) (h2.filter _)]
  intro x
  simp only [List.mem_filter]
  exact h x

/-- The facts about a returned heuristic schedule that make it a point of the exact model. -/
theorem heuristicSchedule_facts
    (sortFn : (NodePtr → NodePtr → Bool) → List NodePtr → List NodePtr)
    (hsort : StdSort sortFn) (g : Graph)
    (andLimit orLimit notLimit : Int)
    (hand : 0 ≤ andLimit) (hor : 0 ≤ orLimit) (hnot : 0 ≤ notLimit)
    (hwf : g.WellFormed) (fuel : Nat) (s : Scheduler)
    (h : (Scheduler.new g andLimit orLimit notLimit).heuristicSchedule sortFn fuel = some s) :
    (∀ x ∈ operationNodes g, 1 ≤ s.getNodeTime x ∧ s.getNodeTime x ≤ s.latency) ∧
    (∀ node ∈ operationNodes g, ∀ pred ∈ (g.deref node).inputs,
      getOperationType (g.deref pred) ≠ -1 →
        pred ∈ operationNodes g ∧ s.getNodeTime pred < s.getNodeTime node) ∧
    (∀ t : Nat,
      (((operationNodes g).countP (fun x =>
          decide (s.getNodeTime x = t) && decide (getOperationType (g.deref x) = 0)) : Nat) : Int)
        ≤ andLimit ∧
      (((operationNodes g).countP (fun x =>
          decide (s.getNodeTime x = t) && decide (getOperationType (g.deref x) = 1)) : Nat) : Int)
        ≤ orLimit ∧
      (((operationNodes g).countP (fun x =>
          decide (s.getNodeTime x = t) && decide (getOperationType (g.deref x) = 2)) : Nat) : Int)
        ≤ notLimit) := by
  obtain ⟨prio, st, k, _, hinv, hU, hlat, htime, hsched⟩ :=
    heuristicSchedule_eq_some sortFn hsort g andLimit orLimit notLimit fuel s h
  have hlen : s.latency = (st.schedule.length : Int) := by
    rw [hlat, hinv.time]; ring
  -- every operation node sits in a step whose index gives its time
  have hplace : ∀ x ∈ operationNodes g, ∃ (i : Nat) (step : List NodePtr),
      st.schedule[i]? = some step ∧ x ∈ step ∧ s.getNodeTime x = (i : Int) + 1 ∧
        i < st.schedule.length := by
    intro x hx
    have hx0 := (mem_operationNodes_iff_initialUnscheduled g x).1 hx
    rcases (hinv.cover x).1 hx0 with hu | ⟨step, hs, hxs⟩
    · rw [hU] at hu
      exact absurd hu (List.not_mem_nil _)
    · obtain ⟨i, hi, hget⟩ := List.getElem_of_mem hs
      have hgeti : st.schedule[i]? = some step := by
        rw [List.getElem?_eq_getElem hi, hget]
      exact ⟨i, step, hgeti, hxs,
        getNodeTime_eq s x _ (by rw [htime]; exact hinv.nodeTime i step hgeti x hxs), hi⟩
  refine ⟨?_, ?_, ?_⟩
  · intro x hx
    obtain ⟨i, step, _, _, ht, hi⟩ := hplace x hx
    rw [ht, hlen]
    omega
  · intro node hnode pred hpred hop
    obtain ⟨pair, hpair, hp2⟩ := List.mem_map.1 ((mem_operationNodes g node).1 hnode).1
    have hpmem : pred ∈ operationNodes g := by
      rw [mem_operationNodes]
      refine ⟨hwf.2 pair hpair pred (by rw [hp2]; exact hpred), hop⟩
    refine ⟨hpmem, ?_⟩
    obtain ⟨i, step, hgeti, hxs, ht, _⟩ := hplace node hnode
    obtain ⟨j, stepj, hji, hgetj, hpj⟩ := hinv.prec i step hgeti node hxs pred hpred
      ((mem_operationNodes_iff_initialUnscheduled g pred).1 hpmem)
    have htp := getNodeTime_eq s pred _ (by rw [htime]; exact hinv.nodeTime j stepj hgetj pred hpj)
    rw [ht, htp]
    omega
  · intro t
    have hops := nodup_operationNodes g hwf.1
    have key : ∀ (c : Int) (K : String) (lim : Int), 0 ≤ lim →
        (∀ node, getOperationType (g.deref node) = c ↔ (g.deref node).type = K) →
        resourceLimit { Scheduler.new g andLimit orLimit notLimit with nodePriority := prio } K
          = lim →
        (((operationNodes g).countP (fun x =>
          decide (s.getNodeTime x = t) && decide (getOperationType (g.deref x) = c)) : Nat) : Int)
          ≤ lim := by
      intro c K lim hlim hcK hres
      by_cases hstep : ∃ step, st.schedule[t - 1]? = some step ∧ 1 ≤ t
      · obtain ⟨step, hget, ht1⟩ := hstep
        have hmem : step ∈ st.schedule := List.getElem?_mem hget
        have hcount : (operationNodes g).countP (fun x =>
            decide (s.getNodeTime x = t) && decide (getOperationType (g.deref x) = c)) =
            step.countP (fun x => decide ((g.deref x).type = K)) := by
          apply countP_eq_of_mem_iff _ _ _ _ hops (hinv.nodupStep step hmem)
          intro x
          simp only [Bool.and_eq_true, decide_eq_true_eq, hcK]
          constructor
          · rintro ⟨hx, hxt, hty⟩
            obtain ⟨i, stepi, hgeti, hxs, hti, _⟩ := hplace x hx
            have : i = t - 1 := by omega
            subst this
            rw [hget] at hgeti
            simp only [Option.some.injEq] at hgeti
            subst hgeti
            exact ⟨hxs, hty⟩
          · rintro ⟨hxs, hty⟩
            have hx0 : x ∈ initialUnscheduled g := (hinv.cover x).2 (Or.inr ⟨step, hmem, hxs⟩)
            refine ⟨(mem_operationNodes_iff_initialUnscheduled g x).2 hx0, ?_, hty⟩
            rw [getNodeTime_eq s x _ (by rw [htime]; exact hinv.nodeTime (t - 1) step hget x hxs)]
            omega
        rw [hcount]
        have hle : ((step.countP (fun x => decide ((g.deref x).type = K)) : Nat) : Int) ≤
            max 0 (resourceLimit
              { Scheduler.new g andLimit orLimit notLimit with nodePriority := prio } K) :=
          hinv.res step hmem K
        rw [hres] at hle
        omega
      · have hzero : (operationNodes g).countP (fun x =>
            decide (s.getNodeTime x = t) && decide (getOperationType (g.deref x) = c)) = 0 := by
          rw [List.countP_eq_zero]
          intro x hx hp
          simp only [Bool.and_eq_true, decide_eq_true_eq] at hp
          obtain ⟨i, stepi, hgeti, _, hti, _⟩ := hplace x hx
          apply hstep
          have : i = t - 1 := by omega
          subst this
          exact ⟨stepi, hgeti, by omega⟩
        rw [hzero]
        exact hlim
    obtain ⟨r1, r2, r3⟩ := resourceLimit_new g andLimit orLimit notLimit prio
    exact ⟨key 0 "AND" andLimit hand (fun _ => getOperationType_eq_zero _) r1,
      key 1 "OR" orLimit hor (fun _ => getOperationType_eq_one _) r2,
      key 2 "NOT" notLimit hnot (fun _ => getOperationType_eq_two _) r3⟩

theorem heuristicSchedule_latency_nonneg
    (sortFn : (NodePtr → NodePtr → Bool) → List NodePtr → List NodePtr)
    (hsort : StdSort sortFn) (g : Graph)
    (andLimit orLimit notLimit : Int) (fuel : Nat) (s : Scheduler)
    (h : (Scheduler.new g andLimit orLimit notLimit).heuristicSchedule sortFn fuel = some s) :
    0 ≤ s.latency := by
  obtain ⟨prio, st, k, _, hinv, _, hlat, _, _⟩ :=
    heuristicSchedule_eq_some sortFn hsort g andLimit orLimit notLimit fuel s h
  rw [hlat, hinv.time]
  omega

/-- The heuristic schedule of a well-formed graph with an operation node is a feasible point of
the exact model whose horizon is the heuristic latency. -/
theorem heuristicSchedule_feasiblePoint
    (sortFn : (NodePtr → NodePtr → Bool) → List NodePtr → List NodePtr)
    (hsort : StdSort sortFn) (g : Graph)
    (andLimit orLimit notLimit : Int)
    (hand : 0 ≤ andLimit) (hor : 0 ≤ orLimit) (hnot : 0 ≤ notLimit)
    (hwf : g.WellFormed) (hops : operationNodes g ≠ []) (fuel : Nat) (s : Scheduler)
    (h : (Scheduler.new g andLimit orLimit notLimit).heuristicSchedule sortFn fuel = some s) :
    FeasiblePoint g andLimit orLimit notLimit s.latency
      (encodeSchedule g s.getNodeTime s.latency) := by
  obtain ⟨f1, f2, f3⟩ := heuristicSchedule_facts sortFn hsort g andLimit orLimit notLimit
    hand hor hnot hwf fuel s h
  obtain ⟨x, hx⟩ := List.exists_mem_of_ne_nil _ hops
  have := f1 x hx
  exact feasiblePoint_encodeSchedule g andLimit orLimit notLimit s.latency s.getNodeTime
    s.latency f1 ⟨by omega, le_refl _⟩ f2 f3

theorem aliasGraph_acyclic : aliasGraph.Acyclic := by
  apply acyclic_of_rank aliasGraph (fun p => p)
  intro n p hp
  exact absurd hp (List.not_mem_nil _)

theorem aliasResult_latency : aliasResult.latency = 0 := by
  rfl

theorem aliasGraph_model_infeasible (v : GRBVar → Int) :
    ¬ ((ILPScheduler.new aliasGraph 1 1 1).buildModel aliasResult.latency).Feasible v := by
  intro h
  have hb := ((feasible_iff aliasGraph 1 1 1 aliasResult.latency v).1 h).latencyBounds
  rw [aliasResult_latency] at hb
  omega

theorem chainGraph_wellFormed : chainGraph.WellFormed := by
  unfold Graph.WellFormed
  decide

/-- The heuristic point is feasible on graphs that have an operation node. For a well-formed
graph with at least one operation node and non-negative limits on which the heuristic returns,
the point `x[n,t] = 1` exactly when `t` is the heuristic
time of `n`, `latencyVar` = heuristic latency, satisfies every variable bound and every
constraint of the model built by `exactSchedule`; and every start value of lines 147-154 is set
on a declared variable (the index `t - 1` is in range) to the value of that point. -/
theorem heuristic_point_feasible
    (sortFn : (NodePtr → NodePtr → Bool) → List NodePtr → List NodePtr)
    (hsort : StdSort sortFn) (g : Graph)
    (andLimit orLimit notLimit : Int)
    (hand : 0 ≤ andLimit) (hor : 0 ≤ orLimit) (hnot : 0 ≤ notLimit)
    (hwf : g.WellFormed) (hops : operationNodes g ≠ []) (fuel : Nat) (s : Scheduler)
    (h : (Scheduler.new g andLimit orLimit notLimit).heuristicSchedule sortFn fuel = some s) :
    ((ILPScheduler.new g andLimit orLimit notLimit).buildModel s.latency).Feasible
      (encodeSchedule g s.getNodeTime s.latency) ∧
    ∀ e ∈ warmStart s (operationNodes g),
      e.2 = encodeSchedule g s.getNodeTime s.latency e.1 ∧
      ∃ d ∈ ((ILPScheduler.new g andLimit orLimit notLimit).buildModel s.latency).vars,
        d.var = e.1 := by
  constructor
  · exact (feasible_iff g andLimit orLimit notLimit s.latency _).2
      (heuristicSchedule_feasiblePoint sortFn hsort g andLimit orLimit notLimit hand hor hnot
        hwf hops fuel s h)
  · obtain ⟨f1, _, _⟩ := heuristicSchedule_facts sortFn hsort g andLimit orLimit notLimit
      hand hor hnot hwf fuel s h
    intro e he
    simp only [warmStart, List.mem_append, List.mem_flatMap, List.mem_singleton] at he
    rcases he with ⟨node, hnode, he⟩ | rfl
    · have ht := f1 node hnode
      have hne : s.getNodeTime node ≠ -1 := by omega
      simp only [hne, ne_eq, not_false_eq_true, if_true, List.mem_singleton] at he
      subst he
      have hcast : (((s.getNodeTime node).toNat : Nat) : Int) = s.getNodeTime node := by omega
      refine ⟨by simp [encodeSchedule, hnode, hcast], ?_⟩
      refine ⟨{ var := GRBVar.x node (s.getNodeTime node).toNat, lb := 0, ub := 1 }, ?_, rfl⟩
      simp only [ILPScheduler.buildModel, ILPScheduler.new, modelVars, List.mem_append,
        List.mem_flatMap, List.mem_map]
      exact Or.inl ⟨node, hnode, _, (mem_timeSlots _ _).2 ⟨by omega, by omega⟩, rfl⟩
    · refine ⟨rfl, { var := GRBVar.latencyVar, lb := 1, ub := s.latency }, ?_, rfl⟩
      simp [ILPScheduler.buildModel, ILPScheduler.new, modelVars]

theorem heuristic_point_feasible_witness :
    StdSort insertionSortFn ∧ chainGraph.WellFormed ∧ operationNodes chainGraph ≠ [] ∧
    (Scheduler.new chainGraph 1 1 1).heuristicSchedule insertionSortFn 10 = some chainResult ∧
    ((ILPScheduler.new chainGraph 1 1 1).buildModel chainResult.latency).Feasible
      (encodeSchedule chainGraph chainResult.getNodeTime chainResult.latency) :=
  ⟨stdSort_insertionSortFn, chainGraph_wellFormed, by decide, chainResult_eq,
    (heuristic_point_feasible insertionSortFn stdSort_insertionSortFn chainGraph 1 1 1
      (by decide) (by decide) (by decide) chainGraph_wellFormed (by decide) 10 chainResult
      chainResult_eq).1⟩

/-- C8 (failing input). On the acyclic graph with no operation node the heuristic returns
latency 0; `exactSchedule` takes it as `maxLatency`, declares `latencyVar` with the bounds
`[1, 0]` and sets its start value to 0, outside them. The heuristic point is not a feasible
point of the model: no assignment is. -/
theorem heuristic_point_infeasible_on_aliasGraph :
    aliasGraph.Acyclic ∧
    (Scheduler.new aliasGraph 1 1 1).heuristicSchedule insertionSortFn 2 = some aliasResult ∧
    aliasResult.latency = 0 ∧
    ((ILPScheduler.new aliasGraph 1 1 1).buildModel aliasResult.latency).vars =
      [{ var := GRBVar.latencyVar, lb := 1, ub := 0 }] ∧
    warmStart aliasResult (operationNodes aliasGraph) = [(GRBVar.latencyVar, 0)] ∧
    ¬ ((ILPScheduler.new aliasGraph 1 1 1).buildModel aliasResult.latency).Feasible
      (encodeSchedule aliasGraph aliasResult.getNodeTime aliasResult.latency) :=
  ⟨aliasGraph_acyclic, aliasResult_eq, rfl, rfl, rfl, aliasGraph_model_infeasible _⟩

theorem pred_slot_lt_of_feasible (g : Graph) (andLimit orLimit notLimit maxLatency : Int)
    (v : GRBVar → Int) (hp : FeasiblePoint g andLimit orLimit notLimit maxLatency v)
    (node : NodePtr) (hnode : node ∈ operationNodes g) (pred : NodePtr)
    (hpred : pred ∈ operationNodes g) (hedge : pred ∈ (g.deref node).inputs)
    (t tp : Nat) (ht : t ∈ timeSlots maxLatency) (htp : tp ∈ timeSlots maxLatency)
    (hv : v (GRBVar.x node t) = 1) (hvp : v (GRBVar.x pred tp) = 1) : tp < t := by
  have hop : getOperationType (g.deref pred) ≠ -1 := ((mem_operationNodes g pred).1 hpred).2
  have hdep := hp.dep node hnode pred hedge hop t ht
  rw [hv] at hdep
  have ht2 := ((mem_timeSlots _ _).1 ht).2
  have hbin : ∀ x ∈ List.range' 1 (t - 1),
      0 ≤ v (GRBVar.x pred x) ∧ v (GRBVar.x pred x) ≤ 1 := by
    intro x hx
    rw [List.mem_range'_1] at hx
    exact hp.binary pred hpred x ((mem_timeSlots _ _).2 ⟨hx.1, by omega⟩)
  obtain ⟨tp1, htp1mem, hvp1⟩ := exists_one_of_sum_eq_one (fun x => v (GRBVar.x pred x))
    (List.range' 1 (t - 1)) hbin hdep
  rw [List.mem_range'_1] at htp1mem
  obtain ⟨t0, _, _, huniq⟩ :=
    unique_slot_of_feasible g andLimit orLimit notLimit maxLatency v hp pred hpred
  have e1 := huniq tp htp hvp
  have e2 := huniq tp1 ((mem_timeSlots _ _).2 ⟨htp1mem.1, by omega⟩) hvp1
  omega

theorem resource_count_of_feasible (g : Graph) (andLimit orLimit notLimit maxLatency : Int)
    (v : GRBVar → Int) (hp : FeasiblePoint g andLimit orLimit notLimit maxLatency v)
    (t : Nat) (ht : t ∈ timeSlots maxLatency) (c : Int) :
    (((operationNodes g).countP (fun node =>
        decide (v (GRBVar.x node t) = 1) && decide (getOperationType (g.deref node) = c)) :
          Nat) : Int) =
      (((operationNodes g).filter
        (fun node => decide (getOperationType (g.deref node) = c))).map
          (fun node => v (GRBVar.x node t))).sum := by
  rw [← countP_eq_sum (fun node => v (GRBVar.x node t)) _
    (fun x hx => hp.binary x (List.mem_filter.1 hx).1 t ht), List.countP_filter]

theorem slot_le_latencyVar_of_feasible (g : Graph)
    (andLimit orLimit notLimit maxLatency : Int)
    (v : GRBVar → Int) (hp : FeasiblePoint g andLimit orLimit notLimit maxLatency v)
    (node : NodePtr) (hnode : node ∈ operationNodes g) (t : Nat)
    (ht : t ∈ timeSlots maxLatency) (hv : v (GRBVar.x node t) = 1) :
    (t : Int) ≤ v GRBVar.latencyVar := by
  have hle := le_sum_of_mem (fun (t : Nat) => (t : Int) * v (GRBVar.x node t))
    (timeSlots maxLatency)
    (fun x hx => mul_nonneg (Int.ofNat_nonneg x) (hp.binary node hnode x hx).1) t ht
  have hlat := hp.latency node hnode
  simp only [hv, mul_one] at hle
  omega

/-- C6. Every integral assignment that satisfies the variable bounds and all constraints of the
model built by `exactSchedule` is a valid schedule: each operation node has exactly one slot
`t` in `[1, maxLatency]` with `x[n,t] = 1`; along every edge between two operation nodes the
slot of the predecessor is strictly smaller; in every slot the number of operation nodes of each
kind with `x[n,t] = 1` is at most the limit of the kind; and `latencyVar` is at least the slot
of every node. -/
theorem feasible_assignment_is_valid_schedule (g : Graph)
    (andLimit orLimit notLimit maxLatency : Int) (v : GRBVar → Int)
    (h : ((ILPScheduler.new g andLimit orLimit notLimit).buildModel maxLatency).Feasible v) :
    (∀ node ∈ operationNodes g,
      ∃ t : Nat, (1 ≤ t ∧ (t : Int) ≤ maxLatency) ∧ v (GRBVar.x node t) = 1 ∧
        ∀ t1 : Nat, 1 ≤ t1 → (t1 : Int) ≤ maxLatency → v (GRBVar.x node t1) = 1 → t1 = t) ∧
    (∀ node ∈ operationNodes g, ∀ pred ∈ operationNodes g, pred ∈ (g.deref node).inputs →
      ∀ t tp : Nat, 1 ≤ t → (t : Int) ≤ maxLatency → 1 ≤ tp → (tp : Int) ≤ maxLatency →
        v (GRBVar.x node t) = 1 → v (GRBVar.x pred tp) = 1 → tp < t) ∧
    (∀ t : Nat, 1 ≤ t → (t : Int) ≤ maxLatency →
      (((operationNodes g).countP (fun node =>
          decide (v (GRBVar.x node t) = 1) && decide ((g.deref node).type = "AND")) : Nat) : Int)
        ≤ andLimit ∧
      (((operationNodes g).countP (fun node =>
          decide (v (GRBVar.x node t) = 1) && decide ((g.deref node).type = "OR")) : Nat) : Int)
        ≤ orLimit ∧
      (((operationNodes g).countP (fun node =>
          decide (v (GRBVar.x node t) = 1) && decide ((g.deref node).type = "NOT")) : Nat) : Int)
        ≤ notLimit) ∧
    (∀ node ∈ operationNodes g, ∀ t : Nat, 1 ≤ t → (t : Int) ≤ maxLatency →
      v (GRBVar.x node t) = 1 → (t : Int) ≤ v GRBVar.latencyVar) := by
  have hp := (feasible_iff g andLimit orLimit notLimit maxLatency v).1 h
  refine ⟨?_, ?_, ?_, ?_⟩
  · intro node hnode
    obtain ⟨t, ht, hv, huniq⟩ :=
      unique_slot_of_feasible g andLimit orLimit notLimit maxLatency v hp node hnode
    exact ⟨t, (mem_timeSlots _ _).1 ht, hv,
      fun t1 h1 h2 hv1 => huniq t1 ((mem_timeSlots _ _).2 ⟨h1, h2⟩) hv1⟩
  · intro node hnode pred hpred hedge t tp ht1 ht2 htp1 htp2 hv hvp
    exact pred_slot_lt_of_feasible g andLimit orLimit notLimit maxLatency v hp node hnode pred
      hpred hedge t tp ((mem_timeSlots _ _).2 ⟨ht1, ht2⟩) ((mem_timeSlots _ _).2 ⟨htp1, htp2⟩)
      hv hvp
  · intro t ht1 ht2
    have ht : t ∈ timeSlots maxLatency := (mem_timeSlots _ _).2 ⟨ht1, ht2⟩
    obtain ⟨r1, r2, r3⟩ := hp.resource t ht
    have e0 := resource_count_of_feasible g andLimit orLimit notLimit maxLatency v hp t ht 0
    have e1 := resource_count_of_feasible g andLimit orLimit notLimit maxLatency v hp t ht 1
    have e2 := resource_count_of_feasible g andLimit orLimit notLimit maxLatency v hp t ht 2
    have c0 : (operationNodes g).countP (fun node =>
        decide (v (GRBVar.x node t) = 1) && decide ((g.deref node).type = "AND")) =
        (operationNodes g).countP (fun node =>
          decide (v (GRBVar.x node t) = 1) && decide (getOperationType (g.deref node) = 0)) :=
      List.countP_congr (fun x _ => by simp [getOperationType_eq_zero])
    have c1 : (operationNodes g).countP (fun node =>
        decide (v (GRBVar.x node t) = 1) && decide ((g.deref node).type = "OR")) =
        (operationNodes g).countP (fun node =>
          decide (v (GRBVar.x node t) = 1) && decide (getOperationType (g.deref node) = 1)) :=
      List.countP_congr (fun x _ => by simp [getOperationType_eq_one])
    have c2 : (operationNodes g).countP (fun node =>
        decide (v (GRBVar.x node t) = 1) && decide ((g.deref node).type = "NOT")) =
        (operationNodes g).countP (fun node =>
          decide (v (GRBVar.x node t) = 1) && decide (getOperationType (g.deref node) = 2)) :=
      List.countP_congr (fun x _ => by simp [getOperationType_eq_two])
    rw [c0, c1, c2, e0, e1, e2]
    exact ⟨r1, r2, r3⟩
  · intro node hnode t ht1 ht2 hv
    exact slot_le_latencyVar_of_feasible g andLimit orLimit notLimit maxLatency v hp node hnode
      t ((mem_timeSlots _ _).2 ⟨ht1, ht2⟩) hv

theorem feasible_assignment_is_valid_schedule_witness :
    ((ILPScheduler.new chainGraph 1 1 1).buildModel 3).Feasible chainAssignment ∧
    (∀ node ∈ operationNodes chainGraph, ∀ pred ∈ operationNodes chainGraph,
      pred ∈ (chainGraph.deref node).inputs →
      ∀ t tp : Nat, 1 ≤ t → (t : Int) ≤ 3 → 1 ≤ tp → (tp : Int) ≤ 3 →
        chainAssignment (GRBVar.x node t) = 1 → chainAssignment (GRBVar.x pred tp) = 1 →
        tp < t) :=
  ⟨chainAssignment_feasible,
    (feasible_assignment_is_valid_schedule chainGraph 1 1 1 3 chainAssignment
      chainAssignment_feasible).2.1⟩

theorem le_foldr_max (l : List Nat) (x : Nat) (hx : x ∈ l) : x ≤ l.foldr max 0 := by
  induction l with
  | nil => exact absurd hx (List.not_mem_nil _)
  | cons y rest ih =>
    simp only [List.foldr_cons]
    rcases List.mem_cons.1 hx with h | h
    · subst h; exact le_max_left _ _
    · exact le_trans (ih h) (le_max_right _ _)

theorem foldr_max_le (l : List Nat) (B : Nat) (h : ∀ x ∈ l, x ≤ B) : l.foldr max 0 ≤ B := by
  induction l with
  | nil => exact Nat.zero_le _
  | cons y rest ih =>
    simp only [List.foldr_cons]
    exact max_le (h y (List.mem_cons_self _ _)) (ih (fun x hx => h x (List.mem_cons_of_mem _ hx)))

theorem foldr_max_mem (l : List Nat) (hl : l ≠ []) : l.foldr max 0 ∈ l := by
  induction l with
  | nil => exact absurd rfl hl
  | cons y rest ih =>
    simp only [List.foldr_cons]
    by_cases hr : rest = []
    · subst hr
      simp
    · rcases le_total y (rest.foldr max 0) with h | h
      · rw [max_eq_right h]
        exact List.mem_cons_of_mem _ (ih hr)
      · rw [max_eq_left h]
        exact List.mem_cons_self _ _

theorem decodeTime_spec (g : Graph) (andLimit orLimit notLimit maxLatency : Int)
    (v : GRBVar → Int) (hp : FeasiblePoint g andLimit orLimit notLimit maxLatency v)
    (node : NodePtr) (hnode : node ∈ operationNodes g) :
    decodeTime maxLatency v node ∈ timeSlots maxLatency ∧
      v (GRBVar.x node (decodeTime maxLatency v node)) = 1 ∧
      ∀ t1 ∈ timeSlots maxLatency, v (GRBVar.x node t1) = 1 →
        t1 = decodeTime maxLatency v node := by
  obtain ⟨t, ht, hv, huniq⟩ :=
    unique_slot_of_feasible g andLimit orLimit notLimit maxLatency v hp node hnode
  have hdec : decodeTime maxLatency v node = t := by
    unfold decodeTime
    cases hfind : (timeSlots maxLatency).find? (fun t => decide (v (GRBVar.x node t) = 1)) with
    | none =>
      rw [List.find?_eq_none] at hfind
      exact absurd (by simpa using hv) (hfind t ht)
    | some t1 =>
      have h1 := List.mem_of_find?_eq_some hfind
      have h2 := List.find?_some hfind
      simp only [decide_eq_true_eq] at h2
      simpa using huniq t1 h1 h2
  rw [hdec]
  exact ⟨ht, hv, huniq⟩

/-- The schedule read off a feasible point is valid and its latency is at most `latencyVar`. -/
theorem validSchedule_of_feasiblePoint (g : Graph)
    (andLimit orLimit notLimit maxLatency : Int)
    (v : GRBVar → Int) (hp : FeasiblePoint g andLimit orLimit notLimit maxLatency v) :
    ValidSchedule g andLimit orLimit notLimit (decodeTime maxLatency v) ∧
      (scheduleLatency g (decodeTime maxLatency v) : Int) ≤ v GRBVar.latencyVar := by
  have hT : (1 : Nat) ∈ timeSlots maxLatency :=
    (mem_timeSlots _ _).2 ⟨le_refl _, by have := hp.latencyBounds; omega⟩
  have hnonneg : ∀ c : Int, 0 ≤ (((operationNodes g).filter
      (fun node => decide (getOperationType (g.deref node) = c))).map
        (fun node => v (GRBVar.x node 1))).sum := by
    intro c
    apply List.sum_nonneg
    intro y hy
    obtain ⟨x, hx, rfl⟩ := List.mem_map.1 hy
    exact (hp.binary x (List.mem_filter.1 hx).1 1 hT).1
  obtain ⟨q1, q2, q3⟩ := hp.resource 1 hT
  have hand : 0 ≤ andLimit := le_trans (hnonneg 0) q1
  have hor : 0 ≤ orLimit := le_trans (hnonneg 1) q2
  have hnot : 0 ≤ notLimit := le_trans (hnonneg 2) q3
  refine ⟨⟨?_, ?_, ?_⟩, ?_⟩
  · intro x hx
    exact ((mem_timeSlots _ _).1 (decodeTime_spec g _ _ _ _ v hp x hx).1).1
  · intro node hnode pred hpred hedge
    obtain ⟨h1, h2, _⟩ := decodeTime_spec g _ _ _ _ v hp node hnode
    obtain ⟨h3, h4, _⟩ := decodeTime_spec g _ _ _ _ v hp pred hpred
    exact pred_slot_lt_of_feasible g andLimit orLimit notLimit maxLatency v hp node hnode pred
      hpred hedge _ _ h1 h3 h2 h4
  · intro t
    have key : ∀ (c : Int) (K : String) (lim : Int), 0 ≤ lim →
        (∀ node, getOperationType (g.deref node) = c ↔ (g.deref node).type = K) →
        (t ∈ timeSlots maxLatency → (((operationNodes g).filter
          (fun node => decide (getOperationType (g.deref node) = c))).map
            (fun node => v (GRBVar.x node t))).sum ≤ lim) →
        (((operationNodes g).countP (fun x =>
          decide (decodeTime maxLatency v x = t) && decide ((g.deref x).type = K)) : Nat) : Int)
          ≤ lim := by
      intro c K lim hlim hcK hres
      by_cases ht : t ∈ timeSlots maxLatency
      · have e := resource_count_of_feasible g andLimit orLimit notLimit maxLatency v hp t ht c
        have hc : (operationNodes g).countP (fun x =>
            decide (decodeTime maxLatency v x = t) && decide ((g.deref x).type = K)) =
            (operationNodes g).countP (fun node =>
              decide (v (GRBVar.x node t) = 1) &&
                decide (getOperationType (g.deref node) = c)) := by
          apply List.countP_congr
          intro x hx
          obtain ⟨h1, h2, h3⟩ := decodeTime_spec g _ _ _ _ v hp x hx
          simp only [Bool.and_eq_true, decide_eq_true_eq, hcK]
          constructor
          · rintro ⟨e1, e2⟩
            exact ⟨e1 ▸ h2, e2⟩
          · rintro ⟨e1, e2⟩
            exact ⟨(h3 t ht e1).symm, e2⟩
        rw [hc, e]
        exact hres ht
      · have hzero : (operationNodes g).countP (fun x =>
            decide (decodeTime maxLatency v x = t) && decide ((g.deref x).type = K)) = 0 := by
          rw [List.countP_eq_zero]
          intro x hx hpx
          simp only [Bool.and_eq_true, decide_eq_true_eq] at hpx
          exact ht (hpx.1 ▸ (decodeTime_spec g _ _ _ _ v hp x hx).1)
        rw [hzero]
        exact hlim
    exact ⟨key 0 "AND" andLimit hand (fun _ => getOperationType_eq_zero _)
        (fun ht => (hp.resource t ht).1),
      key 1 "OR" orLimit hor (fun _ => getOperationType_eq_one _)
        (fun ht => (hp.resource t ht).2.1),
      key 2 "NOT" notLimit hnot (fun _ => getOperationType_eq_two _)
        (fun ht => (hp.resource t ht).2.2)⟩
  · have hL := hp.latencyBounds
    have hbound : ∀ y ∈ (operationNodes g).map (decodeTime maxLatency v),
        y ≤ (v GRBVar.latencyVar).toNat := by
      intro y hy
      obtain ⟨x, hx, rfl⟩ := List.mem_map.1 hy
      obtain ⟨h1, h2, _⟩ := decodeTime_spec g _ _ _ _ v hp x hx
      have := slot_le_latencyVar_of_feasible g andLimit orLimit notLimit maxLatency v hp x hx
        _ h1 h2
      omega
    have := foldr_max_le _ _ hbound
    unfold scheduleLatency
    omega

/-- A valid schedule whose latency is within the horizon is a feasible point of the model, with
`latencyVar` equal to its latency. -/
theorem feasiblePoint_of_validSchedule (g : Graph)
    (andLimit orLimit notLimit maxLatency : Int) (time : NodePtr → Nat)
    (hwf : g.WellFormed) (hops : operationNodes g ≠ [])
    (hvalid : ValidSchedule g andLimit orLimit notLimit time)
    (hle : (scheduleLatency g time : Int) ≤ maxLatency) :
    FeasiblePoint g andLimit orLimit notLimit maxLatency
      (encodeSchedule g (fun x => (time x : Int)) (scheduleLatency g time)) := by
  have hmax : ∀ x ∈ operationNodes g, time x ≤ scheduleLatency g time :=
    fun x hx => le_foldr_max _ _ (List.mem_map.2 ⟨x, hx, rfl⟩)
  obtain ⟨x0, hx0⟩ := List.exists_mem_of_ne_nil _ hops
  have h0 := hvalid.start x0 hx0
  have h1 := hmax x0 hx0
  apply feasiblePoint_encodeSchedule
  · intro x hx
    have := hvalid.start x hx
    have := hmax x hx
    constructor <;> omega
  · constructor <;> omega
  · intro node hnode pred hpred hop
    obtain ⟨pair, hpair, hp2⟩ := List.mem_map.1 ((mem_operationNodes g node).1 hnode).1
    have hpmem : pred ∈ operationNodes g := by
      rw [mem_operationNodes]
      exact ⟨hwf.2 pair hpair pred (by rw [hp2]; exact hpred), hop⟩
    have := hvalid.prec node hnode pred hpmem hpred
    exact ⟨hpmem, by omega⟩
  · intro t
    obtain ⟨r1, r2, r3⟩ := hvalid.resource t
    have key : ∀ (c : Int) (K : String),
        (∀ node, getOperationType (g.deref node) = c ↔ (g.deref node).type = K) →
        (operationNodes g).countP (fun x =>
          decide ((time x : Int) = (t : Int)) && decide (getOperationType (g.deref x) = c)) =
        (operationNodes g).countP (fun x =>
          decide (time x = t) && decide ((g.deref x).type = K)) := by
      intro c K hcK
      apply List.countP_congr
      intro x _
      simp only [Bool.and_eq_true, decide_eq_true_eq, hcK, Nat.cast_inj]
    rw [key 0 "AND" (fun _ => getOperationType_eq_zero _),
      key 1 "OR" (fun _ => getOperationType_eq_one _),
      key 2 "NOT" (fun _ => getOperationType_eq_two _)]
    exact ⟨r1, r2, r3⟩

theorem operationNodes_aliasGraph : operationNodes aliasGraph = [] := by
  decide

/-- Below every valid schedule there is a feasible point of the exact model whose horizon is the
heuristic latency: the schedule itself when it fits the horizon, the heuristic schedule
otherwise. -/
theorem exists_feasible_le_of_validSchedule
    (sortFn : (NodePtr → NodePtr → Bool) → List NodePtr → List NodePtr)
    (hsort : StdSort sortFn) (g : Graph)
    (andLimit orLimit notLimit : Int) (hwf : g.WellFormed) (hops : operationNodes g ≠ [])
    (fuel : Nat) (s : Scheduler)
    (h : (Scheduler.new g andLimit orLimit notLimit).heuristicSchedule sortFn fuel = some s)
    (time : NodePtr → Nat) (hvalid : ValidSchedule g andLimit orLimit notLimit time) :
    ∃ v, FeasiblePoint g andLimit orLimit notLimit s.latency v ∧
      v GRBVar.latencyVar ≤ (scheduleLatency g time : Int) := by
  by_cases hle : (scheduleLatency g time : Int) ≤ s.latency
  · exact ⟨_, feasiblePoint_of_validSchedule g andLimit orLimit notLimit s.latency time hwf hops
      hvalid hle, le_refl _⟩
  · obtain ⟨r1, r2, r3⟩ := hvalid.resource 0
    refine ⟨_, heuristicSchedule_feasiblePoint sortFn hsort g andLimit orLimit notLimit
      (by omega) (by omega) (by omega) hwf hops fuel s h, ?_⟩
    simp only [encodeSchedule]
    omega

/-- The optimum of the model is the least latency on graphs that have an operation node. For
a well-formed graph with at least one operation node on which the heuristic returns, the least
value of `latencyVar` over the feasible points of the model built
by `exactSchedule` (horizon = heuristic latency) is the least latency of all valid schedules,
whatever their horizon; and at a feasible point where `latencyVar` is least it equals the
largest time step of the schedule read off that point. -/
theorem exact_optimum_is_least_latency
    (sortFn : (NodePtr → NodePtr → Bool) → List NodePtr → List NodePtr)
    (hsort : StdSort sortFn) (g : Graph)
    (andLimit orLimit notLimit : Int) (hwf : g.WellFormed) (hops : operationNodes g ≠ [])
    (fuel : Nat) (s : Scheduler)
    (h : (Scheduler.new g andLimit orLimit notLimit).heuristicSchedule sortFn fuel = some s) :
    (∀ m : Int,
      IsLeast {L : Int | ∃ v,
        ((ILPScheduler.new g andLimit orLimit notLimit).buildModel s.latency).Feasible v ∧
          v GRBVar.latencyVar = L} m ↔
      IsLeast {M : Int | ∃ time, ValidSchedule g andLimit orLimit notLimit time ∧
          (scheduleLatency g time : Int) = M} m) ∧
    (∀ v, ((ILPScheduler.new g andLimit orLimit notLimit).buildModel s.latency).Feasible v →
      (∀ v1, ((ILPScheduler.new g andLimit orLimit notLimit).buildModel s.latency).Feasible v1 →
        v GRBVar.latencyVar ≤ v1 GRBVar.latencyVar) →
      v GRBVar.latencyVar = (scheduleLatency g (decodeTime s.latency v) : Int)) := by
  have down : ∀ v,
      ((ILPScheduler.new g andLimit orLimit notLimit).buildModel s.latency).Feasible v →
      ValidSchedule g andLimit orLimit notLimit (decodeTime s.latency v) ∧
        (scheduleLatency g (decodeTime s.latency v) : Int) ≤ v GRBVar.latencyVar :=
    fun v hv => validSchedule_of_feasiblePoint g andLimit orLimit notLimit s.latency v
      ((feasible_iff g andLimit orLimit notLimit s.latency v).1 hv)
  have up : ∀ time, ValidSchedule g andLimit orLimit notLimit time →
      ∃ v, ((ILPScheduler.new g andLimit orLimit notLimit).buildModel s.latency).Feasible v ∧
        v GRBVar.latencyVar ≤ (scheduleLatency g time : Int) := by
    intro time hvalid
    obtain ⟨v, hv, hle⟩ := exists_feasible_le_of_validSchedule sortFn hsort g andLimit orLimit
      notLimit hwf hops fuel s h time hvalid
    exact ⟨v, (feasible_iff g andLimit orLimit notLimit s.latency v).2 hv, hle⟩
  constructor
  · intro m
    constructor
    · rintro ⟨⟨v, hv, rfl⟩, hlow⟩
      obtain ⟨hvalid, hle⟩ := down v hv
      obtain ⟨v1, hv1, hle1⟩ := up _ hvalid
      have hmin : v GRBVar.latencyVar ≤ v1 GRBVar.latencyVar := hlow ⟨v1, hv1, rfl⟩
      refine ⟨⟨decodeTime s.latency v, hvalid, by omega⟩, ?_⟩
      rintro M ⟨time, htime, rfl⟩
      obtain ⟨v2, hv2, hle2⟩ := up time htime
      have : v GRBVar.latencyVar ≤ v2 GRBVar.latencyVar := hlow ⟨v2, hv2, rfl⟩
      omega
    · rintro ⟨⟨time, htime, rfl⟩, hlow⟩
      obtain ⟨v, hv, hle⟩ := up time htime
      obtain ⟨hvalid, hle1⟩ := down v hv
      have hmin : (scheduleLatency g time : Int) ≤
          (scheduleLatency g (decodeTime s.latency v) : Int) := hlow ⟨_, hvalid, rfl⟩
      refine ⟨⟨v, hv, by omega⟩, ?_⟩
      rintro L ⟨v2, hv2, rfl⟩
      obtain ⟨hvalid2, hle2⟩ := down v2 hv2
      have : (scheduleLatency g time : Int) ≤
          (scheduleLatency g (decodeTime s.latency v2) : Int) := hlow ⟨_, hvalid2, rfl⟩
      omega
  · intro v hv hmin
    obtain ⟨hvalid, hle⟩ := down v hv
    obtain ⟨v1, hv1, hle1⟩ := up _ hvalid
    have := hmin v1 hv1
    omega

theorem exact_optimum_is_least_latency_witness :
    StdSort insertionSortFn ∧ chainGraph.WellFormed ∧ operationNodes chainGraph ≠ [] ∧
    (Scheduler.new chainGraph 1 1 1).heuristicSchedule insertionSortFn 10 = some chainResult ∧
    ∀ m : Int,
      IsLeast {L : Int | ∃ v,
        ((ILPScheduler.new chainGraph 1 1 1).buildModel chainResult.latency).Feasible v ∧
          v GRBVar.latencyVar = L} m ↔
      IsLeast {M : Int | ∃ time, ValidSchedule chainGraph 1 1 1 time ∧
          (scheduleLatency chainGraph time : Int) = M} m :=
  ⟨stdSort_insertionSortFn, chainGraph_wellFormed, by decide, chainResult_eq,
    (exact_optimum_is_least_latency insertionSortFn stdSort_insertionSortFn chainGraph 1 1 1
      chainGraph_wellFormed (by decide) 10 chainResult chainResult_eq).1⟩

/-- C7 (failing input). On the acyclic graph with no operation node the heuristic returns
latency 0, `exactSchedule` builds its model over the horizon `[1, 0]`, and the model has no
feasible point: `latencyVar` has no least value, while the empty schedule is valid and has the
least latency 0. With a solver that reports the model infeasible, as a sound one must,
`exactSchedule` returns at line 163 and leaves no schedule. -/
theorem exact_optimum_missing_on_aliasGraph :
    aliasGraph.Acyclic ∧
    (Scheduler.new aliasGraph 1 1 1).heuristicSchedule insertionSortFn 2 = some aliasResult ∧
    ¬ (∀ m : Int,
      IsLeast {L : Int | ∃ v,
        ((ILPScheduler.new aliasGraph 1 1 1).buildModel aliasResult.latency).Feasible v ∧
          v GRBVar.latencyVar = L} m ↔
      IsLeast {M : Int | ∃ time, ValidSchedule aliasGraph 1 1 1 time ∧
          (scheduleLatency aliasGraph time : Int) = M} m) ∧
    ((ILPScheduler.new aliasGraph 1 1 1).exactSchedule insertionSortFn
      (fun _ _ => some { status := GRB_INFEASIBLE, solution := none }) 2).map
        (fun r => (r.latency, r.schedule)) = some (0, []) := by
  refine ⟨aliasGraph_acyclic, aliasResult_eq, ?_, rfl⟩
  intro hall
  have hright : IsLeast {M : Int | ∃ time, ValidSchedule aliasGraph 1 1 1 time ∧
      (scheduleLatency aliasGraph time : Int) = M} 0 := by
    constructor
    · refine ⟨fun _ => 0, ⟨?_, ?_, ?_⟩, ?_⟩
      · intro x hx
        rw [operationNodes_aliasGraph] at hx
        exact absurd hx (List.not_mem_nil _)
      · intro node hnode
        rw [operationNodes_aliasGraph] at hnode
        exact absurd hnode (List.not_mem_nil _)
      · intro t
        rw [operationNodes_aliasGraph]
        simp
      · simp [scheduleLatency, operationNodes_aliasGraph]
    · rintro M ⟨time, _, rfl⟩
      exact Int.ofNat_nonneg _
  obtain ⟨⟨v, hv, _⟩, _⟩ := (hall 0).2 hright
  exact aliasGraph_model_infeasible v hv

theorem chainExactResult_eq :
    (ILPScheduler.new chainGraph 1 1 1).exactSchedule insertionSortFn startPointSolver 10 =
      some chainExactResult := by
  rfl

theorem bitLength_spec (fuel : Nat) :
    ∀ n, n ≤ fuel → n < 2 ^ bitLength fuel n ∧ (0 < n → 2 ^ (bitLength fuel n - 1) ≤ n) := by
  induction fuel with
  | zero =>
    intro n hn
    have h0 : n = 0 := Nat.le_zero.1 hn
    subst h0
    exact ⟨by simp [bitLength], fun h => absurd h (lt_irrefl _)⟩
  | succ fuel ih =>
    intro n hn
    by_cases h0 : n = 0
    · subst h0
      exact ⟨by simp [bitLength], fun h => absurd h (lt_irrefl _)⟩
    · have hhalf : n / 2 ≤ fuel := by omega
      obtain ⟨a1, a2⟩ := ih (n / 2) hhalf
      have e : bitLength (fuel + 1) n = bitLength fuel (n / 2) + 1 := by
        simp [bitLength, h0]
      rw [e]
      constructor
      · rw [pow_succ]
        omega
      · intro _
        simp only [Nat.add_sub_cancel]
        by_cases h1 : n / 2 = 0
        · rw [h1]
          have : bitLength fuel 0 = 0 := by cases fuel <;> simp [bitLength]
          rw [this]
          simp
          omega
        · have h2 := a2 (Nat.pos_of_ne_zero h1)
          have h3 : bitLength fuel (n / 2) ≠ 0 := by
            intro e0
            rw [e0] at a1
            simp at a1
            exact h1 a1
          have h4 : 2 ^ bitLength fuel (n / 2) = 2 ^ (bitLength fuel (n / 2) - 1) * 2 := by
            rw [← pow_succ]
            congr 1
            omega
          omega

theorem floorLog2_le (n d : Nat) (hn : 0 < n) (h : n < 2 ^ 31 * d) :
    floorLog2 n d ≤ 31 := by
  obtain ⟨_, a2⟩ := bitLength_spec n n (le_refl _)
  obtain ⟨b1, _⟩ := bitLength_spec d d (le_refl _)
  have h1 := a2 hn
  have h2 : 2 ^ (bitLength n n - 1) < 2 ^ (31 + bitLength d d) := by
    calc 2 ^ (bitLength n n - 1) ≤ n := h1
      _ < 2 ^ 31 * d := h
      _ < 2 ^ 31 * 2 ^ bitLength d d := by
        exact (Nat.mul_lt_mul_left (by positivity)).2 b1
      _ = 2 ^ (31 + bitLength d d) := by rw [pow_add]
  have h3 : bitLength n n - 1 < 31 + bitLength d d := (Nat.pow_lt_pow_iff_right (by decide)).1 h2
  unfold floorLog2
  split <;> omega

theorem roundHalfEven_bounds (n d A B : Nat) (hd : 0 < d) (h1 : A * d ≤ n) (h2 : n ≤ B * d) :
    A ≤ roundHalfEven n d ∧ roundHalfEven n d ≤ B := by
  have hA : A ≤ n / d := (Nat.le_div_iff_mul_le hd).2 h1
  have hdm := Nat.div_add_mod n d
  have hup : 0 < n % d → n / d + 1 ≤ B := by
    intro hpos
    by_contra hcon
    have hB : B ≤ n / d := by omega
    have : B * d ≤ d * (n / d) := by
      rw [Nat.mul_comm d]
      exact Nat.mul_le_mul_right d hB
    omega
  have hB : n / d ≤ B := by
    by_contra hcon
    have hB1 : B + 1 ≤ n / d := by omega
    have : (B + 1) * d ≤ d * (n / d) := by
      rw [Nat.mul_comm d]
      exact Nat.mul_le_mul_right d hB1
    have : (B + 1) * d = B * d + d := by ring
    omega
  unfold roundHalfEven
  split
  · exact ⟨hA, hB⟩
  · split
    · exact ⟨by omega, hup (by omega)⟩
    · split
      · exact ⟨hA, hB⟩
      · exact ⟨by omega, hup (by omega)⟩

theorem roundDouble_near (n d K : Nat) (hd : 0 < d) (hK : K < 2 ^ 31)
    (h1 : (4 * K + 1) * d ≤ 4 * n) (h2 : 4 * n ≤ (4 * K + 3) * d) :
    Int.tdiv (roundDouble n d).num (roundDouble n d).den = (K : Int) := by
  have hn : 0 < n := by
    rcases Nat.eq_zero_or_pos n with h0 | h0
    · rw [h0] at h1
      have : 0 < (4 * K + 1) * d := Nat.mul_pos (by omega) hd
      omega
    · exact h0
  have hlt : n < 2 ^ 31 * d := by
    have h3 : (4 * K + 3) * d ≤ (4 * 2 ^ 31 - 1) * d := Nat.mul_le_mul_right d (by omega)
    have h4 : (4 * 2 ^ 31 - 1) * d < 4 * 2 ^ 31 * d :=
      Nat.mul_lt_mul_of_pos_right (by omega) hd
    have h5 : 4 * 2 ^ 31 * d = 4 * (2 ^ 31 * d) := by ring
    omega
  have hfl := floorLog2_le n d hn hlt
  have he0 : (max (floorLog2 n d - 52) (-1074)).toNat = 0 := by omega
  obtain ⟨j, hj⟩ : ∃ j, (-(max (floorLog2 n d - 52) (-1074))).toNat = j + 2 :=
    ⟨(-(max (floorLog2 n d - 52) (-1074))).toNat - 2, by omega⟩
  unfold roundDouble
  simp only [he0, hj, pow_zero, mul_one]
  have hP : 0 < 2 ^ j := by positivity
  have e4 : 2 ^ (j + 2) = 4 * 2 ^ j := by
    rw [pow_add]
    ring
  obtain ⟨b1, b2⟩ := roundHalfEven_bounds (n * 2 ^ (j + 2)) d ((4 * K + 1) * 2 ^ j)
    ((4 * K + 3) * 2 ^ j) hd
    (by
      calc (4 * K + 1) * 2 ^ j * d = ((4 * K + 1) * d) * 2 ^ j := by ring
        _ ≤ (4 * n) * 2 ^ j := Nat.mul_le_mul_right _ h1
        _ = n * 2 ^ (j + 2) := by rw [e4]; ring)
    (by
      calc n * 2 ^ (j + 2) = (4 * n) * 2 ^ j := by rw [e4]; ring
        _ ≤ ((4 * K + 3) * d) * 2 ^ j := Nat.mul_le_mul_right _ h2
        _ = (4 * K + 3) * 2 ^ j * d := by ring)
  rw [Int.tdiv_eq_ediv (Int.ofNat_nonneg _) (Int.ofNat_nonneg _)]
  norm_cast
  apply Nat.div_eq_of_lt_le
  · calc K * 2 ^ (j + 2) = 4 * K * 2 ^ j := by rw [e4]; ring
      _ ≤ (4 * K + 1) * 2 ^ j := Nat.mul_le_mul_right _ (by omega)
      _ ≤ _ := b1
  · calc roundHalfEven (n * 2 ^ (j + 2)) d ≤ (4 * K + 3) * 2 ^ j := b2
      _ < (4 * K + 4) * 2 ^ j := Nat.mul_lt_mul_of_pos_right (by omega) hP
      _ = (K + 1) * 2 ^ (j + 2) := by rw [e4]; ring

/-- A value within 1/4 of an integer `k` of the range of `int`, `k ≥ 1`, is converted to `k`. -/
theorem roundToInt_near (v : DoubleVal) (k : Int) (hk1 : 1 ≤ k) (hk2 : k < 2 ^ 31)
    (hden : 0 < v.den) (hlo : (4 * k - 1) * (v.den : Int) ≤ 4 * v.num)
    (hhi : 4 * v.num ≤ (4 * k + 1) * (v.den : Int)) : v.roundToInt = k := by
  have hdpos : (0 : Int) < (v.den : Int) := by exact_mod_cast hden
  have hpos : 0 < 2 * v.num + (v.den : Int) := by nlinarith
  have hK : ((k.toNat : Nat) : Int) = k := Int.toNat_of_nonneg (by omega)
  have hn : (((2 * v.num + (v.den : Int)).toNat : Nat) : Int) = 2 * v.num + (v.den : Int) :=
    Int.toNat_of_nonneg (le_of_lt hpos)
  have h := roundDouble_near (2 * v.num + (v.den : Int)).toNat (2 * v.den) k.toNat
    (by omega) (by omega)
    (by
      have : ((((4 * k.toNat + 1) * (2 * v.den) : Nat)) : Int) ≤
          (((4 * (2 * v.num + (v.den : Int)).toNat : Nat)) : Int) := by
        push_cast
        rw [hK, hn]
        nlinarith
      exact_mod_cast this)
    (by
      have : (((4 * (2 * v.num + (v.den : Int)).toNat : Nat)) : Int) ≤
          ((((4 * k.toNat + 3) * (2 * v.den) : Nat)) : Int) := by
        push_cast
        rw [hK, hn]
        nlinarith
      exact_mod_cast this)
  unfold DoubleVal.roundToInt DoubleVal.addHalf
  rw [if_neg (ne_of_gt hpos), if_pos hpos, h, hK]

/-- The sum `0.49999999999999994 + 0.5` is `1.0` in `double` arithmetic, and is converted
to 1; the next smaller `double` is converted to 0. -/
theorem roundToInt_below_half :
    DoubleVal.roundToInt { num := 2 ^ 53 - 1, den := 2 ^ 54 } = 1 ∧
    DoubleVal.roundToInt { num := 2 ^ 53 - 2, den := 2 ^ 54 } = 0 ∧
    DoubleVal.roundToInt { num := 3, den := 1 } = 3 := by
  decide

/-- C9. When the heuristic returns with a latency in the range of `int` and the solver is
sound for the model it is handed (the value it reports for `latencyVar` lies within 1/4 of the
value of `latencyVar` at a feasible point of that model), the latency left by `exactSchedule`
(the value of `latencyVar` converted by `static_cast<int>(X + 0.5)`, or the initial 0 when the
model is reported infeasible, no solution can be read or an exception is caught) is at most
the latency of the heuristic: the conversion gives the value at the feasible point, which the
upper bound `maxLatency` declared for `latencyVar` keeps at or below the heuristic latency. -/
theorem exactSchedule_latency_le_heuristic
    (sortFn : (NodePtr → NodePtr → Bool) → List NodePtr → List NodePtr)
    (hsort : StdSort sortFn)
    (solver : GRBModel → List (GRBVar × Int) → Option SolveResult) (g : Graph)
    (andLimit orLimit notLimit : Int) (fuel : Nat) (s : Scheduler) (r : ILPScheduler)
    (hs : (Scheduler.new g andLimit orLimit notLimit).heuristicSchedule sortFn fuel = some s)
    (hr : (ILPScheduler.new g andLimit orLimit notLimit).exactSchedule sortFn solver fuel = some r)
    (hint : s.latency < 2 ^ 31)
    (hsolver : ∀ res X,
      solver ((ILPScheduler.new g andLimit orLimit notLimit).buildModel s.latency)
        (warmStart s (operationNodes g)) = some res →
      res.solution = some X →
      ∃ v, ((ILPScheduler.new g andLimit orLimit notLimit).buildModel s.latency).Feasible v ∧
        0 < (X GRBVar.latencyVar).den ∧
        (4 * v GRBVar.latencyVar - 1) * ((X GRBVar.latencyVar).den : Int) ≤
          4 * (X GRBVar.latencyVar).num ∧
        4 * (X GRBVar.latencyVar).num ≤
          (4 * v GRBVar.latencyVar + 1) * ((X GRBVar.latencyVar).den : Int)) :
    r.latency ≤ s.latency := by
  have hnonneg := heuristicSchedule_latency_nonneg sortFn hsort g andLimit orLimit notLimit
    fuel s hs
  have hnew : (ILPScheduler.new g andLimit orLimit notLimit).latency = 0 := rfl
  unfold ILPScheduler.exactSchedule at hr
  have hs1 : (Scheduler.new (ILPScheduler.new g andLimit orLimit notLimit).graph
      (ILPScheduler.new g andLimit orLimit notLimit).andLimit
      (ILPScheduler.new g andLimit orLimit notLimit).orLimit
      (ILPScheduler.new g andLimit orLimit notLimit).notLimit).heuristicSchedule sortFn fuel
        = some s := hs
  rw [hs1] at hr
  simp only at hr
  cases hres : solver ((ILPScheduler.new g andLimit orLimit notLimit).buildModel s.latency)
      (warmStart s (operationNodes (ILPScheduler.new g andLimit orLimit notLimit).graph)) with
  | none =>
    rw [hres] at hr
    simp only [Option.some.injEq] at hr
    rw [← hr, hnew]
    exact hnonneg
  | some res =>
    rw [hres] at hr
    simp only at hr
    by_cases hst : res.status = GRB_INFEASIBLE
    · simp only [hst, if_true, Option.some.injEq] at hr
      rw [← hr, hnew]
      exact hnonneg
    · simp only [hst, if_false] at hr
      cases hsol : res.solution with
      | none =>
        rw [hsol] at hr
        simp only [Option.some.injEq] at hr
        rw [← hr, hnew]
        exact hnonneg
      | some X =>
        rw [hsol] at hr
        simp only [Option.some.injEq] at hr
        rw [← hr]
        obtain ⟨v, hfeas, hden, hlo, hhi⟩ := hsolver res X hres hsol
        have hb := ((feasible_iff g andLimit orLimit notLimit s.latency v).1 hfeas).latencyBounds
        show (X GRBVar.latencyVar).roundToInt ≤ s.latency
        rw [roundToInt_near (X GRBVar.latencyVar) (v GRBVar.latencyVar) hb.1
          (lt_of_le_of_lt hb.2 hint) hden hlo hhi]
        exact hb.2

theorem exactSchedule_latency_le_heuristic_witness :
    StdSort insertionSortFn ∧
    (Scheduler.new chainGraph 1 1 1).heuristicSchedule insertionSortFn 10 = some chainResult ∧
    (ILPScheduler.new chainGraph 1 1 1).exactSchedule insertionSortFn startPointSolver 10 =
      some chainExactResult ∧
    chainResult.latency < 2 ^ 31 ∧
    ((ILPScheduler.new chainGraph 1 1 1).buildModel chainResult.latency).Feasible
      chainAssignment ∧
    chainExactResult.latency ≤ chainResult.latency :=
  ⟨stdSort_insertionSortFn, chainResult_eq, chainExactResult_eq, by decide,
    chainAssignment_feasible,
    exactSchedule_latency_le_heuristic insertionSortFn stdSort_insertionSortFn startPointSolver
      chainGraph 1 1 1 10 chainResult chainExactResult chainResult_eq chainExactResult_eq
      (by decide)
      (by
        intro res X h1 h2
        simp only [startPointSolver, Option.some.injEq] at h1
        subst h1
        simp only [Option.some.injEq] at h2
        subst h2
        exact ⟨chainAssignment, chainAssignment_feasible, by decide, by decide, by decide⟩)⟩

/-! ## Dependence on the storage addresses -/

theorem orderedInsert_congr (r1 r2 : NodePtr → NodePtr → Prop) [DecidableRel r1]
    [DecidableRel r2] (h : ∀ a b, r1 a b ↔ r2 a b) (x : NodePtr) (l : List NodePtr) :
    l.orderedInsert r1 x = l.orderedInsert r2 x := by
  induction l with
  | nil => rfl
  | cons y rest ih =>
    simp only [List.orderedInsert, h x y, ih]

theorem setInsert_congr (addr1 addr2 : NodePtr → Nat)
    (h : ∀ a b, addr1 a ≤ addr1 b ↔ addr2 a ≤ addr2 b) (x : NodePtr) (s : List NodePtr) :
    setInsert addr1 x s = setInsert addr2 x s := by
  unfold setInsert
  rw [orderedInsert_congr (fun a b => addr1 a ≤ addr1 b) (fun a b => addr2 a ≤ addr2 b) h]

theorem insertOperations_readdress (g : Graph) (addr2 : NodePtr → Nat)
    (h : ∀ a b, g.addr a ≤ g.addr b ↔ addr2 a ≤ addr2 b)
    (l : List (String × NodePtr)) (s : List NodePtr) :
    insertOperations { g with addr := addr2 } l s = insertOperations g l s := by
  induction l generalizing s with
  | nil => rfl
  | cons pair rest ih =>
    have h1 : insertOperations { g with addr := addr2 } (pair :: rest) s =
        insertOperations { g with addr := addr2 } rest
          (if getOperationType (g.deref pair.2) = -1 then s
           else setInsert addr2 pair.2 s) := rfl
    have h2 : insertOperations g (pair :: rest) s =
        insertOperations g rest
          (if getOperationType (g.deref pair.2) = -1 then s
           else setInsert g.addr pair.2 s) := rfl
    rw [h1, h2, ih, setInsert_congr g.addr addr2 h]

theorem dfs_readdress (g : Graph) (addr2 : NodePtr → Nat) (fuel : Nat) :
    dfs { g with addr := addr2 } fuel = dfs g fuel := by
  induction fuel with
  | zero => rfl
  | succ fuel ih =>
    funext node st
    simp only [dfs, ih]

theorem visitAll_readdress (g : Graph) (addr2 : NodePtr → Nat) (fuel : Nat)
    (l : List (String × NodePtr)) (st : PrioState) :
    visitAll { g with addr := addr2 } fuel l st = visitAll g fuel l st := by
  induction l generalizing st with
  | nil => rfl
  | cons pair rest ih =>
    simp only [visitAll, dfs_readdress, ih]

theorem computeNodePriorities_readdress (g : Graph) (addr2 : NodePtr → Nat)
    (andLimit orLimit notLimit : Int) (fuel : Nat) :
    (Scheduler.new { g with addr := addr2 } andLimit orLimit notLimit).computeNodePriorities fuel =
      ((Scheduler.new g andLimit orLimit notLimit).computeNodePriorities fuel).map
        (fun s => { s with graph := { g with addr := addr2 } }) := by
  unfold Scheduler.computeNodePriorities
  have hv := visitAll_readdress g addr2 fuel g.nodes
    (markEndpoints g { visited := fun _ => false, nodePriority := fun _ => none })
  have e1 : visitAll (Scheduler.new { g with addr := addr2 } andLimit orLimit notLimit).graph fuel
      (Scheduler.new { g with addr := addr2 } andLimit orLimit notLimit).graph.nodes
      (markEndpoints (Scheduler.new { g with addr := addr2 } andLimit orLimit notLimit).graph
        { visited := fun _ => false,
          nodePriority :=
            (Scheduler.new { g with addr := addr2 } andLimit orLimit notLimit).nodePriority }) =
      visitAll (Scheduler.new g andLimit orLimit notLimit).graph fuel
      (Scheduler.new g andLimit orLimit notLimit).graph.nodes
      (markEndpoints (Scheduler.new g andLimit orLimit notLimit).graph
        { visited := fun _ => false,
          nodePriority := (Scheduler.new g andLimit orLimit notLimit).nodePriority }) := hv
  rw [e1]
  cases visitAll (Scheduler.new g andLimit orLimit notLimit).graph fuel
      (Scheduler.new g andLimit orLimit notLimit).graph.nodes
      (markEndpoints (Scheduler.new g andLimit orLimit notLimit).graph
        { visited := fun _ => false,
          nodePriority := (Scheduler.new g andLimit orLimit notLimit).nodePriority }) with
  | none => rfl
  | some st => rfl

theorem heuristicLoop_readdress
    (sortFn : (NodePtr → NodePtr → Bool) → List NodePtr → List NodePtr)
    (self : Scheduler) (addr2 : NodePtr → Nat) (fuel : Nat)
    (st : LoopState) :
    heuristicLoop sortFn { self with graph := { self.graph with addr := addr2 } } fuel st =
      heuristicLoop sortFn self fuel st := by
  induction fuel generalizing st with
  | zero => rfl
  | succ fuel ih =>
    simp only [heuristicLoop]
    split
    · rfl
    · rw [← ih]
      rfl

/-- C10 (as it holds). Two runs of `heuristicSchedule` on graphs that differ only in the
addresses at which the nodes are stored give the same outcome (both return or neither does) and
the same latency, node times, schedule and priorities, provided the addresses are in the same
relative order: the result depends on the storage only through the address order of the
nodes. -/
theorem heuristicSchedule_same_for_same_address_order
    (sortFn : (NodePtr → NodePtr → Bool) → List NodePtr → List NodePtr)
    (g : Graph) (addr2 : NodePtr → Nat)
    (hord : ∀ a b, g.addr a ≤ g.addr b ↔ addr2 a ≤ addr2 b)
    (andLimit orLimit notLimit : Int) (fuel : Nat) :
    (Scheduler.new { g with addr := addr2 } andLimit orLimit notLimit).heuristicSchedule
        sortFn fuel =
      ((Scheduler.new g andLimit orLimit notLimit).heuristicSchedule sortFn fuel).map
        (fun s => { s with graph := { g with addr := addr2 } }) := by
  unfold Scheduler.heuristicSchedule
  rw [computeNodePriorities_readdress]
  cases hprio : (Scheduler.new g andLimit orLimit notLimit).computeNodePriorities fuel with
  | none => rfl
  | some self1 =>
    obtain ⟨prio, rfl⟩ := computeNodePriorities_eq_some _ _ _ hprio
    simp only [Option.map_some']
    have hstart : ({ ({ Scheduler.new g andLimit orLimit notLimit with nodePriority := prio } :
          Scheduler) with graph := { g with addr := addr2 } } : Scheduler).loopStart =
        ({ Scheduler.new g andLimit orLimit notLimit with nodePriority := prio } :
          Scheduler).loopStart := by
      simp only [Scheduler.loopStart, initialUnscheduled]
      rw [insertOperations_readdress g addr2 hord]
      rfl
    rw [hstart]
    have hloop := heuristicLoop_readdress sortFn
      ({ Scheduler.new g andLimit orLimit notLimit with nodePriority := prio } : Scheduler)
      addr2 fuel
      ({ Scheduler.new g andLimit orLimit notLimit with nodePriority := prio } :
        Scheduler).loopStart
    have hloop1 : heuristicLoop sortFn
        ({ ({ Scheduler.new g andLimit orLimit notLimit with nodePriority := prio } :
          Scheduler) with graph := { g with addr := addr2 } } : Scheduler) fuel
        ({ Scheduler.new g andLimit orLimit notLimit with nodePriority := prio } :
          Scheduler).loopStart =
        heuristicLoop sortFn
          ({ Scheduler.new g andLimit orLimit notLimit with nodePriority := prio } : Scheduler)
          fuel
          ({ Scheduler.new g andLimit orLimit notLimit with nodePriority := prio } :
            Scheduler).loopStart := hloop
    rw [hloop1]
    cases heuristicLoop sortFn
        ({ Scheduler.new g andLimit orLimit notLimit with nodePriority := prio } : Scheduler)
        fuel
        ({ Scheduler.new g andLimit orLimit notLimit with nodePriority := prio } :
          Scheduler).loopStart with
    | none => rfl
    | some st => rfl

theorem twoAndGraph_same_order (a b : Nat) :
    (twoAndGraph (fun p => p)).addr a ≤ (twoAndGraph (fun p => p)).addr b ↔
      2 * a + 100 ≤ 2 * b + 100 := by
  show (a : Nat) ≤ b ↔ 2 * a + 100 ≤ 2 * b + 100
  constructor <;> intro h <;> omega

theorem heuristicSchedule_same_for_same_address_order_witness :
    (∀ a b : NodePtr, (twoAndGraph (fun p => p)).addr a ≤ (twoAndGraph (fun p => p)).addr b ↔
      2 * a + 100 ≤ 2 * b + 100) ∧
    ((Scheduler.new { twoAndGraph (fun p => p) with addr := fun p => 2 * p + 100 }
        1 1 1).heuristicSchedule insertionSortFn 5).map (fun s => (s.latency, s.schedule)) =
      ((Scheduler.new (twoAndGraph (fun p => p)) 1 1 1).heuristicSchedule
        insertionSortFn 5).map (fun s => (s.latency, s.schedule)) :=
  ⟨twoAndGraph_same_order, by
    rw [heuristicSchedule_same_for_same_address_order insertionSortFn
      (twoAndGraph (fun p => p)) (fun p => 2 * p + 100) twoAndGraph_same_order 1 1 1 5]
    cases (Scheduler.new (twoAndGraph (fun p => p)) 1 1 1).heuristicSchedule insertionSortFn 5 with
    | none => rfl
    | some s => rfl⟩

/-- C10 (counterexample). The same graph (same names, kinds, ids and edges) stored at two
different address layouts is scheduled differently with one AND unit: with `a` below `b` the
steps are a then b, with `b` below `a` they are b then a. -/
theorem heuristicSchedule_depends_on_addresses :
    StdSort insertionSortFn ∧
    (twoAndGraph (fun p => p)).nodes = (twoAndGraph (fun p => 10 - p)).nodes ∧
    (twoAndGraph (fun p => p)).inputs = (twoAndGraph (fun p => 10 - p)).inputs ∧
    (twoAndGraph (fun p => p)).outputs = (twoAndGraph (fun p => 10 - p)).outputs ∧
    (twoAndGraph (fun p => p)).deref = (twoAndGraph (fun p => 10 - p)).deref ∧
    ((Scheduler.new (twoAndGraph (fun p => p)) 1 1 1).heuristicSchedule
        insertionSortFn 5).map (fun s => (s.latency, s.schedule)) = some (2, [[2], [3]]) ∧
    ((Scheduler.new (twoAndGraph (fun p => 10 - p)) 1 1 1).heuristicSchedule
        insertionSortFn 5).map (fun s => (s.latency, s.schedule)) = some (2, [[3], [2]]) :=
  ⟨stdSort_insertionSortFn, rfl, rfl, rfl, rfl, by decide, by decide⟩

/-! ## Graphs without operation nodes -/

theorem initialUnscheduled_eq_nil (g : Graph) (h : operationNodes g = []) :
    initialUnscheduled g = [] := by
  rw [List.eq_nil_iff_forall_not_mem]
  intro x hx
  have := (mem_operationNodes_iff_initialUnscheduled g x).2 hx
  rw [h] at this
  exact absurd this (List.not_mem_nil _)

/-- C15 (what the code does). On a graph with no operation node (successor edges inside the
graph) `heuristicSchedule` returns for every triple of limits, with an empty schedule and the
reported latency 0, not 1: the `while` loop is never entered and `latency = currentTime - 1`
with `currentTime = 1`. -/
theorem heuristicSchedule_latency_zero_without_operation
    (sortFn : (NodePtr → NodePtr → Bool) → List NodePtr → List NodePtr) (g : Graph)
    (andLimit orLimit notLimit : Int) (hclosed : g.SuccessorsClosed)
    (hops : operationNodes g = []) (fuel : Nat) (hfuel : g.nodes.length < fuel) :
    ∃ s, (Scheduler.new g andLimit orLimit notLimit).heuristicSchedule sortFn fuel = some s ∧
      s.latency = 0 ∧ s.schedule = [] ∧ s.latency ≠ 1 := by
  obtain ⟨prio, hprio⟩ := computeNodePriorities_terminates
    (Scheduler.new g andLimit orLimit notLimit) hclosed fuel hfuel
  have hU := initialUnscheduled_eq_nil g hops
  have hloop : heuristicLoop sortFn
      { Scheduler.new g andLimit orLimit notLimit with nodePriority := prio } fuel
      ({ Scheduler.new g andLimit orLimit notLimit with nodePriority := prio } :
        Scheduler).loopStart =
      some ({ Scheduler.new g andLimit orLimit notLimit with nodePriority := prio } :
        Scheduler).loopStart := by
    have he : (({ Scheduler.new g andLimit orLimit notLimit with nodePriority := prio } :
        Scheduler).loopStart).unscheduledNodes.isEmpty = true := by
      show (initialUnscheduled g).isEmpty = true
      rw [hU]
      rfl
    cases fuel with
    | zero => simp only [heuristicLoop, he, if_true]
    | succ n => simp only [heuristicLoop, he, if_true]
  refine ⟨_, by simp only [Scheduler.heuristicSchedule, hprio, hloop]; rfl, ?_, ?_, ?_⟩
  · simp [Scheduler.loopStart]
  · simp [Scheduler.loopStart, Scheduler.new]
  · simp [Scheduler.loopStart]

theorem aliasGraph_successorsClosed : aliasGraph.SuccessorsClosed := by
  unfold Graph.SuccessorsClosed
  decide

theorem heuristicSchedule_latency_zero_without_operation_witness :
    aliasGraph.SuccessorsClosed ∧ operationNodes aliasGraph = [] ∧
    ∃ s, (Scheduler.new aliasGraph 0 0 0).heuristicSchedule insertionSortFn 2 = some s ∧
      s.latency = 0 ∧ s.schedule = [] ∧ s.latency ≠ 1 :=
  ⟨aliasGraph_successorsClosed, operationNodes_aliasGraph,
    heuristicSchedule_latency_zero_without_operation insertionSortFn aliasGraph 0 0 0
      aliasGraph_successorsClosed operationNodes_aliasGraph 2 (by decide)⟩

/-! ## The status of the solver -/

/-- C18 (as it holds). When the solver stops with an incumbent, what `exactSchedule` leaves
(latency, node times, per-step grouping) does not depend on the status the solver reports, as
long as it is not `GRB_INFEASIBLE`: the run that ends at the time limit and the run that proves
optimality with the same variable values leave the same result, and no status is kept. -/
theorem exactSchedule_ignores_status
    (sortFn : (NodePtr → NodePtr → Bool) → List NodePtr → List NodePtr)
    (solver : GRBModel → List (GRBVar × Int) → Option SolveResult)
    (self : ILPScheduler) (fuel : Nat) (status1 status2 : Int)
    (h1 : status1 ≠ GRB_INFEASIBLE) (h2 : status2 ≠ GRB_INFEASIBLE) :
    self.exactSchedule sortFn (withStatus status1 solver) fuel =
      self.exactSchedule sortFn (withStatus status2 solver) fuel := by
  unfold ILPScheduler.exactSchedule
  cases (Scheduler.new self.graph self.andLimit self.orLimit self.notLimit).heuristicSchedule
      sortFn fuel with
  | none => rfl
  | some hs =>
    simp only [withStatus]
    cases solver (self.buildModel hs.latency) (warmStart hs (operationNodes self.graph)) with
    | none => rfl
    | some res =>
      simp only [Option.map_some', h1, h2, if_false]

theorem exactSchedule_ignores_status_witness :
    GRB_TIME_LIMIT ≠ GRB_INFEASIBLE ∧ GRB_OPTIMAL ≠ GRB_INFEASIBLE ∧
    (ILPScheduler.new chainGraph 1 1 1).exactSchedule insertionSortFn
        (withStatus GRB_TIME_LIMIT startPointSolver) 10 =
      (ILPScheduler.new chainGraph 1 1 1).exactSchedule insertionSortFn
        (withStatus GRB_OPTIMAL startPointSolver) 10 :=
  ⟨by decide, by decide,
    exactSchedule_ignores_status insertionSortFn startPointSolver
      (ILPScheduler.new chainGraph 1 1 1) 10 GRB_TIME_LIMIT GRB_OPTIMAL (by decide) (by decide)⟩

/-- C18 (counterexample). On the chain graph the solver that stops at the time limit with the
heuristic start point as incumbent and the solver that returns the same values with the status
`GRB_OPTIMAL` leave the very same `ILPScheduler`, the schedule a, b, c with latency 3: nothing
in the result tells the unproven incumbent from the proven optimum. -/
theorem exactSchedule_timeout_indistinguishable :
    (startPointSolver ((ILPScheduler.new chainGraph 1 1 1).buildModel 3) []).map
        SolveResult.status = some GRB_TIME_LIMIT ∧
    (withStatus GRB_OPTIMAL startPointSolver ((ILPScheduler.new chainGraph 1 1 1).buildModel 3)
        []).map SolveResult.status = some GRB_OPTIMAL ∧
    ((ILPScheduler.new chainGraph 1 1 1).exactSchedule insertionSortFn startPointSolver 10).map
        (fun r => (r.latency, r.schedule)) = some (3, [[1], [2], [3]]) ∧
    (ILPScheduler.new chainGraph 1 1 1).exactSchedule insertionSortFn startPointSolver 10 =
      (ILPScheduler.new chainGraph 1 1 1).exactSchedule insertionSortFn
        (withStatus GRB_OPTIMAL startPointSolver) 10 :=
  ⟨by decide, by decide, by decide, rfl⟩

/-! ## The exact content of a time step -/

theorem countP_chosen_of_key
    (sortFn : (NodePtr → NodePtr → Bool) → List NodePtr → List NodePtr)
    (hsort : StdSort sortFn) (self : Scheduler)
    (es : List (String × List NodePtr)) (K : String)
    (hkeys : (es.map Prod.fst).Nodup)
    (hty : ∀ rp ∈ es, ∀ x ∈ rp.2, (self.graph.deref x).type = rp.1) :
    (∀ l, (K, l) ∈ es →
      List.countP (fun x => decide ((self.graph.deref x).type = K))
          (es.map (chosenNodes sortFn self 0)).flatten =
        (chosenNodes sortFn self 0 (K, l)).length) ∧
    (K ∉ es.map Prod.fst →
      List.countP (fun x => decide ((self.graph.deref x).type = K))
          (es.map (chosenNodes sortFn self 0)).flatten = 0) := by
  induction es with
  | nil => simp
  | cons rp rest ih =>
    simp only [List.map_cons, List.nodup_cons] at hkeys
    obtain ⟨hnot, hrest⟩ := hkeys
    have hty1 : ∀ rp1 ∈ rest, ∀ x ∈ rp1.2, (self.graph.deref x).type = rp1.1 :=
      fun rp1 h1 => hty rp1 (List.mem_cons_of_mem _ h1)
    obtain ⟨ih1, ih2⟩ := ih hrest hty1
    have hhead : ∀ x ∈ chosenNodes sortFn self 0 rp, (self.graph.deref x).type = rp.1 :=
      fun x hx => hty rp (List.mem_cons_self _ _) x
        (mem_of_mem_chosenNodes sortFn hsort self 0 rp x hx)
    simp only [List.map_cons, List.flatten_cons, List.countP_append]
    constructor
    · intro l hl
      rcases List.mem_cons.1 hl with h | h
      · subst h
        rw [ih2 hnot, Nat.add_zero, List.countP_eq_length]
        intro x hx
        simpa using hhead x hx
      · have hne : rp.1 ≠ K := by
          intro e
          exact hnot (e ▸ List.mem_map.2 ⟨(K, l), h, rfl⟩)
        have hzero : List.countP (fun x => decide ((self.graph.deref x).type = K))
            (chosenNodes sortFn self 0 rp) = 0 := by
          rw [List.countP_eq_zero]
          intro x hx
          simp only [decide_eq_true_eq]
          intro e
          exact hne ((hhead x hx).symm.trans e)
        rw [hzero, Nat.zero_add]
        exact ih1 l h
    · intro hK
      simp only [List.mem_cons, not_or] at hK
      have hzero : List.countP (fun x => decide ((self.graph.deref x).type = K))
          (chosenNodes sortFn self 0 rp) = 0 := by
        rw [List.countP_eq_zero]
        intro x hx
        simp only [decide_eq_true_eq]
        intro e
        exact hK.1 (e.symm.trans (hhead x hx))
      rw [hzero, ih2 hK.2]

/-- The number of nodes of one type scheduled in a step, for a type with a non-negative limit:
the smaller of the limit and the number of ready nodes of the type. -/
theorem countP_stepChosen_eq
    (sortFn : (NodePtr → NodePtr → Bool) → List NodePtr → List NodePtr)
    (hsort : StdSort sortFn) (self : Scheduler) (U : List NodePtr) (K : String)
    (hlim : 0 ≤ resourceLimit self K) :
    ((List.countP (fun x => decide ((self.graph.deref x).type = K))
        (stepChosen sortFn self U) : Nat) : Int) =
      min (resourceLimit self K)
        ((List.countP (fun x => isReady self.graph U x &&
          decide ((self.graph.deref x).type = K)) U : Nat) : Int) := by
  have hinv := readyInv_collectReady self.graph U
  have hty : ∀ rp ∈ collectReady self.graph U, ∀ x ∈ rp.2,
      (self.graph.deref x).type = rp.1 := by
    intro rp hrp x hx
    rw [(hinv.entry rp.1 rp.2 hrp).1, List.mem_filter] at hx
    simp only [Bool.and_eq_true, decide_eq_true_eq] at hx
    exact hx.2.2
  obtain ⟨c1, c2⟩ := countP_chosen_of_key sortFn hsort self (collectReady self.graph U) K
    (hinv.sorted.imp (fun h => ne_of_lt h)) hty
  by_cases hK : K ∈ (collectReady self.graph U).map Prod.fst
  · obtain ⟨rp, hrp, hk⟩ := List.mem_map.1 hK
    obtain ⟨k, l⟩ := rp
    simp only at hk
    subst hk
    unfold stepChosen
    rw [c1 l hrp, length_chosenNodes sortFn hsort self 0 (k, l)]
    have hl := (hinv.entry k l hrp).1
    have hlen : l.length = List.countP (fun x => isReady self.graph U x &&
        decide ((self.graph.deref x).type = k)) U := by
      rw [hl, List.countP_eq_length_filter]
    simp only
    rw [hlen]
    omega
  · unfold stepChosen
    rw [c2 hK]
    have hzero : List.countP (fun x => isReady self.graph U x &&
        decide ((self.graph.deref x).type = K)) U = 0 := by
      rw [List.countP_eq_zero]
      intro x hx hp
      simp only [Bool.and_eq_true, decide_eq_true_eq] at hp
      exact hK (hp.2 ▸ hinv.key x hx hp.1)
    rw [hzero]
    simp only [Nat.cast_zero]
    omega

/-- A ready node of a type that is left out of a step has at most the priority of every node
of the type that is scheduled in the step. -/
theorem priority_le_of_not_chosen
    (sortFn : (NodePtr → NodePtr → Bool) → List NodePtr → List NodePtr)
    (hsort : StdSort sortFn) (self : Scheduler) (U : List NodePtr)
    (x y : NodePtr) (hx : x ∈ stepChosen sortFn self U)
    (hy : y ∈ U) (hry : isReady self.graph U y = true)
    (hty : (self.graph.deref y).type = (self.graph.deref x).type)
    (hny : y ∉ stepChosen sortFn self U) :
    (self.nodePriority y).getD 0 ≤ (self.nodePriority x).getD 0 := by
  have hinv := readyInv_collectReady self.graph U
  obtain ⟨_, _, l, hl, hxc⟩ := mem_stepChosen sortFn hsort self U x hx
  have hyl : y ∈ l := by
    rw [(hinv.entry _ l hl).1, List.mem_filter]
    simp only [Bool.and_eq_true, decide_eq_true_eq]
    exact ⟨hy, hry, hty⟩
  obtain ⟨hperm, hsorted⟩ := hsort self.nodePriority l
  have hys : y ∈ sortFn (higherPriority self.nodePriority) l := hperm.mem_iff.2 hyl
  have hnot : y ∉ chosenNodes sortFn self 0 ((self.graph.deref x).type, l) := by
    intro hc
    apply hny
    unfold stepChosen
    exact List.mem_flatten.2 ⟨_, List.mem_map.2 ⟨_, hl, rfl⟩, hc⟩
  unfold chosenNodes at hxc hnot
  simp only at hxc hnot
  rw [← List.take_append_drop
    (min ((sortFn (higherPriority self.nodePriority) l).length : Int)
      (resourceLimit self (self.graph.deref x).type - 0)).toNat
    (sortFn (higherPriority self.nodePriority) l)] at hsorted hys
  rcases List.mem_append.1 hys with h | h
  · exact absurd h hnot
  · exact (List.pairwise_append.1 hsorted).2.2 x hxc y h

theorem resourceLimit_and (self : Scheduler) : resourceLimit self "AND" = self.andLimit := by
  simp [resourceLimit]

theorem resourceLimit_or (self : Scheduler) : resourceLimit self "OR" = self.orLimit := by
  simp [resourceLimit]

theorem resourceLimit_not (self : Scheduler) : resourceLimit self "NOT" = self.notLimit := by
  simp [resourceLimit]

/-- C19. In every iteration of the `while` loop of `heuristicSchedule`, with non-negative
limits, the step appended to the schedule holds, for each of AND, OR and NOT, exactly
min(limit, number of ready candidates of the kind) nodes of the kind, a candidate being a node of
`unscheduledNodes` none of whose predecessors is in `unscheduledNodes` at the start of the step;
every node of the step is such a candidate; and a candidate of the same kind that is left out of
the step has at most the priority of every node of the kind in the step. -/
theorem whileBody_takes_best_candidates
    (sortFn : (NodePtr → NodePtr → Bool) → List NodePtr → List NodePtr)
    (hsort : StdSort sortFn) (self : Scheduler)
    (hand : 0 ≤ self.andLimit) (hor : 0 ≤ self.orLimit) (hnot : 0 ≤ self.notLimit)
    (st : LoopState) :
    ∃ step, (whileBody sortFn self st).schedule = st.schedule ++ [step] ∧
      ((step.countP (fun x => decide ((self.graph.deref x).type = "AND")) : Nat) : Int) =
        min self.andLimit
          ((st.unscheduledNodes.countP (fun x => isReady self.graph st.unscheduledNodes x &&
            decide ((self.graph.deref x).type = "AND")) : Nat) : Int) ∧
      ((step.countP (fun x => decide ((self.graph.deref x).type = "OR")) : Nat) : Int) =
        min self.orLimit
          ((st.unscheduledNodes.countP (fun x => isReady self.graph st.unscheduledNodes x &&
            decide ((self.graph.deref x).type = "OR")) : Nat) : Int) ∧
      ((step.countP (fun x => decide ((self.graph.deref x).type = "NOT")) : Nat) : Int) =
        min self.notLimit
          ((st.unscheduledNodes.countP (fun x => isReady self.graph st.unscheduledNodes x &&
            decide ((self.graph.deref x).type = "NOT")) : Nat) : Int) ∧
      (∀ x ∈ step, x ∈ st.unscheduledNodes ∧ isReady self.graph st.unscheduledNodes x = true) ∧
      (∀ x ∈ step, ∀ y ∈ st.unscheduledNodes,
        isReady self.graph st.unscheduledNodes y = true →
        (self.graph.deref y).type = (self.graph.deref x).type → y ∉ step →
        (self.nodePriority y).getD 0 ≤ (self.nodePriority x).getD 0) := by
  refine ⟨stepChosen sortFn self st.unscheduledNodes, by rw [whileBody_eq], ?_, ?_, ?_, ?_, ?_⟩
  · have := countP_stepChosen_eq sortFn hsort self st.unscheduledNodes "AND"
      (by rw [resourceLimit_and]; exact hand)
    rw [resourceLimit_and] at this
    exact this
  · have := countP_stepChosen_eq sortFn hsort self st.unscheduledNodes "OR"
      (by rw [resourceLimit_or]; exact hor)
    rw [resourceLimit_or] at this
    exact this
  · have := countP_stepChosen_eq sortFn hsort self st.unscheduledNodes "NOT"
      (by rw [resourceLimit_not]; exact hnot)
    rw [resourceLimit_not] at this
    exact this
  · intro x hx
    obtain ⟨h1, h2, _⟩ := mem_stepChosen sortFn hsort self st.unscheduledNodes x hx
    exact ⟨h1, h2⟩
  · intro x hx y hy hry hty hny
    exact priority_le_of_not_chosen sortFn hsort self st.unscheduledNodes x y hx hy hry hty hny

theorem whileBody_takes_best_candidates_witness :
    StdSort insertionSortFn ∧ (0 : Int) ≤ (Scheduler.new (twoAndGraph (fun p => p)) 1 1 1).andLimit ∧
    ∃ step, (whileBody insertionSortFn (Scheduler.new (twoAndGraph (fun p => p)) 1 1 1)
        (Scheduler.new (twoAndGraph (fun p => p)) 1 1 1).loopStart).schedule = [] ++ [step] ∧
      ((step.countP (fun x => decide (((twoAndGraph (fun p => p)).deref x).type = "AND")) :
          Nat) : Int) =
        min 1 (((Scheduler.new (twoAndGraph (fun p => p)) 1 1 1).loopStart.unscheduledNodes.countP
          (fun x => isReady (twoAndGraph (fun p => p))
              (Scheduler.new (twoAndGraph (fun p => p)) 1 1 1).loopStart.unscheduledNodes x &&
            decide (((twoAndGraph (fun p => p)).deref x).type = "AND")) : Nat) : Int) := by
  obtain ⟨step, h1, h2, _⟩ := whileBody_takes_best_candidates insertionSortFn
    stdSort_insertionSortFn (Scheduler.new (twoAndGraph (fun p => p)) 1 1 1)
    (by decide) (by decide) (by decide)
    (Scheduler.new (twoAndGraph (fun p => p)) 1 1 1).loopStart
  exact ⟨stdSort_insertionSortFn, by decide, step, h1, h2⟩

/-! ## Ties among ready nodes -/

theorem stableSort_insertionSortFn : StableSort insertionSortFn := by
  intro prio l a b hsub heq
  unfold insertionSortFn
  apply List.pair_sublist_insertionSort _ hsub
  simp [higherPriority, heq]

theorem pair_sublist_of_mem (l : List NodePtr) (hl : l.Nodup) (x y : NodePtr)
    (hx : x ∈ l) (hy : y ∈ l) (hne : x ≠ y) : [x, y].Sublist l ∨ [y, x].Sublist l := by
  induction l with
  | nil => exact absurd hx (List.not_mem_nil _)
  | cons z rest ih =>
    obtain ⟨_, hrest⟩ := List.nodup_cons.1 hl
    rcases List.mem_cons.1 hx with h1 | h1
    · rcases List.mem_cons.1 hy with h2 | h2
      · exact absurd (h1.trans h2.symm) hne
      · left
        rw [h1]
        exact List.Sublist.cons₂ _ (List.singleton_sublist.2 h2)
    · rcases List.mem_cons.1 hy with h2 | h2
      · right
        rw [h2]
        exact List.Sublist.cons₂ _ (List.singleton_sublist.2 h1)
      · rcases ih hrest h1 h2 with h | h
        · exact Or.inl (List.Sublist.cons _ h)
        · exact Or.inr (List.Sublist.cons _ h)

theorem mem_take_of_pair_sublist (l : List NodePtr) (hl : l.Nodup) (c : Nat) (x y : NodePtr)
    (hsub : [y, x].Sublist l) (hx : x ∈ l.take c) : y ∈ l.take c := by
  have hnd : (l.take c ++ l.drop c).Nodup := by rw [List.take_append_drop]; exact hl
  have hdisj := (List.nodup_append.1 hnd).2.2
  rw [← List.take_append_drop c l, List.sublist_append_iff] at hsub
  obtain ⟨l1, l2, heq, h1, h2⟩ := hsub
  have hxnot : x ∉ l2 := fun h => hdisj hx (h2.subset h)
  match l1, heq with
  | [], heq =>
    rw [List.nil_append] at heq
    exact absurd (heq ▸ (by simp : x ∈ [y, x])) hxnot
  | [a], heq =>
    simp only [List.singleton_append, List.cons.injEq] at heq
    exact absurd (heq.2 ▸ (by simp : x ∈ [x])) hxnot
  | a :: b :: rest, heq =>
    simp only [List.cons_append, List.cons.injEq] at heq
    exact h1.subset (heq.1 ▸ List.mem_cons_self _ _)

theorem sorted_setInsert (addr : NodePtr → Nat) (x : NodePtr) (s : List NodePtr)
    (hs : s.Sorted (fun a b => addr a ≤ addr b)) :
    (setInsert addr x s).Sorted (fun a b => addr a ≤ addr b) := by
  unfold setInsert
  split
  · exact hs
  · haveI : IsTotal NodePtr (fun a b => addr a ≤ addr b) := ⟨fun a b => le_total _ _⟩
    haveI : IsTrans NodePtr (fun a b => addr a ≤ addr b) := ⟨fun _ _ _ h1 h2 => le_trans h1 h2⟩
    exact hs.orderedInsert x s

theorem sorted_insertOperations (graph : Graph) (l : List (String × NodePtr))
    (s : List NodePtr) (hs : s.Sorted (fun a b => graph.addr a ≤ graph.addr b)) :
    (insertOperations graph l s).Sorted (fun a b => graph.addr a ≤ graph.addr b) := by
  induction l generalizing s with
  | nil => exact hs
  | cons pair rest ih =>
    have hstep : insertOperations graph (pair :: rest) s =
        insertOperations graph rest
          (if getOperationType (graph.deref pair.2) = -1 then s
           else setInsert graph.addr pair.2 s) := rfl
    rw [hstep]
    apply ih
    split
    · exact hs
    · exact sorted_setInsert _ _ _ hs

/-- With distinct addresses for distinct nodes the set `unscheduledNodes` is, at every
iteration, in strictly ascending address order. -/
theorem loopAfter_ascending
    (sortFn : (NodePtr → NodePtr → Bool) → List NodePtr → List NodePtr)
    (g : Graph) (hinj : Function.Injective g.addr)
    (andLimit orLimit notLimit : Int) (prio : NodePtr → Option Int) (k : Nat) :
    (loopAfter sortFn { Scheduler.new g andLimit orLimit notLimit with nodePriority := prio }
      ({ Scheduler.new g andLimit orLimit notLimit with nodePriority := prio } :
        Scheduler).loopStart k).unscheduledNodes.Pairwise
      (fun a b => g.addr a < g.addr b) := by
  induction k with
  | zero =>
    show (initialUnscheduled g).Pairwise (fun a b => g.addr a < g.addr b)
    have h1 : (initialUnscheduled g).Sorted (fun a b => g.addr a ≤ g.addr b) :=
      sorted_insertOperations g g.nodes [] List.sorted_nil
    have h2 : (initialUnscheduled g).Pairwise (fun a b => a ≠ b) := nodup_initialUnscheduled g
    refine List.Pairwise.imp₂ ?_ h1 h2
    intro a b hle hne
    exact lt_of_le_of_ne hle (fun e => hne (hinj e))
  | succ k ih =>
    rw [loopAfter]
    split
    · exact ih
    · rw [whileBody_eq]
      exact List.Pairwise.sublist (List.diff_sublist _ _) ih

/-- The tie-break of one step: with a `std::sort` that keeps equal priorities in input order,
of two ready nodes of one type and one priority the one scheduled alone is stored at the smaller
address. -/
theorem addr_lt_of_chosen_alone
    (sortFn : (NodePtr → NodePtr → Bool) → List NodePtr → List NodePtr)
    (hsort : StdSort sortFn) (hstable : StableSort sortFn) (self : Scheduler)
    (U : List NodePtr) (hU : U.Pairwise (fun a b => self.graph.addr a < self.graph.addr b))
    (x y : NodePtr) (hx : x ∈ stepChosen sortFn self U)
    (hy : y ∈ U) (hry : isReady self.graph U y = true)
    (hty : (self.graph.deref y).type = (self.graph.deref x).type)
    (hprio : (self.nodePriority y).getD 0 = (self.nodePriority x).getD 0)
    (hny : y ∉ stepChosen sortFn self U) :
    self.graph.addr x < self.graph.addr y := by
  have hinv := readyInv_collectReady self.graph U
  obtain ⟨hxU, hrx, l, hl, hxc⟩ := mem_stepChosen sortFn hsort self U x hx
  have hlU : l.Sublist U := by
    rw [(hinv.entry _ l hl).1]
    exact List.filter_sublist _
  have hlp := List.Pairwise.sublist hlU hU
  have hlnd : l.Nodup := hlp.imp (fun h e => by rw [e] at h; exact lt_irrefl _ h)
  have hxl : x ∈ l := mem_of_mem_chosenNodes sortFn hsort self 0 _ x hxc
  have hyl : y ∈ l := by
    rw [(hinv.entry _ l hl).1, List.mem_filter]
    simp only [Bool.and_eq_true, decide_eq_true_eq]
    exact ⟨hy, hry, hty⟩
  have hne : x ≠ y := fun e => hny (e ▸ hx)
  rcases pair_sublist_of_mem l hlnd x y hxl hyl hne with h | h
  · exact List.pairwise_iff_forall_sublist.1 hlp h
  · exfalso
    have hsub := hstable self.nodePriority l y x h hprio
    have hsnd : (sortFn (higherPriority self.nodePriority) l).Nodup :=
      ((hsort self.nodePriority l).1.nodup_iff).2 hlnd
    apply hny
    unfold stepChosen
    refine List.mem_flatten.2 ⟨_, List.mem_map.2 ⟨_, hl, rfl⟩, ?_⟩
    exact mem_take_of_pair_sublist _ hsnd _ x y hsub hxc

theorem injective_id_addr : Function.Injective (twoAndGraph (fun p => p)).addr :=
  fun _ _ h => h

/-- C20 (as it holds). Among ready candidates of one class that have equal priority the tie is
broken by storage address when `std::sort` keeps nodes of equal priority in their input order:
at every iteration of the loop, whenever two ready candidates of the same class have the same
priority and only one of them is in the step that is scheduled, that one is stored at the
smaller address. -/
theorem heuristicSchedule_tie_goes_to_lower_address
    (sortFn : (NodePtr → NodePtr → Bool) → List NodePtr → List NodePtr)
    (hsort : StdSort sortFn) (hstable : StableSort sortFn)
    (g : Graph) (hinj : Function.Injective g.addr)
    (andLimit orLimit notLimit : Int) (prio : NodePtr → Option Int) (k : Nat) :
    ∃ step,
      (whileBody sortFn { Scheduler.new g andLimit orLimit notLimit with nodePriority := prio }
        (loopAfter sortFn { Scheduler.new g andLimit orLimit notLimit with nodePriority := prio }
          ({ Scheduler.new g andLimit orLimit notLimit with nodePriority := prio } :
            Scheduler).loopStart k)).schedule =
        (loopAfter sortFn { Scheduler.new g andLimit orLimit notLimit with nodePriority := prio }
          ({ Scheduler.new g andLimit orLimit notLimit with nodePriority := prio } :
            Scheduler).loopStart k).schedule ++ [step] ∧
      ∀ x ∈ step,
        ∀ y ∈ (loopAfter sortFn
          { Scheduler.new g andLimit orLimit notLimit with nodePriority := prio }
          ({ Scheduler.new g andLimit orLimit notLimit with nodePriority := prio } :
            Scheduler).loopStart k).unscheduledNodes,
        isReady g (loopAfter sortFn
          { Scheduler.new g andLimit orLimit notLimit with nodePriority := prio }
          ({ Scheduler.new g andLimit orLimit notLimit with nodePriority := prio } :
            Scheduler).loopStart k).unscheduledNodes y = true →
        (g.deref y).type = (g.deref x).type →
        (prio y).getD 0 = (prio x).getD 0 → y ∉ step → g.addr x < g.addr y := by
  refine ⟨stepChosen sortFn
    { Scheduler.new g andLimit orLimit notLimit with nodePriority := prio }
    (loopAfter sortFn { Scheduler.new g andLimit orLimit notLimit with nodePriority := prio }
      ({ Scheduler.new g andLimit orLimit notLimit with nodePriority := prio } :
        Scheduler).loopStart k).unscheduledNodes, by rw [whileBody_eq], ?_⟩
  intro x hx y hy hry hty hp hny
  exact addr_lt_of_chosen_alone sortFn hsort hstable
    { Scheduler.new g andLimit orLimit notLimit with nodePriority := prio } _
    (loopAfter_ascending sortFn g hinj andLimit orLimit notLimit prio k) x y hx hy hry hty hp hny

theorem heuristicSchedule_tie_goes_to_lower_address_witness :
    StdSort insertionSortFn ∧ StableSort insertionSortFn ∧
    Function.Injective (twoAndGraph (fun p => p)).addr ∧
    ∃ step,
      (whileBody insertionSortFn
        { Scheduler.new (twoAndGraph (fun p => p)) 1 1 1 with nodePriority := fun _ => some 1 }
        (loopAfter insertionSortFn
          { Scheduler.new (twoAndGraph (fun p => p)) 1 1 1 with nodePriority := fun _ => some 1 }
          ({ Scheduler.new (twoAndGraph (fun p => p)) 1 1 1 with
              nodePriority := fun _ => some 1 } : Scheduler).loopStart 0)).schedule =
        (loopAfter insertionSortFn
          { Scheduler.new (twoAndGraph (fun p => p)) 1 1 1 with nodePriority := fun _ => some 1 }
          ({ Scheduler.new (twoAndGraph (fun p => p)) 1 1 1 with
              nodePriority := fun _ => some 1 } : Scheduler).loopStart 0).schedule ++ [step] := by
  obtain ⟨step, h1, _⟩ := heuristicSchedule_tie_goes_to_lower_address insertionSortFn
    stdSort_insertionSortFn stableSort_insertionSortFn (twoAndGraph (fun p => p))
    injective_id_addr 1 1 1 (fun _ => some 1) 0
  exact ⟨stdSort_insertionSortFn, stableSort_insertionSortFn, injective_id_addr, step, h1⟩

/-- C20 (counterexample). Two AND gates `a` (id 2) and `b` (id 3) of equal priority, both ready,
one AND unit, `b` stored below `a`: the first step schedules `b` alone, the node with the larger
id. -/
theorem heuristicSchedule_tie_not_by_id :
    StdSort insertionSortFn ∧
    ((Scheduler.new (twoAndGraph (fun p => 10 - p)) 1 1 1).heuristicSchedule
        insertionSortFn 5).map
      (fun s => (s.schedule, s.nodePriority 2, s.nodePriority 3)) =
        some ([[3], [2]], some 1, some 1) ∧
    (Scheduler.new (twoAndGraph (fun p => 10 - p)) 1 1 1).loopStart.unscheduledNodes = [3, 2] ∧
    isReady (twoAndGraph (fun p => 10 - p)) [3, 2] 2 = true ∧
    isReady (twoAndGraph (fun p => 10 - p)) [3, 2] 3 = true ∧
    ((twoAndGraph (fun p => 10 - p)).deref 2).type = "AND" ∧
    ((twoAndGraph (fun p => 10 - p)).deref 3).type = "AND" ∧
    ((twoAndGraph (fun p => 10 - p)).deref 2).id < ((twoAndGraph (fun p => 10 - p)).deref 3).id :=
  ⟨stdSort_insertionSortFn, by decide, by decide, by decide, by decide, by decide, by decide,
    by decide⟩

/-! ## What `computeNodePriorities` leaves on any graph -/

theorem mapSet_same (f : NodePtr → Option Int) (k : NodePtr) (v : Int) :
    mapSet f k v k = some v := by
  simp [mapSet]

theorem mapSet_other (f : NodePtr → Option Int) (k : NodePtr) (v : Int) (n : NodePtr)
    (h : n ≠ k) : mapSet f k v n = f n := by
  simp [mapSet, h]

theorem dfsSuccs_assigned (visit : NodePtr → PrioState → Option (Int × PrioState))
    (l : List NodePtr)
    (hvisit : ∀ s ∈ l, ∀ st r st1, visit s st = some (r, st1) →
      (∀ n, (∃ p, st.nodePriority n = some p) → ∃ q, st1.nodePriority n = some q) ∧
      (∀ n, st1.visited n = true → st1.nodePriority n = none →
        st.visited n = true ∧ st.nodePriority n = none))
    (m : Int) (st : PrioState) (r : Int) (st1 : PrioState)
    (h : dfsSuccs visit l m st = some (r, st1)) :
    (∀ n, (∃ p, st.nodePriority n = some p) → ∃ q, st1.nodePriority n = some q) ∧
    (∀ n, st1.visited n = true → st1.nodePriority n = none →
      st.visited n = true ∧ st.nodePriority n = none) := by
  induction l generalizing m st with
  | nil =>
    simp only [dfsSuccs, Option.some.injEq, Prod.mk.injEq] at h
    obtain ⟨_, rfl⟩ := h
    exact ⟨fun _ hn => hn, fun _ h1 h2 => ⟨h1, h2⟩⟩
  | cons s rest ih =>
    simp only [dfsSuccs] at h
    cases hv : visit s st with
    | none => rw [hv] at h; exact Option.noConfusion h
    | some res =>
      obtain ⟨level, st2⟩ := res
      rw [hv] at h
      simp only at h
      obtain ⟨a1, a2⟩ := hvisit s (List.mem_cons_self _ _) st level st2 hv
      obtain ⟨b1, b2⟩ := ih (fun s' hs' => hvisit s' (List.mem_cons_of_mem _ hs')) _ st2 h
      refine ⟨fun n hn => b1 n (a1 n hn), fun n h1 h2 => ?_⟩
      obtain ⟨c1, c2⟩ := b2 n h1 h2
      exact a2 n c1 c2

theorem dfs_assigned (g : Graph) (fuel : Nat) :
    ∀ node st r st1, dfs g fuel node st = some (r, st1) →
      st1.nodePriority node = some r ∧
      (∀ n, (∃ p, st.nodePriority n = some p) → ∃ q, st1.nodePriority n = some q) ∧
      (∀ n, st1.visited n = true → st1.nodePriority n = none →
        st.visited n = true ∧ st.nodePriority n = none) := by
  induction fuel with
  | zero =>
    intro node st r st1 h
    simp only [dfs] at h
    exact Option.noConfusion h
  | succ fuel ih =>
    intro node st r st1 h
    by_cases hv : st.visited node = true
    · simp only [dfs, hv, if_true, Option.some.injEq, Prod.mk.injEq] at h
      obtain ⟨rfl, rfl⟩ := h
      refine ⟨by simp [mapSet], ?_, ?_⟩
      · rintro n ⟨p, hp⟩
        by_cases hn : n = node
        · exact ⟨_, by rw [hn]; exact mapSet_same _ _ _⟩
        · exact ⟨p, by rw [← hp]; exact mapSet_other _ _ _ _ hn⟩
      · intro n h1 h2
        by_cases hn : n = node
        · simp [mapSet, hn] at h2
        · simp only [mapSet, hn, if_false] at h2
          exact ⟨h1, h2⟩
    · simp only [dfs, hv] at h
      cases hl : dfsSuccs (dfs g fuel) (g.deref node).outputs 0
          { visited := fun q => if q = node then true else st.visited q,
            nodePriority := st.nodePriority } with
      | none => rw [hl] at h; simp at h
      | some res =>
        obtain ⟨maxLevel, st2⟩ := res
        rw [hl] at h
        simp only [Bool.false_eq_true, if_false, Option.some.injEq, Prod.mk.injEq] at h
        obtain ⟨rfl, rfl⟩ := h
        obtain ⟨b1, b2⟩ := dfsSuccs_assigned (dfs g fuel) _
          (fun s _ st r st1 hs => (ih s st r st1 hs).2) 0 _ maxLevel st2 hl
        refine ⟨by simp [mapSet], ?_, ?_⟩
        · rintro n ⟨p, hp⟩
          by_cases hn : n = node
          · exact ⟨_, by rw [hn]; exact mapSet_same _ _ _⟩
          · obtain ⟨q, hq⟩ := b1 n ⟨p, hp⟩
            exact ⟨q, by rw [← hq]; exact mapSet_other _ _ _ _ hn⟩
        · intro n h1 h2
          by_cases hn : n = node
          · simp [mapSet, hn] at h2
          · simp only [mapSet, hn, if_false] at h2
            obtain ⟨c1, c2⟩ := b2 n h1 h2
            simp only [hn, if_false] at c1
            exact ⟨c1, c2⟩

theorem markEndpoints_assigned (g : Graph) (l : List (String × NodePtr)) (st : PrioState)
    (h : ∀ n, st.visited n = true → ∃ p, st.nodePriority n = some p) :
    ∀ n, (l.foldl (fun s pair =>
        if (g.deref pair.2).outputs.isEmpty then
          { visited := fun q => if q = pair.2 then true else s.visited q,
            nodePriority := mapSet s.nodePriority pair.2 1 }
        else s) st).visited n = true →
      ∃ p, (l.foldl (fun s pair =>
        if (g.deref pair.2).outputs.isEmpty then
          { visited := fun q => if q = pair.2 then true else s.visited q,
            nodePriority := mapSet s.nodePriority pair.2 1 }
        else s) st).nodePriority n = some p := by
  induction l generalizing st with
  | nil => exact h
  | cons pair rest ih =>
    simp only [List.foldl_cons]
    apply ih
    split
    · intro n hn
      by_cases hq : n = pair.2
      · exact ⟨1, by simp [mapSet, hq]⟩
      · simp only [hq, if_false] at hn
        obtain ⟨p, hp⟩ := h n hn
        exact ⟨p, by simp [mapSet, hq, hp]⟩
    · exact h

theorem visitAll_assigned (g : Graph) (fuel : Nat) (l : List (String × NodePtr))
    (st st1 : PrioState) (h : visitAll g fuel l st = some st1)
    (htop : ∀ n, st.visited n = true → ∃ p, st.nodePriority n = some p) :
    (∀ n, st1.visited n = true → ∃ p, st1.nodePriority n = some p) ∧
    (∀ n, (∃ p, st.nodePriority n = some p) → ∃ q, st1.nodePriority n = some q) ∧
    (∀ pair ∈ l, ∃ p, st1.nodePriority pair.2 = some p) := by
  induction l generalizing st with
  | nil =>
    simp only [visitAll, Option.some.injEq] at h
    subst h
    exact ⟨htop, fun _ hn => hn, fun _ hp => absurd hp (List.not_mem_nil _)⟩
  | cons pair rest ih =>
    by_cases hv : st.visited pair.2 = true
    · simp only [visitAll, hv, if_true] at h
      obtain ⟨a1, a2, a3⟩ := ih st h htop
      refine ⟨a1, a2, ?_⟩
      intro p hp
      rcases List.mem_cons.1 hp with e | e
      · rw [e]; exact a2 _ (htop _ hv)
      · exact a3 p e
    · simp only [visitAll, hv] at h
      cases hd : dfs g fuel pair.2 st with
      | none => rw [hd] at h; simp at h
      | some res =>
        obtain ⟨r, st2⟩ := res
        rw [hd] at h
        simp only [Bool.false_eq_true, if_false] at h
        obtain ⟨d1, d2, d3⟩ := dfs_assigned g fuel pair.2 st r st2 hd
        have htop2 : ∀ n, st2.visited n = true → ∃ p, st2.nodePriority n = some p := by
          intro n hn
          cases hp : st2.nodePriority n with
          | some p => exact ⟨p, rfl⟩
          | none =>
            obtain ⟨c1, c2⟩ := d3 n hn hp
            obtain ⟨p, hp2⟩ := htop n c1
            rw [c2] at hp2
            exact Option.noConfusion hp2
        obtain ⟨a1, a2, a3⟩ := ih st2 h htop2
        refine ⟨a1, fun n hn => a2 n (d2 n hn), ?_⟩
        intro p hp
        rcases List.mem_cons.1 hp with e | e
        · rw [e]; exact a2 _ ⟨r, d1⟩
        · exact a3 p e

/-- C12 (as it holds). On every graph whose successor edges stay inside the graph, cyclic or
not, `computeNodePriorities` reports no error: the call `dfs(node)` for a node whose visit is
in progress (visited, no priority yet) returns 0, and `computeNodePriorities` returns normally
(any fuel above the number of nodes suffices) with a priority assigned to every node of the
graph. -/
theorem computeNodePriorities_returns_on_any_graph (g : Graph)
    (andLimit orLimit notLimit : Int) (hclosed : g.SuccessorsClosed)
    (fuel : Nat) (hfuel : g.nodes.length < fuel) :
    (∀ (fuel1 : Nat) (node : NodePtr) (st : PrioState), st.visited node = true →
      st.nodePriority node = none → (dfs g (fuel1 + 1) node st).map Prod.fst = some 0) ∧
    ∃ s, (Scheduler.new g andLimit orLimit notLimit).computeNodePriorities fuel = some s ∧
      ∀ pair ∈ g.nodes, ∃ p, s.nodePriority pair.2 = some p := by
  refine ⟨fun fuel1 node st hv hp => by simp [dfs, hv, hp], ?_⟩
  obtain ⟨prio, hprio⟩ := computeNodePriorities_terminates
    (Scheduler.new g andLimit orLimit notLimit) hclosed fuel hfuel
  refine ⟨_, hprio, ?_⟩
  unfold Scheduler.computeNodePriorities at hprio
  cases hv : visitAll (Scheduler.new g andLimit orLimit notLimit).graph fuel
      (Scheduler.new g andLimit orLimit notLimit).graph.nodes
      (markEndpoints (Scheduler.new g andLimit orLimit notLimit).graph
        { visited := fun _ => false,
          nodePriority := (Scheduler.new g andLimit orLimit notLimit).nodePriority }) with
  | none => rw [hv] at hprio; exact Option.noConfusion hprio
  | some st1 =>
    rw [hv] at hprio
    simp only [Option.some.injEq] at hprio
    have hp : prio = st1.nodePriority := (congrArg Scheduler.nodePriority hprio).symm
    obtain ⟨_, _, a3⟩ := visitAll_assigned _ fuel _ _ st1 hv
      (markEndpoints_assigned g g.nodes _ (fun n hn => by simp at hn))
    intro pair hpair
    obtain ⟨p, hp1⟩ := a3 pair hpair
    exact ⟨p, by simp only [hp]; exact hp1⟩

theorem cycleGraph_successorsClosed : cycleGraph.SuccessorsClosed := by
  unfold Graph.SuccessorsClosed
  decide

theorem computeNodePriorities_returns_on_any_graph_witness :
    cycleGraph.SuccessorsClosed ∧
    (∀ (fuel1 : Nat) (node : NodePtr) (st : PrioState), st.visited node = true →
      st.nodePriority node = none →
      (dfs cycleGraph (fuel1 + 1) node st).map Prod.fst = some 0) ∧
    ∃ s, (Scheduler.new cycleGraph 1 1 1).computeNodePriorities 3 = some s ∧
      ∀ pair ∈ cycleGraph.nodes, ∃ p, s.nodePriority pair.2 = some p :=
  ⟨cycleGraph_successorsClosed,
    computeNodePriorities_returns_on_any_graph cycleGraph 1 1 1 cycleGraph_successorsClosed 3
      (by decide)⟩

/-- C12 (counterexample). On the graph in which `a` and `b` are each other's successor
`computeNodePriorities` returns normally: the revisit of `a`, whose visit is in progress, reads
priority 0, and the call ends with priority 1 for `b` and 2 for `a`. -/
theorem computeNodePriorities_silent_on_cycle :
    Relation.TransGen (fun p q => q ∈ (cycleGraph.deref p).outputs) 0 0 ∧
    ((Scheduler.new cycleGraph 1 1 1).computeNodePriorities 3).map
      (fun s => (s.nodePriority 0, s.nodePriority 1)) = some (some 2, some 1) :=
  ⟨Relation.TransGen.tail
      (Relation.TransGen.single (show (1 : NodePtr) ∈ (cycleGraph.deref 0).outputs by decide))
      (show (0 : NodePtr) ∈ (cycleGraph.deref 1).outputs by decide), by decide⟩

theorem andBlif_parse :
    (Graph.parseBLIF andBlif (fun p => p)).map
      (fun g => (g.nodes, g.inputs, g.outputs, g.nodes.map (fun pair => (g.deref pair.2).type),
        (g.deref 2).inputs, (g.deref 0).outputs)) =
    some ([("a", 0), ("b", 1), ("f", 2)], [0, 1], [2], ["INPUT", "INPUT", "AND"], [0, 1], [2]) := by
  rfl

/-! ## The parser: what every step keeps -/

theorem lookup_cons_ite (k : String) (k0 : String) (v : NodePtr)
    (rest : List (String × NodePtr)) :
    List.lookup k ((k0, v) :: rest) = if k = k0 then some v else List.lookup k rest := by
  rw [List.lookup_cons]
  by_cases h : k = k0
  · rw [if_pos h, beq_iff_eq.2 h]
  · rw [if_neg h, beq_eq_false_iff_ne.2 h]

theorem lookup_nodesInsert (nodes : List (String × NodePtr)) (name : String) (p : NodePtr)
    (k : String) :
    (nodesInsert nodes name p).lookup k = if k = name then some p else nodes.lookup k := by
  induction nodes with
  | nil =>
    rw [nodesInsert, lookup_cons_ite]
  | cons hd rest ih =>
    obtain ⟨k0, v⟩ := hd
    rw [nodesInsert]
    by_cases h1 : keyLess name.toList k0.toList = true
    · rw [if_pos h1, lookup_cons_ite]
    · rw [if_neg h1]
      by_cases h2 : name = k0
      · rw [if_pos h2, lookup_cons_ite, lookup_cons_ite]
        by_cases h : k = name
        · rw [if_pos h, if_pos h]
        · rw [if_neg h, if_neg h, if_neg (fun e => h (e.trans h2.symm))]
      · rw [if_neg h2, lookup_cons_ite, lookup_cons_ite, ih]
        by_cases h : k = name
        · rw [if_pos h, if_pos h, if_neg (fun e => h2 (h.symm.trans e))]
        · rw [if_neg h, if_neg h]

theorem parseFrame_refl (st : ParseState) (touched : String → Prop) :
    ParseFrame st st touched :=
  ⟨le_refl _, fun _ _ h => h, fun _ h => h, fun _ _ => rfl, fun _ _ _ => rfl⟩

theorem parseFrame_trans {st st1 st2 : ParseState} {touched : String → Prop}
    (h1 : ParseFrame st st1 touched) (h2 : ParseFrame st1 st2 touched) :
    ParseFrame st st2 touched := by
  refine ⟨le_trans h1.nodeId_le h2.nodeId_le, fun n p h => h2.lookup_keep n p (h1.lookup_keep n p h),
    fun p h => h2.outputs_keep p (h1.outputs_keep p h), ?_, ?_⟩
  · intro p hp
    rw [h2.name_keep p (lt_of_lt_of_le hp h1.nodeId_le), h1.name_keep p hp]
  · intro p hp ht
    rw [h2.type_keep p (lt_of_lt_of_le hp h1.nodeId_le) (by rw [h1.name_keep p hp]; exact ht),
      h1.type_keep p hp ht]

theorem parseFrame_mono {st st1 : ParseState} {touched touched1 : String → Prop}
    (h : ParseFrame st st1 touched) (himp : ∀ n, touched n → touched1 n) :
    ParseFrame st st1 touched1 :=
  ⟨h.nodeId_le, h.lookup_keep, h.outputs_keep, h.name_keep,
    fun p hp ht => h.type_keep p hp (fun hn => ht (himp _ hn))⟩

theorem parseInv_init : ParseInv ParseState.init := by
  refine ⟨?_, ?_, ?_, ?_, ?_⟩
  · intro name p h
    simp [ParseState.init] at h
  · intro p _
    exact ⟨rfl, rfl⟩
  · intro a b
    rfl
  · intro p
    exact List.mem_cons_self _ _
  · intro h
    exact absurd rfl h

theorem parseInv_newNode (st : ParseState) (name type : String) (h : ParseInv st)
    (htype : type ∈ ["", "INPUT", "OUTPUT", "AND", "OR", "NOT"]) :
    ParseInv (newNode st name type) := by
  have hin : ∀ q, ((newNode st name type).heap q).inputs = (st.heap q).inputs := by
    intro q
    by_cases hq : q = st.nodeId
    · simp only [newNode, hq, if_true]
      exact ((h.fresh st.nodeId (le_refl _)).1).symm
    · simp only [newNode, hq, if_false]
  have hout : ∀ q, ((newNode st name type).heap q).outputs = (st.heap q).outputs := by
    intro q
    by_cases hq : q = st.nodeId
    · simp only [newNode, hq, if_true]
      exact ((h.fresh st.nodeId (le_refl _)).2).symm
    · simp only [newNode, hq, if_false]
  have hlook : ∀ k, (newNode st name type).nodes.lookup k =
      if k = name then some st.nodeId else st.nodes.lookup k :=
    fun k => lookup_nodesInsert st.nodes name st.nodeId k
  refine ⟨?_, ?_, ?_, ?_, ?_⟩
  · intro k p hk
    rw [hlook] at hk
    by_cases hkn : k = name
    · rw [if_pos hkn] at hk
      have hp : p = st.nodeId := (Option.some.inj hk).symm
      subst hp
      exact ⟨by simp only [newNode, if_true]; exact hkn.symm, Nat.lt_succ_self _⟩
    · rw [if_neg hkn] at hk
      obtain ⟨a, b⟩ := h.named k p hk
      have hne : p ≠ st.nodeId := Nat.ne_of_lt b
      exact ⟨by simp only [newNode, hne, if_false]; exact a, Nat.lt_succ_of_lt b⟩
  · intro p hp
    have hp1 : st.nodeId ≤ p := Nat.le_of_succ_le hp
    rw [hin, hout]
    exact h.fresh p hp1
  · intro a b
    rw [hin, hout]
    exact h.paired a b
  · intro p
    by_cases hq : p = st.nodeId
    · simp only [newNode, hq, if_true]
      exact htype
    · simp only [newNode, hq, if_false]
      exact h.typed p
  · intro hg
    obtain ⟨p, hp⟩ := h.gate hg
    by_cases hkn : st.lastGateName = name
    · exact ⟨st.nodeId, (hlook st.lastGateName).trans (if_pos hkn)⟩
    · exact ⟨p, ((hlook st.lastGateName).trans (if_neg hkn)).trans hp⟩

theorem parseFrame_newNode (st : ParseState) (name type : String)
    (hnone : st.nodes.lookup name = none) :
    ParseFrame st (newNode st name type) (fun _ => False) := by
  refine ⟨Nat.le_succ _, ?_, fun _ hp => hp, ?_, ?_⟩
  · intro k p hk
    have hkn : k ≠ name := by
      intro e
      rw [e, hnone] at hk
      exact Option.noConfusion hk
    show (nodesInsert st.nodes name st.nodeId).lookup k = some p
    rw [lookup_nodesInsert, if_neg hkn]
    exact hk
  · intro p hp
    have hne : p ≠ st.nodeId := Nat.ne_of_lt hp
    simp only [newNode, hne, if_false]
  · intro p hp _
    have hne : p ≠ st.nodeId := Nat.ne_of_lt hp
    simp only [newNode, hne, if_false]

theorem lookup_newNode (st : ParseState) (name type : String) :
    (newNode st name type).nodes.lookup name = some st.nodeId := by
  show (nodesInsert st.nodes name st.nodeId).lookup name = some st.nodeId
  rw [lookup_nodesInsert, if_pos rfl]

/-- A step that changes types only keeps the invariant of the loop. -/
theorem parseInv_retype (st st1 : ParseState) (h : ParseInv st)
    (hnodes : st1.nodes = st.nodes) (hid : st1.nodeId = st.nodeId)
    (hname : ∀ q, (st1.heap q).name = (st.heap q).name)
    (hin : ∀ q, (st1.heap q).inputs = (st.heap q).inputs)
    (hout : ∀ q, (st1.heap q).outputs = (st.heap q).outputs)
    (htyped : ∀ q, (st1.heap q).type ∈ ["", "INPUT", "OUTPUT", "AND", "OR", "NOT"])
    (hgate : st1.lastGateName = st.lastGateName ∨ st1.lastGateName = "") :
    ParseInv st1 := by
  refine ⟨?_, ?_, ?_, htyped, ?_⟩
  · intro k p hk
    rw [hnodes] at hk
    rw [hname, hid]
    exact h.named k p hk
  · intro p hp
    rw [hid] at hp
    rw [hin, hout]
    exact h.fresh p hp
  · intro a b
    rw [hin, hout]
    exact h.paired a b
  · intro hg
    rcases hgate with e | e
    · rw [e] at hg
      rw [e, hnodes]
      exact h.gate hg
    · exact absurd e hg

theorem heapUpdate_type_name (heap : NodePtr → Node) (p : NodePtr) (t : String) (q : NodePtr) :
    (heapUpdate heap p (fun n => { n with type := t }) q).name = (heap q).name ∧
    (heapUpdate heap p (fun n => { n with type := t }) q).inputs = (heap q).inputs ∧
    (heapUpdate heap p (fun n => { n with type := t }) q).outputs = (heap q).outputs ∧
    (heapUpdate heap p (fun n => { n with type := t }) q).type =
      if q = p then t else (heap q).type := by
  by_cases hq : q = p
  · subst hq
    simp [heapUpdate]
  · simp [heapUpdate, hq]

theorem inputsToken_spec (st : ParseState) (token : String) (h : ParseInv st) :
    ParseInv (inputsToken st token) ∧
    ParseFrame st (inputsToken st token) (fun _ => False) ∧
    (inputsToken st token).lastGateName = st.lastGateName := by
  unfold inputsToken
  split
  · split
    · rename_i hnone
      have h1 := parseInv_newNode st token "INPUT" h (by decide)
      have h2 := parseFrame_newNode st token "INPUT" hnone
      exact ⟨⟨h1.named, h1.fresh, h1.paired, h1.typed, h1.gate⟩,
        ⟨h2.nodeId_le, h2.lookup_keep, h2.outputs_keep, h2.name_keep, h2.type_keep⟩, rfl⟩
    · exact ⟨h, parseFrame_refl _ _, rfl⟩
  · exact ⟨h, parseFrame_refl _ _, rfl⟩

theorem foldl_inputsToken_spec (toks : List String) (st : ParseState) (h : ParseInv st) :
    ParseInv (toks.foldl inputsToken st) ∧
    ParseFrame st (toks.foldl inputsToken st) (fun _ => False) ∧
    (toks.foldl inputsToken st).lastGateName = st.lastGateName := by
  induction toks generalizing st with
  | nil => exact ⟨h, parseFrame_refl _ _, rfl⟩
  | cons t rest ih =>
    obtain ⟨a1, a2, a3⟩ := inputsToken_spec st t h
    obtain ⟨b1, b2, b3⟩ := ih (inputsToken st t) a1
    exact ⟨b1, parseFrame_trans a2 b2, b3.trans a3⟩

theorem outputsToken_spec (st : ParseState) (token : String) (h : ParseInv st) :
    ParseInv (outputsToken st token) ∧
    ParseFrame st (outputsToken st token) (fun n => n = token) ∧
    (outputsToken st token).lastGateName = st.lastGateName ∧
    (token ≠ ".outputs" → ∃ p, (outputsToken st token).nodes.lookup token = some p ∧
      p ∈ (outputsToken st token).outputs ∧ ((outputsToken st token).heap p).type = "OUTPUT") := by
  unfold outputsToken
  split
  · split
    · rename_i hnone
      have h1 := parseInv_newNode st token "OUTPUT" h (by decide)
      have h2 := parseFrame_newNode st token "OUTPUT" hnone
      refine ⟨⟨h1.named, h1.fresh, h1.paired, h1.typed, h1.gate⟩,
        ⟨h2.nodeId_le, h2.lookup_keep, fun p hp => List.mem_append_left _ hp, h2.name_keep,
          fun p hp _ => h2.type_keep p hp (fun e => e)⟩, rfl, fun _ => ?_⟩
      exact ⟨st.nodeId, lookup_newNode st token "OUTPUT",
        List.mem_append_right _ (List.mem_singleton_self _), by simp [newNode, Node.new]⟩
    · rename_i p hsome
      have hp := h.named token p hsome
      refine ⟨?_, ?_, rfl, fun _ => ?_⟩
      · refine parseInv_retype st _ h rfl rfl
          (fun q => (heapUpdate_type_name st.heap p "OUTPUT" q).1)
          (fun q => (heapUpdate_type_name st.heap p "OUTPUT" q).2.1)
          (fun q => (heapUpdate_type_name st.heap p "OUTPUT" q).2.2.1) ?_ (Or.inl rfl)
        intro q
        have e := (heapUpdate_type_name st.heap p "OUTPUT" q).2.2.2
        show (heapUpdate st.heap p (fun n => { n with type := "OUTPUT" }) q).type ∈ _
        rw [e]
        split
        · decide
        · exact h.typed q
      · refine ⟨le_refl _, fun _ _ hk => hk, fun q hq => List.mem_append_left _ hq,
          fun q _ => (heapUpdate_type_name st.heap p "OUTPUT" q).1, ?_⟩
        intro q _ hq
        have e := (heapUpdate_type_name st.heap p "OUTPUT" q).2.2.2
        show (heapUpdate st.heap p (fun n => { n with type := "OUTPUT" }) q).type = _
        rw [e, if_neg]
        intro e1
        apply hq
        rw [e1]
        exact hp.1
      · refine ⟨p, hsome, List.mem_append_right _ (List.mem_singleton_self _), ?_⟩
        have e := (heapUpdate_type_name st.heap p "OUTPUT" p).2.2.2
        show (heapUpdate st.heap p (fun n => { n with type := "OUTPUT" }) p).type = _
        rw [e, if_pos rfl]
  · rename_i ht
    exact ⟨h, parseFrame_refl _ _, rfl, fun hne => absurd hne ht⟩

theorem foldl_outputsToken_spec (toks : List String) (st : ParseState) (h : ParseInv st) :
    ParseInv (toks.foldl outputsToken st) ∧
    ParseFrame st (toks.foldl outputsToken st) (fun n => n ∈ toks) ∧
    (toks.foldl outputsToken st).lastGateName = st.lastGateName ∧
    (∀ token ∈ toks, token ≠ ".outputs" →
      ∃ p, (toks.foldl outputsToken st).nodes.lookup token = some p ∧
        p ∈ (toks.foldl outputsToken st).outputs ∧
        ((toks.foldl outputsToken st).heap p).type = "OUTPUT") := by
  induction toks generalizing st with
  | nil => exact ⟨h, parseFrame_refl _ _, rfl, fun _ ht => absurd ht (List.not_mem_nil _)⟩
  | cons t rest ih =>
    obtain ⟨a1, a2, a3, a4⟩ := outputsToken_spec st t h
    obtain ⟨b1, b2, b3, b4⟩ := ih (outputsToken st t) a1
    refine ⟨b1, parseFrame_trans
      (parseFrame_mono a2 (fun n hn => by rw [hn]; exact List.mem_cons_self _ _))
      (parseFrame_mono b2 (fun n hn => List.mem_cons_of_mem _ hn)), b3.trans a3, ?_⟩
    intro token htok hne
    by_cases hin : token ∈ rest
    · exact b4 token hin hne
    · have ht : token = t := by
        rcases List.mem_cons.1 htok with e | e
        · exact e
        · exact absurd e hin
      subst ht
      obtain ⟨p, p1, p2, p3⟩ := a4 hne
      have hlt := (a1.named token p p1).2
      have hnm := (a1.named token p p1).1
      refine ⟨p, b2.lookup_keep _ _ p1, b2.outputs_keep _ p2, ?_⟩
      rw [List.foldl_cons, b2.type_keep p hlt (by rw [hnm]; exact hin), p3]

theorem ensureNode_spec (st : ParseState) (name : String) (h : ParseInv st) :
    ParseInv (ensureNode st name) ∧
    ParseFrame st (ensureNode st name) (fun _ => False) ∧
    (ensureNode st name).lastGateName = st.lastGateName ∧
    (∃ p, (ensureNode st name).nodes.lookup name = some p) ∧
    (ensureNode st name).outputs = st.outputs := by
  unfold ensureNode
  split
  · rename_i hnone
    exact ⟨parseInv_newNode st name "" h (by decide), parseFrame_newNode st name "" hnone, rfl,
      ⟨st.nodeId, lookup_newNode st name ""⟩, rfl⟩
  · rename_i p hsome
    exact ⟨h, parseFrame_refl _ _, rfl, ⟨p, hsome⟩, rfl⟩

theorem heapUpdate_edge (heap : NodePtr → Node) (pin pout : NodePtr) (q : NodePtr) :
    (heapUpdate (heapUpdate heap pin (fun n => { n with outputs := n.outputs ++ [pout] })) pout
      (fun n => { n with inputs := n.inputs ++ [pin] }) q).name = (heap q).name ∧
    (heapUpdate (heapUpdate heap pin (fun n => { n with outputs := n.outputs ++ [pout] })) pout
      (fun n => { n with inputs := n.inputs ++ [pin] }) q).type = (heap q).type ∧
    (heapUpdate (heapUpdate heap pin (fun n => { n with outputs := n.outputs ++ [pout] })) pout
      (fun n => { n with inputs := n.inputs ++ [pin] }) q).inputs =
        (if q = pout then (heap q).inputs ++ [pin] else (heap q).inputs) ∧
    (heapUpdate (heapUpdate heap pin (fun n => { n with outputs := n.outputs ++ [pout] })) pout
      (fun n => { n with inputs := n.inputs ++ [pin] }) q).outputs =
        (if q = pin then (heap q).outputs ++ [pout] else (heap q).outputs) := by
  by_cases h1 : q = pout
  · by_cases h2 : q = pin
    · subst h1
      subst h2
      simp [heapUpdate]
    · subst h1
      simp [heapUpdate, h2]
  · by_cases h2 : q = pin
    · subst h2
      simp [heapUpdate, h1]
    · simp [heapUpdate, h1, h2]

/-- Entering one edge on both sides keeps the invariant of the loop. -/
theorem parseInv_edge (st st1 : ParseState) (h : ParseInv st) (pin pout : NodePtr)
    (hpin : pin < st.nodeId) (hpout : pout < st.nodeId)
    (hnodes : st1.nodes = st.nodes) (hid : st1.nodeId = st.nodeId)
    (hlast : st1.lastGateName = st.lastGateName)
    (hheap : st1.heap = heapUpdate
      (heapUpdate st.heap pin (fun n => { n with outputs := n.outputs ++ [pout] })) pout
      (fun n => { n with inputs := n.inputs ++ [pin] })) :
    ParseInv st1 := by
  have e := fun q => heapUpdate_edge st.heap pin pout q
  refine ⟨?_, ?_, ?_, ?_, ?_⟩
  · intro k p hk
    rw [hnodes] at hk
    rw [hheap, (e p).1, hid]
    exact h.named k p hk
  · intro p hp
    rw [hid] at hp
    have h1 : p ≠ pout := fun e1 => absurd hpout (by rw [← e1]; exact Nat.not_lt.2 hp)
    have h2 : p ≠ pin := fun e1 => absurd hpin (by rw [← e1]; exact Nat.not_lt.2 hp)
    rw [hheap, (e p).2.2.1, (e p).2.2.2, if_neg h1, if_neg h2]
    exact h.fresh p hp
  · intro a b
    rw [hheap, (e b).2.2.1, (e a).2.2.2]
    have hp := h.paired a b
    by_cases h1 : b = pout
    · by_cases h2 : a = pin
      · rw [if_pos h1, if_pos h2, List.count_append, List.count_append, hp, h1, h2]
        simp
      · rw [if_pos h1, if_neg h2, List.count_append, hp]
        have : List.count a [pin] = 0 := by
          rw [List.count_singleton]
          simp [Ne.symm h2]
        omega
    · by_cases h2 : a = pin
      · rw [if_neg h1, if_pos h2, List.count_append, hp]
        have : List.count b [pout] = 0 := by
          rw [List.count_singleton]
          simp [Ne.symm h1]
        omega
      · rw [if_neg h1, if_neg h2, hp]
  · intro p
    rw [hheap, (e p).2.1]
    exact h.typed p
  · intro hg
    rw [hlast] at hg
    rw [hlast, hnodes]
    exact h.gate hg

theorem connectInput_spec (st : ParseState) (inputName : String) (h : ParseInv st)
    (hg : ∃ p, st.nodes.lookup st.lastGateName = some p) :
    ∃ st1, connectInput st inputName = some st1 ∧ ParseInv st1 ∧
      ParseFrame st st1 (fun _ => False) ∧ st1.lastGateName = st.lastGateName ∧
      st1.outputs = st.outputs := by
  obtain ⟨a1, a2, a3, ⟨pin, a4⟩, a5⟩ := ensureNode_spec st inputName h
  obtain ⟨pout, hpout⟩ := hg
  have a6 := a2.lookup_keep _ _ hpout
  have e : connectInput st inputName = some { ensureNode st inputName with
      heap := heapUpdate
        (heapUpdate (ensureNode st inputName).heap pin
          (fun n => { n with outputs := n.outputs ++ [pout] }))
        pout (fun n => { n with inputs := n.inputs ++ [pin] }) } := by
    unfold connectInput
    rw [a4, a6]
  refine ⟨_, e, ?_, ?_, a3, a5⟩
  · exact parseInv_edge (ensureNode st inputName) _ a1 pin pout (a1.named _ _ a4).2
      (a1.named _ _ a6).2 rfl rfl rfl rfl
  · have e1 := fun q => heapUpdate_edge (ensureNode st inputName).heap pin pout q
    refine parseFrame_trans a2 ⟨le_refl _, fun _ _ hk => hk, fun _ hp => hp, ?_, ?_⟩
    · intro q _
      exact (e1 q).1
    · intro q _ _
      exact (e1 q).2.1

theorem foldlM_connectInput_spec (names : List String) (st : ParseState) (h : ParseInv st)
    (hg : ∃ p, st.nodes.lookup st.lastGateName = some p) :
    ∃ st1, names.foldlM connectInput st = some st1 ∧ ParseInv st1 ∧
      ParseFrame st st1 (fun _ => False) ∧ st1.lastGateName = st.lastGateName ∧
      st1.outputs = st.outputs := by
  induction names generalizing st with
  | nil => exact ⟨st, rfl, h, parseFrame_refl _ _, rfl, rfl⟩
  | cons n rest ih =>
    obtain ⟨st1, a1, a2, a3, a4, a5⟩ := connectInput_spec st n h hg
    obtain ⟨p, hp⟩ := hg
    obtain ⟨st2, b1, b2, b3, b4, b5⟩ := ih st1 a2 ⟨p, by rw [a4]; exact a3.lookup_keep _ _ hp⟩
    refine ⟨st2, ?_, b2, parseFrame_trans a3 b3, b4.trans a4, b5.trans a5⟩
    rw [List.foldlM_cons, a1]
    exact b1

theorem namesGate_spec (st : ParseState) (names : List String) (h : ParseInv st) :
    ∃ st1, namesGate st names = some st1 ∧ ParseInv st1 ∧
      ParseFrame st st1 (fun _ => False) ∧ st1.outputs = st.outputs ∧
      (names.getLast? = none → st1 = st) ∧
      (∀ last, names.getLast? = some last →
        st1.lastGateName = last ∧ ∃ p, st1.nodes.lookup last = some p) := by
  unfold namesGate
  cases hl : names.getLast? with
  | none => exact ⟨st, rfl, h, parseFrame_refl _ _, rfl, fun _ => rfl, fun _ e => Option.noConfusion e⟩
  | some last =>
    obtain ⟨a1, a2, a3, ⟨p, a4⟩, a5⟩ := ensureNode_spec st last h
    have e : ensureNode { st with lastGateName := last } last =
        { ensureNode st last with lastGateName := last } := by
      unfold ensureNode
      cases st.nodes.lookup last <;> rfl
    have hinv : ParseInv { ensureNode st last with lastGateName := last } :=
      ⟨a1.named, a1.fresh, a1.paired, a1.typed, fun _ => ⟨p, a4⟩⟩
    have hfr : ParseFrame st { ensureNode st last with lastGateName := last } (fun _ => False) :=
      ⟨a2.nodeId_le, a2.lookup_keep, a2.outputs_keep, a2.name_keep, a2.type_keep⟩
    obtain ⟨st1, b1, b2, b3, b4, b5⟩ := foldlM_connectInput_spec names.dropLast
      { ensureNode st last with lastGateName := last } hinv ⟨p, a4⟩
    refine ⟨st1, ?_, b2, parseFrame_trans hfr b3, b5.trans a5, fun e1 => Option.noConfusion e1, ?_⟩
    · simp only [e]
      exact b1
    · intro last1 e1
      have : last1 = last := (Option.some.inj e1).symm
      subst this
      exact ⟨b4, p, b3.lookup_keep _ _ a4⟩

theorem gateType_mem (token : String) : gateType token ∈ ["AND", "OR", "NOT"] := by
  unfold gateType
  split
  · decide
  · split <;> decide

theorem coverRow_spec (st : ParseState) (line : String) (h : ParseInv st) :
    ∃ st1, coverRow st line = some st1 ∧ ParseInv st1 ∧
      ParseFrame st st1 (fun n => n = st.lastGateName) ∧ st1.outputs = st.outputs ∧
      (st1.lastGateName = st.lastGateName ∨ st1.lastGateName = "") ∧
      (∀ token rest, st.lastGateName ≠ "" → tokens line = token :: rest →
        st1.lastGateName = "" ∧
        ∃ p, st1.nodes.lookup st.lastGateName = some p ∧ (st1.heap p).type = gateType token) := by
  unfold coverRow
  by_cases hg : st.lastGateName = ""
  · rw [if_neg (fun hne => hne hg)]
    exact ⟨st, rfl, h, parseFrame_refl _ _, rfl, Or.inl rfl, fun _ _ hne _ => absurd hg hne⟩
  · rw [if_pos hg]
    cases ht : tokens line with
    | nil =>
      exact ⟨st, rfl, h, parseFrame_refl _ _, rfl, Or.inl rfl,
        fun _ _ _ e => List.noConfusion e⟩
    | cons token rest =>
      obtain ⟨p, hp⟩ := h.gate hg
      simp only [hp]
      have e := fun q => heapUpdate_type_name st.heap p (gateType token) q
      refine ⟨_, rfl, ?_, ?_, rfl, Or.inr rfl, ?_⟩
      · refine parseInv_retype st _ h rfl rfl (fun q => (e q).1) (fun q => (e q).2.1)
          (fun q => (e q).2.2.1) ?_ (Or.inr rfl)
        intro q
        show (heapUpdate st.heap p (fun n => { n with type := gateType token }) q).type ∈ _
        rw [(e q).2.2.2]
        split
        · have := gateType_mem token
          simp only [List.mem_cons, List.mem_singleton, List.not_mem_nil, or_false] at this ⊢
          tauto
        · exact h.typed q
      · refine ⟨le_refl _, fun _ _ hk => hk, fun _ hq => hq, fun q _ => (e q).1, ?_⟩
        intro q _ hq
        show (heapUpdate st.heap p (fun n => { n with type := gateType token }) q).type = _
        rw [(e q).2.2.2, if_neg]
        intro e1
        apply hq
        rw [e1]
        exact (h.named _ _ hp).1
      · intro token1 rest1 _ e1
        have : token1 = token := (List.cons.inj e1).1.symm
        subst this
        refine ⟨rfl, p, hp, ?_⟩
        show (heapUpdate st.heap p (fun n => { n with type := gateType token1 }) p).type = _
        rw [(e p).2.2.2, if_pos rfl]

theorem inputsToken_cont (st : ParseState) (token : String) :
    (inputsToken st token).continuation_line = st.continuation_line := by
  unfold inputsToken
  split
  · split <;> rfl
  · rfl

theorem outputsToken_cont (st : ParseState) (token : String) :
    (outputsToken st token).continuation_line = st.continuation_line := by
  unfold outputsToken
  split
  · split <;> rfl
  · rfl

theorem foldl_cont (f : ParseState → String → ParseState)
    (hf : ∀ st t, (f st t).continuation_line = st.continuation_line)
    (toks : List String) (st : ParseState) :
    (toks.foldl f st).continuation_line = st.continuation_line := by
  induction toks generalizing st with
  | nil => rfl
  | cons t rest ih => rw [List.foldl_cons, ih, hf]

theorem ensureNode_cont (st : ParseState) (name : String) :
    (ensureNode st name).continuation_line = st.continuation_line := by
  unfold ensureNode
  split <;> rfl

theorem connectInput_cont (st st1 : ParseState) (name : String)
    (h : connectInput st name = some st1) :
    st1.continuation_line = st.continuation_line := by
  unfold connectInput at h
  split at h
  · rw [← Option.some.inj h]
    exact ensureNode_cont st name
  · exact Option.noConfusion h

theorem foldlM_connectInput_cont (names : List String) (st st1 : ParseState)
    (h : names.foldlM connectInput st = some st1) :
    st1.continuation_line = st.continuation_line := by
  induction names generalizing st with
  | nil =>
    rw [← Option.some.inj h]
  | cons n rest ih =>
    rw [List.foldlM_cons] at h
    cases hc : connectInput st n with
    | none => rw [hc] at h; exact Option.noConfusion h
    | some st2 =>
      rw [hc] at h
      rw [ih st2 h, connectInput_cont st st2 n hc]

theorem namesGate_cont (st st1 : ParseState) (names : List String)
    (h : namesGate st names = some st1) :
    st1.continuation_line = st.continuation_line := by
  unfold namesGate at h
  split at h
  · rw [← Option.some.inj h]
  · rw [foldlM_connectInput_cont _ _ _ h, ensureNode_cont]

theorem coverRow_cont (st st1 : ParseState) (line : String)
    (h : coverRow st line = some st1) :
    st1.continuation_line = st.continuation_line := by
  unfold coverRow at h
  split at h
  · split at h
    · rw [← Option.some.inj h]
    · split at h
      · exact Option.noConfusion h
      · rw [← Option.some.inj h]
  · rw [← Option.some.inj h]

theorem parseLine_cont (st st1 : ParseState) (line : String) (b : Bool)
    (h : parseLine st line = some (b, st1)) :
    st1.continuation_line = st.continuation_line := by
  unfold parseLine at h
  split at h
  · rw [← (Prod.mk.inj (Option.some.inj h)).2]
  · rw [← (Prod.mk.inj (Option.some.inj h)).2]
    exact foldl_cont inputsToken inputsToken_cont _ _
  · rw [← (Prod.mk.inj (Option.some.inj h)).2]
    exact foldl_cont outputsToken outputsToken_cont _ _
  · cases hn : namesGate st (gateTokens line) with
    | none => rw [hn] at h; exact Option.noConfusion h
    | some st2 =>
      rw [hn] at h
      rw [← (Prod.mk.inj (Option.some.inj h)).2]
      exact namesGate_cont st st2 _ hn
  · rw [← (Prod.mk.inj (Option.some.inj h)).2]
  · cases hn : coverRow st line with
    | none => rw [hn] at h; exact Option.noConfusion h
    | some st2 =>
      rw [hn] at h
      rw [← (Prod.mk.inj (Option.some.inj h)).2]
      exact coverRow_cont st st2 _ hn

theorem parseLine_break (st st1 : ParseState) (line : String)
    (h : parseLine st line = some (true, st1)) : lineKind line = LineKind.endLine := by
  unfold parseLine at h
  split at h
  · exact absurd (Prod.mk.inj (Option.some.inj h)).1 (by decide)
  · exact absurd (Prod.mk.inj (Option.some.inj h)).1 (by decide)
  · exact absurd (Prod.mk.inj (Option.some.inj h)).1 (by decide)
  · cases hn : namesGate st (gateTokens line) with
    | none => rw [hn] at h; exact Option.noConfusion h
    | some st2 =>
      rw [hn] at h
      exact absurd (Prod.mk.inj (Option.some.inj h)).1 (by decide)
  · assumption
  · cases hn : coverRow st line with
    | none => rw [hn] at h; exact Option.noConfusion h
    | some st2 =>
      rw [hn] at h
      exact absurd (Prod.mk.inj (Option.some.inj h)).1 (by decide)

/-- Every branch of the loop body returns, keeps the invariant of the loop, and touches the
type of old nodes only where an `.outputs` line names them or a cover row ends the pending
gate. -/
theorem parseLine_spec (st : ParseState) (line : String) (h : ParseInv st) :
    ∃ b st1, parseLine st line = some (b, st1) ∧ ParseInv st1 ∧
      ParseFrame st st1 (fun n => (lineKind line = LineKind.outputsLine ∧ n ∈ tokens line) ∨
        (lineKind line = LineKind.coverLine ∧ n = st.lastGateName)) ∧
      (lineKind line = LineKind.namesLine → ∀ last, (gateTokens line).getLast? = some last →
        st1.lastGateName = last ∧ ∃ p, st1.nodes.lookup last = some p) ∧
      ((lineKind line = LineKind.namesLine → (gateTokens line).getLast? = none) →
        st1.lastGateName = st.lastGateName ∨ st1.lastGateName = "") ∧
      (lineKind line = LineKind.coverLine → ∀ token rest, st.lastGateName ≠ "" →
        tokens line = token :: rest → st1.lastGateName = "" ∧
        ∃ p, st1.nodes.lookup st.lastGateName = some p ∧ (st1.heap p).type = gateType token) ∧
      (lineKind line = LineKind.outputsLine → ∀ token ∈ tokens line, token ≠ ".outputs" →
        ∃ p, st1.nodes.lookup token = some p ∧ p ∈ st1.outputs ∧
          (st1.heap p).type = "OUTPUT") := by
  cases hk : lineKind line with
  | modelLine =>
    refine ⟨false, st, by simp only [parseLine, hk], h, parseFrame_refl _ _, ?_, ?_, ?_, ?_⟩
    · intro e; exact LineKind.noConfusion e
    · intro _; exact Or.inl rfl
    · intro e; exact LineKind.noConfusion e
    · intro e; exact LineKind.noConfusion e
  | inputsLine =>
    obtain ⟨a1, a2, a3⟩ := foldl_inputsToken_spec (tokens line) st h
    refine ⟨false, _, by simp only [parseLine, hk], a1,
      parseFrame_mono a2 (fun _ hn => False.elim hn), ?_, ?_, ?_, ?_⟩
    · intro e; exact LineKind.noConfusion e
    · intro _; exact Or.inl a3
    · intro e; exact LineKind.noConfusion e
    · intro e; exact LineKind.noConfusion e
  | outputsLine =>
    obtain ⟨a1, a2, a3, a4⟩ := foldl_outputsToken_spec (tokens line) st h
    refine ⟨false, _, by simp only [parseLine, hk], a1,
      parseFrame_mono a2 (fun _ hn => Or.inl ⟨rfl, hn⟩), ?_, ?_, ?_, ?_⟩
    · intro e; exact LineKind.noConfusion e
    · intro _; exact Or.inl a3
    · intro e; exact LineKind.noConfusion e
    · intro _; exact a4
  | namesLine =>
    obtain ⟨st1, a1, a2, a3, _, a5, a6⟩ := namesGate_spec st (gateTokens line) h
    refine ⟨false, st1, by simp only [parseLine, hk, a1, Option.map_some'], a2,
      parseFrame_mono a3 (fun _ hn => False.elim hn), ?_, ?_, ?_, ?_⟩
    · intro _; exact a6
    · intro e
      rw [a5 (e rfl)]
      exact Or.inl rfl
    · intro e; exact LineKind.noConfusion e
    · intro e; exact LineKind.noConfusion e
  | endLine =>
    refine ⟨true, st, by simp only [parseLine, hk], h, parseFrame_refl _ _, ?_, ?_, ?_, ?_⟩
    · intro e; exact LineKind.noConfusion e
    · intro _; exact Or.inl rfl
    · intro e; exact LineKind.noConfusion e
    · intro e; exact LineKind.noConfusion e
  | coverLine =>
    obtain ⟨st1, a1, a2, a3, _, a5, a6⟩ := coverRow_spec st line h
    refine ⟨false, st1, by simp only [parseLine, hk, a1, Option.map_some'], a2,
      parseFrame_mono a3 (fun _ hn => Or.inr ⟨rfl, hn⟩), ?_, ?_, ?_, ?_⟩
    · intro e; exact LineKind.noConfusion e
    · intro _; exact a5
    · intro _; exact a6
    · intro e; exact LineKind.noConfusion e

theorem parseLines_spec (lines : List String) (st : ParseState) (h : ParseInv st) :
    ∃ st1, parseLines st lines = some st1 ∧ ParseInv st1 ∧
      ParseFrame st st1 (fun _ => True) := by
  induction lines generalizing st with
  | nil => exact ⟨st, rfl, h, parseFrame_refl _ _⟩
  | cons line rest ih =>
    obtain ⟨b, st1, a1, a2, a3, _⟩ := parseLine_spec st line h
    cases b with
    | true =>
      exact ⟨st1, by simp only [parseLines, a1], a2, parseFrame_mono a3 (fun _ _ => trivial)⟩
    | false =>
      obtain ⟨st2, b1, b2, b3⟩ := ih st1 a2
      exact ⟨st2, by simp only [parseLines, a1]; exact b1, b2,
        parseFrame_trans (parseFrame_mono a3 (fun _ _ => trivial)) b3⟩

theorem clear_eq (s : ParseState) (h : s.continuation_line = "") :
    { s with continuation_line := "" } = s := by
  cases s
  simp only at h
  subst h
  rfl

/-- The loop over the lines of the file is the loop over the joined lines, up to the
continuation that is pending when the file ends. -/
theorem parseLoop_clear (raws : List String) (st : ParseState) :
    (parseLoop st raws).map (fun s => { s with continuation_line := "" }) =
      parseLines { st with continuation_line := "" } (logicalLines st.continuation_line raws) := by
  induction raws generalizing st with
  | nil => rfl
  | cons raw rest ih =>
    by_cases hlast : (joinedLine st raw).toList.getLast? = some (Char.ofNat 92)
    · have e1 : parseLoop st (raw :: rest) =
          parseLoop { st with continuation_line := String.mk (joinedLine st raw).toList.dropLast }
            rest := by
        rw [parseLoop, if_pos hlast]
      have e2 : logicalLines st.continuation_line (raw :: rest) =
          logicalLines (String.mk (joinedLine st raw).toList.dropLast) rest := by
        rw [logicalLines]
        exact if_pos hlast
      rw [e1, e2]
      exact ih _
    · have e2 : logicalLines st.continuation_line (raw :: rest) =
          joinedLine st raw :: logicalLines "" rest := by
        rw [logicalLines]
        exact if_neg hlast
      rw [e2, parseLoop, if_neg hlast, parseLines]
      cases hp : parseLine { st with continuation_line := "" } (joinedLine st raw) with
      | none => rfl
      | some res =>
        obtain ⟨b, st1⟩ := res
        have hc : st1.continuation_line = "" := parseLine_cont _ _ _ _ hp
        cases b with
        | true =>
          show some { st1 with continuation_line := "" } = some st1
          rw [clear_eq st1 hc]
        | false =>
          show (parseLoop st1 rest).map (fun s => { s with continuation_line := "" }) =
            parseLines st1 (logicalLines "" rest)
          rw [ih st1, hc, clear_eq st1 hc]

theorem resolveNode_clear (st : ParseState) (pair : String × NodePtr) (c : String) :
    resolveNode { st with continuation_line := c } pair =
      { resolveNode st pair with continuation_line := c } := by
  unfold resolveNode
  by_cases h1 : (st.heap pair.2).type = ""
  · by_cases h2 : (st.heap pair.2).inputs.isEmpty = true
    · simp only [h1, h2, if_true]
    · by_cases h3 : (st.heap pair.2).outputs.isEmpty = true
      · simp only [h1, h2, h3, if_true, if_false, Bool.false_eq_true, reduceIte]
      · simp only [h1, h2, h3, if_true, if_false, Bool.false_eq_true, reduceIte]
  · simp only [h1, if_false]

theorem foldl_resolveNode_clear (l : List (String × NodePtr)) (st : ParseState) (c : String) :
    l.foldl resolveNode { st with continuation_line := c } =
      { l.foldl resolveNode st with continuation_line := c } := by
  induction l generalizing st with
  | nil => rfl
  | cons pair rest ih => rw [List.foldl_cons, List.foldl_cons, resolveNode_clear, ih]

theorem finishGraph_clear (addr : NodePtr → Nat) (st : ParseState) (c : String) :
    finishGraph addr { st with continuation_line := c } = finishGraph addr st := by
  unfold finishGraph
  have e := foldl_resolveNode_clear st.nodes st c
  have e1 : ({ st with continuation_line := c } : ParseState).nodes = st.nodes := rfl
  rw [e1, e]

/-- The method `parseBLIF`, in terms of the joined lines. -/
theorem parseBLIF_eq (lines : List String) (addr : NodePtr → Nat) :
    Graph.parseBLIF lines addr =
      (parseLines ParseState.init (logicalLines "" lines)).map (finishGraph addr) := by
  have h := parseLoop_clear lines ParseState.init
  have e : ({ ParseState.init with continuation_line := "" } : ParseState) = ParseState.init :=
    rfl
  rw [e] at h
  have e2 : ParseState.init.continuation_line = "" := rfl
  rw [e2] at h
  rw [← h]
  unfold Graph.parseBLIF
  cases parseLoop ParseState.init lines with
  | none => rfl
  | some st =>
    exact congrArg some (finishGraph_clear addr st "").symm

theorem resolveNode_spec (st : ParseState) (pair : String × NodePtr) :
    (resolveNode st pair).nodes = st.nodes ∧
    (∀ q, ((resolveNode st pair).heap q).name = (st.heap q).name ∧
      ((resolveNode st pair).heap q).inputs = (st.heap q).inputs ∧
      ((resolveNode st pair).heap q).outputs = (st.heap q).outputs) ∧
    (∀ q, (st.heap q).type ≠ "" → ((resolveNode st pair).heap q).type = (st.heap q).type) ∧
    ((resolveNode st pair).heap pair.2).type ≠ "" ∧
    (∀ q, (st.heap q).type ∈ ["", "INPUT", "OUTPUT", "AND", "OR", "NOT", "WIRE"] →
      ((resolveNode st pair).heap q).type ∈ ["", "INPUT", "OUTPUT", "AND", "OR", "NOT", "WIRE"]) ∧
    (∀ p, p ∈ st.outputs → p ∈ (resolveNode st pair).outputs) := by
  have key : ∀ (t : String) (st1 : ParseState), t ≠ "" →
      t ∈ ["", "INPUT", "OUTPUT", "AND", "OR", "NOT", "WIRE"] →
      (st.heap pair.2).type = "" →
      st1.nodes = st.nodes →
      st1.heap = heapUpdate st.heap pair.2 (fun n => { n with type := t }) →
      (∀ p, p ∈ st.outputs → p ∈ st1.outputs) →
      st1.nodes = st.nodes ∧
      (∀ q, (st1.heap q).name = (st.heap q).name ∧
        (st1.heap q).inputs = (st.heap q).inputs ∧
        (st1.heap q).outputs = (st.heap q).outputs) ∧
      (∀ q, (st.heap q).type ≠ "" → (st1.heap q).type = (st.heap q).type) ∧
      (st1.heap pair.2).type ≠ "" ∧
      (∀ q, (st.heap q).type ∈ ["", "INPUT", "OUTPUT", "AND", "OR", "NOT", "WIRE"] →
        (st1.heap q).type ∈ ["", "INPUT", "OUTPUT", "AND", "OR", "NOT", "WIRE"]) ∧
      (∀ p, p ∈ st.outputs → p ∈ st1.outputs) := by
    intro t st1 ht hmem h0 hn hh ho
    have e := fun q => heapUpdate_type_name st.heap pair.2 t q
    refine ⟨hn, fun q => ?_, fun q hq => ?_, ?_, fun q hq => ?_, ho⟩
    · rw [hh]
      exact ⟨(e q).1, (e q).2.1, (e q).2.2.1⟩
    · rw [hh, (e q).2.2.2, if_neg]
      intro e1
      rw [e1] at hq
      exact hq h0
    · rw [hh, (e pair.2).2.2.2, if_pos rfl]
      exact ht
    · rw [hh, (e q).2.2.2]
      split
      · exact hmem
      · exact hq
  by_cases h1 : (st.heap pair.2).type = ""
  · by_cases h2 : (st.heap pair.2).inputs.isEmpty = true
    · have e : resolveNode st pair = { st with
          heap := heapUpdate st.heap pair.2 (fun n => { n with type := "INPUT" }),
          inputs := st.inputs ++ [pair.2] } := by
        unfold resolveNode
        rw [if_pos h1, if_pos h2]
      rw [e]
      exact key "INPUT" _ (by decide) (by decide) h1 rfl rfl (fun _ hp => hp)
    · by_cases h3 : (st.heap pair.2).outputs.isEmpty = true
      · have e : resolveNode st pair = { st with
            heap := heapUpdate st.heap pair.2 (fun n => { n with type := "OUTPUT" }),
            outputs := st.outputs ++ [pair.2] } := by
          unfold resolveNode
          rw [if_pos h1, if_neg h2, if_pos h3]
        rw [e]
        exact key "OUTPUT" _ (by decide) (by decide) h1 rfl rfl
          (fun _ hp => List.mem_append_left _ hp)
      · have e : resolveNode st pair = { st with
            heap := heapUpdate st.heap pair.2 (fun n => { n with type := "WIRE" }) } := by
          unfold resolveNode
          rw [if_pos h1, if_neg h2, if_neg h3]
        rw [e]
        exact key "WIRE" _ (by decide) (by decide) h1 rfl rfl (fun _ hp => hp)
  · have e : resolveNode st pair = st := by
      unfold resolveNode
      rw [if_neg h1]
    rw [e]
    exact ⟨rfl, fun _ => ⟨rfl, rfl, rfl⟩, fun _ _ => rfl, h1, fun _ hq => hq, fun _ hp => hp⟩

theorem foldl_resolveNode_spec (l : List (String × NodePtr)) (st : ParseState) :
    (l.foldl resolveNode st).nodes = st.nodes ∧
    (∀ q, ((l.foldl resolveNode st).heap q).name = (st.heap q).name ∧
      ((l.foldl resolveNode st).heap q).inputs = (st.heap q).inputs ∧
      ((l.foldl resolveNode st).heap q).outputs = (st.heap q).outputs) ∧
    (∀ q, (st.heap q).type ≠ "" → ((l.foldl resolveNode st).heap q).type = (st.heap q).type) ∧
    (∀ pair ∈ l, ((l.foldl resolveNode st).heap pair.2).type ≠ "") ∧
    (∀ q, (st.heap q).type ∈ ["", "INPUT", "OUTPUT", "AND", "OR", "NOT", "WIRE"] →
      ((l.foldl resolveNode st).heap q).type ∈
        ["", "INPUT", "OUTPUT", "AND", "OR", "NOT", "WIRE"]) ∧
    (∀ p, p ∈ st.outputs → p ∈ (l.foldl resolveNode st).outputs) := by
  induction l generalizing st with
  | nil =>
    exact ⟨rfl, fun _ => ⟨rfl, rfl, rfl⟩, fun _ _ => rfl,
      fun _ hp => absurd hp (List.not_mem_nil _), fun _ hq => hq, fun _ hp => hp⟩
  | cons pair rest ih =>
    obtain ⟨a1, a2, a3, a4, a5, a6⟩ := resolveNode_spec st pair
    obtain ⟨b1, b2, b3, b4, b5, b6⟩ := ih (resolveNode st pair)
    rw [List.foldl_cons]
    refine ⟨b1.trans a1, fun q => ?_, fun q hq => ?_, fun pr hpr => ?_, fun q hq => b5 q (a5 q hq),
      fun p hp => b6 p (a6 p hp)⟩
    · exact ⟨(b2 q).1.trans (a2 q).1, (b2 q).2.1.trans (a2 q).2.1, (b2 q).2.2.trans (a2 q).2.2⟩
    · rw [b3 q (by rw [a3 q hq]; exact hq), a3 q hq]
    · rcases List.mem_cons.1 hpr with e | e
      · rw [e, b3 _ a4]
        exact a4
      · exact b4 pr e

/-- The method `parseBLIF` returns on every file, with the graph that the loop after parsing
makes of a state in which the invariant of the loop holds. -/
theorem parseBLIF_total (lines : List String) (addr : NodePtr → Nat) :
    ∃ st, parseLines ParseState.init (logicalLines "" lines) = some st ∧ ParseInv st ∧
      Graph.parseBLIF lines addr = some (finishGraph addr st) := by
  obtain ⟨st, h1, h2, _⟩ := parseLines_spec (logicalLines "" lines) ParseState.init parseInv_init
  refine ⟨st, h1, h2, ?_⟩
  rw [parseBLIF_eq, h1]
  rfl

/-- C16. After `Graph::parseBLIF` on any sequence of lines edges are mutual: for all nodes `a`
and `b`, `a` occurs in the predecessor list of `b` as often as `b` occurs in the successor list
of `a`; in particular `a` is a predecessor of `b` if and only if `b` is a successor of `a`. -/
theorem parseBLIF_edges_mutual (lines : List String) (addr : NodePtr → Nat) :
    ∃ G, Graph.parseBLIF lines addr = some G ∧
      (∀ a b, (G.deref b).inputs.count a = (G.deref a).outputs.count b) ∧
      (∀ a b, a ∈ (G.deref b).inputs ↔ b ∈ (G.deref a).outputs) := by
  obtain ⟨st, _, hinv, hG⟩ := parseBLIF_total lines addr
  obtain ⟨_, r2, _⟩ := foldl_resolveNode_spec st.nodes st
  have hc : ∀ a b, ((finishGraph addr st).deref b).inputs.count a =
      ((finishGraph addr st).deref a).outputs.count b := by
    intro a b
    show ((st.nodes.foldl resolveNode st).heap b).inputs.count a =
      ((st.nodes.foldl resolveNode st).heap a).outputs.count b
    rw [(r2 b).2.1, (r2 a).2.2]
    exact hinv.paired a b
  refine ⟨_, hG, hc, ?_⟩
  intro a b
  rw [← List.count_pos_iff, ← List.count_pos_iff, hc a b]

/-- C17. After `Graph::parseBLIF` on any sequence of lines every node of the graph has a
resolved kind: its type is one of INPUT, OUTPUT, AND, OR, NOT and WIRE, and never the empty
string. -/
theorem parseBLIF_kinds_resolved (lines : List String) (addr : NodePtr → Nat) :
    ∃ G, Graph.parseBLIF lines addr = some G ∧
      ∀ pair ∈ G.nodes,
        (G.deref pair.2).type ∈ ["INPUT", "OUTPUT", "AND", "OR", "NOT", "WIRE"] ∧
        (G.deref pair.2).type ≠ "" := by
  obtain ⟨st, _, hinv, hG⟩ := parseBLIF_total lines addr
  obtain ⟨r1, _, _, r4, r5, _⟩ := foldl_resolveNode_spec st.nodes st
  refine ⟨_, hG, ?_⟩
  intro pair hpair
  have hp : pair ∈ st.nodes := by
    rw [← r1]
    exact hpair
  have h1 : ((st.nodes.foldl resolveNode st).heap pair.2).type ≠ "" := r4 pair hp
  have h2 : ((st.nodes.foldl resolveNode st).heap pair.2).type ∈
      ["", "INPUT", "OUTPUT", "AND", "OR", "NOT", "WIRE"] := by
    apply r5
    have := hinv.typed pair.2
    simp only [List.mem_cons, List.mem_singleton, List.not_mem_nil, or_false] at this ⊢
    tauto
  refine ⟨?_, h1⟩
  show ((st.nodes.foldl resolveNode st).heap pair.2).type ∈ _
  rcases List.mem_cons.1 h2 with e | e
  · exact absurd e h1
  · exact e

theorem mk_reverse_ne_empty (cur : List Char) (h : cur.isEmpty = false) :
    String.mk cur.reverse ≠ "" := by
  intro e
  have e1 : cur.reverse = [] := congrArg String.data e
  rw [List.reverse_eq_nil_iff] at e1
  rw [e1] at h
  exact Bool.noConfusion h

theorem tokensAux_ne_empty (cs : List Char) :
    ∀ cur, ∀ t ∈ tokensAux cs cur, t ≠ "" := by
  induction cs with
  | nil =>
    intro cur t ht
    unfold tokensAux at ht
    cases hc : cur.isEmpty with
    | true =>
      rw [hc] at ht
      exact absurd ht (List.not_mem_nil _)
    | false =>
      rw [hc] at ht
      rw [List.mem_singleton.1 ht]
      exact mk_reverse_ne_empty cur hc
  | cons c rest ih =>
    intro cur t ht
    unfold tokensAux at ht
    cases hs : isSpace c with
    | true =>
      rw [hs] at ht
      cases hc : cur.isEmpty with
      | true =>
        rw [hc] at ht
        exact ih [] t ht
      | false =>
        rw [hc] at ht
        rcases List.mem_cons.1 ht with e | e
        · rw [e]
          exact mk_reverse_ne_empty cur hc
        · exact ih [] t e
    | false =>
      rw [hs] at ht
      exact ih (c :: cur) t ht

/-- A token is never the empty string. -/
theorem tokens_ne_empty (line : String) : ∀ t ∈ tokens line, t ≠ "" :=
  tokensAux_ne_empty line.toList []

theorem gateTokens_last_ne_empty (line g : String)
    (h : (gateTokens line).getLast? = some g) : g ≠ "" := by
  have h1 : g ∈ gateTokens line := List.mem_of_mem_getLast? h
  exact tokens_ne_empty line g (List.mem_of_mem_filter h1)

theorem parseLines_append (pre rest : List String) (st : ParseState)
    (hpre : ∀ l ∈ pre, lineKind l ≠ LineKind.endLine) :
    parseLines st (pre ++ rest) = (parseLines st pre).bind (fun s => parseLines s rest) := by
  induction pre generalizing st with
  | nil => rfl
  | cons line more ih =>
    rw [List.cons_append, parseLines, parseLines]
    cases hp : parseLine st line with
    | none => rfl
    | some res =>
      obtain ⟨b, st1⟩ := res
      cases b with
      | true =>
        exact absurd (parseLine_break st st1 line hp) (hpre line (List.mem_cons_self _ _))
      | false =>
        exact ih st1 (fun l hl => hpre l (List.mem_cons_of_mem _ hl))

/-- A line that is neither an `.outputs` line naming `g` nor a `.names` line with output `g`
leaves the type of the node `g` as it is, when `g` is not the pending gate. -/
theorem parseLine_keep_type (st : ParseState) (line g t : String) (hinv : ParseInv st)
    (hg : g ≠ "") (hK : ∃ p, st.nodes.lookup g = some p ∧ (st.heap p).type = t)
    (hlast : st.lastGateName ≠ g)
    (hline : ¬ (lineKind line = LineKind.outputsLine ∧ g ∈ tokens line))
    (hline2 : ¬ (lineKind line = LineKind.namesLine ∧ (gateTokens line).getLast? = some g)) :
    ∃ b st1, parseLine st line = some (b, st1) ∧ ParseInv st1 ∧
      (∃ p, st1.nodes.lookup g = some p ∧ (st1.heap p).type = t) ∧ st1.lastGateName ≠ g := by
  obtain ⟨b, st1, a1, a2, a3, a4, a5, _, _⟩ := parseLine_spec st line hinv
  obtain ⟨p, hp, htype⟩ := hK
  obtain ⟨hname, hlt⟩ := hinv.named g p hp
  refine ⟨b, st1, a1, a2, ⟨p, a3.lookup_keep g p hp, ?_⟩, ?_⟩
  · rw [a3.type_keep p hlt, htype]
    rw [hname]
    rintro (⟨h1, h2⟩ | ⟨_, h2⟩)
    · exact hline ⟨h1, h2⟩
    · exact hlast h2.symm
  · by_cases hk : lineKind line = LineKind.namesLine
    · cases hl : (gateTokens line).getLast? with
      | none =>
        rcases a5 (fun _ => hl) with e | e
        · rw [e]; exact hlast
        · rw [e]; exact fun e1 => hg e1.symm
      | some last =>
        rw [(a4 hk last hl).1]
        intro e
        exact hline2 ⟨hk, by rw [hl, e]⟩
    · rcases a5 (fun h => absurd h hk) with e | e
      · rw [e]; exact hlast
      · rw [e]; exact fun e1 => hg e1.symm

theorem parseLines_keep_type (post : List String) (st : ParseState) (g t : String)
    (hinv : ParseInv st) (hg : g ≠ "")
    (hK : ∃ p, st.nodes.lookup g = some p ∧ (st.heap p).type = t)
    (hlast : st.lastGateName ≠ g)
    (hpost : ∀ l ∈ post, ¬ (lineKind l = LineKind.outputsLine ∧ g ∈ tokens l) ∧
      ¬ (lineKind l = LineKind.namesLine ∧ (gateTokens l).getLast? = some g)) :
    ∃ st1, parseLines st post = some st1 ∧
      ∃ p, st1.nodes.lookup g = some p ∧ (st1.heap p).type = t := by
  induction post generalizing st with
  | nil => exact ⟨st, rfl, hK⟩
  | cons line rest ih =>
    obtain ⟨b, st1, a1, a2, a3, a4⟩ := parseLine_keep_type st line g t hinv hg hK hlast
      (hpost line (List.mem_cons_self _ _)).1 (hpost line (List.mem_cons_self _ _)).2
    cases b with
    | true => exact ⟨st1, by simp only [parseLines, a1], a3⟩
    | false =>
      obtain ⟨st2, b1, b2⟩ := ih st1 a2 a3 a4 (fun l hl => hpost l (List.mem_cons_of_mem _ hl))
      exact ⟨st2, by simp only [parseLines, a1]; exact b1, b2⟩

/-- The loop after parsing keeps the names of `nodes` and every type that is set. -/
theorem finishGraph_keep (addr : NodePtr → Nat) (st : ParseState) (g t : String) (p : NodePtr)
    (hp : st.nodes.lookup g = some p) (ht : (st.heap p).type = t) (hne : t ≠ "") :
    (finishGraph addr st).nodes.lookup g = some p ∧ ((finishGraph addr st).deref p).type = t := by
  obtain ⟨r1, _, r3, _⟩ := foldl_resolveNode_spec st.nodes st
  constructor
  · show (st.nodes.foldl resolveNode st).nodes.lookup g = some p
    rw [r1]
    exact hp
  · show ((st.nodes.foldl resolveNode st).heap p).type = t
    rw [r3 p (by rw [ht]; exact hne), ht]

theorem gateType_ne_empty (token : String) : gateType token ≠ "" := by
  have := gateType_mem token
  intro e
  rw [e] at this
  exact absurd this (by decide)

/-- A `.names` line followed by a cover row: the node of the gate has the type read off the
first token of the row, and no gate is pending. -/
theorem parseLines_block (st : ParseState) (namesLine row g token : String)
    (rest : List String) (hinv : ParseInv st)
    (hnames : lineKind namesLine = LineKind.namesLine)
    (hg : (gateTokens namesLine).getLast? = some g)
    (hrow : lineKind row = LineKind.coverLine)
    (htok : tokens row = token :: rest) :
    ∃ st1 st2, parseLine st namesLine = some (false, st1) ∧
      parseLine st1 row = some (false, st2) ∧ ParseInv st2 ∧ st2.lastGateName = "" ∧
      (∀ q, q ∈ st.outputs → q ∈ st2.outputs) ∧
      (∀ n q, st.nodes.lookup n = some q → st2.nodes.lookup n = some q) ∧
      ∃ p, st2.nodes.lookup g = some p ∧ (st2.heap p).type = gateType token := by
  have hgne := gateTokens_last_ne_empty namesLine g hg
  obtain ⟨b1, st1, a1, a2, a3, a4, _⟩ := parseLine_spec st namesLine hinv
  obtain ⟨hl1, _⟩ := a4 hnames g hg
  obtain ⟨b2, st2, c1, c2, c3, _, _, c6, _⟩ := parseLine_spec st1 row a2
  have hb1 : b1 = false := by
    cases b1 with
    | false => rfl
    | true =>
      have := parseLine_break st st1 namesLine a1
      rw [hnames] at this
      exact LineKind.noConfusion this
  have hb2 : b2 = false := by
    cases b2 with
    | false => rfl
    | true =>
      have := parseLine_break st1 st2 row c1
      rw [hrow] at this
      exact LineKind.noConfusion this
  subst hb1
  subst hb2
  obtain ⟨d1, p, d2, d3⟩ := c6 hrow token rest (by rw [hl1]; exact hgne) htok
  rw [hl1] at d2
  exact ⟨st1, st2, a1, c1, c2, d1, fun q hq => c3.outputs_keep q (a3.outputs_keep q hq),
    fun n q hq => c3.lookup_keep n q (a3.lookup_keep n q hq), p, d2, d3⟩

/-- C21. For a `.names` line with output `g` that is followed by a cover row, `parseBLIF`
takes the kind of `g` from the first token of that row only: NOT when the token is a single
character (one byte), OR when it is longer and holds a `-`, AND when it is longer and holds
none. The
lines after the row (the later rows of the block among them) do not change the kind, as long
as none is an `.outputs` line naming `g` or another `.names` line with output `g`. -/
theorem parseBLIF_kind_from_first_cover_row (lines : List String) (addr : NodePtr → Nat)
    (pre post : List String) (namesLine row g token : String) (rest : List String)
    (hlines : logicalLines "" lines = pre ++ namesLine :: row :: post)
    (hpre : ∀ l ∈ pre, lineKind l ≠ LineKind.endLine)
    (hnames : lineKind namesLine = LineKind.namesLine)
    (hg : (gateTokens namesLine).getLast? = some g)
    (hrow : lineKind row = LineKind.coverLine)
    (htok : tokens row = token :: rest)
    (hpost : ∀ l ∈ post, ¬ (lineKind l = LineKind.outputsLine ∧ g ∈ tokens l) ∧
      ¬ (lineKind l = LineKind.namesLine ∧ (gateTokens l).getLast? = some g)) :
    ∃ G p, Graph.parseBLIF lines addr = some G ∧ G.nodes.lookup g = some p ∧
      (token.utf8ByteSize = 1 → (G.deref p).type = "NOT") ∧
      (token.utf8ByteSize ≠ 1 → Char.ofNat 45 ∈ token.toList → (G.deref p).type = "OR") ∧
      (token.utf8ByteSize ≠ 1 → Char.ofNat 45 ∉ token.toList → (G.deref p).type = "AND") := by
  have hgne := gateTokens_last_ne_empty namesLine g hg
  obtain ⟨st0, h0, hinv0, _⟩ := parseLines_spec pre ParseState.init parseInv_init
  obtain ⟨st1, st2, a1, a2, a3, a4, _, _, hK⟩ :=
    parseLines_block st0 namesLine row g token rest hinv0 hnames hg hrow htok
  obtain ⟨st3, b1, p, b2, b3⟩ := parseLines_keep_type post st2 g (gateType token) a3 hgne hK
    (by rw [a4]; exact fun e => hgne e.symm) hpost
  have hrun : parseLines ParseState.init (logicalLines "" lines) = some st3 := by
    rw [hlines, parseLines_append pre _ _ hpre, h0]
    show parseLines st0 (namesLine :: row :: post) = some st3
    rw [parseLines, a1]
    show parseLines st1 (row :: post) = some st3
    rw [parseLines, a2]
    exact b1
  obtain ⟨c1, c2⟩ := finishGraph_keep addr st3 g (gateType token) p b2 b3
    (gateType_ne_empty token)
  refine ⟨finishGraph addr st3, p, ?_, c1, ?_, ?_, ?_⟩
  · rw [parseBLIF_eq, hrun]
    rfl
  · intro h1
    rw [c2, gateType, if_pos h1]
  · intro h1 h2
    rw [c2, gateType, if_neg h1, if_pos (List.elem_iff.2 h2)]
  · intro h1 h2
    rw [c2, gateType, if_neg h1, if_neg (fun h => h2 (List.elem_iff.1 h))]

theorem parseBLIF_kind_from_first_cover_row_witness :
    logicalLines "" orBlif =
      [".model top", ".inputs a b", ".outputs f"] ++ ".names a b f" :: "1- 1" :: ["-1 1", ".end"] ∧
    tokens "1- 1" = "1-" :: ["1"] ∧
    ∃ G p, Graph.parseBLIF orBlif (fun p => p) = some G ∧ G.nodes.lookup "f" = some p ∧
      ("1-".utf8ByteSize = 1 → (G.deref p).type = "NOT") ∧
      ("1-".utf8ByteSize ≠ 1 → Char.ofNat 45 ∈ "1-".toList → (G.deref p).type = "OR") ∧
      ("1-".utf8ByteSize ≠ 1 → Char.ofNat 45 ∉ "1-".toList → (G.deref p).type = "AND") :=
  ⟨by decide, by decide,
    parseBLIF_kind_from_first_cover_row orBlif (fun p => p)
      [".model top", ".inputs a b", ".outputs f"] ["-1 1", ".end"] ".names a b f" "1- 1" "f" "1-"
      ["1"] (by decide) (by decide) (by decide) (by decide) (by decide) (by decide) (by decide)⟩

theorem orBlif_parse :
    (Graph.parseBLIF orBlif (fun p => p)).map
      (fun G => (G.nodes, G.nodes.map (fun pair => (G.deref pair.2).type))) =
    some ([("a", 0), ("b", 1), ("f", 2)], ["INPUT", "INPUT", "OR"]) := by
  rfl

/-- C22 (failing input). The netlist `.inputs a b`, `.names a b f`, `11 1`, `.outputs f`: the
`.outputs` line that follows the gate overwrites its type `AND` by `OUTPUT`, so that no node
of the graph is an operation and nothing is left to schedule. With the `.outputs` line in
front of the gate the same netlist gives `f` the type `AND`, and `f` is scheduled. -/
theorem parseBLIF_outputs_after_gate_erases_kind :
    (Graph.parseBLIF lateOutputBlif (fun p => p)).map
      (fun G => (G.nodes, G.nodes.map (fun pair => (G.deref pair.2).type), G.outputs,
        getOperationType (G.deref 2), initialUnscheduled G)) =
      some ([("a", 0), ("b", 1), ("f", 2)], ["INPUT", "INPUT", "OUTPUT"], [2], -1, []) ∧
    (Graph.parseBLIF andBlif (fun p => p)).map
      (fun G => (G.nodes, G.nodes.map (fun pair => (G.deref pair.2).type), G.outputs,
        getOperationType (G.deref 2), initialUnscheduled G)) =
      some ([("a", 0), ("b", 1), ("f", 2)], ["INPUT", "INPUT", "AND"], [2], 0, [2]) :=
  ⟨rfl, rfl⟩

/-! ## The priorities on a graph without a cycle -/

theorem maxLevelOf_congr (f1 f2 : NodePtr → Option Int) (l : List NodePtr)
    (h : ∀ s ∈ l, f1 s = f2 s) (m : Int) : maxLevelOf f1 m l = maxLevelOf f2 m l := by
  induction l generalizing m with
  | nil => rfl
  | cons s rest ih =>
    rw [maxLevelOf, maxLevelOf, h s (List.mem_cons_self _ _)]
    exact ih (fun s1 hs1 => h s1 (List.mem_cons_of_mem _ hs1)) _

theorem prioInv_congr (g : Graph) (st st1 : PrioState)
    (hp : ∀ q, st1.nodePriority q = st.nodePriority q)
    (hv : ∀ q, st1.visited q = st.visited q) (h : PrioInv g st) : PrioInv g st1 := by
  refine ⟨?_, ?_⟩
  · intro n p hn
    rw [hp] at hn
    rw [hv]
    exact h.vis n p hn
  · intro n p hn
    rw [hp] at hn
    obtain ⟨a, b⟩ := h.good n p hn
    refine ⟨fun s hs => ?_, ?_⟩
    · rw [hp]
      exact a s hs
    · rw [maxLevelOf_congr st1.nodePriority st.nodePriority _ (fun s _ => hp s)]
      exact b

theorem dfsSuccs_good (g : Graph)
    (visit : NodePtr → PrioState → Option (Int × PrioState)) (l : List NodePtr)
    (hvisit : ∀ s ∈ l, ∀ st r st1, visit s st = some (r, st1) → PrioInv g st →
      (∀ a, st.visited a = true → st.nodePriority a = none →
        Relation.TransGen (fun x y => y ∈ (g.deref x).outputs) a s) →
      PrioInv g st1 ∧ st1.nodePriority s = some r ∧
      (∀ n p, st.nodePriority n = some p → st1.nodePriority n = some p) ∧
      (∀ n, st.visited n = true → st1.visited n = true) ∧
      (∀ a, (st1.visited a = true ∧ st1.nodePriority a = none) ↔
        (st.visited a = true ∧ st.nodePriority a = none)))
    (m : Int) (st : PrioState) (r : Int) (st1 : PrioState)
    (h : dfsSuccs visit l m st = some (r, st1)) (hinv : PrioInv g st)
    (hanc : ∀ a, st.visited a = true → st.nodePriority a = none →
      ∀ s ∈ l, Relation.TransGen (fun x y => y ∈ (g.deref x).outputs) a s) :
    PrioInv g st1 ∧
    (∀ n p, st.nodePriority n = some p → st1.nodePriority n = some p) ∧
    (∀ n, st.visited n = true → st1.visited n = true) ∧
    (∀ a, (st1.visited a = true ∧ st1.nodePriority a = none) ↔
      (st.visited a = true ∧ st.nodePriority a = none)) ∧
    (∀ s ∈ l, ∃ q, st1.nodePriority s = some q) ∧
    r = maxLevelOf st1.nodePriority m l := by
  induction l generalizing m st with
  | nil =>
    simp only [dfsSuccs, Option.some.injEq, Prod.mk.injEq] at h
    obtain ⟨rfl, rfl⟩ := h
    exact ⟨hinv, fun _ _ hn => hn, fun _ hn => hn, fun _ => Iff.rfl,
      fun _ hs => absurd hs (List.not_mem_nil _), rfl⟩
  | cons s rest ih =>
    simp only [dfsSuccs] at h
    cases hv : visit s st with
    | none => rw [hv] at h; exact Option.noConfusion h
    | some res =>
      obtain ⟨level, st2⟩ := res
      rw [hv] at h
      simp only at h
      obtain ⟨a1, a2, a3, a4, a5⟩ := hvisit s (List.mem_cons_self _ _) st level st2 hv hinv
        (fun a h1 h2 => hanc a h1 h2 s (List.mem_cons_self _ _))
      obtain ⟨b1, b2, b3, b4, b5, b6⟩ := ih
        (fun s1 hs1 => hvisit s1 (List.mem_cons_of_mem _ hs1)) _ st2 h a1
        (fun a h1 h2 s1 hs1 =>
          hanc a ((a5 a).1 ⟨h1, h2⟩).1 ((a5 a).1 ⟨h1, h2⟩).2 s1 (List.mem_cons_of_mem _ hs1))
      refine ⟨b1, fun n p hn => b2 n p (a3 n p hn), fun n hn => b3 n (a4 n hn),
        fun a => (b4 a).trans (a5 a), ?_, ?_⟩
      · intro s1 hs1
        rcases List.mem_cons.1 hs1 with e | e
        · rw [e]
          exact ⟨level, b2 s level a2⟩
        · exact b5 s1 e
      · rw [maxLevelOf, b2 s level a2]
        exact b6

theorem dfs_good (g : Graph) (hacyc : g.SuccessorsAcyclic) (fuel : Nat) :
    ∀ node st r st1, dfs g fuel node st = some (r, st1) → PrioInv g st →
      (∀ a, st.visited a = true → st.nodePriority a = none →
        Relation.TransGen (fun x y => y ∈ (g.deref x).outputs) a node) →
      PrioInv g st1 ∧ st1.nodePriority node = some r ∧
      (∀ n p, st.nodePriority n = some p → st1.nodePriority n = some p) ∧
      (∀ n, st.visited n = true → st1.visited n = true) ∧
      (∀ a, (st1.visited a = true ∧ st1.nodePriority a = none) ↔
        (st.visited a = true ∧ st.nodePriority a = none)) := by
  induction fuel with
  | zero =>
    intro node st r st1 h
    simp only [dfs] at h
    exact Option.noConfusion h
  | succ fuel ih =>
    intro node st r st1 h hinv hanc
    by_cases hv : st.visited node = true
    · simp only [dfs, hv, if_true, Option.some.injEq, Prod.mk.injEq] at h
      obtain ⟨rfl, rfl⟩ := h
      cases hp : st.nodePriority node with
      | none => exact absurd (hanc node hv hp) (hacyc node)
      | some p =>
        have hsame : ∀ q, mapSet st.nodePriority node ((some p : Option Int).getD 0) q =
            st.nodePriority q := by
          intro q
          by_cases hq : q = node
          · rw [hq, mapSet_same, hp]
            rfl
          · rw [mapSet_other _ _ _ _ hq]
        refine ⟨prioInv_congr g st _ hsame (fun _ => rfl) hinv, ?_, ?_, fun _ hn => hn, ?_⟩
        · show mapSet st.nodePriority node ((some p : Option Int).getD 0) node = _
          rw [mapSet_same]
        · intro n q hn
          show mapSet st.nodePriority node ((some p : Option Int).getD 0) n = _
          rw [hsame]
          exact hn
        · intro a
          show (st.visited a = true ∧
            mapSet st.nodePriority node ((some p : Option Int).getD 0) a = none) ↔ _
          rw [hsame]
    · have hnone : st.nodePriority node = none := by
        cases hp : st.nodePriority node with
        | none => rfl
        | some p => exact absurd (hinv.vis node p hp) hv
      simp only [dfs, hv] at h
      cases hl : dfsSuccs (dfs g fuel) (g.deref node).outputs 0
          { visited := fun q => if q = node then true else st.visited q,
            nodePriority := st.nodePriority } with
      | none => rw [hl] at h; simp at h
      | some res =>
        obtain ⟨maxLevel, st2⟩ := res
        rw [hl] at h
        simp only [Bool.false_eq_true, if_false, Option.some.injEq, Prod.mk.injEq] at h
        obtain ⟨rfl, rfl⟩ := h
        have hinv1 : PrioInv g
            { visited := fun q => if q = node then true else st.visited q,
              nodePriority := st.nodePriority } := by
          refine ⟨?_, hinv.good⟩
          intro n p hn
          show (if n = node then true else st.visited n) = true
          split
          · rfl
          · exact hinv.vis n p hn
        obtain ⟨b1, b2, b3, b4, b5, b6⟩ := dfsSuccs_good g (dfs g fuel) (g.deref node).outputs
          (fun s _ st r st1 hs => ih s st r st1 hs) 0 _ maxLevel st2 hl hinv1
          (by
            intro a h1 h2 s hs
            by_cases ha : a = node
            · rw [ha]
              exact Relation.TransGen.single hs
            · have h3 : st.visited a = true := by
                have : (if a = node then true else st.visited a) = true := h1
                rw [if_neg ha] at this
                exact this
              exact Relation.TransGen.tail (hanc a h3 h2) hs)
        have hself : node ∉ (g.deref node).outputs :=
          fun hs => hacyc node (Relation.TransGen.single hs)
        have hprog : st2.visited node = true ∧ st2.nodePriority node = none :=
          (b4 node).2 ⟨by show (if node = node then true else st.visited node) = true
                          rw [if_pos rfl], hnone⟩
        have hkeep : ∀ n, (∃ p, st2.nodePriority n = some p) →
            ∀ s ∈ (g.deref n).outputs,
              mapSet st2.nodePriority node (maxLevel + 1) s = st2.nodePriority s := by
          intro n hn s hs
          apply mapSet_other
          intro e
          obtain ⟨p, hp⟩ := hn
          obtain ⟨q, hq⟩ := (b1.good n p hp).1 s hs
          rw [e, hprog.2] at hq
          exact Option.noConfusion hq
        refine ⟨⟨?_, ?_⟩, mapSet_same _ _ _, ?_, ?_, ?_⟩
        · intro n p hn
          by_cases hq : n = node
          · rw [hq]
            exact hprog.1
          · have hn1 : mapSet st2.nodePriority node (maxLevel + 1) n = some p := hn
            rw [mapSet_other _ _ _ _ hq] at hn1
            exact b1.vis n p hn1
        · intro n p hn
          have hn1 : mapSet st2.nodePriority node (maxLevel + 1) n = some p := hn
          by_cases hq : n = node
          · rw [hq, mapSet_same] at hn1
            have hp : p = maxLevel + 1 := (Option.some.inj hn1).symm
            have hsucc : ∀ s ∈ (g.deref node).outputs,
                mapSet st2.nodePriority node (maxLevel + 1) s = st2.nodePriority s := by
              intro s hs
              apply mapSet_other
              intro e
              rw [e] at hs
              exact hself hs
            rw [hq]
            refine ⟨fun s hs => ?_, ?_⟩
            · obtain ⟨q, hq1⟩ := b5 s hs
              exact ⟨q, (hsucc s hs).trans hq1⟩
            · rw [hp]
              show maxLevel + 1 =
                maxLevelOf (mapSet st2.nodePriority node (maxLevel + 1)) 0 (g.deref node).outputs + 1
              rw [maxLevelOf_congr _ _ _ hsucc 0, ← b6]
          · rw [mapSet_other _ _ _ _ hq] at hn1
            obtain ⟨c1, c2⟩ := b1.good n p hn1
            refine ⟨fun s hs => ?_, ?_⟩
            · obtain ⟨q, hq1⟩ := c1 s hs
              exact ⟨q, (hkeep n ⟨p, hn1⟩ s hs).trans hq1⟩
            · rw [c2]
              show maxLevelOf st2.nodePriority 0 (g.deref n).outputs + 1 =
                maxLevelOf (mapSet st2.nodePriority node (maxLevel + 1)) 0 (g.deref n).outputs + 1
              rw [maxLevelOf_congr _ _ _ (hkeep n ⟨p, hn1⟩) 0]
        · intro n p hn
          have hq : n ≠ node := by
            intro e
            rw [e, hnone] at hn
            exact Option.noConfusion hn
          show mapSet st2.nodePriority node (maxLevel + 1) n = some p
          rw [mapSet_other _ _ _ _ hq]
          exact b2 n p hn
        · intro n hn
          apply b3
          show (if n = node then true else st.visited n) = true
          split
          · rfl
          · exact hn
        · intro a
          constructor
          · rintro ⟨h1, h2⟩
            have h2a : mapSet st2.nodePriority node (maxLevel + 1) a = none := h2
            have ha : a ≠ node := by
              intro e
              rw [e, mapSet_same] at h2a
              exact Option.noConfusion h2a
            rw [mapSet_other _ _ _ _ ha] at h2a
            obtain ⟨d1, d2⟩ := (b4 a).1 ⟨h1, h2a⟩
            have d3 : (if a = node then true else st.visited a) = true := d1
            rw [if_neg ha] at d3
            exact ⟨d3, d2⟩
          · rintro ⟨h1, h2⟩
            have ha : a ≠ node := by
              intro e
              rw [e] at h1
              exact hv h1
            obtain ⟨d1, d2⟩ := (b4 a).2 ⟨by show (if a = node then true else st.visited a) = true
                                            rw [if_neg ha]; exact h1, h2⟩
            refine ⟨d1, ?_⟩
            show mapSet st2.nodePriority node (maxLevel + 1) a = none
            rw [mapSet_other _ _ _ _ ha]
            exact d2

theorem markEndpoints_good (g : Graph) (l : List (String × NodePtr)) (st : PrioState)
    (hinv : PrioInv g st) (hdone : ∀ a, st.visited a = true → ∃ p, st.nodePriority a = some p) :
    PrioInv g (l.foldl (fun s pair =>
        if (g.deref pair.2).outputs.isEmpty then
          { visited := fun q => if q = pair.2 then true else s.visited q,
            nodePriority := mapSet s.nodePriority pair.2 1 }
        else s) st) ∧
    ∀ a, (l.foldl (fun s pair =>
        if (g.deref pair.2).outputs.isEmpty then
          { visited := fun q => if q = pair.2 then true else s.visited q,
            nodePriority := mapSet s.nodePriority pair.2 1 }
        else s) st).visited a = true →
      ∃ p, (l.foldl (fun s pair =>
        if (g.deref pair.2).outputs.isEmpty then
          { visited := fun q => if q = pair.2 then true else s.visited q,
            nodePriority := mapSet s.nodePriority pair.2 1 }
        else s) st).nodePriority a = some p := by
  induction l generalizing st with
  | nil => exact ⟨hinv, hdone⟩
  | cons pair rest ih =>
    simp only [List.foldl_cons]
    by_cases he : (g.deref pair.2).outputs.isEmpty = true
    · rw [if_pos he]
      have houts : (g.deref pair.2).outputs = [] := List.isEmpty_iff.1 he
      have hkeep : ∀ n, (∃ p, st.nodePriority n = some p) → ∀ s ∈ (g.deref n).outputs,
          mapSet st.nodePriority pair.2 1 s = st.nodePriority s := by
        intro n hn s hs
        obtain ⟨p, hp⟩ := hn
        by_cases e : s = pair.2
        · obtain ⟨q, hq⟩ := (hinv.good n p hp).1 s hs
          rw [e] at hq
          have h1 := (hinv.good pair.2 q hq).2
          rw [houts] at h1
          rw [e, mapSet_same, hq, h1]
          rfl
        · exact mapSet_other _ _ _ _ e
      apply ih
      · refine ⟨?_, ?_⟩
        · intro n p hn
          show (if n = pair.2 then true else st.visited n) = true
          by_cases e : n = pair.2
          · rw [if_pos e]
          · rw [if_neg e]
            have hn1 : mapSet st.nodePriority pair.2 1 n = some p := hn
            rw [mapSet_other _ _ _ _ e] at hn1
            exact hinv.vis n p hn1
        · intro n p hn
          have hn1 : mapSet st.nodePriority pair.2 1 n = some p := hn
          by_cases e : n = pair.2
          · rw [e, mapSet_same] at hn1
            rw [e, houts]
            exact ⟨fun s hs => absurd hs (List.not_mem_nil _), (Option.some.inj hn1).symm⟩
          · rw [mapSet_other _ _ _ _ e] at hn1
            obtain ⟨c1, c2⟩ := hinv.good n p hn1
            refine ⟨fun s hs => ?_, ?_⟩
            · obtain ⟨q, hq⟩ := c1 s hs
              exact ⟨q, (hkeep n ⟨p, hn1⟩ s hs).trans hq⟩
            · rw [c2]
              show maxLevelOf st.nodePriority 0 (g.deref n).outputs + 1 =
                maxLevelOf (mapSet st.nodePriority pair.2 1) 0 (g.deref n).outputs + 1
              rw [maxLevelOf_congr _ _ _ (hkeep n ⟨p, hn1⟩) 0]
      · intro a ha
        have ha1 : (if a = pair.2 then true else st.visited a) = true := ha
        by_cases e : a = pair.2
        · exact ⟨1, by rw [e]; exact mapSet_same _ _ _⟩
        · rw [if_neg e] at ha1
          obtain ⟨p, hp⟩ := hdone a ha1
          exact ⟨p, (mapSet_other _ _ _ _ e).trans hp⟩
    · rw [if_neg he]
      exact ih st hinv hdone

theorem visitAll_good (g : Graph) (hacyc : g.SuccessorsAcyclic) (fuel : Nat)
    (l : List (String × NodePtr)) (st st1 : PrioState) (h : visitAll g fuel l st = some st1)
    (hinv : PrioInv g st) (hdone : ∀ a, st.visited a = true → ∃ p, st.nodePriority a = some p) :
    PrioInv g st1 ∧
    (∀ n p, st.nodePriority n = some p → st1.nodePriority n = some p) ∧
    (∀ pair ∈ l, ∃ p, st1.nodePriority pair.2 = some p) := by
  induction l generalizing st with
  | nil =>
    simp only [visitAll, Option.some.injEq] at h
    subst h
    exact ⟨hinv, fun _ _ hn => hn, fun _ hp => absurd hp (List.not_mem_nil _)⟩
  | cons pair rest ih =>
    by_cases hv : st.visited pair.2 = true
    · simp only [visitAll, hv, if_true] at h
      obtain ⟨a1, a2, a3⟩ := ih st h hinv hdone
      refine ⟨a1, a2, ?_⟩
      intro pr hpr
      rcases List.mem_cons.1 hpr with e | e
      · obtain ⟨p, hp⟩ := hdone _ hv
        rw [e]
        exact ⟨p, a2 _ p hp⟩
      · exact a3 pr e
    · simp only [visitAll, hv] at h
      cases hd : dfs g fuel pair.2 st with
      | none => rw [hd] at h; simp at h
      | some res =>
        obtain ⟨r, st2⟩ := res
        rw [hd] at h
        simp only [Bool.false_eq_true, if_false] at h
        obtain ⟨d1, d2, d3, _, d5⟩ := dfs_good g hacyc fuel pair.2 st r st2 hd hinv
          (by
            intro a h1 h2
            obtain ⟨p, hp⟩ := hdone a h1
            rw [h2] at hp
            exact Option.noConfusion hp)
        have hdone2 : ∀ a, st2.visited a = true → ∃ p, st2.nodePriority a = some p := by
          intro a ha
          cases hp : st2.nodePriority a with
          | some p => exact ⟨p, rfl⟩
          | none =>
            obtain ⟨c1, c2⟩ := (d5 a).1 ⟨ha, hp⟩
            obtain ⟨p, hp2⟩ := hdone a c1
            rw [c2] at hp2
            exact Option.noConfusion hp2
        obtain ⟨a1, a2, a3⟩ := ih st2 h d1 hdone2
        refine ⟨a1, fun n p hn => a2 n p (d3 n p hn), ?_⟩
        intro pr hpr
        rcases List.mem_cons.1 hpr with e | e
        · rw [e]
          exact ⟨r, a2 _ r d2⟩
        · exact a3 pr e

theorem le_maxLevelOf (f : NodePtr → Option Int) (l : List NodePtr) (m : Int) :
    m ≤ maxLevelOf f m l ∧ ∀ s ∈ l, (f s).getD 0 ≤ maxLevelOf f m l := by
  induction l generalizing m with
  | nil => exact ⟨le_refl _, fun _ hs => absurd hs (List.not_mem_nil _)⟩
  | cons x rest ih =>
    rw [maxLevelOf]
    obtain ⟨a1, a2⟩ := ih (if (f x).getD 0 > m then (f x).getD 0 else m)
    have h1 : m ≤ (if (f x).getD 0 > m then (f x).getD 0 else m) := by
      split <;> omega
    have h2 : (f x).getD 0 ≤ (if (f x).getD 0 > m then (f x).getD 0 else m) := by
      split <;> omega
    refine ⟨le_trans h1 a1, fun s hs => ?_⟩
    rcases List.mem_cons.1 hs with e | e
    · rw [e]
      exact le_trans h2 a1
    · exact a2 s e

theorem maxLevelOf_attained (f : NodePtr → Option Int) (l : List NodePtr) (m : Int) :
    maxLevelOf f m l = m ∨ ∃ s ∈ l, (f s).getD 0 = maxLevelOf f m l := by
  induction l generalizing m with
  | nil => exact Or.inl rfl
  | cons x rest ih =>
    rw [maxLevelOf]
    rcases ih (if (f x).getD 0 > m then (f x).getD 0 else m) with e | ⟨s, hs, e⟩
    · by_cases hx : (f x).getD 0 > m
      · rw [if_pos hx] at e ⊢
        exact Or.inr ⟨x, List.mem_cons_self _ _, e.symm⟩
      · rw [if_neg hx] at e ⊢
        exact Or.inl e
    · exact Or.inr ⟨s, List.mem_cons_of_mem _ hs, e⟩

/-- The recurrence behind the invariant, in the words of the longest path: a node without
successor has priority 1, every successor has a smaller priority, and one successor has the
priority just below. -/
theorem prio_recurrence (g : Graph) (f : NodePtr → Option Int)
    (hgood : ∀ n p, f n = some p → (∀ s ∈ (g.deref n).outputs, ∃ q, f s = some q) ∧
      p = maxLevelOf f 0 (g.deref n).outputs + 1)
    (n : NodePtr) (p : Int) (hn : f n = some p) :
    1 ≤ p ∧ ((g.deref n).outputs = [] → p = 1) ∧
    (∀ q ∈ (g.deref n).outputs, ∃ pq, f q = some pq ∧ pq < p) ∧
    ((g.deref n).outputs ≠ [] → ∃ q ∈ (g.deref n).outputs, f q = some (p - 1)) := by
  have hpos : ∀ n p, f n = some p → 1 ≤ p := by
    intro n p hn
    have h1 := (hgood n p hn).2
    have h2 := (le_maxLevelOf f (g.deref n).outputs 0).1
    omega
  obtain ⟨c1, c2⟩ := hgood n p hn
  obtain ⟨m1, m2⟩ := le_maxLevelOf f (g.deref n).outputs 0
  refine ⟨hpos n p hn, ?_, ?_, ?_⟩
  · intro he
    rw [he] at c2
    exact c2
  · intro q hq
    obtain ⟨pq, hpq⟩ := c1 q hq
    have h1 := m2 q hq
    rw [hpq] at h1
    have h2 : pq ≤ maxLevelOf f 0 (g.deref n).outputs := h1
    exact ⟨pq, hpq, by omega⟩
  · intro hne
    rcases maxLevelOf_attained f (g.deref n).outputs 0 with e | ⟨s, hs, e⟩
    · obtain ⟨s0, hs0⟩ := List.exists_mem_of_ne_nil _ hne
      obtain ⟨q0, hq0⟩ := c1 s0 hs0
      have h1 := m2 s0 hs0
      rw [hq0] at h1
      have h2 : q0 ≤ maxLevelOf f 0 (g.deref n).outputs := h1
      have h3 := hpos s0 q0 hq0
      omega
    · obtain ⟨qs, hqs⟩ := c1 s hs
      rw [hqs] at e
      have e1 : qs = maxLevelOf f 0 (g.deref n).outputs := e
      exact ⟨s, hs, by rw [hqs]; congr 1; omega⟩

theorem path_length_le_prio (g : Graph) (f : NodePtr → Option Int)
    (hgood : ∀ n p, f n = some p → (∀ s ∈ (g.deref n).outputs, ∃ q, f s = some q) ∧
      p = maxLevelOf f 0 (g.deref n).outputs + 1)
    (path : List NodePtr) :
    ∀ n p, f n = some p → path.head? = some n →
      path.Chain' (fun x y => y ∈ (g.deref x).outputs) → (path.length : Int) ≤ p := by
  induction path with
  | nil =>
    intro n p _ hh
    exact Option.noConfusion hh
  | cons x rest ih =>
    intro n p hn hh hc
    have hx : x = n := Option.some.inj hh
    subst hx
    obtain ⟨r1, _, r3, _⟩ := prio_recurrence g f hgood x p hn
    cases rest with
    | nil =>
      simp only [List.length_singleton, Nat.cast_one]
      exact r1
    | cons y rest1 =>
      rw [List.chain'_cons] at hc
      obtain ⟨py, hpy, hlt⟩ := r3 y hc.1
      have h1 := ih y py hpy rfl hc.2
      simp only [List.length_cons, Nat.cast_add, Nat.cast_one] at h1 ⊢
      omega

theorem exists_path_of_prio (g : Graph) (f : NodePtr → Option Int)
    (hgood : ∀ n p, f n = some p → (∀ s ∈ (g.deref n).outputs, ∃ q, f s = some q) ∧
      p = maxLevelOf f 0 (g.deref n).outputs + 1)
    (k : Nat) :
    ∀ n p, f n = some p → p ≤ (k : Int) →
      ∃ path : List NodePtr, path.head? = some n ∧
        path.Chain' (fun x y => y ∈ (g.deref x).outputs) ∧
        (∃ z, path.getLast? = some z ∧ (g.deref z).outputs = []) ∧
        (path.length : Int) = p := by
  induction k with
  | zero =>
    intro n p hn hk
    have := (prio_recurrence g f hgood n p hn).1
    simp only [Nat.cast_zero] at hk
    omega
  | succ k ih =>
    intro n p hn hk
    obtain ⟨_, r2, _, r4⟩ := prio_recurrence g f hgood n p hn
    by_cases he : (g.deref n).outputs = []
    · refine ⟨[n], rfl, List.chain'_singleton _, ⟨n, rfl, he⟩, ?_⟩
      rw [r2 he]
      rfl
    · obtain ⟨q, hq, hfq⟩ := r4 he
      obtain ⟨path, p1, p2, ⟨z, p3, p4⟩, p5⟩ := ih q (p - 1) hfq
        (by simp only [Nat.cast_add, Nat.cast_one] at hk; omega)
      cases path with
      | nil => exact Option.noConfusion p1
      | cons y rest =>
        have hy : y = q := Option.some.inj p1
        subst hy
        refine ⟨n :: y :: rest, rfl, List.chain'_cons.2 ⟨hq, p2⟩, ⟨z, ?_, p4⟩, ?_⟩
        · rw [List.getLast?_cons_cons]
          exact p3
        · simp only [List.length_cons, Nat.cast_add, Nat.cast_one] at p5 ⊢
          omega

theorem successorsAcyclic_of_rank (graph : Graph) (rank : NodePtr → Nat)
    (h : ∀ n, ∀ s ∈ (graph.deref n).outputs, rank n < rank s) : graph.SuccessorsAcyclic := by
  have key : ∀ a b, Relation.TransGen (fun x y => y ∈ (graph.deref x).outputs) a b →
      rank a < rank b := by
    intro a b hab
    induction hab with
    | single h1 => exact h _ _ h1
    | tail _ h2 ih => exact lt_trans ih (h _ _ h2)
  intro x hx
  exact lt_irrefl _ (key x x hx)

theorem chainGraph_successorsAcyclic : chainGraph.SuccessorsAcyclic := by
  apply successorsAcyclic_of_rank chainGraph (fun p => p)
  intro n
  match n with
  | 0 => decide
  | 1 => decide
  | 2 => decide
  | 3 => decide
  | 4 => decide
  | n + 5 => intro p hp; exact absurd hp (List.not_mem_nil _)

/-- C11. On a graph without a cycle along the successor edges, whose successor edges stay
inside the graph, `computeNodePriorities` returns (any fuel above the number of nodes
suffices) and gives every node the number of nodes on its longest path to a sink: a node
without successor gets 1, every other node gets one more than the greatest priority among its
successors, so that the priority falls strictly along every edge; no path that starts at the
node has more nodes than its priority, and a path to a node without successor has exactly that
many. -/
theorem computeNodePriorities_longest_path (g : Graph) (andLimit orLimit notLimit : Int)
    (hclosed : g.SuccessorsClosed) (hacyc : g.SuccessorsAcyclic)
    (fuel : Nat) (hfuel : g.nodes.length < fuel) :
    ∃ s, (Scheduler.new g andLimit orLimit notLimit).computeNodePriorities fuel = some s ∧
      ∀ pair ∈ g.nodes, ∃ p, s.nodePriority pair.2 = some p ∧
        ((g.deref pair.2).outputs = [] → p = 1) ∧
        (∀ q ∈ (g.deref pair.2).outputs, ∃ pq, s.nodePriority q = some pq ∧ pq < p) ∧
        ((g.deref pair.2).outputs ≠ [] →
          ∃ q ∈ (g.deref pair.2).outputs, s.nodePriority q = some (p - 1)) ∧
        (∀ path : List NodePtr, path.head? = some pair.2 →
          path.Chain' (fun x y => y ∈ (g.deref x).outputs) → (path.length : Int) ≤ p) ∧
        (∃ path : List NodePtr, path.head? = some pair.2 ∧
          path.Chain' (fun x y => y ∈ (g.deref x).outputs) ∧
          (∃ z, path.getLast? = some z ∧ (g.deref z).outputs = []) ∧
          (path.length : Int) = p) := by
  obtain ⟨prio, hprio⟩ := computeNodePriorities_terminates
    (Scheduler.new g andLimit orLimit notLimit) hclosed fuel hfuel
  refine ⟨_, hprio, ?_⟩
  unfold Scheduler.computeNodePriorities at hprio
  cases hv : visitAll (Scheduler.new g andLimit orLimit notLimit).graph fuel
      (Scheduler.new g andLimit orLimit notLimit).graph.nodes
      (markEndpoints (Scheduler.new g andLimit orLimit notLimit).graph
        { visited := fun _ => false,
          nodePriority := (Scheduler.new g andLimit orLimit notLimit).nodePriority }) with
  | none => rw [hv] at hprio; exact Option.noConfusion hprio
  | some st1 =>
    rw [hv] at hprio
    simp only [Option.some.injEq] at hprio
    have hp : prio = st1.nodePriority := (congrArg Scheduler.nodePriority hprio).symm
    have hstart : PrioInv g { visited := fun _ => false, nodePriority := fun _ => none } :=
      ⟨fun _ _ hn => Option.noConfusion hn, fun _ _ hn => Option.noConfusion hn⟩
    obtain ⟨m1, m2⟩ := markEndpoints_good g g.nodes _ hstart
      (fun a ha => absurd ha (by simp))
    obtain ⟨a1, _, a3⟩ := visitAll_good g hacyc fuel g.nodes _ st1 hv m1 m2
    intro pair hpair
    obtain ⟨p, hp1⟩ := a3 pair hpair
    obtain ⟨_, r2, r3, r4⟩ := prio_recurrence g st1.nodePriority a1.good pair.2 p hp1
    refine ⟨p, by simp only [hp]; exact hp1, r2, ?_, ?_, ?_, ?_⟩
    · intro q hq
      obtain ⟨pq, h1, h2⟩ := r3 q hq
      exact ⟨pq, by simp only [hp]; exact h1, h2⟩
    · intro hne
      obtain ⟨q, h1, h2⟩ := r4 hne
      exact ⟨q, h1, by simp only [hp]; exact h2⟩
    · intro path h1 h2
      exact path_length_le_prio g st1.nodePriority a1.good path pair.2 p hp1 h1 h2
    · exact exists_path_of_prio g st1.nodePriority a1.good p.toNat pair.2 p hp1
        (Int.self_le_toNat p)

theorem computeNodePriorities_longest_path_witness :
    chainGraph.SuccessorsClosed ∧ chainGraph.SuccessorsAcyclic ∧
    ∃ s, (Scheduler.new chainGraph 1 1 1).computeNodePriorities 6 = some s ∧
      ∀ pair ∈ chainGraph.nodes, ∃ p, s.nodePriority pair.2 = some p ∧
        ((chainGraph.deref pair.2).outputs = [] → p = 1) ∧
        (∀ q ∈ (chainGraph.deref pair.2).outputs, ∃ pq, s.nodePriority q = some pq ∧ pq < p) ∧
        ((chainGraph.deref pair.2).outputs ≠ [] →
          ∃ q ∈ (chainGraph.deref pair.2).outputs, s.nodePriority q = some (p - 1)) ∧
        (∀ path : List NodePtr, path.head? = some pair.2 →
          path.Chain' (fun x y => y ∈ (chainGraph.deref x).outputs) → (path.length : Int) ≤ p) ∧
        (∃ path : List NodePtr, path.head? = some pair.2 ∧
          path.Chain' (fun x y => y ∈ (chainGraph.deref x).outputs) ∧
          (∃ z, path.getLast? = some z ∧ (chainGraph.deref z).outputs = []) ∧
          (path.length : Int) = p) :=
  ⟨chainGraph_successorsClosed, chainGraph_successorsAcyclic,
    computeNodePriorities_longest_path chainGraph 1 1 1 chainGraph_successorsClosed
      chainGraph_successorsAcyclic 6 (by decide)⟩

theorem chainGraph_priorities :
    ((Scheduler.new chainGraph 1 1 1).computeNodePriorities 6).map
      (fun s => [s.nodePriority 0, s.nodePriority 1, s.nodePriority 2, s.nodePriority 3,
        s.nodePriority 4]) = some [some 5, some 4, some 3, some 2, some 1] := by
  decide

/-! ## Operation nodes that are AND gates over inputs only -/

theorem length_add_length_diff (U S : List NodePtr) (hS : S.Nodup) (hsub : ∀ x ∈ S, x ∈ U) :
    S.length + (U.diff S).length = U.length := by
  have h := @List.subperm_append_diff_self_of_count_le _ _ S U (fun x hx => by
    rw [List.count_eq_one_of_mem hS hx]
    exact List.count_pos_iff.2 (hsub x hx))
  have := h.length_eq
  rw [List.length_append] at this
  exact this

/-- When every operation node is an AND gate without an operation node among its
predecessors, a step schedules as many nodes as the AND limit allows and are left. -/
theorem step_length_of_independent_ands
    (sortFn : (NodePtr → NodePtr → Bool) → List NodePtr → List NodePtr)
    (hsort : StdSort sortFn) (g : Graph) (m orLimit notLimit : Int)
    (prio : NodePtr → Option Int) (hm : 0 ≤ m)
    (hand : ∀ x ∈ initialUnscheduled g, (g.deref x).type = "AND")
    (hindep : ∀ x ∈ initialUnscheduled g, ∀ p ∈ (g.deref x).inputs, p ∉ initialUnscheduled g)
    (st : LoopState)
    (hinv : LoopInv { Scheduler.new g m orLimit notLimit with nodePriority := prio } st) :
    ((stepChosen sortFn { Scheduler.new g m orLimit notLimit with nodePriority := prio }
        st.unscheduledNodes).length : Int) = min m (st.unscheduledNodes.length : Int) ∧
    (((st.unscheduledNodes.diff
        (stepChosen sortFn { Scheduler.new g m orLimit notLimit with nodePriority := prio }
          st.unscheduledNodes)).length : Nat) : Int) =
      (st.unscheduledNodes.length : Int) - min m (st.unscheduledNodes.length : Int) := by
  have hsub : ∀ x ∈ st.unscheduledNodes, x ∈ initialUnscheduled g :=
    fun x hx => (hinv.cover x).2 (Or.inl hx)
  have hmem := fun x hx => (mem_stepChosen sortFn hsort
    { Scheduler.new g m orLimit notLimit with nodePriority := prio } st.unscheduledNodes x hx).1
  have c1 : List.countP (fun x => decide ((g.deref x).type = "AND"))
      (stepChosen sortFn { Scheduler.new g m orLimit notLimit with nodePriority := prio }
        st.unscheduledNodes) =
      (stepChosen sortFn { Scheduler.new g m orLimit notLimit with nodePriority := prio }
        st.unscheduledNodes).length :=
    List.countP_eq_length.2 (fun x hx => decide_eq_true (hand x (hsub x (hmem x hx))))
  have c2 : List.countP (fun x => isReady g st.unscheduledNodes x &&
      decide ((g.deref x).type = "AND")) st.unscheduledNodes = st.unscheduledNodes.length := by
    apply List.countP_eq_length.2
    intro x hx
    have h1 : isReady g st.unscheduledNodes x = true := by
      unfold isReady
      rw [List.all_eq_true]
      intro p hp
      have : p ∉ st.unscheduledNodes := fun h => hindep x (hsub x hx) p hp (hsub p h)
      simp [this]
    rw [h1, decide_eq_true (hand x (hsub x hx))]
    rfl
  have h := countP_stepChosen_eq sortFn hsort
    { Scheduler.new g m orLimit notLimit with nodePriority := prio } st.unscheduledNodes "AND"
    (by rw [(resourceLimit_new g m orLimit notLimit prio).1]; exact hm)
  rw [(resourceLimit_new g m orLimit notLimit prio).1] at h
  have h1 : ((stepChosen sortFn { Scheduler.new g m orLimit notLimit with nodePriority := prio }
      st.unscheduledNodes).length : Int) = min m (st.unscheduledNodes.length : Int) := by
    rw [← c1, ← c2]
    exact h
  refine ⟨h1, ?_⟩
  have h2 := length_add_length_diff st.unscheduledNodes _
    (nodup_stepChosen sortFn hsort
      { Scheduler.new g m orLimit notLimit with nodePriority := prio } st.unscheduledNodes
      hinv.nodupU) hmem
  omega

theorem whileBody_independent_ands
    (sortFn : (NodePtr → NodePtr → Bool) → List NodePtr → List NodePtr)
    (hsort : StdSort sortFn) (g : Graph) (m orLimit notLimit : Int)
    (prio : NodePtr → Option Int) (hm : 1 ≤ m)
    (hand : ∀ x ∈ initialUnscheduled g, (g.deref x).type = "AND")
    (hindep : ∀ x ∈ initialUnscheduled g, ∀ p ∈ (g.deref x).inputs, p ∉ initialUnscheduled g)
    (k : Int) (st : LoopState)
    (hinv : LoopInv { Scheduler.new g m orLimit notLimit with nodePriority := prio } st)
    (hne : st.unscheduledNodes ≠ [])
    (h1 : (st.unscheduledNodes.length : Int) = max 0 (k - (st.schedule.length : Int) * m))
    (h2 : ∀ (i : Nat) (step : List NodePtr), st.schedule[i]? = some step →
      (i : Int) * m < k ∧ (step.length : Int) = min m (k - (i : Int) * m)) :
    (((whileBody sortFn { Scheduler.new g m orLimit notLimit with nodePriority := prio }
        st).unscheduledNodes.length : Nat) : Int) =
      max 0 (k - ((whileBody sortFn
        { Scheduler.new g m orLimit notLimit with nodePriority := prio }
        st).schedule.length : Int) * m) ∧
    (∀ (i : Nat) (step : List NodePtr),
      (whileBody sortFn { Scheduler.new g m orLimit notLimit with nodePriority := prio }
        st).schedule[i]? = some step →
      (i : Int) * m < k ∧ (step.length : Int) = min m (k - (i : Int) * m)) ∧
    (whileBody sortFn { Scheduler.new g m orLimit notLimit with nodePriority := prio }
      st).unscheduledNodes.length < st.unscheduledNodes.length := by
  obtain ⟨s1, s2⟩ := step_length_of_independent_ands sortFn hsort g m orLimit notLimit prio
    (by omega) hand hindep st hinv
  have hpos : 0 < (st.unscheduledNodes.length : Int) := by
    have := List.length_pos.2 hne
    omega
  rw [whileBody_eq]
  dsimp only
  simp only [List.length_append, List.length_singleton, Nat.cast_add, Nat.cast_one]
  have hmul : ((st.schedule.length : Int) + 1) * m = (st.schedule.length : Int) * m + m := by
    ring
  refine ⟨?_, ?_, ?_⟩
  · rw [s2, hmul]
    omega
  · intro i step hi
    rcases getElem?_append_singleton _ _ i step hi with ⟨_, h3⟩ | ⟨h3, h4⟩
    · exact h2 i step h3
    · rw [h4, s1, h3]
      constructor
      · omega
      · omega
  · have h3 : (((st.unscheduledNodes.diff
        (stepChosen sortFn { Scheduler.new g m orLimit notLimit with nodePriority := prio }
          st.unscheduledNodes)).length : Nat) : Int) < (st.unscheduledNodes.length : Int) := by
      rw [s2]
      omega
    exact_mod_cast h3

theorem heuristicLoop_independent_ands
    (sortFn : (NodePtr → NodePtr → Bool) → List NodePtr → List NodePtr)
    (hsort : StdSort sortFn) (g : Graph) (m orLimit notLimit : Int)
    (prio : NodePtr → Option Int) (hm : 1 ≤ m)
    (hand : ∀ x ∈ initialUnscheduled g, (g.deref x).type = "AND")
    (hindep : ∀ x ∈ initialUnscheduled g, ∀ p ∈ (g.deref x).inputs, p ∉ initialUnscheduled g)
    (k : Int) (fuel : Nat) :
    ∀ st : LoopState,
      LoopInv { Scheduler.new g m orLimit notLimit with nodePriority := prio } st →
      st.unscheduledNodes.length ≤ fuel →
      (st.unscheduledNodes.length : Int) = max 0 (k - (st.schedule.length : Int) * m) →
      (∀ (i : Nat) (step : List NodePtr), st.schedule[i]? = some step →
        (i : Int) * m < k ∧ (step.length : Int) = min m (k - (i : Int) * m)) →
      ∃ st1, heuristicLoop sortFn
          { Scheduler.new g m orLimit notLimit with nodePriority := prio } fuel st = some st1 ∧
        LoopInv { Scheduler.new g m orLimit notLimit with nodePriority := prio } st1 ∧
        st1.unscheduledNodes = [] ∧
        (0 : Int) = max 0 (k - (st1.schedule.length : Int) * m) ∧
        (∀ (i : Nat) (step : List NodePtr), st1.schedule[i]? = some step →
          (i : Int) * m < k ∧ (step.length : Int) = min m (k - (i : Int) * m)) := by
  induction fuel with
  | zero =>
    intro st hinv hlen h1 h2
    have hnil : st.unscheduledNodes = [] := List.length_eq_zero.1 (Nat.le_zero.1 hlen)
    refine ⟨st, by simp [heuristicLoop, hnil], hinv, hnil, ?_, h2⟩
    rw [← h1, hnil]
    rfl
  | succ fuel ih =>
    intro st hinv hlen h1 h2
    by_cases hnil : st.unscheduledNodes = []
    · refine ⟨st, by simp [heuristicLoop, hnil], hinv, hnil, ?_, h2⟩
      rw [← h1, hnil]
      rfl
    · obtain ⟨a1, a2, a3⟩ := whileBody_independent_ands sortFn hsort g m orLimit notLimit prio
        hm hand hindep k st hinv hnil h1 h2
      obtain ⟨st1, b1, b2⟩ := ih _ (loopInv_whileBody sortFn hsort _ st hinv) (by omega) a1 a2
      refine ⟨st1, ?_, b2⟩
      have he : st.unscheduledNodes.isEmpty = false := by
        cases hU : st.unscheduledNodes with
        | nil => exact absurd hU hnil
        | cons _ _ => rfl
      rw [heuristicLoop, he]
      exact b1

/-- C14. On a graph whose operation nodes are `k ≥ 1` AND gates, each with inputs of type INPUT
only, and with an AND limit `m ≥ 1`, `heuristicSchedule` returns (any fuel above the number of
nodes suffices) with latency `⌈k / m⌉`, written `(k + m - 1) / m`; step `i` (counted from 0)
is made while `k - i * m > 0` nodes remain and holds `min m (k - i * m)` of them. -/
theorem heuristicSchedule_independent_ands
    (sortFn : (NodePtr → NodePtr → Bool) → List NodePtr → List NodePtr)
    (hsort : StdSort sortFn) (g : Graph) (m orLimit notLimit : Int)
    (hclosed : g.SuccessorsClosed) (hm : 1 ≤ m)
    (hand : ∀ pair ∈ g.nodes, getOperationType (g.deref pair.2) ≠ -1 →
      (g.deref pair.2).type = "AND")
    (hindep : ∀ pair ∈ g.nodes, (g.deref pair.2).type = "AND" →
      ∀ p ∈ (g.deref pair.2).inputs, (g.deref p).type = "INPUT")
    (hk : 1 ≤ (initialUnscheduled g).length)
    (fuel : Nat) (hfuel : g.nodes.length < fuel) :
    ∃ s, (Scheduler.new g m orLimit notLimit).heuristicSchedule sortFn fuel = some s ∧
      s.latency = (((initialUnscheduled g).length : Int) + m - 1) / m ∧
      ∀ (i : Nat) (step : List NodePtr), s.schedule[i]? = some step →
        (i : Int) * m < ((initialUnscheduled g).length : Int) ∧
        (step.length : Int) = min m (((initialUnscheduled g).length : Int) - (i : Int) * m) := by
  obtain ⟨prio, hprio⟩ := computeNodePriorities_terminates
    (Scheduler.new g m orLimit notLimit) hclosed fuel hfuel
  have hand1 : ∀ x ∈ initialUnscheduled g, (g.deref x).type = "AND" := by
    intro x hx
    obtain ⟨h1, h2⟩ := (mem_initialUnscheduled g x).1 hx
    obtain ⟨pair, hp, e⟩ := List.mem_map.1 h1
    rw [← e]
    rw [← e] at h2
    exact hand pair hp h2
  have hindep1 : ∀ x ∈ initialUnscheduled g, ∀ p ∈ (g.deref x).inputs,
      p ∉ initialUnscheduled g := by
    intro x hx p hp hpin
    obtain ⟨h1, _⟩ := (mem_initialUnscheduled g x).1 hx
    obtain ⟨pair, hpr, e⟩ := List.mem_map.1 h1
    have ht := hindep pair hpr (by rw [e]; exact hand1 x hx) p (by rw [e]; exact hp)
    have h3 := hand1 p hpin
    rw [ht] at h3
    exact absurd h3 (by decide)
  have hU0 := length_initialUnscheduled_le g
  have hfilter : (g.nodes.filter
      (fun pair => decide (getOperationType (g.deref pair.2) ≠ -1))).length ≤ g.nodes.length :=
    List.length_filter_le _ _
  obtain ⟨st1, hloop, hinv, _, b3, b4⟩ := heuristicLoop_independent_ands sortFn hsort g m
    orLimit notLimit prio hm hand1 hindep1 ((initialUnscheduled g).length : Int) fuel
    ({ Scheduler.new g m orLimit notLimit with nodePriority := prio } : Scheduler).loopStart
    (loopInv_start g m orLimit notLimit prio)
    (by
      show (initialUnscheduled g).length ≤ fuel
      omega)
    (by
      show ((initialUnscheduled g).length : Int) =
        max 0 (((initialUnscheduled g).length : Int) - ((([] : List (List NodePtr)).length : Nat) : Int) * m)
      simp)
    (by
      intro i step hi
      have : ([] : List (List NodePtr))[i]? = some step := hi
      simp at this)
  have hs : (Scheduler.new g m orLimit notLimit).heuristicSchedule sortFn fuel =
      some { ({ Scheduler.new g m orLimit notLimit with nodePriority := prio } :
          Scheduler) with
        latency := st1.currentTime - 1, nodeTime := st1.nodeTime, schedule := st1.schedule } := by
    simp only [Scheduler.heuristicSchedule, hprio, hloop]
  refine ⟨_, hs, ?_, b4⟩
  show st1.currentTime - 1 = _
  rw [hinv.time]
  have hmpos : (0 : Int) < m := by omega
  cases hL : st1.schedule.length with
  | zero =>
    rw [hL] at b3
    simp only [Nat.cast_zero, zero_mul, sub_zero] at b3
    omega
  | succ n =>
    have hlt : n < st1.schedule.length := by omega
    obtain ⟨c1, _⟩ := b4 n (st1.schedule.get ⟨n, hlt⟩) (List.getElem?_eq_getElem hlt)
    rw [hL] at b3
    have hmul : (((n + 1 : Nat) : Int)) * m = (n : Int) * m + m := by
      push_cast
      ring
    rw [hmul] at b3
    have h1 : (((n + 1 : Nat) : Int)) ≤ (((initialUnscheduled g).length : Int) + m - 1) / m := by
      apply Int.le_ediv_of_mul_le hmpos
      rw [hmul]
      omega
    have h2 : (((initialUnscheduled g).length : Int) + m - 1) / m < ((n + 1 : Nat) : Int) + 1 := by
      apply Int.ediv_lt_of_lt_mul hmpos
      have : ((((n + 1 : Nat) : Int)) + 1) * m = (n : Int) * m + m + m := by
        push_cast
        ring
      rw [this]
      omega
    omega

theorem twoAndGraph_successorsClosed : (twoAndGraph (fun p => p)).SuccessorsClosed := by
  unfold Graph.SuccessorsClosed
  decide

theorem heuristicSchedule_independent_ands_witness :
    StdSort insertionSortFn ∧ (twoAndGraph (fun p => p)).SuccessorsClosed ∧
    (∃ s, (Scheduler.new (twoAndGraph (fun p => p)) 1 1 1).heuristicSchedule insertionSortFn 5
        = some s ∧
      s.latency = (((initialUnscheduled (twoAndGraph (fun p => p))).length : Int) + 1 - 1) / 1 ∧
      ∀ (i : Nat) (step : List NodePtr), s.schedule[i]? = some step →
        (i : Int) * 1 < ((initialUnscheduled (twoAndGraph (fun p => p))).length : Int) ∧
        (step.length : Int) =
          min 1 (((initialUnscheduled (twoAndGraph (fun p => p))).length : Int) - (i : Int) * 1)) :=
  ⟨stdSort_insertionSortFn, twoAndGraph_successorsClosed,
    heuristicSchedule_independent_ands insertionSortFn stdSort_insertionSortFn
      (twoAndGraph (fun p => p)) 1 1 1 twoAndGraph_successorsClosed (by decide) (by decide)
      (by decide) (by decide) 5 (by decide)⟩

/-- The two scenarios of C14 on `twoAndGraph`: one AND unit gives the steps `{a}`, `{b}` and
latency 2, two AND units give the step `{a, b}` and latency 1. -/
theorem twoAndGraph_schedules :
    ((Scheduler.new (twoAndGraph (fun p => p)) 1 1 1).heuristicSchedule insertionSortFn 5).map
      (fun s => (s.schedule, s.latency)) = some ([[2], [3]], 2) ∧
    ((Scheduler.new (twoAndGraph (fun p => p)) 2 1 1).heuristicSchedule insertionSortFn 5).map
      (fun s => (s.schedule, s.latency)) = some ([[2, 3]], 1) :=
  ⟨rfl, rfl⟩

/-! ## A linear chain of operation nodes -/

theorem exists_pred_of_chain' {R : NodePtr → NodePtr → Prop} (rest : List NodePtr) :
    ∀ x, (x :: rest).Chain' R → ∀ y ∈ rest, ∃ b ∈ x :: rest, R b y := by
  induction rest with
  | nil =>
    intro x _ y hy
    exact absurd hy (List.not_mem_nil _)
  | cons y0 rest1 ih =>
    intro x hc y hy
    rw [List.chain'_cons] at hc
    rcases List.mem_cons.1 hy with e | e
    · rw [e]
      exact ⟨x, List.mem_cons_self _ _, hc.1⟩
    · obtain ⟨b, hb, hr⟩ := ih y0 hc.2 y e
      exact ⟨b, List.mem_cons_of_mem _ hb, hr⟩

theorem eq_singleton_of_forall_eq (l : List NodePtr) (x : NodePtr) (hn : l.Nodup)
    (h : ∀ y ∈ l, y = x) (hne : l ≠ []) : l = [x] := by
  cases l with
  | nil => exact absurd rfl hne
  | cons a rest =>
    cases rest with
    | nil => rw [h a (List.mem_cons_self _ _)]
    | cons b rest1 =>
      have h1 := h a (List.mem_cons_self _ _)
      have h2 := h b (List.mem_cons_of_mem _ (List.mem_cons_self _ _))
      have h3 := (List.nodup_cons.1 hn).1
      rw [h1, h2] at h3
      exact absurd (List.mem_cons_self _ _) h3

/-- On a chain the step made while the nodes `x :: rest` of the chain are unscheduled holds
`x` alone. -/
theorem stepChosen_chain
    (sortFn : (NodePtr → NodePtr → Bool) → List NodePtr → List NodePtr)
    (hsort : StdSort sortFn) (self : Scheduler) (chain pre rest : List NodePtr) (x : NodePtr)
    (hnodup : chain.Nodup)
    (hfirst : ∀ z, chain.head? = some z → ∀ p ∈ (self.graph.deref z).inputs, p ∉ chain)
    (hlink : chain.Chain' (fun a b => a ∈ (self.graph.deref b).inputs ∧
      ∀ p ∈ (self.graph.deref b).inputs, p ∈ chain → p = a))
    (hlim : 1 ≤ resourceLimit self (self.graph.deref x).type)
    (hsplit : chain = pre ++ x :: rest) (U : List NodePtr) (hU : U.Nodup)
    (hmem : ∀ y, y ∈ U ↔ y ∈ x :: rest) :
    stepChosen sortFn self U = [x] := by
  have hsub : ∀ y, y ∈ x :: rest → y ∈ chain := by
    intro y hy
    rw [hsplit]
    exact List.mem_append_right _ hy
  have hdisj : ∀ y, y ∈ pre → y ∉ x :: rest := by
    intro y h1 h2
    rw [hsplit] at hnodup
    exact (List.nodup_append.1 hnodup).2.2 h1 h2
  have hready : isReady self.graph U x = true := by
    unfold isReady
    rw [List.all_eq_true]
    intro p hp
    have hnot : p ∉ U := by
      intro hpU
      have hp1 := (hmem p).1 hpU
      cases pre using List.reverseRecOn with
      | nil =>
        exact hfirst x (by rw [hsplit]; rfl) p hp (hsub p hp1)
      | append_singleton pre1 a _ =>
        have hc : (pre1 ++ [a] ++ x :: rest).Chain' (fun a b => a ∈ (self.graph.deref b).inputs ∧
            ∀ p ∈ (self.graph.deref b).inputs, p ∈ chain → p = a) := by
          rw [← hsplit]
          exact hlink
        rw [List.append_assoc, List.singleton_append] at hc
        have hc2 := (List.chain'_cons.1 (List.Chain'.right_of_append hc)).1
        have e := hc2.2 p hp (hsub p hp1)
        rw [e] at hp1
        exact hdisj a (List.mem_append_right _ (List.mem_singleton_self _)) hp1
    simp [hnot]
  have hc : (x :: rest).Chain' (fun a b => a ∈ (self.graph.deref b).inputs ∧
      ∀ p ∈ (self.graph.deref b).inputs, p ∈ chain → p = a) := by
    have hc0 : (pre ++ x :: rest).Chain' (fun a b => a ∈ (self.graph.deref b).inputs ∧
        ∀ p ∈ (self.graph.deref b).inputs, p ∈ chain → p = a) := by
      rw [← hsplit]
      exact hlink
    exact List.Chain'.right_of_append hc0
  apply eq_singleton_of_forall_eq _ x (nodup_stepChosen sortFn hsort self U hU)
  · intro y hy
    obtain ⟨h1, h2, _⟩ := mem_stepChosen sortFn hsort self U y hy
    rcases List.mem_cons.1 ((hmem y).1 h1) with e | e
    · exact e
    · exfalso
      obtain ⟨b, hb, hr, _⟩ := exists_pred_of_chain' rest x hc y e
      unfold isReady at h2
      rw [List.all_eq_true] at h2
      have := h2 b hr
      simp [(hmem b).2 hb] at this
  · exact stepChosen_ne_nil sortFn hsort self U x ((hmem x).2 (List.mem_cons_self _ _)) hready hlim

theorem heuristicLoop_chain
    (sortFn : (NodePtr → NodePtr → Bool) → List NodePtr → List NodePtr)
    (hsort : StdSort sortFn) (self : Scheduler) (chain : List NodePtr)
    (hnodup : chain.Nodup)
    (hfirst : ∀ z, chain.head? = some z → ∀ p ∈ (self.graph.deref z).inputs, p ∉ chain)
    (hlink : chain.Chain' (fun a b => a ∈ (self.graph.deref b).inputs ∧
      ∀ p ∈ (self.graph.deref b).inputs, p ∈ chain → p = a))
    (hlim : ∀ x ∈ chain, 1 ≤ resourceLimit self (self.graph.deref x).type)
    (post : List NodePtr) :
    ∀ (pre : List NodePtr) (st : LoopState) (fuel : Nat), chain = pre ++ post →
      LoopInv self st → st.schedule = pre.map (fun x => [x]) →
      (∀ y, y ∈ st.unscheduledNodes ↔ y ∈ post) → post.length ≤ fuel →
      ∃ st1, heuristicLoop sortFn self fuel st = some st1 ∧ LoopInv self st1 ∧
        st1.schedule = chain.map (fun x => [x]) := by
  induction post with
  | nil =>
    intro pre st fuel hsplit hinv hsched hmem _
    have hnil : st.unscheduledNodes = [] :=
      List.eq_nil_iff_forall_not_mem.2 (fun y hy => List.not_mem_nil y ((hmem y).1 hy))
    refine ⟨st, ?_, hinv, ?_⟩
    · cases fuel <;> simp [heuristicLoop, hnil]
    · rw [hsched, hsplit, List.append_nil]
  | cons x rest ih =>
    intro pre st fuel hsplit hinv hsched hmem hfuel
    cases fuel with
    | zero => simp at hfuel
    | succ fuel =>
      have hx : x ∈ chain := by
        rw [hsplit]
        exact List.mem_append_right _ (List.mem_cons_self _ _)
      have hstep := stepChosen_chain sortFn hsort self chain pre rest x hnodup hfirst hlink
        (hlim x hx) hsplit st.unscheduledNodes hinv.nodupU hmem
      have hxrest : x ∉ rest := by
        rw [hsplit] at hnodup
        exact (List.nodup_cons.1 (List.nodup_append.1 hnodup).2.1).1
      have hne : st.unscheduledNodes.isEmpty = false := by
        cases hU : st.unscheduledNodes with
        | nil =>
          have := (hmem x).2 (List.mem_cons_self _ _)
          rw [hU] at this
          exact absurd this (List.not_mem_nil _)
        | cons _ _ => rfl
      have hbody := whileBody_eq sortFn self st
      rw [hstep] at hbody
      obtain ⟨st1, a1, a2, a3⟩ := ih (pre ++ [x]) (whileBody sortFn self st) fuel
        (by rw [hsplit, List.append_assoc, List.singleton_append])
        (loopInv_whileBody sortFn hsort self st hinv)
        (by rw [hbody, List.map_append, hsched, List.map_singleton])
        (by
          intro y
          rw [hbody]
          show y ∈ st.unscheduledNodes.diff [x] ↔ y ∈ rest
          rw [hinv.nodupU.mem_diff_iff, hmem y]
          constructor
          · rintro ⟨h1, h2⟩
            rcases List.mem_cons.1 h1 with e | e
            · exact absurd (by rw [e]; exact List.mem_singleton_self _) h2
            · exact e
          · intro h1
            refine ⟨List.mem_cons_of_mem _ h1, fun h2 => ?_⟩
            rw [List.mem_singleton.1 h2] at h1
            exact hxrest h1)
        (by simp only [List.length_cons] at hfuel; omega)
      refine ⟨st1, ?_, a2, a3⟩
      rw [heuristicLoop, hne]
      exact a1

/-- C13. On a graph whose operation nodes form a linear chain `o1 -> ... -> on` with `n ≥ 1`
(`o1` has no operation node among its predecessors, every other node of the chain has the node
before it as its only operation predecessor), with all three limits at least 1,
`heuristicSchedule` returns (any fuel above the number of nodes suffices), places `oi` alone
in step `i` and reports latency `n`. -/
theorem heuristicSchedule_linear_chain
    (sortFn : (NodePtr → NodePtr → Bool) → List NodePtr → List NodePtr)
    (hsort : StdSort sortFn) (g : Graph) (andLimit orLimit notLimit : Int)
    (hclosed : g.SuccessorsClosed)
    (hand : 1 ≤ andLimit) (hor : 1 ≤ orLimit) (hnot : 1 ≤ notLimit)
    (chain : List NodePtr) (hne : chain ≠ []) (hnodup : chain.Nodup)
    (hops : ∀ x, x ∈ initialUnscheduled g ↔ x ∈ chain)
    (hfirst : ∀ z, chain.head? = some z → ∀ p ∈ (g.deref z).inputs, p ∉ chain)
    (hlink : chain.Chain' (fun a b => a ∈ (g.deref b).inputs ∧
      ∀ p ∈ (g.deref b).inputs, p ∈ chain → p = a))
    (fuel : Nat) (hfuel : g.nodes.length < fuel) :
    ∃ s, (Scheduler.new g andLimit orLimit notLimit).heuristicSchedule sortFn fuel = some s ∧
      s.schedule = chain.map (fun x => [x]) ∧
      s.latency = (chain.length : Int) ∧ 1 ≤ s.latency ∧
      ∀ (i : Nat) (x : NodePtr), chain[i]? = some x → s.getNodeTime x = (i : Int) + 1 := by
  obtain ⟨prio, hprio⟩ := computeNodePriorities_terminates
    (Scheduler.new g andLimit orLimit notLimit) hclosed fuel hfuel
  have hU0 := length_initialUnscheduled_le g
  have hfilter : (g.nodes.filter
      (fun pair => decide (getOperationType (g.deref pair.2) ≠ -1))).length ≤ g.nodes.length :=
    List.length_filter_le _ _
  have hlen : chain.length ≤ fuel := by
    have h1 : chain.Subperm (initialUnscheduled g) :=
      List.subperm_of_subset hnodup (fun x hx => (hops x).2 hx)
    have h2 := h1.length_le
    omega
  obtain ⟨st1, hloop, hinv, hsched⟩ := heuristicLoop_chain sortFn hsort
    { Scheduler.new g andLimit orLimit notLimit with nodePriority := prio } chain hnodup
    hfirst hlink
    (fun x hx => limit_pos_of_mem g andLimit orLimit notLimit prio (fun _ => hand)
      (fun _ => hor) (fun _ => hnot) x ((hops x).2 hx))
    chain [] _ fuel rfl (loopInv_start g andLimit orLimit notLimit prio) rfl hops hlen
  have hs : (Scheduler.new g andLimit orLimit notLimit).heuristicSchedule sortFn fuel =
      some { ({ Scheduler.new g andLimit orLimit notLimit with nodePriority := prio } :
          Scheduler) with
        latency := st1.currentTime - 1, nodeTime := st1.nodeTime, schedule := st1.schedule } := by
    simp only [Scheduler.heuristicSchedule, hprio, hloop]
  have hlat : st1.currentTime - 1 = (chain.length : Int) := by
    rw [hinv.time, hsched, List.length_map]
    ring
  refine ⟨_, hs, hsched, hlat, ?_, ?_⟩
  · show 1 ≤ st1.currentTime - 1
    rw [hlat]
    have := List.length_pos.2 hne
    omega
  · intro i x hi
    apply getNodeTime_eq
    show st1.nodeTime x = some ((i : Int) + 1)
    apply hinv.nodeTime i [x]
    · rw [hsched, List.getElem?_map, hi]
      rfl
    · exact List.mem_singleton_self _

theorem heuristicSchedule_linear_chain_witness :
    StdSort insertionSortFn ∧ chainGraph.SuccessorsClosed ∧
    ∃ s, (Scheduler.new chainGraph 1 1 1).heuristicSchedule insertionSortFn 6 = some s ∧
      s.schedule = [1, 2, 3].map (fun x => [x]) ∧
      s.latency = (([1, 2, 3] : List NodePtr).length : Int) ∧ 1 ≤ s.latency ∧
      ∀ (i : Nat) (x : NodePtr), ([1, 2, 3] : List NodePtr)[i]? = some x →
        s.getNodeTime x = (i : Int) + 1 :=
  ⟨stdSort_insertionSortFn, chainGraph_successorsClosed,
    heuristicSchedule_linear_chain insertionSortFn stdSort_insertionSortFn chainGraph 1 1 1
      chainGraph_successorsClosed (by decide) (by decide) (by decide) [1, 2, 3] (by decide)
      (by decide)
      (fun x => by rw [show initialUnscheduled chainGraph = [1, 2, 3] from by decide])
      (fun z hz => by
        have e : z = 1 := (Option.some.inj hz).symm
        subst e
        decide)
      (List.chain'_cons.2 ⟨by decide, List.chain'_cons.2 ⟨by decide, List.chain'_singleton _⟩⟩)
      6 (by decide)⟩

/-- The scenario of C13: input -> AND `a` -> OR `b` -> NOT `c` -> output with one unit of each
type gives step 1 = `{a}`, step 2 = `{b}`, step 3 = `{c}` and latency 3. -/
theorem chainGraph_schedule :
    ((Scheduler.new chainGraph 1 1 1).heuristicSchedule insertionSortFn 6).map
      (fun s => (s.schedule, s.latency, s.getNodeTime 1, s.getNodeTime 2, s.getNodeTime 3)) =
      some ([[1], [2], [3]], 3, 1, 2, 3) :=
  rfl

/-- The graph `aliasGraph` is what `parseBLIF` makes of a file in which the output is the
input itself. -/
theorem aliasGraph_parse :
    (Graph.parseBLIF [".model alias", ".inputs a", ".outputs a", ".end"] (fun p => p)).map
      (fun G => (G.nodes, G.inputs, G.outputs, (G.deref 0).name, (G.deref 0).type,
        (G.deref 0).inputs, (G.deref 0).outputs)) =
    some (aliasGraph.nodes, aliasGraph.inputs, aliasGraph.outputs, (aliasGraph.deref 0).name,
      (aliasGraph.deref 0).type, (aliasGraph.deref 0).inputs, (aliasGraph.deref 0).outputs) :=
  rfl

end RCS
